import Mathlib

/-!
# Pachyderm client configuration codec and argument parsers

A shallow embedding of the generated protobuf codec in
`src/client/pkg/config/config.pb.go` (messages `Config` and `ConfigV1`):
`Marshal`, `MarshalTo`, `Size`, `encodeVarintConfig`, `sovConfig`,
`Unmarshal` and `skipConfig` (namespace `config`), and of the argument parsers
`ParseCommit`, `ParseBranch`, `ParseFile` and their plural forms in
`src/server/pkg/cmdutil/cobra.go` (namespace `cmdutil`).

Conventions of the embedding.

* A Go `byte` is a `Byte = Fin 256`; a Go `string` and a Go `[]byte` are
  `List Byte` (a string is its sequence of bytes).  A `[]byte` that may be
  `nil` is an `Option (List Byte)`, a `*ConfigV1` is an `Option ConfigV1`.
* A Go `int` is a 64-bit signed integer: it is an `Int`, and every addition
  of the source goes through `addInt`, which wraps modulo `2^64`.
  A `uint64` is a `Nat` below `2^64`, an `int32` goes through `int32`.
* A function that can fail returns `Except Err _`.  A run-time panic of Go
  (index or slice out of range, `panic("unreachable")`) is the error
  `Err.panic`.
* Writing into a caller-supplied buffer is explicit state passing: the
  function takes the buffer and returns the updated buffer.
* The loops of the source are recursive functions on a fuel argument; the
  functions named as in the source supply a fuel that bounds the number of
  iterations the loop can make on their input.
-/

namespace config

deriving instance DecidableEq for Except

/-- A Go `byte`. -/
abbrev Byte := Fin 256

/-- The names of the two messages, as they appear in error texts. -/
inductive MsgName
  | Config
  | ConfigV1
  deriving DecidableEq, Repr

/-- The names of the fields, as they appear in error texts. -/
inductive FieldName
  | UserID
  | V1
  | SessionToken
  | PachdAddress
  | ServerCAs
  deriving DecidableEq, Repr

/-- The errors of the codec, and the run-time failures of Go. -/
inductive Err
  /-- The error `io.ErrUnexpectedEOF`. -/
  | ErrUnexpectedEOF
  /-- The error "proto: integer overflow". -/
  | ErrIntOverflowConfig
  /-- The error "proto: negative length found during unmarshaling". -/
  | ErrInvalidLengthConfig
  /-- The error "proto: M: wiretype end group for non-group". -/
  | endGroupForNonGroup (msg : MsgName)
  /-- The error "proto: M: illegal tag %d (wire type %d)" with its two arguments. -/
  | illegalTag (msg : MsgName) (fieldNum : Int) (wire : Nat)
  /-- The error "proto: wrong wireType = %d for field F". -/
  | wrongWireType (wireType : Int) (field : FieldName)
  /-- The error "proto: illegal wireType %d". -/
  | illegalWireType (wireType : Int)
  /-- A run-time panic of Go. -/
  | panic
  /-- The fuel of a loop of the embedding ran out. -/
  | outOfFuel
  deriving DecidableEq, Repr

/-- The message `ConfigV1`. -/
structure ConfigV1 where
  SessionToken : List Byte
  PachdAddress : List Byte
  ServerCAs : List Byte
  XXX_unrecognized : Option (List Byte)
  deriving DecidableEq, Repr

/-- The message `Config`. -/
structure Config where
  UserID : List Byte
  V1 : Option ConfigV1
  XXX_unrecognized : Option (List Byte)
  deriving DecidableEq, Repr

/-- The value `ConfigV1{}`. -/
def ConfigV1.empty : ConfigV1 := ⟨[], [], [], none⟩

/-- The value `Config{}`. -/
def Config.empty : Config := ⟨[], none, none⟩

/-! ## Machine integers -/

/-- The value of a 64-bit two's complement pattern: conversion to `int`. -/
def int64 (x : Int) : Int := (x + 2 ^ 63) % 2 ^ 64 - 2 ^ 63

/-- Addition of two `int`s. -/
def addInt (a b : Int) : Int := int64 (a + b)

/-- Conversion to `uint64`. -/
def uint64 (x : Int) : Nat := (x % 2 ^ 64).toNat

/-- Conversion of a `uint64` to `int32`. -/
def int32 (x : Nat) : Int := ((x : Int) + 2 ^ 31) % 2 ^ 32 - 2 ^ 31

/-- Conversion of a `uint64` to `uint8`. -/
def uint8 (x : Nat) : Byte := ⟨x % 256, Nat.mod_lt _ (by decide)⟩

/-- The built-in `len`. -/
def len (s : List Byte) : Int := (s.length : Int)

/-! ## Slices -/

/-- The read `dAtA[i]`. -/
def index (dAtA : List Byte) (i : Int) : Except Err Byte :=
  if 0 ≤ i then
    match dAtA[i.toNat]? with
    | some b => .ok b
    | none => .error .panic
  else .error .panic

/-- The write `dAtA[i] = b`. -/
def setIndex (dAtA : List Byte) (i : Int) (b : Byte) : Except Err (List Byte) :=
  if 0 ≤ i ∧ i < len dAtA then .ok (dAtA.set i.toNat b) else .error .panic

/-- The slice expression `dAtA[lo:hi]`. -/
def slice (dAtA : List Byte) (lo hi : Int) : Except Err (List Byte) :=
  if 0 ≤ lo ∧ lo ≤ hi ∧ hi ≤ len dAtA then .ok ((dAtA.take hi.toNat).drop lo.toNat)
  else .error .panic

/-- The slice expression `dAtA[lo:]`. -/
def sliceFrom (dAtA : List Byte) (lo : Int) : Except Err (List Byte) :=
  slice dAtA lo (len dAtA)

/-- The statement `n := copy(dAtA[i:], src)`: the updated buffer and `n`. -/
def copyAt (dAtA : List Byte) (i : Int) (src : List Byte) : Except Err (List Byte × Int) :=
  if 0 ≤ i ∧ i ≤ len dAtA then
    let n := min (dAtA.length - i.toNat) src.length
    .ok (dAtA.take i.toNat ++ src.take n ++ dAtA.drop (i.toNat + n), (n : Int))
  else .error .panic

/-- The expression `append(x, s...)`. -/
def appendBytes (x : Option (List Byte)) (s : List Byte) : Option (List Byte) :=
  match s with
  | [] => x
  | _ :: _ => some (x.getD [] ++ s)

/-! ## Varints: `sovConfig`, `encodeVarintConfig` -/

/-- The loop of `sovConfig`. -/
def sovConfigLoop : Nat → Nat → Int → Int
  | 0, _, n => n
  | fuel + 1, x, n =>
    let n := addInt n 1
    let x := x >>> 7
    if x = 0 then n else sovConfigLoop fuel x n

/-- The function `sovConfig(x uint64) int`; ten iterations exhaust 64 bits. -/
def sovConfig (x : Nat) : Int := sovConfigLoop 10 (x % 2 ^ 64) 0

/-- The loop of `encodeVarintConfig`, and the final write. -/
def encodeVarintConfigLoop : Nat → List Byte → Int → Nat → Except Err (List Byte × Int)
  | 0, _, _, _ => .error .outOfFuel
  | fuel + 1, dAtA, offset, v =>
    if v ≥ 1 <<< 7 then do
      let dAtA ← setIndex dAtA offset (uint8 (v &&& 0x7f ||| 0x80))
      encodeVarintConfigLoop fuel dAtA (addInt offset 1) (v >>> 7)
    else do
      let dAtA ← setIndex dAtA offset (uint8 v)
      .ok (dAtA, addInt offset 1)

/-- The function `encodeVarintConfig(dAtA, offset, v)`: the updated buffer and the
new offset. -/
def encodeVarintConfig (dAtA : List Byte) (offset : Int) (v : Nat) :
    Except Err (List Byte × Int) :=
  encodeVarintConfigLoop 10 dAtA offset (v % 2 ^ 64)

/-! ## `Size` -/

/-- The method `(*ConfigV1).Size`. -/
def ConfigV1.Size (m : ConfigV1) : Int :=
  let n : Int := 0
  let l := len m.SessionToken
  let n := if l > 0 then addInt n (addInt (addInt 1 l) (sovConfig (uint64 l))) else n
  let l := len m.PachdAddress
  let n := if l > 0 then addInt n (addInt (addInt 1 l) (sovConfig (uint64 l))) else n
  let l := len m.ServerCAs
  let n := if l > 0 then addInt n (addInt (addInt 1 l) (sovConfig (uint64 l))) else n
  match m.XXX_unrecognized with
  | some u => addInt n (len u)
  | none => n

/-- The method `(*Config).Size`. -/
def Config.Size (m : Config) : Int :=
  let n : Int := 0
  let l := len m.UserID
  let n := if l > 0 then addInt n (addInt (addInt 1 l) (sovConfig (uint64 l))) else n
  let n :=
    match m.V1 with
    | some v1 =>
      let l := v1.Size
      addInt n (addInt (addInt 1 l) (sovConfig (uint64 l)))
    | none => n
  match m.XXX_unrecognized with
  | some u => addInt n (len u)
  | none => n

/-! ## `MarshalTo` and `Marshal` -/

/-- One length-delimited string field of `MarshalTo`: the tag byte, the length
varint and the bytes, written at `i` when the string is not empty. -/
def putString (dAtA : List Byte) (i : Int) (tag : Byte) (s : List Byte) :
    Except Err (List Byte × Int) :=
  if len s > 0 then do
    let dAtA ← setIndex dAtA i tag
    let i := addInt i 1
    let (dAtA, i) ← encodeVarintConfig dAtA i (uint64 (len s))
    let (dAtA, n) ← copyAt dAtA i s
    .ok (dAtA, addInt i n)
  else .ok (dAtA, i)

/-- The final block of `MarshalTo`: the copy of `XXX_unrecognized`. -/
def putUnrecognized (dAtA : List Byte) (i : Int) (u : Option (List Byte)) :
    Except Err (List Byte × Int) :=
  match u with
  | some u => do
    let (dAtA, n) ← copyAt dAtA i u
    .ok (dAtA, addInt i n)
  | none => .ok (dAtA, i)

/-- The method `(*ConfigV1).MarshalTo`: the updated buffer and the count. -/
def ConfigV1.MarshalTo (m : ConfigV1) (dAtA : List Byte) : Except Err (List Byte × Int) := do
  let i : Int := 0
  let (dAtA, i) ← putString dAtA i 0xa m.SessionToken
  let (dAtA, i) ← putString dAtA i 0x12 m.PachdAddress
  let (dAtA, i) ← putString dAtA i 0x1a m.ServerCAs
  putUnrecognized dAtA i m.XXX_unrecognized

/-- The method `(*Config).MarshalTo`: the updated buffer and the count. -/
def Config.MarshalTo (m : Config) (dAtA : List Byte) : Except Err (List Byte × Int) := do
  let i : Int := 0
  let (dAtA, i) ← putString dAtA i 0xa m.UserID
  let (dAtA, i) ←
    match m.V1 with
    | some v1 => do
      let dAtA ← setIndex dAtA i 0x12
      let i := addInt i 1
      let (dAtA, i) ← encodeVarintConfig dAtA i (uint64 v1.Size)
      let sub ← sliceFrom dAtA i
      let (sub, n1) ← v1.MarshalTo sub
      pure (dAtA.take i.toNat ++ sub, addInt i n1)
    | none => pure (dAtA, i)
  putUnrecognized dAtA i m.XXX_unrecognized

/-- The expression `make([]byte, size)`; a negative size panics. -/
def make (size : Int) : Except Err (List Byte) :=
  if 0 ≤ size then .ok (List.replicate size.toNat 0) else .error .panic

/-- The method `(*ConfigV1).Marshal`. -/
def ConfigV1.Marshal (m : ConfigV1) : Except Err (List Byte) := do
  let size := m.Size
  let dAtA ← make size
  let (dAtA, n) ← m.MarshalTo dAtA
  slice dAtA 0 n

/-- The method `(*Config).Marshal`. -/
def Config.Marshal (m : Config) : Except Err (List Byte) := do
  let size := m.Size
  let dAtA ← make size
  let (dAtA, n) ← m.MarshalTo dAtA
  slice dAtA 0 n

/-! ## The varint read loop of `Unmarshal` and `skipConfig` -/

/-- The loop `for shift := uint(0); ; shift += 7 { ... }` that `Unmarshal` and
`skipConfig` inline wherever they read a varint: the value accumulated in a
`uint64` and the index after the varint. -/
def decodeVarintLoop : Nat → List Byte → Int → Nat → Nat → Except Err (Nat × Int)
  | 0, _, _, _, _ => .error .outOfFuel
  | fuel + 1, dAtA, iNdEx, shift, acc =>
    if shift ≥ 64 then .error .ErrIntOverflowConfig
    else if iNdEx ≥ len dAtA then .error .ErrUnexpectedEOF
    else do
      let b ← index dAtA iNdEx
      let iNdEx := addInt iNdEx 1
      let acc := acc ||| ((b.val &&& 0x7F) <<< shift) % 2 ^ 64
      if b.val < 0x80 then .ok (acc, iNdEx)
      else decodeVarintLoop fuel dAtA iNdEx (shift + 7) acc

/-- The varint read loop started at `iNdEx` with `shift = 0` and a zero
accumulator; the shift reaches 64 at the eleventh iteration. -/
def decodeVarint (dAtA : List Byte) (iNdEx : Int) : Except Err (Nat × Int) :=
  decodeVarintLoop 11 dAtA iNdEx 0 0

/-- The length prefix of a recognised field: the varint, its conversion to
`int` (for `msglen` the accumulation is in an `int`, which has the same bits),
and the three checks on `postIndex`.  The result is the index after the
varint and `postIndex`. -/
def decodeLength (dAtA : List Byte) (iNdEx : Int) : Except Err (Int × Int) := do
  let (stringLen, iNdEx) ← decodeVarint dAtA iNdEx
  let intStringLen := int64 stringLen
  if intStringLen < 0 then .error .ErrInvalidLengthConfig
  else
    let postIndex := addInt iNdEx intStringLen
    if postIndex < 0 then .error .ErrInvalidLengthConfig
    else if postIndex > len dAtA then .error .ErrUnexpectedEOF
    else .ok (iNdEx, postIndex)

/-! ## `skipConfig` -/

mutual

/-- The function `skipConfig` on a fuel. -/
def skipConfigFuel : Nat → List Byte → Except Err Int
  | 0, _ => .error .outOfFuel
  | fuel + 1, dAtA =>
    let l := len dAtA
    let iNdEx : Int := 0
    if iNdEx < l then do
      let (wire, iNdEx) ← decodeVarint dAtA iNdEx
      let wireType : Int := ((wire &&& 0x7 : Nat) : Int)
      if wireType = 0 then do
        let (_, iNdEx) ← decodeVarint dAtA iNdEx
        .ok iNdEx
      else if wireType = 1 then .ok (addInt iNdEx 8)
      else if wireType = 2 then do
        let (length, iNdEx) ← decodeVarint dAtA iNdEx
        let length := int64 length
        if length < 0 then .error .ErrInvalidLengthConfig
        else
          let iNdEx := addInt iNdEx length
          if iNdEx < 0 then .error .ErrInvalidLengthConfig
          else .ok iNdEx
      else if wireType = 3 then skipGroupFuel fuel dAtA iNdEx
      else if wireType = 4 then .ok iNdEx
      else if wireType = 5 then .ok (addInt iNdEx 4)
      else .error (.illegalWireType wireType)
    else .error .panic

/-- The loop of `case 3` of `skipConfig`, from the index `iNdEx`. -/
def skipGroupFuel : Nat → List Byte → Int → Except Err Int
  | 0, _, _ => .error .outOfFuel
  | fuel + 1, dAtA, iNdEx => do
    let start := iNdEx
    let (innerWire, iNdEx) ← decodeVarint dAtA iNdEx
    let innerWireType : Int := ((innerWire &&& 0x7 : Nat) : Int)
    if innerWireType = 4 then .ok iNdEx
    else do
      let sub ← sliceFrom dAtA start
      let next ← skipConfigFuel fuel sub
      let iNdEx := addInt start next
      if iNdEx < 0 then .error .ErrInvalidLengthConfig
      else skipGroupFuel fuel dAtA iNdEx

end

/-- The function `skipConfig(dAtA)`.  A call on a slice of length `n` nests
calls on strictly shorter slices and its group loop advances by at least one
byte per iteration, so `2 * n + 1` bounds the calls and iterations. -/
def skipConfig (dAtA : List Byte) : Except Err Int :=
  skipConfigFuel (2 * dAtA.length + 1) dAtA

/-! ## `Unmarshal` -/

/-- The `default:` case of the field switch of both `Unmarshal` methods: the
index after the skipped field and the skipped bytes `dAtA[iNdEx:iNdEx+skippy]`. -/
def skipField (dAtA : List Byte) (preIndex : Int) : Except Err (Int × List Byte) := do
  let iNdEx := preIndex
  let sub ← sliceFrom dAtA iNdEx
  let skippy ← skipConfig sub
  if skippy < 0 then .error .ErrInvalidLengthConfig
  else if addInt iNdEx skippy < 0 then .error .ErrInvalidLengthConfig
  else if addInt iNdEx skippy > len dAtA then .error .ErrUnexpectedEOF
  else do
    let span ← slice dAtA iNdEx (addInt iNdEx skippy)
    .ok (addInt iNdEx skippy, span)

/-- One iteration of the loop of `(*ConfigV1).Unmarshal`: the updated message
and the index after the field that starts at `iNdEx`. -/
def ConfigV1.UnmarshalField (m : ConfigV1) (dAtA : List Byte) (iNdEx : Int) :
    Except Err (ConfigV1 × Int) := do
  let preIndex := iNdEx
  let (wire, iNdEx) ← decodeVarint dAtA iNdEx
  let fieldNum := int32 (wire >>> 3)
  let wireType : Int := ((wire &&& 0x7 : Nat) : Int)
  if wireType = 4 then .error (.endGroupForNonGroup .ConfigV1)
  else if fieldNum ≤ 0 then .error (.illegalTag .ConfigV1 fieldNum wire)
  else if fieldNum = 1 then
    if wireType ≠ 2 then .error (.wrongWireType wireType .SessionToken)
    else do
      let (iNdEx, postIndex) ← decodeLength dAtA iNdEx
      let s ← slice dAtA iNdEx postIndex
      .ok ({ m with SessionToken := s }, postIndex)
  else if fieldNum = 2 then
    if wireType ≠ 2 then .error (.wrongWireType wireType .PachdAddress)
    else do
      let (iNdEx, postIndex) ← decodeLength dAtA iNdEx
      let s ← slice dAtA iNdEx postIndex
      .ok ({ m with PachdAddress := s }, postIndex)
  else if fieldNum = 3 then
    if wireType ≠ 2 then .error (.wrongWireType wireType .ServerCAs)
    else do
      let (iNdEx, postIndex) ← decodeLength dAtA iNdEx
      let s ← slice dAtA iNdEx postIndex
      .ok ({ m with ServerCAs := s }, postIndex)
  else do
    let (iNdEx, span) ← skipField dAtA preIndex
    .ok ({ m with XXX_unrecognized := appendBytes m.XXX_unrecognized span }, iNdEx)

/-- The loop `for iNdEx < l { ... }` of `(*ConfigV1).Unmarshal` and the check
after it. -/
def ConfigV1.UnmarshalLoop : Nat → ConfigV1 → List Byte → Int → Except Err ConfigV1
  | 0, _, _, _ => .error .outOfFuel
  | fuel + 1, m, dAtA, iNdEx =>
    if iNdEx < len dAtA then do
      let (m, iNdEx) ← m.UnmarshalField dAtA iNdEx
      ConfigV1.UnmarshalLoop fuel m dAtA iNdEx
    else if iNdEx > len dAtA then .error .ErrUnexpectedEOF
    else .ok m

/-- The method `(*ConfigV1).Unmarshal`: the message after a successful decode
into `m`.  Every iteration consumes at least one byte, so the length of the
input plus one bounds the iterations. -/
def ConfigV1.Unmarshal (m : ConfigV1) (dAtA : List Byte) : Except Err ConfigV1 :=
  ConfigV1.UnmarshalLoop (dAtA.length + 1) m dAtA 0

/-- One iteration of the loop of `(*Config).Unmarshal`: the updated message
and the index after the field that starts at `iNdEx`. -/
def Config.UnmarshalField (m : Config) (dAtA : List Byte) (iNdEx : Int) :
    Except Err (Config × Int) := do
  let preIndex := iNdEx
  let (wire, iNdEx) ← decodeVarint dAtA iNdEx
  let fieldNum := int32 (wire >>> 3)
  let wireType : Int := ((wire &&& 0x7 : Nat) : Int)
  if wireType = 4 then .error (.endGroupForNonGroup .Config)
  else if fieldNum ≤ 0 then .error (.illegalTag .Config fieldNum wire)
  else if fieldNum = 1 then
    if wireType ≠ 2 then .error (.wrongWireType wireType .UserID)
    else do
      let (iNdEx, postIndex) ← decodeLength dAtA iNdEx
      let s ← slice dAtA iNdEx postIndex
      .ok ({ m with UserID := s }, postIndex)
  else if fieldNum = 2 then
    if wireType ≠ 2 then .error (.wrongWireType wireType .V1)
    else do
      let (iNdEx, postIndex) ← decodeLength dAtA iNdEx
      let v1 := m.V1.getD ConfigV1.empty
      let sub ← slice dAtA iNdEx postIndex
      let v1 ← v1.Unmarshal sub
      .ok ({ m with V1 := some v1 }, postIndex)
  else do
    let (iNdEx, span) ← skipField dAtA preIndex
    .ok ({ m with XXX_unrecognized := appendBytes m.XXX_unrecognized span }, iNdEx)

/-- The loop `for iNdEx < l { ... }` of `(*Config).Unmarshal` and the check
after it. -/
def Config.UnmarshalLoop : Nat → Config → List Byte → Int → Except Err Config
  | 0, _, _, _ => .error .outOfFuel
  | fuel + 1, m, dAtA, iNdEx =>
    if iNdEx < len dAtA then do
      let (m, iNdEx) ← m.UnmarshalField dAtA iNdEx
      Config.UnmarshalLoop fuel m dAtA iNdEx
    else if iNdEx > len dAtA then .error .ErrUnexpectedEOF
    else .ok m

/-- The method `(*Config).Unmarshal`: the message after a successful decode
into `m`.  Every iteration consumes at least one byte, so the length of the
input plus one bounds the iterations. -/
def Config.Unmarshal (m : Config) (dAtA : List Byte) : Except Err Config :=
  Config.UnmarshalLoop (dAtA.length + 1) m dAtA 0

/-! ## Definitions used in the statements -/

/-- The bytes of the varint of `v`, by the recursion of `encodeVarintConfig`. -/
def varintFuel : Nat → Nat → List Byte
  | 0, _ => []
  | fuel + 1, v =>
    if v ≥ 1 <<< 7 then uint8 (v &&& 0x7f ||| 0x80) :: varintFuel fuel (v >>> 7)
    else [uint8 v]

/-- The bytes that `encodeVarintConfig` writes for `v`, read back from a fresh
buffer of ten bytes. -/
def varint (v : Nat) : List Byte :=
  match encodeVarintConfig (List.replicate 10 0) 0 v with
  | .ok (dAtA, n) => dAtA.take n.toNat
  | .error _ => []

/-- The layout of a string field: nothing when the string is empty, else the
tag byte, the varint of the length and the bytes of the string. -/
def stringField (tag : Byte) (s : List Byte) : List Byte :=
  match s with
  | [] => []
  | _ :: _ => tag :: (varint s.length ++ s)

/-- The bytes of an opaque tail: none when the slice is `nil`. -/
def tailBytes (u : Option (List Byte)) : List Byte := u.getD []

/-- The layout of an encoded `ConfigV1`: the non-empty strings in the order of
their field numbers, then the opaque tail. -/
def ConfigV1.layout (m : ConfigV1) : List Byte :=
  stringField 0x0a m.SessionToken ++ stringField 0x12 m.PachdAddress
    ++ stringField 0x1a m.ServerCAs ++ tailBytes m.XXX_unrecognized

/-- The layout of the field `V1` of a `Config`: nothing when it is `nil`, else
the tag byte, the varint of the length of the nested encoding and that
encoding. -/
def v1Field (v1 : Option ConfigV1) : List Byte :=
  match v1 with
  | none => []
  | some v1 => 0x12 :: (varint v1.layout.length ++ v1.layout)

/-- The layout of an encoded `Config`. -/
def Config.layout (m : Config) : List Byte :=
  stringField 0x0a m.UserID ++ v1Field m.V1 ++ tailBytes m.XXX_unrecognized

/-- The number of bytes that the strings and the opaque tail of a `ConfigV1`
hold. -/
def ConfigV1.contentLen (m : ConfigV1) : Nat :=
  m.SessionToken.length + m.PachdAddress.length + m.ServerCAs.length
    + (tailBytes m.XXX_unrecognized).length

/-- The number of bytes that the strings and the opaque tail of an optional
`ConfigV1` hold: none when it is `nil`. -/
def v1ContentLen (v1 : Option ConfigV1) : Nat :=
  match v1 with
  | none => 0
  | some v1 => v1.contentLen

/-- The number of bytes that the strings and the opaque tails of a `Config`
hold. -/
def Config.contentLen (m : Config) : Nat :=
  m.UserID.length + v1ContentLen m.V1 + (tailBytes m.XXX_unrecognized).length

/-- The record of the scenario: `Config{UserID: "alice", V1: {SessionToken:
"tok123", PachdAddress: "10.0.0.1:650", ServerCAs: ""}}` with `nil` tails. -/
def scenario : Config :=
  { UserID := [0x61, 0x6c, 0x69, 0x63, 0x65]
    V1 := some
      { SessionToken := [0x74, 0x6f, 0x6b, 0x31, 0x32, 0x33]
        PachdAddress := [0x31, 0x30, 0x2e, 0x30, 0x2e, 0x30, 0x2e, 0x31, 0x3a, 0x36, 0x35, 0x30]
        ServerCAs := []
        XXX_unrecognized := none }
    XXX_unrecognized := none }

/-- The 31 bytes of the scenario: `0A 05 "alice" 12 16 0A 06 "tok123" 12 0C
"10.0.0.1:650"`. -/
def scenarioBytes : List Byte :=
  [0x0a, 0x05, 0x61, 0x6c, 0x69, 0x63, 0x65,
   0x12, 0x16,
   0x0a, 0x06, 0x74, 0x6f, 0x6b, 0x31, 0x32, 0x33,
   0x12, 0x0c, 0x31, 0x30, 0x2e, 0x30, 0x2e, 0x30, 0x2e, 0x31, 0x3a, 0x36, 0x35, 0x30]

/-- The result of a read at an index of `b`, seen from `a ++ b`. -/
def shiftResult (n : Nat) : Except Err (Nat × Int) → Except Err (Nat × Int)
  | .ok (v, i) => .ok (v, (n : Int) + i)
  | .error e => .error e

/-- The wire type of a tag: `int(wire & 0x7)`. -/
def wireTypeOf (wire : Nat) : Int := ((wire &&& 0x7 : Nat) : Int)

/-- The field number of a tag: `int32(wire >> 3)`. -/
def fieldNumOf (wire : Nat) : Int := int32 (wire >>> 3)

/-- A length-delimited value read after its tag: the length prefix starts at
`i1`, the value is `s` and ends at `post`. -/
def ReadsBytes (d : List Byte) (i1 post : Int) (s : List Byte) : Prop :=
  ∃ i2, decodeLength d i1 = .ok (i2, post) ∧ slice d i2 post = .ok s

/-- The successful runs of one iteration of the loop of `(*ConfigV1).Unmarshal`. -/
def ConfigV1.FieldOk (m : ConfigV1) (d : List Byte) (i : Int) (m' : ConfigV1) (i' : Int) :
    Prop :=
  ∃ wire i1, decodeVarint d i = .ok (wire, i1) ∧ wireTypeOf wire ≠ 4 ∧ 0 < fieldNumOf wire ∧
    ((fieldNumOf wire = 1 ∧ wireTypeOf wire = 2 ∧
        ∃ s, ReadsBytes d i1 i' s ∧ m' = { m with SessionToken := s }) ∨
     (fieldNumOf wire = 2 ∧ wireTypeOf wire = 2 ∧
        ∃ s, ReadsBytes d i1 i' s ∧ m' = { m with PachdAddress := s }) ∨
     (fieldNumOf wire = 3 ∧ wireTypeOf wire = 2 ∧
        ∃ s, ReadsBytes d i1 i' s ∧ m' = { m with ServerCAs := s }) ∨
     (fieldNumOf wire ≠ 1 ∧ fieldNumOf wire ≠ 2 ∧ fieldNumOf wire ≠ 3 ∧
        ∃ span, skipField d i = .ok (i', span)
          ∧ m' = { m with XXX_unrecognized := appendBytes m.XXX_unrecognized span }))

/-- The decode loop of both `Unmarshal` methods, over the body `step` of one
iteration. -/
def unmarshalLoop {α : Type} (step : α → List Byte → Int → Except Err (α × Int)) :
    Nat → α → List Byte → Int → Except Err α
  | 0, _, _, _ => .error .outOfFuel
  | fuel + 1, m, dAtA, iNdEx =>
    if iNdEx < len dAtA then
      match step m dAtA iNdEx with
      | .ok (m, iNdEx) => unmarshalLoop step fuel m dAtA iNdEx
      | .error e => .error e
    else if iNdEx > len dAtA then .error .ErrUnexpectedEOF
    else .ok m

/-- The frame properties of the body of a decode loop: a successful iteration
advances inside the input, and is unchanged by bytes added after the input
and by bytes added before it. -/
structure StepFrame {α : Type} (step : α → List Byte → Int → Except Err (α × Int)) : Prop where
  bound : ∀ (m m' : α) (d : List Byte) (i i' : Int), d.length < 2 ^ 63 →
    step m d i = .ok (m', i') → 0 ≤ i ∧ i < i' ∧ i' ≤ len d
  append : ∀ (m : α) (d e : List Byte) (i : Int) (r : α × Int),
    step m d i = .ok r → step m (d ++ e) i = .ok r
  shift : ∀ (m m' : α) (a b : List Byte) (j j' : Int), (a ++ b).length < 2 ^ 63 →
    step m b j = .ok (m', j') →
    step m (a ++ b) ((a.length : Int) + j) = .ok (m', (a.length : Int) + j')

/-- The successful runs of one iteration of the loop of `(*Config).Unmarshal`. -/
def Config.FieldOk (m : Config) (d : List Byte) (i : Int) (m' : Config) (i' : Int) : Prop :=
  ∃ wire i1, decodeVarint d i = .ok (wire, i1) ∧ wireTypeOf wire ≠ 4 ∧ 0 < fieldNumOf wire ∧
    ((fieldNumOf wire = 1 ∧ wireTypeOf wire = 2 ∧
        ∃ s, ReadsBytes d i1 i' s ∧ m' = { m with UserID := s }) ∨
     (fieldNumOf wire = 2 ∧ wireTypeOf wire = 2 ∧
        ∃ sub v1, ReadsBytes d i1 i' sub
          ∧ (m.V1.getD ConfigV1.empty).Unmarshal sub = .ok v1
          ∧ m' = { m with V1 := some v1 }) ∨
     (fieldNumOf wire ≠ 1 ∧ fieldNumOf wire ≠ 2 ∧
        ∃ span, skipField d i = .ok (i', span)
          ∧ m' = { m with XXX_unrecognized := appendBytes m.XXX_unrecognized span }))

/-- An opaque tail that `(*Config).Unmarshal` decodes again into the same
tail: decoding it into any message appends it to the tail of the message and
changes nothing else. -/
def Config.Redecodable (t : List Byte) : Prop :=
  ∀ m : Config, m.Unmarshal t
    = .ok { m with XXX_unrecognized := appendBytes m.XXX_unrecognized t }

/-- An opaque tail that `(*ConfigV1).Unmarshal` decodes again into the same
tail. -/
def ConfigV1.Redecodable (t : List Byte) : Prop :=
  ∀ m : ConfigV1, m.Unmarshal t
    = .ok { m with XXX_unrecognized := appendBytes m.XXX_unrecognized t }

/-- An opaque tail of a `Config` that is empty or that an earlier successful
`(*Config).Unmarshal`, into a message without a tail, produced. -/
def Config.TailProduced (u : Option (List Byte)) : Prop :=
  tailBytes u = [] ∨
    ∃ (m0 m1 : Config) (d : List Byte), d.length < 2 ^ 63 ∧
      tailBytes m0.XXX_unrecognized = [] ∧ m0.Unmarshal d = .ok m1 ∧ m1.XXX_unrecognized = u

/-- An opaque tail of a `ConfigV1` that is empty or that an earlier successful
`(*ConfigV1).Unmarshal`, into a message without a tail, produced. -/
def ConfigV1.TailProduced (u : Option (List Byte)) : Prop :=
  tailBytes u = [] ∨
    ∃ (m0 m1 : ConfigV1) (d : List Byte), d.length < 2 ^ 63 ∧
      tailBytes m0.XXX_unrecognized = [] ∧ m0.Unmarshal d = .ok m1 ∧ m1.XXX_unrecognized = u

/-- Two `ConfigV1` equal field for field, the opaque tails byte for byte. -/
def ConfigV1.SameFields (a b : ConfigV1) : Prop :=
  a.SessionToken = b.SessionToken ∧ a.PachdAddress = b.PachdAddress
    ∧ a.ServerCAs = b.ServerCAs ∧ tailBytes a.XXX_unrecognized = tailBytes b.XXX_unrecognized

/-- Two optional `ConfigV1` both `nil`, or both present and equal field for
field. -/
def sameV1 : Option ConfigV1 → Option ConfigV1 → Prop
  | none, none => True
  | some a, some b => a.SameFields b
  | _, _ => False

/-- Two `Config` equal field for field, `V1` present in both or in neither,
the opaque tails byte for byte. -/
def Config.SameFields (a b : Config) : Prop :=
  a.UserID = b.UserID ∧ sameV1 a.V1 b.V1
    ∧ tailBytes a.XXX_unrecognized = tailBytes b.XXX_unrecognized

/-- A record with both opaque tails captured by earlier decodes: the outer tail
holds the unknown field `1A 01 42`, the nested tail the unknown field `20 01`. -/
def roundTripExample : Config :=
  { UserID := [0x61]
    V1 := some
      { SessionToken := [0x74]
        PachdAddress := []
        ServerCAs := []
        XXX_unrecognized := some [0x20, 0x01] }
    XXX_unrecognized := some [0x1a, 0x01, 0x42] }

/-- The error of `(*Config).Unmarshal` at a tag whose field number is 1 or 2
and whose wire type is not 2. -/
def Config.wireTypeError (wire : Nat) : Err :=
  if wireTypeOf wire = 4 then .endGroupForNonGroup .Config
  else .wrongWireType (wireTypeOf wire) (if fieldNumOf wire = 1 then .UserID else .V1)

/-- The error of `(*ConfigV1).Unmarshal` at a tag whose field number is 1, 2
or 3 and whose wire type is not 2. -/
def ConfigV1.wireTypeError (wire : Nat) : Err :=
  if wireTypeOf wire = 4 then .endGroupForNonGroup .ConfigV1
  else .wrongWireType (wireTypeOf wire)
    (if fieldNumOf wire = 1 then .SessionToken
     else if fieldNumOf wire = 2 then .PachdAddress else .ServerCAs)

/-- The bytes `F` are one occurrence of the length-delimited field number `k`
and carry the payload `s`: a tag with field number `k` and wire type 2, the
length of `s`, and `s`. -/
def IsOccurrence (k : Int) (F s : List Byte) : Prop :=
  ∃ wire i1, decodeVarint F 0 = .ok (wire, i1) ∧ fieldNumOf wire = k ∧ wireTypeOf wire = 2
    ∧ ReadsBytes F i1 (F.length : Int) s

/-- One complete field of a `Config` input from `i` to `i'`, by its header: a
tag, and either a recognised field number with wire type 2 and a length prefix
that ends the field at `i'`, or another field number and a field that
`skipConfig` ends at `i'`. -/
def Config.FieldSpan (d : List Byte) (i i' : Int) : Prop :=
  ∃ wire i1, decodeVarint d i = .ok (wire, i1) ∧ wireTypeOf wire ≠ 4 ∧ 0 < fieldNumOf wire ∧
    (((fieldNumOf wire = 1 ∨ fieldNumOf wire = 2) ∧ wireTypeOf wire = 2
        ∧ ∃ i2, decodeLength d i1 = .ok (i2, i')) ∨
     (fieldNumOf wire ≠ 1 ∧ fieldNumOf wire ≠ 2 ∧ ∃ span, skipField d i = .ok (i', span)))

/-- The bytes `s` are exactly one field that `(*Config).Unmarshal` does not
recognise: a tag with a positive field number other than 1 and 2 and a wire
type other than 4, and `skipConfig` skips exactly `s`. -/
def Config.IsUnknownField (s : List Byte) : Prop :=
  ∃ wire i1, decodeVarint s 0 = .ok (wire, i1) ∧ wireTypeOf wire ≠ 4 ∧ 0 < fieldNumOf wire
    ∧ fieldNumOf wire ≠ 1 ∧ fieldNumOf wire ≠ 2
    ∧ skipField s 0 = .ok ((s.length : Int), s)

/-- The bytes are a sequence of fields that `(*Config).Unmarshal` does not
recognise. -/
inductive Config.IsUnknownFields : List Byte → Prop
  | nil : Config.IsUnknownFields []
  | snoc (t s : List Byte) : Config.IsUnknownFields t → Config.IsUnknownField s →
      Config.IsUnknownFields (t ++ s)

/-- The prefix of length `k` of the encoding of `r` ends strictly inside a
field: inside the `UserID` field, inside the nested `V1` field, or inside an
unrecognised field `s` that the opaque tail holds after unrecognised fields
`T1`, the nested tail being empty or produced by an earlier decode. -/
def Config.CutsField (r : Config) (k : Nat) : Prop :=
  (0 < k ∧ k < (stringField 0x0a r.UserID).length)
  ∨ ((stringField 0x0a r.UserID).length < k
      ∧ k < (stringField 0x0a r.UserID).length + (v1Field r.V1).length)
  ∨ ∃ T1 s T2, tailBytes r.XXX_unrecognized = T1 ++ s ++ T2
      ∧ Config.IsUnknownFields T1 ∧ Config.IsUnknownField s
      ∧ (∀ v1, r.V1 = some v1 → ConfigV1.TailProduced v1.XXX_unrecognized)
      ∧ (stringField 0x0a r.UserID).length + (v1Field r.V1).length + T1.length < k
      ∧ k < (stringField 0x0a r.UserID).length + (v1Field r.V1).length + T1.length + s.length

/-- A record with a `UserID`, a nested `V1` and one unrecognised field (number
3, payload "ab") in its opaque tail. -/
def truncationExample : Config :=
  ⟨[0x61, 0x62], some ⟨[0x74], [], [], none⟩, some [0x1a, 0x02, 0x61, 0x62]⟩

/-- The tag of a length-delimited field with the number `N`: `N << 3 | 2`. -/
def lengthDelimitedTag (N : Nat) : Nat := N <<< 3 ||| 2

/-- The bytes of a length-delimited field on the wire: the varint of the tag,
the varint of the length of the payload and the payload. -/
def lengthDelimited (N : Nat) (P : List Byte) : List Byte :=
  varint (lengthDelimitedTag N) ++ (varint P.length ++ P)

/-- The bytes of a sequence of length-delimited fields, each given by its
field number and its payload. -/
def fieldsBytes : List (Nat × List Byte) → List Byte
  | [] => []
  | f :: fs => lengthDelimited f.1 f.2 ++ fieldsBytes fs

/-- The bytes of the fields of the sequence that `Config` does not define
(field number 3 and above), in the order of the sequence. -/
def unknownFieldsBytes : List (Nat × List Byte) → List Byte
  | [] => []
  | f :: fs =>
    if 3 ≤ f.1 then lengthDelimited f.1 f.2 ++ unknownFieldsBytes fs else unknownFieldsBytes fs

/-- A well-formed length-delimited field for `Config`: a valid field number,
and for field 2 (the nested `V1`) a payload that `(*ConfigV1).Unmarshal`
decodes. -/
def WellFormedField (f : Nat × List Byte) : Prop :=
  1 ≤ f.1 ∧ f.1 ≤ 2 ^ 29 - 1 ∧ (f.1 = 2 → ∃ v, ConfigV1.empty.Unmarshal f.2 = .ok v)

/-- An input with two unrecognised fields (numbers 3 and 7) around a `UserID`
and a nested `V1`. -/
def forwardExample : List (Nat × List Byte) :=
  [(3, [0x41]), (1, [0x61]), (2, [0x0a, 0x01, 0x74]), (7, [])]

/-- Every byte of the run has the continuation bit `0x80` set. -/
def ContinuationBytes (s : List Byte) : Prop := ∀ b ∈ s, 0x80 ≤ b.val

/-- The accumulator of the varint read loop after the bytes `s`, started at
`shift` with the accumulator `acc`: `acc |= (uint64(b) & 0x7F) << shift` for
each byte. -/
def varintValueFrom (shift acc : Nat) : List Byte → Nat
  | [] => acc
  | b :: s => varintValueFrom (shift + 7) (acc ||| ((b.val &&& 0x7F) <<< shift) % 2 ^ 64) s

/-- The bytes `t` are a tag that `(*Config).Unmarshal` reads as one of its
recognised fields (1 or 2) with the wire type 2. -/
def Config.IsRecognisedTag (t : List Byte) : Prop :=
  ∃ wire, decodeVarint t 0 = .ok (wire, (t.length : Int))
    ∧ (fieldNumOf wire = 1 ∨ fieldNumOf wire = 2) ∧ wireTypeOf wire = 2

/-- The bytes `t` are a tag that `(*ConfigV1).Unmarshal` reads as one of its
recognised fields (1, 2 or 3) with the wire type 2. -/
def ConfigV1.IsRecognisedTag (t : List Byte) : Prop :=
  ∃ wire, decodeVarint t 0 = .ok (wire, (t.length : Int))
    ∧ (fieldNumOf wire = 1 ∨ fieldNumOf wire = 2 ∨ fieldNumOf wire = 3) ∧ wireTypeOf wire = 2

/-- The bytes `s` have the shape of one varint: at most nine bytes with the
continuation bit set, then one byte with the bit clear. -/
def IsVarintBytes (s : List Byte) : Prop :=
  ∃ c l, s = c ++ [l] ∧ ContinuationBytes c ∧ c.length ≤ 9 ∧ l.val < 0x80

/-- The value that the varint read loop accumulates over the bytes `s`. -/
def varintValue (s : List Byte) : Nat := varintValueFrom 0 0 s

/-- The wire type of the tag whose bytes are `t`: `wire & 0x7`. -/
def tagWireType (t : List Byte) : Nat := varintValue t &&& 0x7

/-- The bytes are one complete well-formed field: a tag followed by a varint
(wire type 0), by eight bytes (wire type 1), by a length varint and as many
bytes as it declares (wire type 2), by four bytes (wire type 5), or, for a
group-start tag (wire type 3), by well-formed fields and a group-end tag (wire
type 4). -/
inductive IsField : List Byte → Prop
  | varint (t v : List Byte) : IsVarintBytes t → tagWireType t = 0 → IsVarintBytes v →
      IsField (t ++ v)
  | fixed64 (t b : List Byte) : IsVarintBytes t → tagWireType t = 1 → b.length = 8 →
      IsField (t ++ b)
  | bytes (t lv P : List Byte) : IsVarintBytes t → tagWireType t = 2 → IsVarintBytes lv →
      varintValue lv = P.length → IsField (t ++ lv ++ P)
  | fixed32 (t b : List Byte) : IsVarintBytes t → tagWireType t = 5 → b.length = 4 →
      IsField (t ++ b)
  | group (t : List Byte) (body : List (List Byte)) (e : List Byte) : IsVarintBytes t →
      tagWireType t = 3 → (∀ f ∈ body, IsField f) → IsVarintBytes e → tagWireType e = 4 →
      IsField (t ++ body.flatten ++ e)

/-- The bytes `t` are a tag of field 2 of `Config` (the nested `V1`) with the
wire type 2. -/
def Config.IsV1Tag (t : List Byte) : Prop :=
  IsVarintBytes t ∧ wireTypeOf (varintValue t) = 2 ∧ fieldNumOf (varintValue t) = 2

/-- The errors that the decoder returns to its caller: every error of the
codec with the arguments the source gives it, and neither a run-time panic of
Go nor an exhausted fuel of the embedding. -/
def Err.IsDecodeError : Err → Prop
  | .ErrUnexpectedEOF => True
  | .ErrIntOverflowConfig => True
  | .ErrInvalidLengthConfig => True
  | .endGroupForNonGroup _ => True
  | .illegalTag _ fieldNum wire => fieldNum ≤ 0 ∧ fieldNum = fieldNumOf wire
  | .wrongWireType wireType _ => wireType ≠ 2
  | .illegalWireType wireType => wireType = 6 ∨ wireType = 7
  | .panic => False
  | .outOfFuel => False

/-- The run of a decode loop on `d` from the message `m` and the index `i` to
the end of `d` and the message `m1`, with the field numbers of the fields it
decoded, in order. -/
inductive LoopDecodes {α : Type} (step : α → List Byte → Int → Except Err (α × Int))
    (d : List Byte) : α → Int → List Int → α → Prop
  | done (m : α) (i : Int) : i = len d → LoopDecodes step d m i [] m
  | field (m m' m1 : α) (i i' i1 : Int) (wire : Nat) (ns : List Int) : i < len d →
      decodeVarint d i = .ok (wire, i1) → step m d i = .ok (m', i') →
      LoopDecodes step d m' i' ns m1 → LoopDecodes step d m i (fieldNumOf wire :: ns) m1

end config

namespace cmdutil

/-!
# Argument parsers of `src/server/pkg/cmdutil/cobra.go`

A Go `string` is its sequence of bytes, a `List Byte`.  A pointer that the
parsers fill (`*pfs.Repo`, `*pfs.Commit`) is an `Option`; a result
`(*T, error)` is an `Except ParseErr T`; a slice that may be `nil` is an
`Option (List T)`.
-/

open config (Byte)

/-- The byte `'@'`. -/
def atSign : Byte := 0x40

/-- The byte `':'`. -/
def colon : Byte := 0x3a

/-- Modelled from the spec: the type `pfs.Repo` is declared in the package
`client/pfs`; the field is the one the parsers set. -/
structure Repo where
  Name : List Byte
  deriving DecidableEq, Repr

/-- Modelled from the spec: the type `pfs.Commit` is declared in the package
`client/pfs`; the fields are the ones the parsers set. -/
structure Commit where
  Repo : Option Repo
  ID : List Byte
  deriving DecidableEq, Repr

/-- Modelled from the spec: the type `pfs.Branch` is declared in the package
`client/pfs`; the fields are the ones the parsers set. -/
structure Branch where
  Repo : Option Repo
  Name : List Byte
  deriving DecidableEq, Repr

/-- Modelled from the spec: the type `pfs.File` is declared in the package
`client/pfs`; the fields are the ones the parsers set. -/
structure File where
  Commit : Option Commit
  Path : List Byte
  deriving DecidableEq, Repr

/-- The errors of the parsers, and the run-time failure of Go. -/
inductive ParseErr
  /-- The error `invalid format "%s": repo cannot be empty` with its argument. -/
  | repoEmpty (arg : List Byte)
  /-- The error `invalid format "%s": commit cannot be empty` with its argument. -/
  | commitEmpty (arg : List Byte)
  /-- A run-time panic of Go (index out of range). -/
  | panic
  deriving DecidableEq, Repr

/-- The search of `strings.Index(s, sep)` for a separator of one byte, from the
position `i`: the index of the first occurrence, `-1` when there is none. -/
def IndexFrom (sep : Byte) : List Byte → Nat → Int
  | [], _ => -1
  | b :: s, i => if b = sep then (i : Int) else IndexFrom sep s (i + 1)

/-- The function `strings.Index(s, sep)` of the Go standard library for a
separator of one byte. -/
def Index (s : List Byte) (sep : Byte) : Int := IndexFrom sep s 0

/-- The function `strings.SplitN(s, sep, n)` of the Go standard library for a
separator of one byte and `n ≥ 0`: at most `n` substrings, cut at the first
occurrences of `sep`, the last substring being the unsplit remainder. -/
def SplitN (sep : Byte) : Nat → List Byte → List (List Byte)
  | 0, _ => []
  | 1, s => [s]
  | n + 2, s =>
    let m := Index s sep
    if m < 0 then [s]
    else s.take m.toNat :: SplitN sep (n + 1) (s.drop (m.toNat + 1))

/-- The function `ParseCommit(arg)`. -/
def ParseCommit (arg : List Byte) : Except ParseErr Commit :=
  let parts := SplitN atSign 2 arg
  match parts[0]? with
  | none => .error .panic
  | some repo =>
    if repo = [] then .error (.repoEmpty arg)
    else
      let commit : Commit := { Repo := some { Name := repo }, ID := [] }
      if parts.length = 2 then
        match parts[1]? with
        | none => .error .panic
        | some id => .ok { commit with ID := id }
      else .ok commit

/-- The built-in `append(results, x)` on a slice that may be `nil`. -/
def appendResult {α : Type} (results : Option (List α)) (x : α) : Option (List α) :=
  some (results.getD [] ++ [x])

/-- The loop `for _, arg := range args` shared by `ParseCommits`,
`ParseBranches` and `ParseFiles`, over the parser `parse` of one argument: an
error of `parse` is returned at once, a result is appended to `results`. -/
def parseRange {α : Type} (parse : List Byte → Except ParseErr α) :
    List (List Byte) → Option (List α) → Except ParseErr (Option (List α))
  | [], results => .ok results
  | arg :: args, results =>
    match parse arg with
    | .error err => .error err
    | .ok x => parseRange parse args (appendResult results x)

/-- The function `ParseCommits(args)`; `results` starts as the `nil` slice. -/
def ParseCommits (args : List (List Byte)) : Except ParseErr (Option (List Commit)) :=
  parseRange ParseCommit args none

/-- The function `ParseBranch(arg)`. -/
def ParseBranch (arg : List Byte) : Except ParseErr Branch :=
  match ParseCommit arg with
  | .error err => .error err
  | .ok commit => .ok { Repo := commit.Repo, Name := commit.ID }

/-- The function `ParseBranches(args)`. -/
def ParseBranches (args : List (List Byte)) : Except ParseErr (Option (List Branch)) :=
  parseRange ParseBranch args none

/-- The function `ParseFile(arg)`. -/
def ParseFile (arg : List Byte) : Except ParseErr File :=
  let repoAndRest := SplitN atSign 2 arg
  match repoAndRest[0]? with
  | none => .error .panic
  | some repo =>
    if repo = [] then .error (.repoEmpty arg)
    else
      let file : File := { Commit := some { Repo := some { Name := repo }, ID := [] }, Path := [] }
      if repoAndRest.length > 1 then
        match repoAndRest[1]? with
        | none => .error .panic
        | some rest =>
          let commitAndPath := SplitN colon 2 rest
          match commitAndPath[0]? with
          | none => .error .panic
          | some id =>
            if id = [] then .error (.commitEmpty arg)
            else
              let file : File :=
                { file with Commit := some { Repo := some { Name := repo }, ID := id } }
              if commitAndPath.length > 1 then
                match commitAndPath[1]? with
                | none => .error .panic
                | some path => .ok { file with Path := path }
              else .ok file
      else .ok file

/-- The function `ParseFiles(args)`. -/
def ParseFiles (args : List (List Byte)) : Except ParseErr (Option (List File)) :=
  parseRange ParseFile args none

/-! ## Definitions used in the statements -/

/-- The text before the first occurrence of `c`, the whole text when `c` does
not occur. -/
def beforeFirst (c : Byte) (s : List Byte) : List Byte := s.takeWhile (fun b => b ≠ c)

/-- The text after the first occurrence of `c`, empty when `c` does not
occur. -/
def afterFirst (c : Byte) (s : List Byte) : List Byte := (s.dropWhile (fun b => b ≠ c)).drop 1

/-- The plural parser `plural` is the all-or-nothing map of `parse`: when every
argument parses it returns the results in order (the `nil` slice for no
argument), and when one fails it returns the error of the first that fails. -/
def IsAllOrNothingMap {α : Type} (parse : List Byte → Except ParseErr α)
    (plural : List (List Byte) → Except ParseErr (Option (List α))) : Prop :=
  ∀ args : List (List Byte),
    (∀ results : List α, List.Forall₂ (fun a x => parse a = .ok x) args results →
      plural args = .ok (if args = [] then none else some results))
    ∧ (∀ (pre : List (List Byte)) (a : List Byte) (post : List (List Byte)) (e : ParseErr),
      args = pre ++ a :: post → (∀ x ∈ pre, ∃ c, parse x = .ok c) → parse a = .error e →
      plural args = .error e)

end cmdutil

/-! # Theorems -/

namespace config

/-! ## Machine integers and slices -/

theorem int64_eq_self {x : Int} (h1 : -2 ^ 63 ≤ x) (h2 : x < 2 ^ 63) : int64 x = x := by
  unfold int64; omega

theorem addInt_eq {a b : Int} (h1 : -2 ^ 63 ≤ a + b) (h2 : a + b < 2 ^ 63) :
    addInt a b = a + b := int64_eq_self h1 h2

theorem addInt_natCast {a b : Nat} (h : a + b < 2 ^ 63) :
    addInt (a : Int) (b : Int) = ((a + b : Nat) : Int) := by
  rw [addInt_eq] <;> push_cast <;> omega

theorem addInt_natCast_one {a : Nat} (h : a + 1 < 2 ^ 63) :
    addInt (a : Int) 1 = ((a + 1 : Nat) : Int) := by
  rw [addInt_eq] <;> push_cast <;> omega

theorem uint64_natCast {a : Nat} (h : a < 2 ^ 64) : uint64 (a : Int) = a := by
  unfold uint64; omega

theorem len_eq (s : List Byte) : len s = (s.length : Int) := rfl

theorem getElem?_append_cons (pre post : List Byte) (b : Byte) :
    (pre ++ b :: post)[pre.length]? = some b := by
  rw [List.getElem?_append_right (le_refl _)]; simp

theorem index_append (pre post : List Byte) (b : Byte) :
    index (pre ++ b :: post) (pre.length : Int) = .ok b := by
  unfold index
  rw [if_pos (Int.natCast_nonneg _), Int.toNat_ofNat, getElem?_append_cons]

theorem setIndex_append (pre post : List Byte) (x b : Byte) :
    setIndex (pre ++ x :: post) (pre.length : Int) b = .ok (pre ++ b :: post) := by
  simp [setIndex, len]

theorem copyAt_append (pre hole post src : List Byte) (h : hole.length = src.length) :
    copyAt (pre ++ hole ++ post) (pre.length : Int) src
      = .ok (pre ++ src ++ post, (src.length : Int)) := by
  simp [copyAt, len, h]
  omega

theorem uint8_val (x : Nat) : (uint8 x).val = x % 256 := rfl

theorem encodeVarintConfigLoop_append (fuel : Nat) :
    ∀ (v : Nat) (pre hole post : List Byte), 0 < fuel → v < 2 ^ (7 * fuel) →
      hole.length = (varintFuel fuel v).length →
      (pre ++ hole ++ post).length < 2 ^ 63 →
      encodeVarintConfigLoop fuel (pre ++ hole ++ post) (pre.length : Int) v
        = .ok (pre ++ varintFuel fuel v ++ post, ((pre.length + hole.length : Nat) : Int)) := by
  induction fuel with
  | zero =>
    intro v pre hole post h0
    exact absurd h0 (lt_irrefl 0)
  | succ fuel ih =>
    intro v pre hole post _ hv hh hl
    unfold encodeVarintConfigLoop
    unfold varintFuel at hh ⊢
    by_cases hge : v ≥ 1 <<< 7
    · simp only [hge, if_true] at hh ⊢
      obtain ⟨x, hole', rfl⟩ : ∃ x hole', hole = x :: hole' := by
        cases hole with
        | nil => simp at hh
        | cons x t => exact ⟨x, t, rfl⟩
      simp only [List.length_cons, add_left_inj] at hh
      have h1 : (pre ++ x :: hole' ++ post) = pre ++ x :: (hole' ++ post) := by simp
      rw [h1, setIndex_append]
      simp only [bind, Except.bind]
      have hl' : pre.length + 1 < 2 ^ 63 := by
        simp at hl; omega
      rw [addInt_natCast_one hl']
      have h2 : pre ++ uint8 (v &&& 0x7f ||| 0x80) :: (hole' ++ post)
          = (pre ++ [uint8 (v &&& 0x7f ||| 0x80)]) ++ hole' ++ post := by simp
      have h3 : ((pre.length + 1 : Nat) : Int) = ((pre ++ [uint8 (v &&& 0x7f ||| 0x80)]).length : Int) := by
        simp
      have hdiv : v >>> 7 < 2 ^ (7 * fuel) := by
        rw [Nat.shiftRight_eq_div_pow]
        apply Nat.div_lt_of_lt_mul
        rw [← pow_add]
        have : 7 + 7 * fuel = 7 * (fuel + 1) := by ring
        rw [this]; exact hv
      have hf : 0 < fuel := by
        rcases Nat.eq_zero_or_pos fuel with h | h
        · subst h
          simp at hdiv
          rw [Nat.shiftRight_eq_div_pow] at hdiv
          have : 1 <<< 7 = 128 := by decide
          omega
        · exact h
      rw [h2, h3, ih (v >>> 7) _ hole' post hf hdiv hh]
      · simp; omega
      · simp at hl ⊢; omega
    · rw [if_neg hge] at hh ⊢
      obtain ⟨x, rfl⟩ : ∃ x, hole = [x] := by
        cases hole with
        | nil => simp at hh
        | cons x t =>
          cases t with
          | nil => exact ⟨x, rfl⟩
          | cons y t => simp at hh
      have h1 : (pre ++ [x] ++ post) = pre ++ x :: post := by simp
      rw [h1, setIndex_append]
      simp only [bind, Except.bind]
      have hl' : pre.length + 1 < 2 ^ 63 := by
        simp at hl; omega
      rw [addInt_natCast_one hl']
      have h128 : ¬ 128 ≤ v := by simpa using hge
      simp [h128]

theorem and_127 (v : Nat) : v &&& 127 = v % 128 := Nat.and_pow_two_sub_one_eq_mod v 7

theorem or_128 {x : Nat} (h : x < 128) : x ||| 128 = x + 128 := by
  have := Nat.mul_add_lt_is_or (i := 7) (b := x) (by simpa using h) 1
  simp at this
  rw [Nat.lor_comm, ← this]; omega

theorem contByte_val (v : Nat) : (uint8 (v &&& 0x7f ||| 0x80)).val = v % 128 + 128 := by
  rw [uint8_val, and_127, or_128 (Nat.mod_lt _ (by decide))]
  omega

theorem or_shift {acc s : Nat} (x : Nat) (h : acc < 2 ^ s) :
    acc ||| x * 2 ^ s = acc + x * 2 ^ s := by
  rw [Nat.lor_comm, Nat.mul_comm, ← Nat.mul_add_lt_is_or h]
  omega

theorem decodeVarintLoop_varint (n : Nat) :
    ∀ (fuel v shift acc : Nat) (pre post : List Byte), 0 < n → v < 2 ^ (7 * n) → n ≤ fuel →
      acc < 2 ^ shift → acc + v * 2 ^ shift < 2 ^ 64 → shift < 64 →
      (pre ++ varintFuel n v ++ post).length < 2 ^ 63 →
      decodeVarintLoop fuel (pre ++ varintFuel n v ++ post) (pre.length : Int) shift acc
        = .ok (acc + v * 2 ^ shift, ((pre.length + (varintFuel n v).length : Nat) : Int)) := by
  induction n with
  | zero => intro _ _ _ _ _ _ h; exact absurd h (lt_irrefl 0)
  | succ n ih =>
    intro fuel v shift acc pre post _ hv hf hacc hsum hs hl
    obtain ⟨fuel, rfl⟩ : ∃ f, fuel = f + 1 := ⟨fuel - 1, by omega⟩
    unfold decodeVarintLoop
    unfold varintFuel at hl ⊢
    have hs' : ¬ shift ≥ 64 := by omega
    rw [if_neg hs']
    by_cases hge : v ≥ 1 <<< 7
    · rw [if_pos hge] at hl ⊢
      have h128 : 128 ≤ v := by simpa using hge
      have hlen : ¬ ((pre.length : Int) ≥ len (pre ++ uint8 (v &&& 0x7f ||| 0x80) :: varintFuel n (v >>> 7) ++ post)) := by
        simp [len]; omega
      rw [if_neg hlen]
      have h1 : pre ++ uint8 (v &&& 0x7f ||| 0x80) :: varintFuel n (v >>> 7) ++ post
          = pre ++ uint8 (v &&& 0x7f ||| 0x80) :: (varintFuel n (v >>> 7) ++ post) := by simp
      rw [h1, index_append]
      simp only [bind, Except.bind]
      have hl' : pre.length + 1 < 2 ^ 63 := by simp at hl; omega
      rw [addInt_natCast_one hl', contByte_val]
      have hb : ¬ (v % 128 + 128 < 0x80) := by omega
      rw [if_neg hb]
      have hmod : (v % 128 + 128) &&& 0x7F = v % 128 := by
        rw [and_127]; omega
      rw [hmod]
      have hpow : 2 ^ (shift + 7) = 2 ^ shift * 128 := by rw [pow_add]; norm_num
      have hvd : v = 128 * (v / 128) + v % 128 := (Nat.div_add_mod v 128).symm
      have hprod : v * 2 ^ shift = (v / 128) * (2 ^ shift * 128) + (v % 128) * 2 ^ shift := by
        conv_lhs => rw [hvd]
        ring
      have hsmall : (v % 128) <<< shift % 2 ^ 64 = (v % 128) * 2 ^ shift := by
        rw [Nat.shiftLeft_eq]
        apply Nat.mod_eq_of_lt
        have : (v % 128) * 2 ^ shift ≤ v * 2 ^ shift := Nat.mul_le_mul_right _ (Nat.mod_le _ _)
        omega
      rw [hsmall]
      rw [or_shift _ hacc]
      have hdiv : v >>> 7 = v / 128 := by rw [Nat.shiftRight_eq_div_pow]
      have hdlt : v / 128 < 2 ^ (7 * n) := by
        apply Nat.div_lt_of_lt_mul
        have : 128 * 2 ^ (7 * n) = 2 ^ (7 * (n + 1)) := by
          rw [show 7 * (n + 1) = 7 + 7 * n by ring, pow_add]; norm_num
        rw [this]; exact hv
      have hn : 0 < n := by
        rcases Nat.eq_zero_or_pos n with h | h
        · subst h; simp at hdlt; omega
        · exact h
      have hd1 : 1 ≤ v / 128 := by omega
      have hmodlt : v % 128 < 128 := Nat.mod_lt _ (by decide)
      have hacc' : acc + v % 128 * 2 ^ shift < 2 ^ (shift + 7) := by
        rw [hpow]
        have : v % 128 * 2 ^ shift ≤ 127 * 2 ^ shift := Nat.mul_le_mul_right _ (by omega)
        omega
      have hsum' : acc + v % 128 * 2 ^ shift + v / 128 * 2 ^ (shift + 7) < 2 ^ 64 := by
        rw [hpow]; omega
      have hs7 : shift + 7 < 64 := by
        by_contra hc
        have h64 : 2 ^ 64 ≤ 2 ^ (shift + 7) := Nat.pow_le_pow_right (by decide) (by omega)
        have : 2 ^ (shift + 7) ≤ v / 128 * 2 ^ (shift + 7) := Nat.le_mul_of_pos_left _ hd1
        omega
      have h2 : pre ++ uint8 (v &&& 0x7f ||| 0x80) :: (varintFuel n (v >>> 7) ++ post)
          = (pre ++ [uint8 (v &&& 0x7f ||| 0x80)]) ++ varintFuel n (v >>> 7) ++ post := by simp
      have h3 : ((pre.length + 1 : Nat) : Int)
          = ((pre ++ [uint8 (v &&& 0x7f ||| 0x80)]).length : Int) := by simp
      rw [h2, h3, hdiv]
      rw [hdiv] at hl
      rw [ih fuel (v / 128) (shift + 7) _ _ post hn hdlt (by omega) hacc' hsum' hs7]
      · congr 2
        · rw [hpow]; omega
        · simp; omega
      · simp at hl ⊢; omega
    · rw [if_neg hge] at hl ⊢
      have h128 : v < 128 := by
        have : ¬ 128 ≤ v := by simpa using hge
        omega
      have hlen : ¬ ((pre.length : Int) ≥ len (pre ++ [uint8 v] ++ post)) := by
        simp [len]
      rw [if_neg hlen]
      have h1 : pre ++ [uint8 v] ++ post = pre ++ uint8 v :: post := by simp
      rw [h1, index_append]
      simp only [bind, Except.bind]
      have hl' : pre.length + 1 < 2 ^ 63 := by simp at hl; omega
      rw [addInt_natCast_one hl', uint8_val]
      have hv256 : v % 256 = v := Nat.mod_eq_of_lt (by omega)
      rw [hv256]
      have hb : v < 0x80 := h128
      rw [if_pos hb]
      have hmod : v &&& 0x7F = v := by rw [and_127]; omega
      rw [hmod]
      have hsmall : v <<< shift % 2 ^ 64 = v * 2 ^ shift := by
        rw [Nat.shiftLeft_eq]
        apply Nat.mod_eq_of_lt
        omega
      rw [hsmall, or_shift _ hacc]
      simp

/-! ## The encoder -/

theorem varintFuel_length_le (fuel : Nat) : ∀ v, (varintFuel fuel v).length ≤ fuel := by
  induction fuel with
  | zero => intro v; simp [varintFuel]
  | succ f ih =>
    intro v
    unfold varintFuel
    split
    · simp; exact ih _
    · simp

theorem varintFuel_length_pos {fuel : Nat} (h : 0 < fuel) (v : Nat) :
    0 < (varintFuel fuel v).length := by
  obtain ⟨f, rfl⟩ : ∃ f, fuel = f + 1 := ⟨fuel - 1, by omega⟩
  unfold varintFuel
  split <;> simp

theorem sovConfigLoop_eq (fuel : Nat) :
    ∀ (x n : Nat), 0 < fuel → x < 2 ^ (7 * fuel) → n + fuel < 2 ^ 63 →
      sovConfigLoop fuel x (n : Int) = ((n + (varintFuel fuel x).length : Nat) : Int) := by
  induction fuel with
  | zero => intro _ _ h; exact absurd h (lt_irrefl 0)
  | succ f ih =>
    intro x n _ hx hn
    unfold sovConfigLoop varintFuel
    simp only
    rw [addInt_natCast_one (by omega), Nat.shiftRight_eq_div_pow]
    by_cases hge : x ≥ 1 <<< 7
    · have h128 : 128 ≤ x := by simpa using hge
      have hne : ¬ (x / 2 ^ 7 = 0) := by
        have : 1 ≤ x / 2 ^ 7 := by
          rw [Nat.le_div_iff_mul_le (by decide)]; omega
        omega
      rw [if_neg hne, if_pos hge]
      have hdlt : x / 2 ^ 7 < 2 ^ (7 * f) := by
        apply Nat.div_lt_of_lt_mul
        rw [← pow_add, show 7 + 7 * f = 7 * (f + 1) by ring]; exact hx
      have hf : 0 < f := by
        rcases Nat.eq_zero_or_pos f with h | h
        · subst h; simp at hdlt; omega
        · exact h
      rw [ih _ _ hf hdlt (by omega)]
      simp; omega
    · have h128 : ¬ 128 ≤ x := by simpa using hge
      have he : x / 2 ^ 7 = 0 := by
        apply Nat.div_eq_of_lt; omega
      rw [if_pos he, if_neg hge]
      simp

theorem sovConfig_eq {x : Nat} (h : x < 2 ^ 64) :
    sovConfig x = ((varintFuel 10 x).length : Int) := by
  unfold sovConfig
  rw [Nat.mod_eq_of_lt h]
  have := sovConfigLoop_eq 10 x 0 (by decide) (by omega) (by decide)
  simpa using this

theorem varint_eq {v : Nat} (h : v < 2 ^ 64) : varint v = varintFuel 10 v := by
  unfold varint encodeVarintConfig
  rw [Nat.mod_eq_of_lt h]
  have hle := varintFuel_length_le 10 v
  have h1 : List.replicate 10 (0 : Byte)
      = [] ++ List.replicate (varintFuel 10 v).length 0
          ++ List.replicate (10 - (varintFuel 10 v).length) 0 := by
    rw [List.nil_append, List.append_replicate_replicate]
    congr 1; omega
  have h2 := encodeVarintConfigLoop_append 10 v [] (List.replicate (varintFuel 10 v).length 0)
    (List.replicate (10 - (varintFuel 10 v).length) 0) (by decide) (by omega) (by simp)
    (by simp; omega)
  rw [h1]
  simp only [List.length_nil, Nat.cast_zero] at h2
  rw [h2]
  simp

theorem split_length {hole : List Byte} {a b : Nat} (h : hole.length = a + b) :
    ∃ h1 h2, hole = h1 ++ h2 ∧ h1.length = a ∧ h2.length = b :=
  ⟨hole.take a, hole.drop a, (List.take_append_drop a hole).symm, by simp; omega, by simp; omega⟩

theorem varint_length_le (v : Nat) (h : v < 2 ^ 64) : (varint v).length ≤ 10 := by
  rw [varint_eq h]; exact varintFuel_length_le 10 v

theorem varint_length_pos (v : Nat) (h : v < 2 ^ 64) : 0 < (varint v).length := by
  rw [varint_eq h]; exact varintFuel_length_pos (by decide) v

theorem encodeVarintConfig_append (v : Nat) (pre hole post : List Byte) (hv : v < 2 ^ 64)
    (hh : hole.length = (varint v).length) (hl : (pre ++ hole ++ post).length < 2 ^ 63) :
    encodeVarintConfig (pre ++ hole ++ post) (pre.length : Int) v
      = .ok (pre ++ varint v ++ post, ((pre.length + hole.length : Nat) : Int)) := by
  unfold encodeVarintConfig
  rw [Nat.mod_eq_of_lt hv, varint_eq hv] at *
  exact encodeVarintConfigLoop_append 10 v pre hole post (by decide) (by omega) hh hl

theorem stringField_nil (tag : Byte) : stringField tag [] = [] := rfl

theorem stringField_of_pos (tag : Byte) {s : List Byte} (h : 0 < s.length) :
    stringField tag s = tag :: (varint s.length ++ s) := by
  cases s with
  | nil => simp at h
  | cons a t => rfl

theorem putString_append (tag : Byte) (s pre hole post : List Byte)
    (hh : hole.length = (stringField tag s).length)
    (hl : (pre ++ hole ++ post).length < 2 ^ 63) :
    putString (pre ++ hole ++ post) (pre.length : Int) tag s
      = .ok (pre ++ stringField tag s ++ post, ((pre.length + hole.length : Nat) : Int)) := by
  unfold putString
  rcases Nat.eq_zero_or_pos s.length with h0 | hpos
  · have hs : s = [] := List.length_eq_zero.mp h0
    subst hs
    simp [stringField] at hh
    subst hh
    simp [len, stringField]
  · have hpos' : len s > 0 := by simp only [len]; omega
    rw [if_pos hpos', stringField_of_pos tag hpos] at *
    obtain ⟨x, hole', rfl⟩ : ∃ x hole', hole = x :: hole' := by
      cases hole with
      | nil => simp at hh
      | cons x r => exact ⟨x, r, rfl⟩
    have hh' : hole'.length = (varint s.length).length + s.length := by
      simpa using hh
    obtain ⟨h1, h2, rfl, hh1, hh2⟩ := split_length hh'
    have hls : pre.length + (1 + h1.length + h2.length) + post.length < 2 ^ 63 := by
      simp only [List.length_append, List.length_cons] at hl; omega
    have e1 : pre ++ x :: (h1 ++ h2) ++ post = pre ++ x :: (h1 ++ h2 ++ post) := by simp
    rw [e1, setIndex_append]
    simp only [bind, Except.bind]
    rw [addInt_natCast_one (by omega)]
    have e2 : pre ++ tag :: (h1 ++ h2 ++ post) = (pre ++ [tag]) ++ h1 ++ (h2 ++ post) := by simp
    have e3 : ((pre.length + 1 : Nat) : Int) = ((pre ++ [tag]).length : Int) := by simp
    rw [len_eq, uint64_natCast (by omega)]
    rw [e2, e3, encodeVarintConfig_append _ _ _ _ (by omega) hh1 (by
      simp only [List.length_append, List.length_cons, List.length_nil]; omega)]
    simp only
    have e4 : pre ++ [tag] ++ varint s.length ++ (h2 ++ post)
        = (pre ++ [tag] ++ varint s.length) ++ h2 ++ post := by simp
    have e5 : (((pre ++ [tag]).length + h1.length : Nat) : Int)
        = ((pre ++ [tag] ++ varint s.length).length : Int) := by
      simp only [List.length_append, List.length_cons, List.length_nil, hh1]
    rw [e4, e5, copyAt_append _ _ _ _ hh2]
    simp only
    rw [addInt_natCast (by
      simp only [List.length_append, List.length_cons, List.length_nil]; omega)]
    simp only [List.length_append, List.length_cons, List.length_nil, List.append_assoc,
      List.cons_append, List.nil_append]
    congr 3
    omega

theorem putUnrecognized_append (u : Option (List Byte)) (pre hole post : List Byte)
    (hh : hole.length = (tailBytes u).length)
    (hl : (pre ++ hole ++ post).length < 2 ^ 63) :
    putUnrecognized (pre ++ hole ++ post) (pre.length : Int) u
      = .ok (pre ++ tailBytes u ++ post, ((pre.length + hole.length : Nat) : Int)) := by
  unfold putUnrecognized
  cases u with
  | none =>
    simp [tailBytes] at hh
    subst hh
    simp [tailBytes]
  | some u =>
    simp only [tailBytes, Option.getD_some] at hh ⊢
    rw [copyAt_append _ _ _ _ hh]
    simp only [bind, Except.bind]
    rw [addInt_natCast (by simp at hl ⊢; omega), hh]

theorem sovConfig_varint {x : Nat} (h : x < 2 ^ 64) :
    sovConfig x = ((varint x).length : Int) := by
  rw [sovConfig_eq h, varint_eq h]

theorem stringField_length_le (tag : Byte) (s : List Byte) (h : s.length < 2 ^ 64) :
    (stringField tag s).length ≤ s.length + 11 := by
  rcases Nat.eq_zero_or_pos s.length with h0 | hpos
  · rw [List.length_eq_zero.mp h0]; simp [stringField]
  · rw [stringField_of_pos tag hpos]
    have := varint_length_le s.length h
    simp only [List.length_cons, List.length_append]; omega

theorem stringField_length_ge (tag : Byte) (s : List Byte) :
    s.length ≤ (stringField tag s).length := by
  rcases Nat.eq_zero_or_pos s.length with h0 | hpos
  · rw [List.length_eq_zero.mp h0]; simp [stringField]
  · rw [stringField_of_pos tag hpos]
    simp only [List.length_cons, List.length_append]; omega

theorem sizeTerm_eq (tag : Byte) (s : List Byte) (n : Int) (h0 : 0 ≤ n)
    (h : n + (stringField tag s).length < 2 ^ 63) :
    (if len s > 0 then addInt n (addInt (addInt 1 (len s)) (sovConfig (uint64 (len s))))
      else n) = n + ((stringField tag s).length : Int) := by
  rcases Nat.eq_zero_or_pos s.length with h0 | hpos
  · rw [List.length_eq_zero.mp h0]; simp [stringField, len]
  · have hpos' : len s > 0 := by simp only [len]; omega
    rw [stringField_of_pos tag hpos] at h ⊢
    simp only [List.length_cons, List.length_append] at h ⊢
    push_cast at h ⊢
    rw [if_pos hpos', len_eq, uint64_natCast (by omega), sovConfig_varint (by omega)]
    have i1 : addInt 1 (s.length : Int) = 1 + s.length := addInt_eq (by omega) (by omega)
    rw [i1]
    have i2 : addInt (1 + (s.length : Int)) ((varint s.length).length : Int)
        = 1 + s.length + (varint s.length).length := addInt_eq (by omega) (by omega)
    rw [i2, addInt_eq (by omega) (by omega)]
    omega

theorem ConfigV1_layout_length_le (m : ConfigV1) (h : m.contentLen < 2 ^ 62) :
    m.layout.length ≤ m.contentLen + 33 := by
  unfold ConfigV1.contentLen at h
  have h1 := stringField_length_le 0x0a m.SessionToken (by omega)
  have h2 := stringField_length_le 0x12 m.PachdAddress (by omega)
  have h3 := stringField_length_le 0x1a m.ServerCAs (by omega)
  simp only [ConfigV1.layout, ConfigV1.contentLen, List.length_append]
  omega

theorem ConfigV1_contentLen_le_layout (m : ConfigV1) : m.contentLen ≤ m.layout.length := by
  have h1 := stringField_length_ge 0x0a m.SessionToken
  have h2 := stringField_length_ge 0x12 m.PachdAddress
  have h3 := stringField_length_ge 0x1a m.ServerCAs
  simp only [ConfigV1.layout, ConfigV1.contentLen, List.length_append]
  omega

theorem ConfigV1_Size_eq (m : ConfigV1) (h : m.layout.length < 2 ^ 63) :
    m.Size = (m.layout.length : Int) := by
  unfold ConfigV1.layout at h ⊢
  simp only [List.length_append] at h ⊢
  unfold ConfigV1.Size
  simp only
  rw [sizeTerm_eq 0x0a m.SessionToken 0 (le_refl _) (by omega),
    sizeTerm_eq 0x12 m.PachdAddress _ (by omega) (by omega),
    sizeTerm_eq 0x1a m.ServerCAs _ (by omega) (by omega)]
  cases hu : m.XXX_unrecognized with
  | none =>
    simp only [tailBytes, Option.getD_none, List.length_nil]
    push_cast; omega
  | some u =>
    rw [hu] at h
    simp only [tailBytes, Option.getD_some] at h ⊢
    rw [len_eq, addInt_eq (by omega) (by omega)]
    push_cast; omega

theorem ConfigV1_MarshalTo_append (m : ConfigV1) (hole post : List Byte)
    (hh : hole.length = m.layout.length) (hl : (hole ++ post).length < 2 ^ 63) :
    m.MarshalTo (hole ++ post) = .ok (m.layout ++ post, (m.layout.length : Int)) := by
  unfold ConfigV1.layout at hh ⊢
  simp only [List.length_append] at hh
  obtain ⟨h123, h4, rfl, hh123, hh4⟩ := split_length hh
  obtain ⟨h12, h3, rfl, hh12, hh3⟩ := split_length hh123
  obtain ⟨h1, h2, rfl, hh1, hh2⟩ := split_length hh12
  simp only [List.length_append] at hl
  unfold ConfigV1.MarshalTo
  have a1 := putString_append 0x0a m.SessionToken [] h1 (h2 ++ h3 ++ h4 ++ post) hh1
    (by simp only [List.length_append, List.length_nil]; omega)
  simp only [List.nil_append, List.length_nil, Nat.cast_zero, zero_add] at a1
  have e1 : h1 ++ h2 ++ h3 ++ h4 ++ post = h1 ++ (h2 ++ h3 ++ h4 ++ post) := by simp
  rw [e1]
  simp only [a1, bind, Except.bind]
  have a2 := putString_append 0x12 m.PachdAddress (stringField 0x0a m.SessionToken) h2
    (h3 ++ h4 ++ post) hh2 (by simp only [List.length_append]; omega)
  have e2 : stringField 0x0a m.SessionToken ++ (h2 ++ h3 ++ h4 ++ post)
      = stringField 0x0a m.SessionToken ++ h2 ++ (h3 ++ h4 ++ post) := by simp
  rw [e2, hh1, a2]
  simp only
  have a3 := putString_append 0x1a m.ServerCAs
    (stringField 0x0a m.SessionToken ++ stringField 0x12 m.PachdAddress) h3
    (h4 ++ post) hh3 (by simp only [List.length_append]; omega)
  have e3 : stringField 0x0a m.SessionToken ++ stringField 0x12 m.PachdAddress ++ (h3 ++ h4 ++ post)
      = stringField 0x0a m.SessionToken ++ stringField 0x12 m.PachdAddress ++ h3 ++ (h4 ++ post) := by
    simp
  have e3' : (((stringField 0x0a m.SessionToken).length + h2.length : Nat) : Int)
      = ((stringField 0x0a m.SessionToken ++ stringField 0x12 m.PachdAddress).length : Int) := by
    simp only [List.length_append, hh2]
  rw [e3, e3', a3]
  simp only
  have a4 := putUnrecognized_append m.XXX_unrecognized
    (stringField 0x0a m.SessionToken ++ stringField 0x12 m.PachdAddress
      ++ stringField 0x1a m.ServerCAs) h4 post hh4
    (by simp only [List.length_append]; omega)
  have e4' : (((stringField 0x0a m.SessionToken ++ stringField 0x12 m.PachdAddress).length
        + h3.length : Nat) : Int)
      = ((stringField 0x0a m.SessionToken ++ stringField 0x12 m.PachdAddress
          ++ stringField 0x1a m.ServerCAs).length : Int) := by
    simp only [List.length_append, hh3]
  have e4 : stringField 0x0a m.SessionToken ++ stringField 0x12 m.PachdAddress
        ++ stringField 0x1a m.ServerCAs ++ (h4 ++ post)
      = stringField 0x0a m.SessionToken ++ stringField 0x12 m.PachdAddress
        ++ stringField 0x1a m.ServerCAs ++ h4 ++ post := by simp
  rw [e4', e4, a4]
  simp only [List.length_append, hh4]

theorem v1Field_length_le (v1 : Option ConfigV1) (h : v1ContentLen v1 < 2 ^ 62) :
    (v1Field v1).length ≤ v1ContentLen v1 + 44 := by
  cases v1 with
  | none => simp [v1Field]
  | some v1 =>
    simp only [v1ContentLen] at h ⊢
    have h1 := ConfigV1_layout_length_le v1 h
    have h2 := varint_length_le v1.layout.length (by omega)
    simp only [v1Field, List.length_cons, List.length_append]
    omega

theorem Config_layout_length_le (m : Config) (h : m.contentLen < 2 ^ 62) :
    m.layout.length ≤ m.contentLen + 55 := by
  unfold Config.contentLen at h
  have h1 := stringField_length_le 0x0a m.UserID (by omega)
  have h2 := v1Field_length_le m.V1 (by omega)
  simp only [Config.layout, Config.contentLen, List.length_append]
  omega

theorem Config_layout_length_lt (m : Config) (h : m.contentLen < 2 ^ 62) :
    m.layout.length < 2 ^ 63 := by
  have := Config_layout_length_le m h
  omega

theorem ConfigV1_layout_length_lt (m : ConfigV1) (h : m.contentLen < 2 ^ 62) :
    m.layout.length < 2 ^ 63 := by
  have := ConfigV1_layout_length_le m h
  omega

theorem v1Term_eq (v1 : ConfigV1) (n : Int) (h0 : 0 ≤ n)
    (h : n + (v1Field (some v1)).length < 2 ^ 63) :
    addInt n (addInt (addInt 1 v1.Size) (sovConfig (uint64 v1.Size)))
      = n + ((v1Field (some v1)).length : Int) := by
  simp only [v1Field, List.length_cons, List.length_append] at h ⊢
  push_cast at h ⊢
  rw [ConfigV1_Size_eq v1 (by omega), uint64_natCast (by omega), sovConfig_varint (by omega)]
  have i1 : addInt 1 (v1.layout.length : Int) = 1 + v1.layout.length :=
    addInt_eq (by omega) (by omega)
  rw [i1]
  have i2 : addInt (1 + (v1.layout.length : Int)) ((varint v1.layout.length).length : Int)
      = 1 + v1.layout.length + (varint v1.layout.length).length :=
    addInt_eq (by omega) (by omega)
  rw [i2, addInt_eq (by omega) (by omega)]
  omega

theorem Config_Size_eq (m : Config) (h : m.layout.length < 2 ^ 63) :
    m.Size = (m.layout.length : Int) := by
  obtain ⟨uid, v1, u⟩ := m
  unfold Config.layout at h ⊢
  simp only [List.length_append] at h ⊢
  unfold Config.Size
  simp only
  rw [sizeTerm_eq 0x0a uid 0 (le_refl _) (by omega)]
  cases v1 with
  | none =>
    cases u with
    | none => simp [v1Field, tailBytes]
    | some u =>
      simp only [v1Field, tailBytes, Option.getD_some, List.length_nil] at h ⊢
      rw [len_eq, addInt_eq (by omega) (by omega)]
      push_cast; omega
  | some v1 =>
    simp only
    rw [v1Term_eq v1 _ (by omega) (by omega)]
    cases u with
    | none => simp [tailBytes]
    | some u =>
      simp only [tailBytes, Option.getD_some] at h ⊢
      rw [len_eq, addInt_eq (by omega) (by omega)]
      push_cast; omega

theorem slice_append (pre mid post : List Byte) :
    slice (pre ++ mid ++ post) (pre.length : Int) ((pre.length + mid.length : Nat) : Int)
      = .ok mid := by
  unfold slice
  have hc : 0 ≤ (pre.length : Int) ∧ (pre.length : Int) ≤ ((pre.length + mid.length : Nat) : Int)
      ∧ ((pre.length + mid.length : Nat) : Int) ≤ len (pre ++ mid ++ post) := by
    simp only [len, List.length_append]; push_cast; omega
  rw [if_pos hc, Int.toNat_ofNat, Int.toNat_ofNat, List.append_assoc, List.take_append,
    List.drop_left, List.take_left]

theorem sliceFrom_append (pre rest : List Byte) :
    sliceFrom (pre ++ rest) (pre.length : Int) = .ok rest := by
  unfold sliceFrom
  have := slice_append pre rest []
  simp only [List.append_nil] at this
  rw [len_eq, List.length_append]
  exact this

theorem slice_zero (dAtA : List Byte) : slice dAtA 0 (dAtA.length : Int) = .ok dAtA := by
  have := slice_append [] dAtA []
  simpa using this

theorem make_eq (n : Nat) : make (n : Int) = .ok (List.replicate n 0) := by
  simp [make]

theorem ConfigV1_Marshal_eq (m : ConfigV1) (h : m.layout.length < 2 ^ 63) :
    m.Marshal = .ok m.layout := by
  unfold ConfigV1.Marshal
  simp only [bind, Except.bind]
  rw [ConfigV1_Size_eq m h, make_eq]
  have := ConfigV1_MarshalTo_append m (List.replicate m.layout.length 0) [] (by simp) (by simpa using h)
  simp only [List.append_nil] at this
  simp only [this]
  exact slice_zero _

theorem Config_MarshalTo_append (m : Config) (hole post : List Byte)
    (hh : hole.length = m.layout.length) (hl : (hole ++ post).length < 2 ^ 63) :
    m.MarshalTo (hole ++ post) = .ok (m.layout ++ post, (m.layout.length : Int)) := by
  obtain ⟨uid, v1, u⟩ := m
  unfold Config.layout at hh ⊢
  simp only [List.length_append] at hh
  obtain ⟨h12, h3, rfl, hh12, hh3⟩ := split_length hh
  obtain ⟨h1, h2, rfl, hh1, hh2⟩ := split_length hh12
  simp only [List.length_append] at hl
  unfold Config.MarshalTo
  have a1 := putString_append 0x0a uid [] h1 (h2 ++ h3 ++ post) hh1
    (by simp only [List.length_append, List.length_nil]; omega)
  simp only [List.nil_append, List.length_nil, Nat.cast_zero, zero_add] at a1
  have e1 : h1 ++ h2 ++ h3 ++ post = h1 ++ (h2 ++ h3 ++ post) := by simp
  rw [e1]
  simp only [a1, bind, Except.bind]
  have a3 := putUnrecognized_append u (stringField 0x0a uid ++ v1Field v1) h3 post hh3
    (by simp only [List.length_append]; omega)
  cases v1 with
  | none =>
    simp only [v1Field, List.length_nil] at hh2 a3 ⊢
    have : h2 = [] := List.length_eq_zero.mp hh2
    subst this
    simp only [List.append_nil, List.nil_append, pure, Except.pure, List.append_assoc] at a3 ⊢
    rw [hh1, a3]
    simp only [List.length_append, hh3]
  | some v1 =>
    simp only [v1Field] at hh2 a3 ⊢
    obtain ⟨x, h2', rfl⟩ : ∃ x h2', h2 = x :: h2' := by
      cases h2 with
      | nil => simp at hh2
      | cons x r => exact ⟨x, r, rfl⟩
    have hh2' : h2'.length = (varint v1.layout.length).length + v1.layout.length := by
      simpa using hh2
    obtain ⟨g1, g2, rfl, hg1, hg2⟩ := split_length hh2'
    simp only [List.length_cons, List.length_append] at hl hh2
    have hv1 : v1.layout.length < 2 ^ 63 := by omega
    have e2 : stringField 0x0a uid ++ (x :: (g1 ++ g2) ++ h3 ++ post)
        = stringField 0x0a uid ++ x :: (g1 ++ g2 ++ h3 ++ post) := by simp
    rw [e2, hh1, setIndex_append]
    simp only
    rw [addInt_natCast_one (by omega), ConfigV1_Size_eq v1 hv1, uint64_natCast (by omega)]
    have e3 : stringField 0x0a uid ++ 0x12 :: (g1 ++ g2 ++ h3 ++ post)
        = (stringField 0x0a uid ++ [0x12]) ++ g1 ++ (g2 ++ h3 ++ post) := by simp
    have e3' : (((stringField 0x0a uid).length + 1 : Nat) : Int)
        = ((stringField 0x0a uid ++ [0x12]).length : Int) := by simp
    rw [e3, e3', encodeVarintConfig_append _ _ _ _ (by omega) hg1 (by
      simp only [List.length_append, List.length_cons, List.length_nil]; omega)]
    simp only
    have e4' : (((stringField 0x0a uid ++ [0x12]).length + g1.length : Nat) : Int)
        = ((stringField 0x0a uid ++ [0x12] ++ varint v1.layout.length).length : Int) := by
      simp only [List.length_append, hg1]
    have e4 : stringField 0x0a uid ++ [0x12] ++ varint v1.layout.length ++ (g2 ++ h3 ++ post)
        = (stringField 0x0a uid ++ [0x12] ++ varint v1.layout.length) ++ (g2 ++ (h3 ++ post)) := by
      simp
    rw [e4', e4, sliceFrom_append]
    simp only
    rw [ConfigV1_MarshalTo_append v1 g2 (h3 ++ post) hg2 (by simp only [List.length_append]; omega)]
    simp only [pure, Except.pure, Int.toNat_ofNat, List.take_left']
    rw [addInt_natCast (by
      simp only [List.length_append, List.length_cons, List.length_nil]; omega)]
    have e5 : stringField 0x0a uid ++ [0x12] ++ varint v1.layout.length
          ++ (v1.layout ++ (h3 ++ post))
        = (stringField 0x0a uid ++ 0x12 :: (varint v1.layout.length ++ v1.layout)) ++ h3 ++ post := by
      simp
    have e5' : (((stringField 0x0a uid ++ [0x12] ++ varint v1.layout.length).length
          + v1.layout.length : Nat) : Int)
        = ((stringField 0x0a uid ++ 0x12 :: (varint v1.layout.length ++ v1.layout)).length : Int) := by
      simp only [List.length_append, List.length_cons, List.length_nil]
      congr 1; omega
    rw [e5, e5', a3]
    simp only [List.length_append, List.length_cons, hh3]

theorem Config_Marshal_eq (m : Config) (h : m.layout.length < 2 ^ 63) :
    m.Marshal = .ok m.layout := by
  unfold Config.Marshal
  simp only [bind, Except.bind]
  rw [Config_Size_eq m h, make_eq]
  have := Config_MarshalTo_append m (List.replicate m.layout.length 0) [] (by simp) (by simpa using h)
  simp only [List.append_nil] at this
  simp only [this]
  exact slice_zero _

/-! ## The varint read loop: frame properties -/

theorem index_eq_ok {d : List Byte} {i : Int} {b : Byte} (h : index d i = .ok b) :
    0 ≤ i ∧ i < len d ∧ d[i.toNat]? = some b := by
  unfold index at h
  by_cases h0 : 0 ≤ i
  · rw [if_pos h0] at h
    cases hg : d[i.toNat]? with
    | none => rw [hg] at h; cases h
    | some c =>
      rw [hg] at h
      simp only [Except.ok.injEq] at h
      subst h
      refine ⟨h0, ?_, rfl⟩
      have := (List.getElem?_eq_some_iff.mp hg).1
      simp only [len]; omega
  · rw [if_neg h0] at h; cases h

theorem index_of_lt {d : List Byte} {i : Int} (h0 : 0 ≤ i) (h1 : i < len d) :
    ∃ b, index d i = .ok b := by
  unfold index
  rw [if_pos h0]
  have hlt : i.toNat < d.length := by simp only [len] at h1; omega
  exact ⟨d[i.toNat], by rw [List.getElem?_eq_getElem hlt]⟩

theorem index_append_left {d : List Byte} {i : Int} {b : Byte} (e : List Byte)
    (h : index d i = .ok b) : index (d ++ e) i = .ok b := by
  obtain ⟨h0, h1, h2⟩ := index_eq_ok h
  unfold index
  rw [if_pos h0]
  have hlt : i.toNat < d.length := by simp only [len] at h1; omega
  rw [List.getElem?_append_left hlt, h2]

theorem index_shift (a b : List Byte) {j : Int} (h0 : 0 ≤ j) :
    index (a ++ b) ((a.length : Int) + j) = index b j := by
  unfold index
  rw [if_pos h0, if_pos (by omega)]
  have : ((a.length : Int) + j).toNat = a.length + j.toNat := by omega
  rw [this, List.getElem?_append_right (by omega)]
  simp

theorem index_take {d : List Byte} {i : Int} (k : Nat) (h : i < k) :
    index (d.take k) i = index d i := by
  unfold index
  by_cases h0 : 0 ≤ i
  · rw [if_pos h0, if_pos h0, List.getElem?_take_of_lt (by omega)]
  · rw [if_neg h0, if_neg h0]

theorem decodeVarintLoop_append (fuel : Nat) :
    ∀ (d e : List Byte) (i : Int) (shift acc : Nat) (r : Nat × Int),
      decodeVarintLoop fuel d i shift acc = .ok r →
      decodeVarintLoop fuel (d ++ e) i shift acc = .ok r := by
  induction fuel with
  | zero => intro d e i shift acc r h; simp [decodeVarintLoop] at h
  | succ f ih =>
    intro d e i shift acc r h
    unfold decodeVarintLoop at h ⊢
    by_cases hs : shift ≥ 64
    · rw [if_pos hs] at h; cases h
    · rw [if_neg hs] at h ⊢
      by_cases hi : i ≥ len d
      · rw [if_pos hi] at h; cases h
      · rw [if_neg hi] at h
        have hi' : ¬ (i ≥ len (d ++ e)) := by
          simp only [len, List.length_append] at hi ⊢; push_cast; omega
        rw [if_neg hi']
        cases hb : index d i with
        | error x => rw [hb] at h; cases h
        | ok b =>
          rw [hb] at h
          rw [index_append_left e hb]
          simp only [bind, Except.bind] at h ⊢
          by_cases hc : b.val < 0x80
          · rw [if_pos hc] at h ⊢; exact h
          · rw [if_neg hc] at h ⊢; exact ih _ _ _ _ _ _ h

theorem decodeVarintLoop_bound (fuel : Nat) :
    ∀ (d : List Byte) (i : Int) (shift acc : Nat) (v : Nat) (i' : Int),
      d.length < 2 ^ 63 → decodeVarintLoop fuel d i shift acc = .ok (v, i') →
      0 ≤ i ∧ i < i' ∧ i' ≤ len d := by
  induction fuel with
  | zero => intro d i shift acc v i' _ h; simp [decodeVarintLoop] at h
  | succ f ih =>
    intro d i shift acc v i' hl h
    unfold decodeVarintLoop at h
    by_cases hs : shift ≥ 64
    · rw [if_pos hs] at h; cases h
    · rw [if_neg hs] at h
      by_cases hi : i ≥ len d
      · rw [if_pos hi] at h; cases h
      · rw [if_neg hi] at h
        cases hb : index d i with
        | error x => rw [hb] at h; cases h
        | ok b =>
          rw [hb] at h
          obtain ⟨h0, h1, _⟩ := index_eq_ok hb
          simp only [bind, Except.bind] at h
          have hadd : addInt i 1 = i + 1 := by
            simp only [len] at h1
            exact addInt_eq (by omega) (by omega)
          rw [hadd] at h
          by_cases hc : b.val < 0x80
          · rw [if_pos hc] at h
            simp only [Except.ok.injEq, Prod.mk.injEq] at h
            omega
          · rw [if_neg hc] at h
            have := ih _ _ _ _ _ _ hl h
            omega

theorem decodeVarintLoop_lt (fuel : Nat) :
    ∀ (d : List Byte) (i : Int) (shift acc : Nat) (v : Nat) (i' : Int),
      acc < 2 ^ 64 → decodeVarintLoop fuel d i shift acc = .ok (v, i') → v < 2 ^ 64 := by
  induction fuel with
  | zero => intro d i shift acc v i' _ h; simp [decodeVarintLoop] at h
  | succ f ih =>
    intro d i shift acc v i' hacc h
    unfold decodeVarintLoop at h
    by_cases hs : shift ≥ 64
    · rw [if_pos hs] at h; cases h
    · rw [if_neg hs] at h
      by_cases hi : i ≥ len d
      · rw [if_pos hi] at h; cases h
      · rw [if_neg hi] at h
        cases hb : index d i with
        | error x => rw [hb] at h; cases h
        | ok b =>
          rw [hb] at h
          simp only [bind, Except.bind] at h
          have hor : acc ||| (b.val &&& 0x7F) <<< shift % 2 ^ 64 < 2 ^ 64 :=
            Nat.or_lt_two_pow hacc (Nat.mod_lt _ (by decide))
          by_cases hc : b.val < 0x80
          · rw [if_pos hc] at h
            simp only [Except.ok.injEq, Prod.mk.injEq] at h
            omega
          · rw [if_neg hc] at h
            exact ih _ _ _ _ _ _ hor h

theorem decodeVarintLoop_shift (fuel : Nat) :
    ∀ (a b : List Byte) (j : Int) (shift acc : Nat), 0 ≤ j → (a ++ b).length < 2 ^ 63 →
      decodeVarintLoop fuel (a ++ b) ((a.length : Int) + j) shift acc
        = shiftResult a.length (decodeVarintLoop fuel b j shift acc) := by
  induction fuel with
  | zero => intro a b j shift acc _ _; rfl
  | succ f ih =>
    intro a b j shift acc h0 hl
    unfold decodeVarintLoop
    by_cases hs : shift ≥ 64
    · rw [if_pos hs, if_pos hs]; rfl
    · rw [if_neg hs, if_neg hs]
      simp only [List.length_append] at hl
      by_cases hi : j ≥ len b
      · have hi' : (a.length : Int) + j ≥ len (a ++ b) := by
          simp only [len, List.length_append] at hi ⊢; push_cast; omega
        rw [if_pos hi, if_pos hi']; rfl
      · have hi' : ¬ ((a.length : Int) + j ≥ len (a ++ b)) := by
          simp only [len, List.length_append] at hi ⊢; push_cast; omega
        rw [if_neg hi, if_neg hi', index_shift a b h0]
        simp only [len] at hi
        cases hb : index b j with
        | error x => rfl
        | ok c =>
          simp only [bind, Except.bind]
          have e1 : addInt j 1 = j + 1 := addInt_eq (by omega) (by omega)
          have e2 : addInt ((a.length : Int) + j) 1 = (a.length : Int) + (j + 1) := by
            rw [addInt_eq (by omega) (by omega)]; ring
          rw [e1, e2]
          by_cases hc : c.val < 0x80
          · rw [if_pos hc, if_pos hc]; rfl
          · rw [if_neg hc, if_neg hc]
            exact ih a b (j + 1) _ _ (by omega) (by simp only [List.length_append]; omega)

theorem decodeVarintLoop_take (fuel : Nat) :
    ∀ (d : List Byte) (i : Int) (shift acc : Nat) (v : Nat) (i' : Int) (k : Nat),
      d.length < 2 ^ 63 → decodeVarintLoop fuel d i shift acc = .ok (v, i') →
      i' ≤ k → decodeVarintLoop fuel (d.take k) i shift acc = .ok (v, i') := by
  induction fuel with
  | zero => intro d i shift acc v i' k _ h; simp [decodeVarintLoop] at h
  | succ f ih =>
    intro d i shift acc v i' k hl h hk
    have hbnd := decodeVarintLoop_bound _ _ _ _ _ _ _ hl h
    unfold decodeVarintLoop at h ⊢
    by_cases hs : shift ≥ 64
    · rw [if_pos hs] at h; cases h
    · rw [if_neg hs] at h ⊢
      by_cases hi : i ≥ len d
      · rw [if_pos hi] at h; cases h
      · rw [if_neg hi] at h
        have hi' : ¬ (i ≥ len (d.take k)) := by
          simp only [len, List.length_take] at hi ⊢
          omega
        rw [if_neg hi', index_take k (by omega)]
        cases hb : index d i with
        | error x => rw [hb] at h; cases h
        | ok b =>
          rw [hb] at h
          simp only [bind, Except.bind] at h ⊢
          by_cases hc : b.val < 0x80
          · rw [if_pos hc] at h ⊢; exact h
          · rw [if_neg hc] at h ⊢; exact ih _ _ _ _ _ _ _ hl h hk

theorem decodeVarintLoop_truncated (fuel : Nat) :
    ∀ (d : List Byte) (i : Int) (shift acc : Nat) (v : Nat) (i' : Int) (k : Nat),
      d.length < 2 ^ 63 → decodeVarintLoop fuel d i shift acc = .ok (v, i') →
      (k : Int) < i' → decodeVarintLoop fuel (d.take k) i shift acc = .error .ErrUnexpectedEOF := by
  induction fuel with
  | zero => intro d i shift acc v i' k _ h; simp [decodeVarintLoop] at h
  | succ f ih =>
    intro d i shift acc v i' k hl h hk
    have hbnd := decodeVarintLoop_bound _ _ _ _ _ _ _ hl h
    unfold decodeVarintLoop at h ⊢
    by_cases hs : shift ≥ 64
    · rw [if_pos hs] at h; cases h
    · rw [if_neg hs] at h ⊢
      by_cases hi : i ≥ len d
      · rw [if_pos hi] at h; cases h
      · rw [if_neg hi] at h
        by_cases hik : i ≥ len (d.take k)
        · rw [if_pos hik]
        · rw [if_neg hik]
          have hlt : i < k := by
            simp only [len, List.length_take] at hi hik
            omega
          rw [index_take k hlt]
          cases hb : index d i with
          | error x => rw [hb] at h; cases h
          | ok b =>
            rw [hb] at h
            simp only [bind, Except.bind] at h ⊢
            have hadd : addInt i 1 = i + 1 := by
              simp only [len] at hi
              exact addInt_eq (by omega) (by omega)
            by_cases hc : b.val < 0x80
            · rw [if_pos hc] at h
              simp only [Except.ok.injEq, Prod.mk.injEq] at h
              omega
            · rw [if_neg hc] at h ⊢; exact ih _ _ _ _ _ _ _ hl h hk

/-! ## `skipConfig`: fuel -/

theorem skipFuel_mono (f : Nat) :
    (∀ (d : List Byte) (r : Except Err Int), skipConfigFuel f d = r → r ≠ .error .outOfFuel →
      skipConfigFuel (f + 1) d = r) ∧
    (∀ (d : List Byte) (i : Int) (r : Except Err Int), skipGroupFuel f d i = r →
      r ≠ .error .outOfFuel → skipGroupFuel (f + 1) d i = r) := by
  induction f with
  | zero =>
    constructor
    · intro d r h hr; simp [skipConfigFuel] at h; exact absurd h.symm hr
    · intro d i r h hr; simp [skipGroupFuel] at h; exact absurd h.symm hr
  | succ f ih =>
    constructor
    · intro d r h hr
      rw [skipConfigFuel] at h ⊢
      simp only at h ⊢
      split
      · rename_i hlen
        rw [if_pos hlen] at h
        cases hv : decodeVarint d 0 with
        | error e => rw [hv] at h; exact h
        | ok p =>
          obtain ⟨wire, i⟩ := p
          rw [hv] at h
          simp only [bind, Except.bind] at h ⊢
          split
          · rename_i h0; rw [if_pos h0] at h; exact h
          · rename_i h0; rw [if_neg h0] at h
            split
            · rename_i h1; rw [if_pos h1] at h; exact h
            · rename_i h1; rw [if_neg h1] at h
              split
              · rename_i h2; rw [if_pos h2] at h; exact h
              · rename_i h2; rw [if_neg h2] at h
                split
                · rename_i h3; rw [if_pos h3] at h
                  exact ih.2 _ _ _ h hr
                · rename_i h3; rw [if_neg h3] at h; exact h
      · rename_i hlen
        rw [if_neg hlen] at h; exact h
    · intro d i r h hr
      rw [skipGroupFuel] at h ⊢
      simp only [bind, Except.bind] at h ⊢
      cases hv : decodeVarint d i with
      | error e => rw [hv] at h; exact h
      | ok p =>
        obtain ⟨wire, i1⟩ := p
        rw [hv] at h
        simp only at h ⊢
        split
        · rename_i h4; rw [if_pos h4] at h; exact h
        · rename_i h4; rw [if_neg h4] at h
          cases hs : sliceFrom d i with
          | error e => rw [hs] at h; exact h
          | ok sub =>
            rw [hs] at h
            simp only at h ⊢
            cases hk : skipConfigFuel f sub with
            | error e =>
              rw [hk] at h
              simp only at h
              have hne : e ≠ .outOfFuel := by
                intro he; subst he; exact hr h.symm
              rw [ih.1 sub _ hk (by simpa using hne)]
              exact h
            | ok next =>
              rw [hk] at h
              rw [ih.1 sub _ hk (by simp)]
              simp only at h ⊢
              split
              · rename_i h5; rw [if_pos h5] at h; exact h
              · rename_i h5; rw [if_neg h5] at h
                exact ih.2 _ _ _ h hr

theorem skipFuel_mono_le {f g : Nat} (h : f ≤ g) :
    (∀ (d : List Byte) (r : Except Err Int), skipConfigFuel f d = r → r ≠ .error .outOfFuel →
      skipConfigFuel g d = r) ∧
    (∀ (d : List Byte) (i : Int) (r : Except Err Int), skipGroupFuel f d i = r →
      r ≠ .error .outOfFuel → skipGroupFuel g d i = r) := by
  induction h with
  | refl => exact ⟨fun _ _ h _ => h, fun _ _ _ h _ => h⟩
  | step _ ih =>
    exact ⟨fun d r h hr => (skipFuel_mono _).1 d r (ih.1 d r h hr) hr,
      fun d i r h hr => (skipFuel_mono _).2 d i r (ih.2 d i r h hr) hr⟩

theorem decodeVarint_append {d : List Byte} {i : Int} {r : Nat × Int} (e : List Byte)
    (h : decodeVarint d i = .ok r) : decodeVarint (d ++ e) i = .ok r :=
  decodeVarintLoop_append _ _ _ _ _ _ _ h

theorem decodeVarint_bound {d : List Byte} {i i' : Int} {v : Nat} (hl : d.length < 2 ^ 63)
    (h : decodeVarint d i = .ok (v, i')) : 0 ≤ i ∧ i < i' ∧ i' ≤ len d :=
  decodeVarintLoop_bound _ _ _ _ _ _ _ hl h

theorem decodeVarint_lt {d : List Byte} {i i' : Int} {v : Nat}
    (h : decodeVarint d i = .ok (v, i')) : v < 2 ^ 64 :=
  decodeVarintLoop_lt _ _ _ _ _ _ _ (by decide) h

theorem decodeVarint_shift (a b : List Byte) {j : Int} (h0 : 0 ≤ j)
    (hl : (a ++ b).length < 2 ^ 63) :
    decodeVarint (a ++ b) ((a.length : Int) + j) = shiftResult a.length (decodeVarint b j) :=
  decodeVarintLoop_shift _ _ _ _ _ _ h0 hl

theorem decodeVarint_take {d : List Byte} {i i' : Int} {v : Nat} {k : Nat}
    (hl : d.length < 2 ^ 63) (h : decodeVarint d i = .ok (v, i')) (hk : i' ≤ k) :
    decodeVarint (d.take k) i = .ok (v, i') :=
  decodeVarintLoop_take _ _ _ _ _ _ _ _ hl h hk

theorem decodeVarint_truncated {d : List Byte} {i i' : Int} {v : Nat} {k : Nat}
    (hl : d.length < 2 ^ 63) (h : decodeVarint d i = .ok (v, i')) (hk : (k : Int) < i') :
    decodeVarint (d.take k) i = .error .ErrUnexpectedEOF :=
  decodeVarintLoop_truncated _ _ _ _ _ _ _ _ hl h hk

theorem sliceFrom_eq_ok {d sub : List Byte} {i : Int} (h : sliceFrom d i = .ok sub) :
    0 ≤ i ∧ i ≤ len d ∧ sub = d.drop i.toNat := by
  unfold sliceFrom slice at h
  by_cases hc : 0 ≤ i ∧ i ≤ len d ∧ len d ≤ len d
  · rw [if_pos hc] at h
    simp only [len, Int.toNat_ofNat, List.take_length, Except.ok.injEq] at h
    exact ⟨hc.1, hc.2.1, h.symm⟩
  · rw [if_neg hc] at h; cases h

theorem sliceFrom_of_le {d : List Byte} {i : Int} (h0 : 0 ≤ i) (h1 : i ≤ len d) :
    sliceFrom d i = .ok (d.drop i.toNat) := by
  unfold sliceFrom slice
  rw [if_pos ⟨h0, h1, le_refl _⟩]
  simp [len]

theorem skipFuel_bound (f : Nat) :
    (∀ (d : List Byte) (n : Int), d.length < 2 ^ 63 → skipConfigFuel f d = .ok n →
      -2 ^ 63 ≤ n ∧ n < 2 ^ 63 ∧ (1 ≤ n ∨ n + 2 ^ 64 ≤ len d + 8)) ∧
    (∀ (d : List Byte) (i n : Int), d.length < 2 ^ 63 → skipGroupFuel f d i = .ok n →
      0 ≤ i ∧ i < n ∧ n ≤ len d) := by
  induction f with
  | zero =>
    constructor
    · intro d n _ h; simp [skipConfigFuel] at h
    · intro d i n _ h; simp [skipGroupFuel] at h
  | succ f ih =>
    constructor
    · intro d n hl h
      rw [skipConfigFuel] at h
      simp only at h
      split at h
      · cases hv : decodeVarint d 0 with
        | error e => rw [hv] at h; cases h
        | ok p =>
          obtain ⟨wire, i1⟩ := p
          rw [hv] at h
          have hb := decodeVarint_bound hl hv
          have hl' : len d < 2 ^ 63 := by simp only [len]; omega
          simp only [bind, Except.bind] at h
          split at h
          · cases hv2 : decodeVarint d i1 with
            | error e => rw [hv2] at h; cases h
            | ok q =>
              obtain ⟨v, i2⟩ := q
              rw [hv2] at h
              have hb2 := decodeVarint_bound hl hv2
              simp only [Except.ok.injEq] at h
              omega
          · split at h
            · simp only [Except.ok.injEq] at h
              subst h
              unfold addInt int64; omega
            · split at h
              · cases hv2 : decodeVarint d i1 with
                | error e => rw [hv2] at h; cases h
                | ok q =>
                  obtain ⟨L, i2⟩ := q
                  rw [hv2] at h
                  have hb2 := decodeVarint_bound hl hv2
                  simp only at h
                  split at h
                  · cases h
                  · split at h
                    · cases h
                    · rename_i hL hn
                      simp only [Except.ok.injEq] at h
                      subst h
                      unfold addInt int64 at hn ⊢
                      unfold int64 at hL
                      omega
              · split at h
                · have := ih.2 _ _ _ hl h
                  omega
                · split at h
                  · simp only [Except.ok.injEq] at h
                    omega
                  · split at h
                    · simp only [Except.ok.injEq] at h
                      subst h
                      unfold addInt int64; omega
                    · cases h
      · cases h
    · intro d i n hl h
      rw [skipGroupFuel] at h
      simp only [bind, Except.bind] at h
      cases hv : decodeVarint d i with
      | error e => rw [hv] at h; cases h
      | ok p =>
        obtain ⟨wire, i1⟩ := p
        rw [hv] at h
        have hb := decodeVarint_bound hl hv
        simp only at h
        split at h
        · simp only [Except.ok.injEq] at h
          omega
        · cases hs : sliceFrom d i with
          | error e => rw [hs] at h; cases h
          | ok sub =>
            rw [hs] at h
            simp only at h
            cases hk : skipConfigFuel f sub with
            | error e => rw [hk] at h; cases h
            | ok next =>
              rw [hk] at h
              simp only at h
              split at h
              · cases h
              · rename_i hneg
                obtain ⟨hs0, hs1, hsub⟩ := sliceFrom_eq_ok hs
                have hsl : sub.length < 2 ^ 63 := by
                  rw [hsub, List.length_drop]; omega
                have hsl' : len sub = len d - i := by
                  simp only [len] at hs1 ⊢
                  rw [hsub, List.length_drop]; omega
                have h1 := ih.1 sub next hsl hk
                have h2 := ih.2 _ _ _ hl h
                have hl' : len d < 2 ^ 63 := by simp only [len]; omega
                unfold addInt int64 at hneg h2
                omega

theorem skipFuel_append (f : Nat) :
    (∀ (d e : List Byte) (n : Int), skipConfigFuel f d = .ok n →
      skipConfigFuel f (d ++ e) = .ok n) ∧
    (∀ (d e : List Byte) (i n : Int), skipGroupFuel f d i = .ok n →
      skipGroupFuel f (d ++ e) i = .ok n) := by
  induction f with
  | zero =>
    constructor
    · intro d e n h; simp [skipConfigFuel] at h
    · intro d e i n h; simp [skipGroupFuel] at h
  | succ f ih =>
    constructor
    · intro d e n h
      rw [skipConfigFuel] at h ⊢
      simp only at h ⊢
      split at h
      · rename_i hlen
        have hlen' : (0 : Int) < len (d ++ e) := by
          simp only [len, List.length_append] at hlen ⊢; push_cast; omega
        rw [if_pos hlen']
        cases hv : decodeVarint d 0 with
        | error e => rw [hv] at h; cases h
        | ok p =>
          obtain ⟨wire, i1⟩ := p
          rw [hv] at h
          rw [decodeVarint_append e hv]
          simp only [bind, Except.bind] at h ⊢
          split at h
          · rename_i h0
            rw [if_pos h0]
            cases hv2 : decodeVarint d i1 with
            | error e => rw [hv2] at h; cases h
            | ok q =>
              rw [hv2] at h
              rw [decodeVarint_append e hv2]
              exact h
          · rename_i h0
            rw [if_neg h0]
            split at h
            · rename_i h1; rw [if_pos h1]; exact h
            · rename_i h1
              rw [if_neg h1]
              split at h
              · rename_i h2
                rw [if_pos h2]
                cases hv2 : decodeVarint d i1 with
                | error e => rw [hv2] at h; cases h
                | ok q =>
                  rw [hv2] at h
                  rw [decodeVarint_append e hv2]
                  exact h
              · rename_i h2
                rw [if_neg h2]
                split at h
                · rename_i h3
                  rw [if_pos h3]
                  exact ih.2 _ _ _ _ h
                · rename_i h3
                  rw [if_neg h3]
                  exact h
      · cases h
    · intro d e i n h
      rw [skipGroupFuel] at h ⊢
      simp only [bind, Except.bind] at h ⊢
      cases hv : decodeVarint d i with
      | error e => rw [hv] at h; cases h
      | ok p =>
        obtain ⟨wire, i1⟩ := p
        rw [hv] at h
        rw [decodeVarint_append e hv]
        simp only at h ⊢
        split at h
        · rename_i h4; rw [if_pos h4]; exact h
        · rename_i h4
          rw [if_neg h4]
          cases hs : sliceFrom d i with
          | error e => rw [hs] at h; cases h
          | ok sub =>
            rw [hs] at h
            obtain ⟨hs0, hs1, hsub⟩ := sliceFrom_eq_ok hs
            have hs' : sliceFrom (d ++ e) i = .ok (sub ++ e) := by
              rw [sliceFrom_of_le hs0 (by
                simp only [len, List.length_append] at hs1 ⊢; push_cast; omega)]
              rw [hsub, List.drop_append_of_le_length (by simp only [len] at hs1; omega)]
            rw [hs']
            simp only at h ⊢
            cases hk : skipConfigFuel f sub with
            | error e => rw [hk] at h; cases h
            | ok next =>
              rw [hk] at h
              rw [ih.1 _ e _ hk]
              simp only at h ⊢
              split at h
              · cases h
              · rename_i hneg
                rw [if_neg hneg]
                exact ih.2 _ _ _ _ h

theorem sliceFrom_take {d sub : List Byte} {i : Int} {k : Nat} (h : sliceFrom d i = .ok sub)
    (hk : i ≤ k) : sliceFrom (d.take k) i = .ok (sub.take (k - i.toNat)) := by
  obtain ⟨h0, h1, hsub⟩ := sliceFrom_eq_ok h
  rw [sliceFrom_of_le h0 (by simp only [len, List.length_take] at h1 ⊢; omega), hsub,
    List.drop_take]

theorem skipConfigFuel_tag {f : Nat} {d : List Byte} {n : Int} (hl : d.length < 2 ^ 63)
    (h : skipConfigFuel f d = .ok n) (hn0 : 0 ≤ n) :
    ∃ wire i1, decodeVarint d 0 = .ok (wire, i1) ∧ i1 ≤ n := by
  cases f with
  | zero => simp [skipConfigFuel] at h
  | succ f =>
    rw [skipConfigFuel] at h
    simp only at h
    split at h
    · cases hv : decodeVarint d 0 with
      | error e => rw [hv] at h; cases h
      | ok p =>
        obtain ⟨wire, i1⟩ := p
        rw [hv] at h
        have hb := decodeVarint_bound hl hv
        have hl' : len d < 2 ^ 63 := by simp only [len]; omega
        simp only [bind, Except.bind] at h
        refine ⟨wire, i1, rfl, ?_⟩
        split at h
        · cases hv2 : decodeVarint d i1 with
          | error e => rw [hv2] at h; cases h
          | ok q =>
            obtain ⟨v, i2⟩ := q
            rw [hv2] at h
            have hb2 := decodeVarint_bound hl hv2
            simp only [Except.ok.injEq] at h
            omega
        · split at h
          · simp only [Except.ok.injEq] at h
            subst h
            unfold addInt int64 at hn0 ⊢; omega
          · split at h
            · cases hv2 : decodeVarint d i1 with
              | error e => rw [hv2] at h; cases h
              | ok q =>
                obtain ⟨L, i2⟩ := q
                rw [hv2] at h
                have hb2 := decodeVarint_bound hl hv2
                simp only at h
                split at h
                · cases h
                · split at h
                  · cases h
                  · rename_i hL hn
                    simp only [Except.ok.injEq] at h
                    subst h
                    unfold addInt int64 at hn ⊢
                    unfold int64 at hL
                    omega
            · split at h
              · have := (skipFuel_bound f).2 _ _ _ hl h
                omega
              · split at h
                · simp only [Except.ok.injEq] at h
                  omega
                · split at h
                  · simp only [Except.ok.injEq] at h
                    subst h
                    unfold addInt int64 at hn0 ⊢; omega
                  · cases h
    · cases h

theorem decodeVarint_drop {d : List Byte} {i : Int} (h0 : 0 ≤ i) (h1 : i ≤ len d)
    (hl : d.length < 2 ^ 63) :
    decodeVarint d i = shiftResult i.toNat (decodeVarint (d.drop i.toNat) 0) := by
  have := decodeVarint_shift (d.take i.toNat) (d.drop i.toNat) (le_refl 0)
    (by rw [List.take_append_drop]; exact hl)
  rw [List.take_append_drop, List.length_take] at this
  simp only [len] at h1
  have e : ((min i.toNat d.length : Nat) : Int) + 0 = i := by omega
  have e' : min i.toNat d.length = i.toNat := by omega
  rw [e, e'] at this
  exact this

theorem skipFuel_take (f : Nat) :
    (∀ (d : List Byte) (n : Int) (k : Nat), d.length < 2 ^ 63 → skipConfigFuel f d = .ok n →
      0 ≤ n → n ≤ k → skipConfigFuel f (d.take k) = .ok n) ∧
    (∀ (d : List Byte) (i n : Int) (k : Nat), d.length < 2 ^ 63 →
      skipGroupFuel f d i = .ok n → n ≤ k → skipGroupFuel f (d.take k) i = .ok n) := by
  induction f with
  | zero =>
    constructor
    · intro d n k _ h; simp [skipConfigFuel] at h
    · intro d i n k _ h; simp [skipGroupFuel] at h
  | succ f ih =>
    constructor
    · intro d n k hl h hn0 hnk
      have hbnd := (skipFuel_bound (f + 1)).1 d n hl h
      rw [skipConfigFuel] at h ⊢
      simp only at h ⊢
      split at h
      · rename_i hlen
        cases hv : decodeVarint d 0 with
        | error e => rw [hv] at h; cases h
        | ok p =>
          obtain ⟨wire, i1⟩ := p
          rw [hv] at h
          have hb := decodeVarint_bound hl hv
          have hl' : len d < 2 ^ 63 := by simp only [len]; omega
          simp only [bind, Except.bind] at h ⊢
          have hi1k : i1 ≤ k := by
            obtain ⟨w', j1, hv', hj⟩ := skipConfigFuel_tag hl
              (show skipConfigFuel (f + 1) d = .ok n by
                rw [skipConfigFuel]; simp only [bind, Except.bind]; rw [if_pos hlen, hv]; exact h) hn0
            rw [hv] at hv'
            simp only [Except.ok.injEq, Prod.mk.injEq] at hv'
            omega
          have hlen' : (0 : Int) < len (d.take k) := by
            simp only [len, List.length_take] at hlen ⊢; omega
          rw [if_pos hlen', decodeVarint_take hl hv hi1k]
          simp only
          split at h
          · rename_i h0
            rw [if_pos h0]
            cases hv2 : decodeVarint d i1 with
            | error e => rw [hv2] at h; cases h
            | ok q =>
              obtain ⟨v, i2⟩ := q
              rw [hv2] at h
              simp only [Except.ok.injEq] at h
              subst h
              rw [decodeVarint_take hl hv2 hnk]
          · rename_i h0
            rw [if_neg h0]
            split at h
            · rename_i h1; rw [if_pos h1]; exact h
            · rename_i h1
              rw [if_neg h1]
              split at h
              · rename_i h2
                rw [if_pos h2]
                cases hv2 : decodeVarint d i1 with
                | error e => rw [hv2] at h; cases h
                | ok q =>
                  obtain ⟨L, i2⟩ := q
                  rw [hv2] at h
                  have hb2 := decodeVarint_bound hl hv2
                  have hi2k : i2 ≤ k := by
                    simp only at h
                    split at h
                    · cases h
                    · split at h
                      · cases h
                      · rename_i hL hn
                        simp only [Except.ok.injEq] at h
                        subst h
                        unfold addInt int64 at hn hnk
                        unfold int64 at hL
                        omega
                  rw [decodeVarint_take hl hv2 hi2k]
                  exact h
              · rename_i h2
                rw [if_neg h2]
                split at h
                · rename_i h3
                  rw [if_pos h3]
                  exact ih.2 _ _ _ _ hl h hnk
                · rename_i h3
                  rw [if_neg h3]
                  exact h
      · cases h
    · intro d i n k hl h hnk
      have hbnd := (skipFuel_bound (f + 1)).2 d i n hl h
      rw [skipGroupFuel] at h ⊢
      simp only [bind, Except.bind] at h ⊢
      cases hv : decodeVarint d i with
      | error e => rw [hv] at h; cases h
      | ok p =>
        obtain ⟨wire, i1⟩ := p
        rw [hv] at h
        have hb := decodeVarint_bound hl hv
        simp only at h ⊢
        split at h
        · rename_i h4
          simp only [Except.ok.injEq] at h
          subst h
          rw [decodeVarint_take hl hv hnk]
          simp only
          rw [if_pos h4]
        · rename_i h4
          cases hs : sliceFrom d i with
          | error e => rw [hs] at h; cases h
          | ok sub =>
            rw [hs] at h
            simp only at h
            cases hk : skipConfigFuel f sub with
            | error e => rw [hk] at h; cases h
            | ok next =>
              rw [hk] at h
              simp only at h
              split at h
              · cases h
              · rename_i hneg
                obtain ⟨hs0, hs1, hsub⟩ := sliceFrom_eq_ok hs
                have hsl : sub.length < 2 ^ 63 := by
                  rw [hsub, List.length_drop]; omega
                have hsl' : len sub = len d - i := by
                  simp only [len] at hs1 ⊢
                  rw [hsub, List.length_drop]; omega
                have h1 := (skipFuel_bound f).1 sub next hsl hk
                have h2 := (skipFuel_bound f).2 _ _ _ hl h
                have hl' : len d < 2 ^ 63 := by simp only [len]; omega
                have hadd : addInt i next = i + next := by
                  unfold addInt int64 at hneg h2 ⊢
                  omega
                rw [hadd] at h hneg h2
                have hi1k : i1 ≤ k := by
                  obtain ⟨w', j1, hv', hj⟩ := skipConfigFuel_tag hsl hk (by omega)
                  have hd := decodeVarint_drop hs0 hs1 hl
                  rw [← hsub, hv', hv] at hd
                  simp only [shiftResult, Except.ok.injEq, Prod.mk.injEq] at hd
                  omega
                rw [decodeVarint_take hl hv hi1k]
                simp only
                rw [if_neg h4, sliceFrom_take hs (by omega)]
                simp only
                rw [ih.1 sub next (k - i.toNat) hsl hk (by omega) (by omega)]
                simp only
                rw [hadd, if_neg hneg]
                exact ih.2 _ _ _ _ hl h hnk

theorem decodeVarintLoop_ne_outOfFuel (f : Nat) :
    ∀ (d : List Byte) (i : Int) (shift acc : Nat), 1 ≤ f → 64 ≤ shift + 7 * (f - 1) →
      decodeVarintLoop f d i shift acc ≠ .error .outOfFuel := by
  induction f with
  | zero => intro d i shift acc h; omega
  | succ f ih =>
    intro d i shift acc _ hs
    unfold decodeVarintLoop
    split
    · simp
    · split
      · simp
      · cases hb : index d i with
        | error e =>
          simp only [bind, Except.bind]
          unfold index at hb
          split at hb
          · split at hb
            · cases hb
            · simp only [Except.error.injEq] at hb; subst hb; simp
          · simp only [Except.error.injEq] at hb; subst hb; simp
        | ok b =>
          simp only [bind, Except.bind]
          split
          · simp
          · exact ih _ _ _ _ (by omega) (by omega)

theorem decodeVarint_ne_outOfFuel (d : List Byte) (i : Int) :
    decodeVarint d i ≠ .error .outOfFuel :=
  decodeVarintLoop_ne_outOfFuel _ _ _ _ _ (by decide) (by decide)

theorem sliceFrom_ne_outOfFuel (d : List Byte) (i : Int) :
    sliceFrom d i ≠ .error .outOfFuel := by
  unfold sliceFrom slice
  split <;> simp

theorem skipFuel_suff (f : Nat) :
    (∀ (d : List Byte), d.length < 2 ^ 63 → 1 ≤ f → 2 * d.length ≤ f →
      skipConfigFuel f d ≠ .error .outOfFuel) ∧
    (∀ (d : List Byte) (i : Int), d.length < 2 ^ 63 → 1 ≤ f → 2 * (len d - i) + 1 ≤ f →
      skipGroupFuel f d i ≠ .error .outOfFuel) := by
  induction f with
  | zero =>
    constructor
    · intro d _ h; omega
    · intro d i _ h; omega
  | succ f ih =>
    constructor
    · intro d hl _ hf
      rw [skipConfigFuel]
      simp only
      split
      · rename_i hlen
        cases hv : decodeVarint d 0 with
        | error e =>
          simp only [bind, Except.bind]
          intro h
          simp only [Except.error.injEq] at h
          subst h
          exact decodeVarint_ne_outOfFuel _ _ hv
        | ok p =>
          obtain ⟨wire, i1⟩ := p
          have hb := decodeVarint_bound hl hv
          simp only [bind, Except.bind]
          split
          · cases hv2 : decodeVarint d i1 with
            | error e =>
              simp only
              intro h
              simp only [Except.error.injEq] at h
              subst h
              exact decodeVarint_ne_outOfFuel _ _ hv2
            | ok q => simp
          · split
            · simp
            · split
              · cases hv2 : decodeVarint d i1 with
                | error e =>
                  simp only
                  intro h
                  simp only [Except.error.injEq] at h
                  subst h
                  exact decodeVarint_ne_outOfFuel _ _ hv2
                | ok q =>
                  simp only
                  split
                  · simp
                  · split <;> simp
              · split
                · simp only [len] at hb hlen ⊢
                  exact ih.2 d i1 hl (by omega) (by simp only [len]; omega)
                · split
                  · simp
                  · split <;> simp
      · simp
    · intro d i hl _ hf
      rw [skipGroupFuel]
      simp only [bind, Except.bind]
      cases hv : decodeVarint d i with
      | error e =>
        simp only
        intro h
        simp only [Except.error.injEq] at h
        subst h
        exact decodeVarint_ne_outOfFuel _ _ hv
      | ok p =>
        obtain ⟨wire, i1⟩ := p
        have hb := decodeVarint_bound hl hv
        simp only
        split
        · simp
        · cases hs : sliceFrom d i with
          | error e =>
            simp only
            intro h
            simp only [Except.error.injEq] at h
            subst h
            exact sliceFrom_ne_outOfFuel _ _ hs
          | ok sub =>
            simp only
            obtain ⟨hs0, hs1, hsub⟩ := sliceFrom_eq_ok hs
            have hsl : sub.length < 2 ^ 63 := by
              rw [hsub, List.length_drop]; omega
            have hsl' : len sub = len d - i := by
              simp only [len] at hs1 ⊢
              rw [hsub, List.length_drop]; omega
            have hsub_ne := ih.1 sub hsl (by simp only [len] at hsl' hb hf; omega) (by simp only [len] at hsl' hb hf; omega)
            cases hk : skipConfigFuel f sub with
            | error e =>
              simp only
              intro h
              simp only [Except.error.injEq] at h
              subst h
              exact hsub_ne hk
            | ok next =>
              simp only
              split
              · simp
              · rename_i hneg
                have h1 := (skipFuel_bound f).1 sub next hsl hk
                have hl' : len d < 2 ^ 63 := by simp only [len]; omega
                have hadd : addInt i next = i + next := by
                  unfold addInt int64 at hneg ⊢
                  omega
                rw [hadd] at hneg ⊢
                exact ih.2 d (i + next) hl (by omega) (by omega)

theorem skipConfig_ne_outOfFuel {d : List Byte} (hl : d.length < 2 ^ 63) :
    skipConfig d ≠ .error .outOfFuel :=
  (skipFuel_suff _).1 d hl (by omega) (by omega)

theorem skipConfig_append {d : List Byte} {n : Int} (e : List Byte) (h : skipConfig d = .ok n) :
    skipConfig (d ++ e) = .ok n := by
  unfold skipConfig at h ⊢
  have h1 := (skipFuel_append _).1 d e n h
  exact (skipFuel_mono_le (by simp only [List.length_append]; omega)).1 _ _ h1 (by simp)

theorem skipConfig_take {d : List Byte} {n : Int} {k : Nat} (hl : d.length < 2 ^ 63)
    (h : skipConfig d = .ok n) (hn0 : 0 ≤ n) (hnk : n ≤ k) :
    skipConfig (d.take k) = .ok n := by
  unfold skipConfig at h
  have h1 := (skipFuel_take _).1 d n k hl h hn0 hnk
  have hl' : (d.take k).length < 2 ^ 63 := by rw [List.length_take]; omega
  have h2 := skipConfig_ne_outOfFuel hl'
  have h3 := (skipFuel_mono_le (f := 2 * (d.take k).length + 1) (g := 2 * d.length + 1)
    (by rw [List.length_take]; omega)).1 _ _ rfl h2
  unfold skipConfig
  rw [← h3]; exact h1

/-! ## Slices, length prefixes and skipped fields: frame properties -/

theorem bind_ok {α β : Type} (a : α) (f : α → Except Err β) :
    (Except.ok a >>= f) = f a := rfl

theorem bind_error {α β : Type} (e : Err) (f : α → Except Err β) :
    ((Except.error e : Except Err α) >>= f) = Except.error e := rfl

theorem slice_eq_ok {d s : List Byte} {lo hi : Int} (h : slice d lo hi = .ok s) :
    0 ≤ lo ∧ lo ≤ hi ∧ hi ≤ len d ∧ s = (d.take hi.toNat).drop lo.toNat := by
  unfold slice at h
  split at h
  · rename_i hc
    simp only [Except.ok.injEq] at h
    exact ⟨hc.1, hc.2.1, hc.2.2, h.symm⟩
  · cases h

theorem slice_of_le {d : List Byte} {lo hi : Int} (h0 : 0 ≤ lo) (h1 : lo ≤ hi)
    (h2 : hi ≤ len d) : slice d lo hi = .ok ((d.take hi.toNat).drop lo.toNat) := by
  unfold slice
  rw [if_pos ⟨h0, h1, h2⟩]

theorem slice_append_left {d s : List Byte} {lo hi : Int} (e : List Byte)
    (h : slice d lo hi = .ok s) : slice (d ++ e) lo hi = .ok s := by
  obtain ⟨h0, h1, h2, hs⟩ := slice_eq_ok h
  rw [slice_of_le h0 h1 (by simp only [len, List.length_append] at h2 ⊢; push_cast; omega), hs,
    List.take_append_of_le_length (by simp only [len] at h2; omega)]

theorem slice_shift (a : List Byte) {b s : List Byte} {lo hi : Int}
    (h : slice b lo hi = .ok s) :
    slice (a ++ b) ((a.length : Int) + lo) ((a.length : Int) + hi) = .ok s := by
  obtain ⟨h0, h1, h2, hs⟩ := slice_eq_ok h
  rw [slice_of_le (by omega) (by omega)
    (by simp only [len, List.length_append] at h2 ⊢; push_cast; omega), hs]
  have e1 : ((a.length : Int) + hi).toNat = a.length + hi.toNat := by omega
  have e2 : ((a.length : Int) + lo).toNat = a.length + lo.toNat := by omega
  rw [e1, e2, List.take_append, List.drop_append]

theorem slice_length {d s : List Byte} {lo hi : Int} (h : slice d lo hi = .ok s) :
    (s.length : Int) = hi - lo := by
  obtain ⟨h0, h1, h2, hs⟩ := slice_eq_ok h
  simp only [len] at h2
  rw [hs, List.length_drop, List.length_take]
  omega

theorem decodeLength_eq_ok {d : List Byte} {i i1 post : Int}
    (h : decodeLength d i = .ok (i1, post)) :
    ∃ L, decodeVarint d i = .ok (L, i1) ∧ ¬ int64 L < 0 ∧ post = addInt i1 (int64 L)
      ∧ ¬ post < 0 ∧ ¬ post > len d := by
  unfold decodeLength at h
  cases hv : decodeVarint d i with
  | error e => rw [hv] at h; cases h
  | ok p =>
    obtain ⟨L, j⟩ := p
    rw [hv, bind_ok] at h
    dsimp only at h
    split at h
    · cases h
    · split at h
      · cases h
      · split at h
        · cases h
        · rename_i hL hn hg
          simp only [Except.ok.injEq, Prod.mk.injEq] at h
          obtain ⟨rfl, rfl⟩ := h
          exact ⟨L, rfl, hL, rfl, hn, hg⟩

theorem decodeLength_of {d : List Byte} {i i1 : Int} {L : Nat}
    (hv : decodeVarint d i = .ok (L, i1)) (hL : ¬ int64 L < 0)
    (hn : ¬ addInt i1 (int64 L) < 0) (hg : ¬ addInt i1 (int64 L) > len d) :
    decodeLength d i = .ok (i1, addInt i1 (int64 L)) := by
  unfold decodeLength
  rw [hv, bind_ok]
  dsimp only
  rw [if_neg hL, if_neg hn, if_neg hg]

theorem decodeLength_bound {d : List Byte} {i i1 post : Int} (hl : d.length < 2 ^ 63)
    (h : decodeLength d i = .ok (i1, post)) :
    0 ≤ i ∧ i < i1 ∧ i1 ≤ post ∧ post ≤ len d := by
  obtain ⟨L, hv, hL, hp, hn, hg⟩ := decodeLength_eq_ok h
  have hb := decodeVarint_bound hl hv
  have hl' : len d < 2 ^ 63 := by simp only [len]; omega
  subst hp
  unfold addInt int64 at hn hg ⊢
  unfold int64 at hL
  omega

theorem decodeLength_append {d : List Byte} {i i1 post : Int} (e : List Byte)
    (h : decodeLength d i = .ok (i1, post)) : decodeLength (d ++ e) i = .ok (i1, post) := by
  obtain ⟨L, hv, hL, hp, hn, hg⟩ := decodeLength_eq_ok h
  subst hp
  exact decodeLength_of (decodeVarint_append e hv) hL hn (by
    simp only [len, List.length_append] at hg ⊢; push_cast; omega)

theorem decodeLength_shift (a : List Byte) {b : List Byte} {j j1 post : Int}
    (hl : (a ++ b).length < 2 ^ 63) (h : decodeLength b j = .ok (j1, post)) :
    decodeLength (a ++ b) ((a.length : Int) + j)
      = .ok ((a.length : Int) + j1, (a.length : Int) + post) := by
  have hlb : b.length < 2 ^ 63 := by simp only [List.length_append] at hl; omega
  have hbd := decodeLength_bound hlb h
  obtain ⟨L, hv, hL, hp, hn, hg⟩ := decodeLength_eq_ok h
  have hs := decodeVarint_shift a b hbd.1 hl
  rw [hv] at hs
  simp only [shiftResult] at hs
  simp only [List.length_append] at hl
  have hadd : addInt ((a.length : Int) + j1) (int64 L) = (a.length : Int) + post := by
    subst hp
    simp only [len] at hg
    unfold addInt int64 at hn hg ⊢
    unfold int64 at hL
    omega
  have := decodeLength_of hs hL (by rw [hadd]; omega) (by
    rw [hadd]; simp only [len, List.length_append] at hg ⊢; push_cast; omega)
  rw [hadd] at this
  exact this

theorem skipField_eq_ok {d span : List Byte} {i i' : Int}
    (h : skipField d i = .ok (i', span)) :
    ∃ sub skippy, sliceFrom d i = .ok sub ∧ skipConfig sub = .ok skippy ∧ ¬ skippy < 0
      ∧ i' = addInt i skippy ∧ ¬ i' < 0 ∧ ¬ i' > len d ∧ slice d i i' = .ok span := by
  unfold skipField at h
  dsimp only at h
  cases hs : sliceFrom d i with
  | error e => rw [hs] at h; cases h
  | ok sub =>
    rw [hs, bind_ok] at h
    cases hk : skipConfig sub with
    | error e => rw [hk] at h; cases h
    | ok skippy =>
      rw [hk, bind_ok] at h
      split at h
      · cases h
      · split at h
        · cases h
        · split at h
          · cases h
          · rename_i h1 h2 h3
            cases hsl : slice d i (addInt i skippy) with
            | error e => rw [hsl] at h; cases h
            | ok sp =>
              rw [hsl, bind_ok] at h
              injection h with h
              injection h with ha hb
              subst ha hb
              exact ⟨sub, skippy, rfl, hk, h1, rfl, h2, h3, hsl⟩

theorem skipField_of {d sub span : List Byte} {i skippy : Int}
    (hs : sliceFrom d i = .ok sub) (hk : skipConfig sub = .ok skippy) (h1 : ¬ skippy < 0)
    (h2 : ¬ addInt i skippy < 0) (h3 : ¬ addInt i skippy > len d)
    (hsl : slice d i (addInt i skippy) = .ok span) :
    skipField d i = .ok (addInt i skippy, span) := by
  unfold skipField
  dsimp only
  rw [hs, bind_ok, hk, bind_ok]
  rw [if_neg h1, if_neg h2, if_neg h3, hsl, bind_ok]

theorem skipField_bound {d span : List Byte} {i i' : Int} (hl : d.length < 2 ^ 63)
    (h : skipField d i = .ok (i', span)) :
    0 ≤ i ∧ i < i' ∧ i' ≤ len d ∧ (span.length : Int) = i' - i := by
  obtain ⟨sub, skippy, hs, hk, h1, rfl, h2, h3, hsl⟩ := skipField_eq_ok h
  obtain ⟨hs0, hs1, hsub⟩ := sliceFrom_eq_ok hs
  have hsl' : sub.length < 2 ^ 63 := by rw [hsub, List.length_drop]; omega
  have hb := (skipFuel_bound _).1 sub skippy hsl' hk
  have hlen := slice_length hsl
  simp only [len] at hb h3 hs1 ⊢
  have hsl2 : (sub.length : Int) = d.length - i := by
    rw [hsub, List.length_drop]; omega
  refine ⟨hs0, ?_, by omega, hlen⟩
  unfold addInt int64 at h2 h3 ⊢
  omega

theorem skipField_append {d span : List Byte} {i i' : Int} (e : List Byte)
    (h : skipField d i = .ok (i', span)) : skipField (d ++ e) i = .ok (i', span) := by
  obtain ⟨sub, skippy, hs, hk, h1, rfl, h2, h3, hsl⟩ := skipField_eq_ok h
  obtain ⟨hs0, hs1, hsub⟩ := sliceFrom_eq_ok hs
  have hs' : sliceFrom (d ++ e) i = .ok (sub ++ e) := by
    rw [sliceFrom_of_le hs0 (by
      simp only [len, List.length_append] at hs1 ⊢; push_cast; omega)]
    rw [hsub, List.drop_append_of_le_length (by simp only [len] at hs1; omega)]
  exact skipField_of hs' (skipConfig_append e hk) h1 h2 (by
    simp only [len, List.length_append] at h3 ⊢; push_cast; omega) (slice_append_left e hsl)

theorem skipField_shift (a : List Byte) {b span : List Byte} {j j' : Int}
    (hl : (a ++ b).length < 2 ^ 63) (h : skipField b j = .ok (j', span)) :
    skipField (a ++ b) ((a.length : Int) + j) = .ok ((a.length : Int) + j', span) := by
  have hlb : b.length < 2 ^ 63 := by simp only [List.length_append] at hl; omega
  have hbd := skipField_bound hlb h
  obtain ⟨sub, skippy, hs, hk, h1, rfl, h2, h3, hsl⟩ := skipField_eq_ok h
  obtain ⟨hs0, hs1, hsub⟩ := sliceFrom_eq_ok hs
  simp only [List.length_append] at hl
  have hs' : sliceFrom (a ++ b) ((a.length : Int) + j) = .ok sub := by
    rw [sliceFrom_of_le (by omega) (by
      simp only [len, List.length_append] at hs1 ⊢; push_cast; omega)]
    have e1 : ((a.length : Int) + j).toNat = a.length + j.toNat := by omega
    rw [e1, List.drop_append, hsub]
  have hadd : addInt ((a.length : Int) + j) skippy = (a.length : Int) + addInt j skippy := by
    simp only [len] at hbd h3
    unfold addInt int64 at h2 h3 hbd ⊢
    omega
  have := skipField_of hs' hk h1 (by rw [hadd]; omega) (by
    rw [hadd]; simp only [len, List.length_append] at h3 ⊢; push_cast; omega)
    (by rw [hadd]; exact slice_shift a hsl)
  rw [hadd] at this
  exact this

/-! ## One field of `Unmarshal` -/

theorem readString_ok {α : Type} {d : List Byte} {i1 i' : Int} {r : α} (k : List Byte → α)
    (h : (do
      let (iNdEx, postIndex) ← decodeLength d i1
      let s ← slice d iNdEx postIndex
      Except.ok (k s, postIndex)) = (Except.ok (r, i') : Except Err (α × Int))) :
    ∃ s, ReadsBytes d i1 i' s ∧ r = k s := by
  cases hd : decodeLength d i1 with
  | error e => rw [hd] at h; cases h
  | ok p =>
    obtain ⟨i2, post⟩ := p
    rw [hd, bind_ok] at h
    dsimp only at h
    cases hs : slice d i2 post with
    | error e => rw [hs] at h; cases h
    | ok s =>
      rw [hs, bind_ok] at h
      injection h with h
      injection h with h1 h2
      subst h1 h2
      exact ⟨s, ⟨i2, hd, hs⟩, rfl⟩

theorem readString_of {α : Type} {d s : List Byte} {i1 i' : Int} (k : List Byte → α)
    (h : ReadsBytes d i1 i' s) :
    (do
      let (iNdEx, postIndex) ← decodeLength d i1
      let s ← slice d iNdEx postIndex
      Except.ok (k s, postIndex)) = (Except.ok (k s, i') : Except Err (α × Int)) := by
  obtain ⟨i2, hd, hs⟩ := h
  rw [hd, bind_ok]
  dsimp only
  rw [hs, bind_ok]

theorem ConfigV1_UnmarshalField_ok_iff (m : ConfigV1) (d : List Byte) (i : Int)
    (m' : ConfigV1) (i' : Int) :
    m.UnmarshalField d i = .ok (m', i') ↔ ConfigV1.FieldOk m d i m' i' := by
  constructor
  · intro h
    unfold ConfigV1.UnmarshalField at h
    dsimp only at h
    cases hv : decodeVarint d i with
    | error e => rw [hv] at h; cases h
    | ok p =>
      obtain ⟨wire, i1⟩ := p
      rw [hv, bind_ok] at h
      dsimp only at h
      refine ⟨wire, i1, hv, ?_⟩
      unfold wireTypeOf fieldNumOf
      split at h
      · cases h
      · rename_i h4
        split at h
        · cases h
        · rename_i hpos
          refine ⟨h4, not_le.mp hpos, ?_⟩
          split at h
          · rename_i hf1
            split at h
            · cases h
            · rename_i hw
              exact Or.inl ⟨hf1, not_not.mp hw, readString_ok _ h⟩
          · rename_i hf1
            split at h
            · rename_i hf2
              split at h
              · cases h
              · rename_i hw
                exact Or.inr (Or.inl ⟨hf2, not_not.mp hw, readString_ok _ h⟩)
            · rename_i hf2
              split at h
              · rename_i hf3
                split at h
                · cases h
                · rename_i hw
                  exact Or.inr (Or.inr (Or.inl ⟨hf3, not_not.mp hw, readString_ok _ h⟩))
              · rename_i hf3
                refine Or.inr (Or.inr (Or.inr ⟨hf1, hf2, hf3, ?_⟩))
                cases hs : skipField d i with
                | error e => rw [hs] at h; cases h
                | ok q =>
                  obtain ⟨j, span⟩ := q
                  rw [hs, bind_ok] at h
                  injection h with h
                  injection h with h1 h2
                  subst h1 h2
                  exact ⟨span, rfl, rfl⟩
  · rintro ⟨wire, i1, hv, h4, hpos, hc⟩
    unfold wireTypeOf at h4 hc
    unfold fieldNumOf at hpos hc
    unfold ConfigV1.UnmarshalField
    dsimp only
    rw [hv, bind_ok]
    dsimp only
    rw [if_neg h4, if_neg (not_le.mpr hpos)]
    rcases hc with ⟨hf, hw, s, hr, rfl⟩ | ⟨hf, hw, s, hr, rfl⟩ | ⟨hf, hw, s, hr, rfl⟩
      | ⟨hf1, hf2, hf3, span, hs, rfl⟩
    · rw [if_pos hf, if_neg (not_not.mpr hw)]
      exact readString_of _ hr
    · have hf1 : ¬ int32 (wire >>> 3) = 1 := by omega
      rw [if_neg hf1, if_pos hf, if_neg (not_not.mpr hw)]
      exact readString_of _ hr
    · have hf1 : ¬ int32 (wire >>> 3) = 1 := by omega
      have hf2 : ¬ int32 (wire >>> 3) = 2 := by omega
      rw [if_neg hf1, if_neg hf2, if_pos hf, if_neg (not_not.mpr hw)]
      exact readString_of _ hr
    · rw [if_neg hf1, if_neg hf2, if_neg hf3, hs, bind_ok]

theorem ReadsBytes_bound {d s : List Byte} {i1 post : Int} (hl : d.length < 2 ^ 63)
    (h : ReadsBytes d i1 post s) : 0 ≤ i1 ∧ i1 < post ∧ post ≤ len d := by
  obtain ⟨i2, hd, _⟩ := h
  have := decodeLength_bound hl hd
  omega

theorem ReadsBytes_append {d s : List Byte} {i1 post : Int} (e : List Byte)
    (h : ReadsBytes d i1 post s) : ReadsBytes (d ++ e) i1 post s := by
  obtain ⟨i2, hd, hs⟩ := h
  exact ⟨i2, decodeLength_append e hd, slice_append_left e hs⟩

theorem ReadsBytes_shift (a : List Byte) {b s : List Byte} {j1 post : Int}
    (hl : (a ++ b).length < 2 ^ 63) (h : ReadsBytes b j1 post s) :
    ReadsBytes (a ++ b) ((a.length : Int) + j1) ((a.length : Int) + post) s := by
  obtain ⟨i2, hd, hs⟩ := h
  exact ⟨(a.length : Int) + i2, decodeLength_shift a hl hd, slice_shift a hs⟩

theorem ConfigV1_FieldOk_bound {m m' : ConfigV1} {d : List Byte} {i i' : Int}
    (hl : d.length < 2 ^ 63) (h : ConfigV1.FieldOk m d i m' i') :
    0 ≤ i ∧ i < i' ∧ i' ≤ len d := by
  obtain ⟨wire, i1, hv, _, _, hc⟩ := h
  have hb := decodeVarint_bound hl hv
  rcases hc with ⟨_, _, s, hr, _⟩ | ⟨_, _, s, hr, _⟩ | ⟨_, _, s, hr, _⟩ | ⟨_, _, _, span, hs, _⟩
  · have := ReadsBytes_bound hl hr; omega
  · have := ReadsBytes_bound hl hr; omega
  · have := ReadsBytes_bound hl hr; omega
  · have := skipField_bound hl hs; omega

theorem ConfigV1_FieldOk_append {m m' : ConfigV1} {d : List Byte} {i i' : Int}
    (e : List Byte) (h : ConfigV1.FieldOk m d i m' i') :
    ConfigV1.FieldOk m (d ++ e) i m' i' := by
  obtain ⟨wire, i1, hv, h4, hpos, hc⟩ := h
  refine ⟨wire, i1, decodeVarint_append e hv, h4, hpos, ?_⟩
  rcases hc with ⟨hf, hw, s, hr, hm⟩ | ⟨hf, hw, s, hr, hm⟩ | ⟨hf, hw, s, hr, hm⟩
    | ⟨hf1, hf2, hf3, span, hs, hm⟩
  · exact Or.inl ⟨hf, hw, s, ReadsBytes_append e hr, hm⟩
  · exact Or.inr (Or.inl ⟨hf, hw, s, ReadsBytes_append e hr, hm⟩)
  · exact Or.inr (Or.inr (Or.inl ⟨hf, hw, s, ReadsBytes_append e hr, hm⟩))
  · exact Or.inr (Or.inr (Or.inr ⟨hf1, hf2, hf3, span, skipField_append e hs, hm⟩))

theorem ConfigV1_FieldOk_shift {m m' : ConfigV1} (a : List Byte) {b : List Byte} {j j' : Int}
    (hl : (a ++ b).length < 2 ^ 63) (h : ConfigV1.FieldOk m b j m' j') :
    ConfigV1.FieldOk m (a ++ b) ((a.length : Int) + j) m' ((a.length : Int) + j') := by
  have hlb : b.length < 2 ^ 63 := by simp only [List.length_append] at hl; omega
  have hbd := ConfigV1_FieldOk_bound hlb h
  obtain ⟨wire, i1, hv, h4, hpos, hc⟩ := h
  have hs := decodeVarint_shift a b hbd.1 hl
  rw [hv] at hs
  simp only [shiftResult] at hs
  refine ⟨wire, (a.length : Int) + i1, hs, h4, hpos, ?_⟩
  rcases hc with ⟨hf, hw, s, hr, hm⟩ | ⟨hf, hw, s, hr, hm⟩ | ⟨hf, hw, s, hr, hm⟩
    | ⟨hf1, hf2, hf3, span, hs, hm⟩
  · exact Or.inl ⟨hf, hw, s, ReadsBytes_shift a hl hr, hm⟩
  · exact Or.inr (Or.inl ⟨hf, hw, s, ReadsBytes_shift a hl hr, hm⟩)
  · exact Or.inr (Or.inr (Or.inl ⟨hf, hw, s, ReadsBytes_shift a hl hr, hm⟩))
  · exact Or.inr (Or.inr (Or.inr ⟨hf1, hf2, hf3, span, skipField_shift a hl hs, hm⟩))

/-! ## The decode loop, for either message -/

theorem ConfigV1_UnmarshalLoop_eq (f : Nat) :
    ∀ (m : ConfigV1) (d : List Byte) (i : Int),
      ConfigV1.UnmarshalLoop f m d i = unmarshalLoop ConfigV1.UnmarshalField f m d i := by
  induction f with
  | zero => intro m d i; rfl
  | succ f ih =>
    intro m d i
    unfold ConfigV1.UnmarshalLoop unmarshalLoop
    split
    · cases hs : m.UnmarshalField d i with
      | error e => rfl
      | ok p =>
        obtain ⟨m', i'⟩ := p
        rw [bind_ok]
        exact ih m' d i'
    · rfl

theorem ConfigV1_stepFrame : StepFrame ConfigV1.UnmarshalField where
  bound := fun m m' d i i' hl h =>
    ConfigV1_FieldOk_bound hl ((ConfigV1_UnmarshalField_ok_iff m d i m' i').mp h)
  append := fun m d e i r h =>
    (ConfigV1_UnmarshalField_ok_iff m (d ++ e) i r.1 r.2).mpr
      (ConfigV1_FieldOk_append e ((ConfigV1_UnmarshalField_ok_iff m d i r.1 r.2).mp h))
  shift := fun m m' a b j j' hl h =>
    (ConfigV1_UnmarshalField_ok_iff m (a ++ b) _ m' _).mpr
      (ConfigV1_FieldOk_shift a hl ((ConfigV1_UnmarshalField_ok_iff m b j m' j').mp h))

theorem unmarshalLoop_mono {α : Type} (step : α → List Byte → Int → Except Err (α × Int))
    (f : Nat) : ∀ (m : α) (d : List Byte) (i : Int) (r : Except Err α) (k : Nat),
      unmarshalLoop step f m d i = r → r ≠ .error .outOfFuel →
      unmarshalLoop step (f + k) m d i = r := by
  induction f with
  | zero => intro m d i r k h hr; exact absurd h.symm hr
  | succ f ih =>
    intro m d i r k h hr
    rw [show f + 1 + k = (f + k) + 1 by omega]
    unfold unmarshalLoop at h ⊢
    split
    · rename_i hlt
      rw [if_pos hlt] at h
      cases hs : step m d i with
      | error e => rw [hs] at h; exact h
      | ok p =>
        obtain ⟨m', i'⟩ := p
        rw [hs] at h
        exact ih m' d i' r k h hr
    · rename_i hlt
      rw [if_neg hlt] at h
      exact h

theorem unmarshalLoop_concat {α : Type} {step : α → List Byte → Int → Except Err (α × Int)}
    (hstep : StepFrame step) (b : List Byte) (g : Nat) (f : Nat) :
    ∀ (m m1 : α) (a : List Byte) (i : Int) (R : Except Err α),
      unmarshalLoop step f m a i = .ok m1 →
      unmarshalLoop step (g + 1) m1 (a ++ b) (a.length : Int) = R → R ≠ .error .outOfFuel →
      unmarshalLoop step (f + g) m (a ++ b) i = R := by
  induction f with
  | zero => intro m m1 a i R h; cases h
  | succ f ih =>
    intro m m1 a i R h hR hne
    unfold unmarshalLoop at h
    split at h
    · rename_i hlt
      cases hs : step m a i with
      | error e => rw [hs] at h; cases h
      | ok p =>
        obtain ⟨m', i'⟩ := p
        rw [hs] at h
        rw [show f + 1 + g = (f + g) + 1 by omega]
        unfold unmarshalLoop
        have hlt' : i < len (a ++ b) := by
          simp only [len, List.length_append] at hlt ⊢; push_cast; omega
        rw [if_pos hlt', hstep.append m a b i _ hs]
        exact ih m' m1 a i' R h hR hne
    · split at h
      · cases h
      · rename_i h1 h2
        injection h with h
        subst h
        have hi : i = (a.length : Int) := by simp only [len] at h1 h2; omega
        subst hi
        have := unmarshalLoop_mono step (g + 1) m (a ++ b) _ R f hR hne
        rw [show f + 1 + g = g + 1 + f by omega]
        exact this

theorem unmarshalLoop_shift {α : Type} {step : α → List Byte → Int → Except Err (α × Int)}
    (hstep : StepFrame step) (a : List Byte) (f : Nat) :
    ∀ (m m2 : α) (b : List Byte) (j : Int), (a ++ b).length < 2 ^ 63 → 0 ≤ j →
      unmarshalLoop step f m b j = .ok m2 →
      unmarshalLoop step f m (a ++ b) ((a.length : Int) + j) = .ok m2 := by
  induction f with
  | zero => intro m m2 b j _ _ h; cases h
  | succ f ih =>
    intro m m2 b j hl hj h
    have hlb : b.length < 2 ^ 63 := by simp only [List.length_append] at hl; omega
    unfold unmarshalLoop at h ⊢
    split at h
    · rename_i hlt
      have hlt' : (a.length : Int) + j < len (a ++ b) := by
        simp only [len, List.length_append] at hlt ⊢; push_cast; omega
      rw [if_pos hlt']
      cases hs : step m b j with
      | error e => rw [hs] at h; cases h
      | ok p =>
        obtain ⟨m', j'⟩ := p
        rw [hs] at h
        rw [hstep.shift m m' a b j j' hl hs]
        have := hstep.bound m m' b j j' hlb hs
        exact ih m' m2 b j' hl (by omega) h
    · split at h
      · cases h
      · rename_i h1 h2
        have h1' : ¬ ((a.length : Int) + j < len (a ++ b)) := by
          simp only [len, List.length_append] at h1 ⊢; push_cast; omega
        have h2' : ¬ ((a.length : Int) + j > len (a ++ b)) := by
          simp only [len, List.length_append] at h2 ⊢; push_cast; omega
        rw [if_neg h1', if_neg h2']
        exact h

theorem unmarshalLoop_nil {α : Type} (step : α → List Byte → Int → Except Err (α × Int))
    (m : α) (f : Nat) : unmarshalLoop step (f + 1) m [] 0 = .ok m := by
  unfold unmarshalLoop
  simp [len]

theorem unmarshalLoop_end {α : Type} (step : α → List Byte → Int → Except Err (α × Int))
    (m : α) (d : List Byte) (f : Nat) :
    unmarshalLoop step (f + 1) m d (d.length : Int) = .ok m := by
  unfold unmarshalLoop
  simp [len]

theorem unmarshalLoop_single {α : Type} {step : α → List Byte → Int → Except Err (α × Int)}
    {m m' : α} {d : List Byte} (h : step m d 0 = .ok (m', (d.length : Int)))
    (hne : d ≠ []) (f : Nat) : unmarshalLoop step (f + 2) m d 0 = .ok m' := by
  unfold unmarshalLoop
  have hpos : (0 : Int) < len d := by
    have := List.length_pos.mpr hne
    simp only [len]; omega
  rw [if_pos hpos, h]
  exact unmarshalLoop_end step m' d f

theorem unmarshalLoop_append {α : Type} {step : α → List Byte → Int → Except Err (α × Int)}
    (hstep : StepFrame step) {m m1 m2 : α} {a b : List Byte} (hl : (a ++ b).length < 2 ^ 63)
    (ha : unmarshalLoop step (a.length + 1) m a 0 = .ok m1)
    (hb : unmarshalLoop step (b.length + 1) m1 b 0 = .ok m2) :
    unmarshalLoop step ((a ++ b).length + 1) m (a ++ b) 0 = .ok m2 := by
  have h1 := unmarshalLoop_shift hstep a (b.length + 1) m1 m2 b 0 hl (le_refl 0) hb
  rw [add_zero] at h1
  have h2 := unmarshalLoop_concat hstep b b.length (a.length + 1) m m1 a 0 _ ha h1 (by simp)
  rw [List.length_append, show a.length + b.length + 1 = a.length + 1 + b.length by omega]
  exact h2

theorem unmarshalLoop_continue {α : Type} {step : α → List Byte → Int → Except Err (α × Int)}
    (hstep : StepFrame step) {m m1 : α} {a : List Byte} (b : List Byte) {R : Except Err α}
    (ha : unmarshalLoop step (a.length + 1) m a 0 = .ok m1)
    (hb : unmarshalLoop step (b.length + 1) m1 (a ++ b) (a.length : Int) = R)
    (hR : R ≠ .error .outOfFuel) :
    unmarshalLoop step ((a ++ b).length + 1) m (a ++ b) 0 = R := by
  have h2 := unmarshalLoop_concat hstep b b.length (a.length + 1) m m1 a 0 _ ha hb hR
  rw [List.length_append, show a.length + b.length + 1 = a.length + 1 + b.length by omega]
  exact h2

theorem ConfigV1_Unmarshal_eq (m : ConfigV1) (d : List Byte) :
    m.Unmarshal d = unmarshalLoop ConfigV1.UnmarshalField (d.length + 1) m d 0 :=
  ConfigV1_UnmarshalLoop_eq _ _ _ _

theorem ConfigV1_Unmarshal_nil (m : ConfigV1) : m.Unmarshal [] = .ok m := by
  rw [ConfigV1_Unmarshal_eq]; exact unmarshalLoop_nil _ _ _

theorem ConfigV1_Unmarshal_append {m m1 m2 : ConfigV1} {a b : List Byte}
    (hl : (a ++ b).length < 2 ^ 63) (ha : m.Unmarshal a = .ok m1)
    (hb : m1.Unmarshal b = .ok m2) : m.Unmarshal (a ++ b) = .ok m2 := by
  rw [ConfigV1_Unmarshal_eq] at ha hb ⊢
  exact unmarshalLoop_append ConfigV1_stepFrame hl ha hb

theorem ConfigV1_Unmarshal_single {m m' : ConfigV1} {d : List Byte}
    (h : ConfigV1.FieldOk m d 0 m' (d.length : Int)) (hne : d ≠ []) :
    m.Unmarshal d = .ok m' := by
  rw [ConfigV1_Unmarshal_eq]
  obtain ⟨x, t, rfl⟩ : ∃ x t, d = x :: t := by
    cases d with
    | nil => exact absurd rfl hne
    | cons x t => exact ⟨x, t, rfl⟩
  exact unmarshalLoop_single ((ConfigV1_UnmarshalField_ok_iff _ _ _ _ _).mpr h) hne t.length

/-! ## `Config`: one field and the decode loop -/

theorem Config_UnmarshalField_ok_iff (m : Config) (d : List Byte) (i : Int)
    (m' : Config) (i' : Int) :
    m.UnmarshalField d i = .ok (m', i') ↔ Config.FieldOk m d i m' i' := by
  constructor
  · intro h
    unfold Config.UnmarshalField at h
    dsimp only at h
    cases hv : decodeVarint d i with
    | error e => rw [hv] at h; cases h
    | ok p =>
      obtain ⟨wire, i1⟩ := p
      rw [hv, bind_ok] at h
      dsimp only at h
      refine ⟨wire, i1, hv, ?_⟩
      unfold wireTypeOf fieldNumOf
      split at h
      · cases h
      · rename_i h4
        split at h
        · cases h
        · rename_i hpos
          refine ⟨h4, not_le.mp hpos, ?_⟩
          split at h
          · rename_i hf1
            split at h
            · cases h
            · rename_i hw
              exact Or.inl ⟨hf1, not_not.mp hw, readString_ok _ h⟩
          · rename_i hf1
            split at h
            · rename_i hf2
              split at h
              · cases h
              · rename_i hw
                refine Or.inr (Or.inl ⟨hf2, not_not.mp hw, ?_⟩)
                cases hd : decodeLength d i1 with
                | error e => rw [hd] at h; cases h
                | ok q =>
                  obtain ⟨i2, post⟩ := q
                  rw [hd, bind_ok] at h
                  dsimp only at h
                  cases hs : slice d i2 post with
                  | error e => rw [hs] at h; cases h
                  | ok sub =>
                    rw [hs, bind_ok] at h
                    cases hu : (m.V1.getD ConfigV1.empty).Unmarshal sub with
                    | error e => rw [hu] at h; cases h
                    | ok v1 =>
                      rw [hu, bind_ok] at h
                      injection h with h
                      injection h with h1 h2
                      subst h1 h2
                      exact ⟨sub, v1, ⟨i2, hd, hs⟩, hu, rfl⟩
            · rename_i hf2
              refine Or.inr (Or.inr ⟨hf1, hf2, ?_⟩)
              cases hs : skipField d i with
              | error e => rw [hs] at h; cases h
              | ok q =>
                obtain ⟨j, span⟩ := q
                rw [hs, bind_ok] at h
                injection h with h
                injection h with h1 h2
                subst h1 h2
                exact ⟨span, rfl, rfl⟩
  · rintro ⟨wire, i1, hv, h4, hpos, hc⟩
    unfold wireTypeOf at h4 hc
    unfold fieldNumOf at hpos hc
    unfold Config.UnmarshalField
    dsimp only
    rw [hv, bind_ok]
    dsimp only
    rw [if_neg h4, if_neg (not_le.mpr hpos)]
    rcases hc with ⟨hf, hw, s, hr, rfl⟩ | ⟨hf, hw, sub, v1, ⟨i2, hd, hs⟩, hu, rfl⟩
      | ⟨hf1, hf2, span, hs, rfl⟩
    · rw [if_pos hf, if_neg (not_not.mpr hw)]
      exact readString_of _ hr
    · have hf1 : ¬ int32 (wire >>> 3) = 1 := by omega
      rw [if_neg hf1, if_pos hf, if_neg (not_not.mpr hw), hd, bind_ok]
      dsimp only
      rw [hs, bind_ok, hu, bind_ok]
    · rw [if_neg hf1, if_neg hf2, hs, bind_ok]

theorem Config_FieldOk_bound {m m' : Config} {d : List Byte} {i i' : Int}
    (hl : d.length < 2 ^ 63) (h : Config.FieldOk m d i m' i') :
    0 ≤ i ∧ i < i' ∧ i' ≤ len d := by
  obtain ⟨wire, i1, hv, _, _, hc⟩ := h
  have hb := decodeVarint_bound hl hv
  rcases hc with ⟨_, _, s, hr, _⟩ | ⟨_, _, sub, v1, hr, _, _⟩ | ⟨_, _, span, hs, _⟩
  · have := ReadsBytes_bound hl hr; omega
  · have := ReadsBytes_bound hl hr; omega
  · have := skipField_bound hl hs; omega

theorem Config_FieldOk_append {m m' : Config} {d : List Byte} {i i' : Int}
    (e : List Byte) (h : Config.FieldOk m d i m' i') : Config.FieldOk m (d ++ e) i m' i' := by
  obtain ⟨wire, i1, hv, h4, hpos, hc⟩ := h
  refine ⟨wire, i1, decodeVarint_append e hv, h4, hpos, ?_⟩
  rcases hc with ⟨hf, hw, s, hr, hm⟩ | ⟨hf, hw, sub, v1, hr, hu, hm⟩ | ⟨hf1, hf2, span, hs, hm⟩
  · exact Or.inl ⟨hf, hw, s, ReadsBytes_append e hr, hm⟩
  · exact Or.inr (Or.inl ⟨hf, hw, sub, v1, ReadsBytes_append e hr, hu, hm⟩)
  · exact Or.inr (Or.inr ⟨hf1, hf2, span, skipField_append e hs, hm⟩)

theorem Config_FieldOk_shift {m m' : Config} (a : List Byte) {b : List Byte} {j j' : Int}
    (hl : (a ++ b).length < 2 ^ 63) (h : Config.FieldOk m b j m' j') :
    Config.FieldOk m (a ++ b) ((a.length : Int) + j) m' ((a.length : Int) + j') := by
  have hlb : b.length < 2 ^ 63 := by simp only [List.length_append] at hl; omega
  have hbd := Config_FieldOk_bound hlb h
  obtain ⟨wire, i1, hv, h4, hpos, hc⟩ := h
  have hs := decodeVarint_shift a b hbd.1 hl
  rw [hv] at hs
  simp only [shiftResult] at hs
  refine ⟨wire, (a.length : Int) + i1, hs, h4, hpos, ?_⟩
  rcases hc with ⟨hf, hw, s, hr, hm⟩ | ⟨hf, hw, sub, v1, hr, hu, hm⟩ | ⟨hf1, hf2, span, hs, hm⟩
  · exact Or.inl ⟨hf, hw, s, ReadsBytes_shift a hl hr, hm⟩
  · exact Or.inr (Or.inl ⟨hf, hw, sub, v1, ReadsBytes_shift a hl hr, hu, hm⟩)
  · exact Or.inr (Or.inr ⟨hf1, hf2, span, skipField_shift a hl hs, hm⟩)

theorem Config_UnmarshalLoop_eq (f : Nat) :
    ∀ (m : Config) (d : List Byte) (i : Int),
      Config.UnmarshalLoop f m d i = unmarshalLoop Config.UnmarshalField f m d i := by
  induction f with
  | zero => intro m d i; rfl
  | succ f ih =>
    intro m d i
    unfold Config.UnmarshalLoop unmarshalLoop
    split
    · cases hs : m.UnmarshalField d i with
      | error e => rfl
      | ok p =>
        obtain ⟨m', i'⟩ := p
        rw [bind_ok]
        exact ih m' d i'
    · rfl

theorem Config_stepFrame : StepFrame Config.UnmarshalField where
  bound := fun m m' d i i' hl h =>
    Config_FieldOk_bound hl ((Config_UnmarshalField_ok_iff m d i m' i').mp h)
  append := fun m d e i r h =>
    (Config_UnmarshalField_ok_iff m (d ++ e) i r.1 r.2).mpr
      (Config_FieldOk_append e ((Config_UnmarshalField_ok_iff m d i r.1 r.2).mp h))
  shift := fun m m' a b j j' hl h =>
    (Config_UnmarshalField_ok_iff m (a ++ b) _ m' _).mpr
      (Config_FieldOk_shift a hl ((Config_UnmarshalField_ok_iff m b j m' j').mp h))

theorem Config_Unmarshal_eq (m : Config) (d : List Byte) :
    m.Unmarshal d = unmarshalLoop Config.UnmarshalField (d.length + 1) m d 0 :=
  Config_UnmarshalLoop_eq _ _ _ _

theorem Config_Unmarshal_nil (m : Config) : m.Unmarshal [] = .ok m := by
  rw [Config_Unmarshal_eq]; exact unmarshalLoop_nil _ _ _

theorem Config_Unmarshal_append {m m1 m2 : Config} {a b : List Byte}
    (hl : (a ++ b).length < 2 ^ 63) (ha : m.Unmarshal a = .ok m1)
    (hb : m1.Unmarshal b = .ok m2) : m.Unmarshal (a ++ b) = .ok m2 := by
  rw [Config_Unmarshal_eq] at ha hb ⊢
  exact unmarshalLoop_append Config_stepFrame hl ha hb

theorem Config_Unmarshal_single {m m' : Config} {d : List Byte}
    (h : Config.FieldOk m d 0 m' (d.length : Int)) (hne : d ≠ []) :
    m.Unmarshal d = .ok m' := by
  rw [Config_Unmarshal_eq]
  obtain ⟨x, t, rfl⟩ : ∃ x t, d = x :: t := by
    cases d with
    | nil => exact absurd rfl hne
    | cons x t => exact ⟨x, t, rfl⟩
  exact unmarshalLoop_single ((Config_UnmarshalField_ok_iff _ _ _ _ _).mpr h) hne t.length

/-! ## Decoding one encoded field -/

theorem decodeVarint_varint (v : Nat) (pre post : List Byte) (hv : v < 2 ^ 64)
    (hl : (pre ++ varint v ++ post).length < 2 ^ 63) :
    decodeVarint (pre ++ varint v ++ post) (pre.length : Int)
      = .ok (v, ((pre.length + (varint v).length : Nat) : Int)) := by
  unfold decodeVarint
  have hle := varint_length_le v hv
  rw [varint_eq hv] at hl hle ⊢
  have := decodeVarintLoop_varint 10 11 v 0 0 pre post (by decide) (by omega) (by decide)
    (by decide) (by simpa using hv) (by decide) hl
  rw [this]
  simp

theorem uint8_val_self (b : Byte) : uint8 b.val = b := by
  apply Fin.ext
  rw [uint8_val]
  exact Nat.mod_eq_of_lt b.isLt

theorem varint_small {v : Nat} (h : v < 128) : varint v = [uint8 v] := by
  rw [varint_eq (by omega)]
  unfold varintFuel
  have : ¬ v ≥ 1 <<< 7 := by
    have : (1 : Nat) <<< 7 = 128 := by decide
    omega
  rw [if_neg this]

theorem decodeVarint_tag (b : Byte) (rest : List Byte) (hb : b.val < 128)
    (hl : (b :: rest).length < 2 ^ 63) :
    decodeVarint (b :: rest) 0 = .ok (b.val, 1) := by
  have := decodeVarint_varint b.val [] rest (by omega) (by
    rw [varint_small hb]; simpa using hl)
  rw [varint_small hb, uint8_val_self] at this
  simpa using this

theorem int64_natCast {n : Nat} (h : n < 2 ^ 63) : int64 (n : Int) = n := by
  unfold int64; omega

theorem readsBytes_encoded (pre s post : List Byte)
    (hl : (pre ++ (varint s.length ++ s) ++ post).length < 2 ^ 63) :
    ReadsBytes (pre ++ (varint s.length ++ s) ++ post) (pre.length : Int)
      ((pre.length + (varint s.length).length + s.length : Nat) : Int) s := by
  simp only [List.length_append] at hl
  have hv := decodeVarint_varint s.length pre (s ++ post) (by omega) (by
    simp only [List.length_append]; omega)
  have e : pre ++ (varint s.length ++ s) ++ post = pre ++ varint s.length ++ (s ++ post) := by
    simp
  rw [e]
  refine ⟨((pre.length + (varint s.length).length : Nat) : Int), ?_, ?_⟩
  · have hadd : addInt ((pre.length + (varint s.length).length : Nat) : Int) (int64 s.length)
        = ((pre.length + (varint s.length).length + s.length : Nat) : Int) := by
      rw [int64_natCast (by omega), addInt_natCast (by omega)]
    have := decodeLength_of hv (by rw [int64_natCast (by omega)]; omega)
      (by rw [hadd]; omega)
      (by rw [hadd]; simp only [len, List.length_append]; push_cast; omega)
    rw [hadd] at this
    exact this
  · have := slice_append (pre ++ varint s.length) s post
    simp only [List.length_append] at this
    simpa using this

theorem stringField_ne_nil {tag : Byte} {s : List Byte} (h : s ≠ []) :
    stringField tag s = tag :: (varint s.length ++ s) := by
  cases s with
  | nil => exact absurd rfl h
  | cons a t => rfl

theorem readsBytes_after_tag (tag : Byte) (s : List Byte)
    (hl : (tag :: (varint s.length ++ s)).length < 2 ^ 63) :
    ReadsBytes (tag :: (varint s.length ++ s)) 1
      ((tag :: (varint s.length ++ s)).length : Int) s := by
  have := readsBytes_encoded [tag] s [] (by simpa using hl)
  simp only [List.append_nil, List.singleton_append, List.length_singleton] at this
  have e : ((1 + (varint s.length).length + s.length : Nat) : Int)
      = ((tag :: (varint s.length ++ s)).length : Int) := by
    simp only [List.length_cons, List.length_append]; push_cast; omega
  rw [e] at this
  exact this

theorem ConfigV1_Unmarshal_SessionToken (m : ConfigV1) {s : List Byte} (hs : s ≠ [])
    (hl : (stringField 0x0a s).length < 2 ^ 63) :
    m.Unmarshal (stringField 0x0a s) = .ok { m with SessionToken := s } := by
  rw [stringField_ne_nil hs] at hl ⊢
  refine ConfigV1_Unmarshal_single ⟨10, 1, decodeVarint_tag 0x0a _ (by decide) hl,
    by decide, by decide, Or.inl ⟨by decide, by decide, s, readsBytes_after_tag _ s hl, rfl⟩⟩
    (by simp)

theorem ConfigV1_Unmarshal_PachdAddress (m : ConfigV1) {s : List Byte} (hs : s ≠ [])
    (hl : (stringField 0x12 s).length < 2 ^ 63) :
    m.Unmarshal (stringField 0x12 s) = .ok { m with PachdAddress := s } := by
  rw [stringField_ne_nil hs] at hl ⊢
  refine ConfigV1_Unmarshal_single ⟨18, 1, decodeVarint_tag 0x12 _ (by decide) hl,
    by decide, by decide,
    Or.inr (Or.inl ⟨by decide, by decide, s, readsBytes_after_tag _ s hl, rfl⟩)⟩
    (by simp)

theorem ConfigV1_Unmarshal_ServerCAs (m : ConfigV1) {s : List Byte} (hs : s ≠ [])
    (hl : (stringField 0x1a s).length < 2 ^ 63) :
    m.Unmarshal (stringField 0x1a s) = .ok { m with ServerCAs := s } := by
  rw [stringField_ne_nil hs] at hl ⊢
  refine ConfigV1_Unmarshal_single ⟨26, 1, decodeVarint_tag 0x1a _ (by decide) hl,
    by decide, by decide,
    Or.inr (Or.inr (Or.inl ⟨by decide, by decide, s, readsBytes_after_tag _ s hl, rfl⟩))⟩
    (by simp)

theorem Config_Unmarshal_UserID (m : Config) {s : List Byte} (hs : s ≠ [])
    (hl : (stringField 0x0a s).length < 2 ^ 63) :
    m.Unmarshal (stringField 0x0a s) = .ok { m with UserID := s } := by
  rw [stringField_ne_nil hs] at hl ⊢
  refine Config_Unmarshal_single ⟨10, 1, decodeVarint_tag 0x0a _ (by decide) hl,
    by decide, by decide, Or.inl ⟨by decide, by decide, s, readsBytes_after_tag _ s hl, rfl⟩⟩
    (by simp)

theorem Config_Unmarshal_V1 (m : Config) {payload : List Byte} {v1 : ConfigV1}
    (hu : (m.V1.getD ConfigV1.empty).Unmarshal payload = .ok v1)
    (hl : ((0x12 : Byte) :: (varint payload.length ++ payload)).length < 2 ^ 63) :
    m.Unmarshal (0x12 :: (varint payload.length ++ payload)) = .ok { m with V1 := some v1 } := by
  refine Config_Unmarshal_single ⟨18, 1, decodeVarint_tag 0x12 _ (by decide) hl,
    by decide, by decide,
    Or.inr (Or.inl ⟨by decide, by decide, payload, v1, readsBytes_after_tag _ payload hl, hu,
      rfl⟩)⟩
    (by simp)

/-! ## Opaque tails that a decode produced -/

theorem shiftResult_eq_ok {n : Nat} {r : Except Err (Nat × Int)} {v : Nat} {j : Int}
    (h : shiftResult n r = .ok (v, j)) : r = .ok (v, j - n) := by
  cases r with
  | error e => cases h
  | ok p =>
    obtain ⟨w, k⟩ := p
    simp only [shiftResult, Except.ok.injEq, Prod.mk.injEq] at h
    obtain ⟨rfl, rfl⟩ := h
    simp

theorem skipField_restrict {d span : List Byte} {i i1 i' : Int} {wire : Nat}
    (hl : d.length < 2 ^ 63) (hv : decodeVarint d i = .ok (wire, i1))
    (h : skipField d i = .ok (i', span)) :
    decodeVarint span 0 = .ok (wire, i1 - i)
      ∧ skipField span 0 = .ok ((span.length : Int), span) := by
  have hbd := skipField_bound hl h
  obtain ⟨sub, skippy, hs, hk, h1, rfl, h2, h3, hsl⟩ := skipField_eq_ok h
  obtain ⟨hs0, hs1, hsub⟩ := sliceFrom_eq_ok hs
  obtain ⟨_, _, _, hspan⟩ := slice_eq_ok hsl
  simp only [len] at hs1 hbd h3
  have hsublen : sub.length = d.length - i.toNat := by rw [hsub, List.length_drop]
  have hsl' : sub.length < 2 ^ 63 := by omega
  have hadd : addInt i skippy = i + skippy := by
    have hb := (skipFuel_bound _).1 sub skippy hsl' hk
    unfold addInt int64 at h2 h3 ⊢
    omega
  rw [hadd] at hbd hspan hsl h2 h3
  have hspan' : span = sub.take skippy.toNat := by
    rw [hspan, hsub, List.drop_take]
    congr 1; omega
  have hspanlen : (span.length : Int) = skippy := by omega
  have hk' : skipConfig span = .ok skippy := by
    rw [hspan']
    exact skipConfig_take hsl' hk (by omega) (by omega)
  constructor
  · have hd := decodeVarint_drop hs0 (by simp only [len]; omega) hl
    rw [hv, ← hsub] at hd
    have hd' := shiftResult_eq_ok hd.symm
    have e : (i.toNat : Int) = i := by omega
    rw [e] at hd'
    obtain ⟨w', j1, hv', hj⟩ := skipConfigFuel_tag hsl' hk (by omega)
    rw [hd'] at hv'
    injection hv' with hv'
    injection hv' with _ hj1
    rw [hspan']
    exact decodeVarint_take hsl' hd' (by omega)
  · have hs' : sliceFrom span 0 = .ok span := by
      rw [sliceFrom_of_le (le_refl 0) (by simp only [len]; omega)]
      rfl
    have hadd0 : addInt 0 skippy = (span.length : Int) := by
      rw [addInt_eq (by omega) (by omega)]; omega
    have := skipField_of hs' hk' h1 (by rw [hadd0]; omega)
      (by rw [hadd0]; simp only [len]; omega) (by rw [hadd0]; exact slice_zero span)
    rw [hadd0] at this
    exact this

theorem tailBytes_appendBytes (x : Option (List Byte)) (s : List Byte) :
    tailBytes (appendBytes x s) = tailBytes x ++ s := by
  cases s with
  | nil => simp [appendBytes, tailBytes]
  | cons a t => simp [appendBytes, tailBytes]

theorem appendBytes_nil (x : Option (List Byte)) : appendBytes x [] = x := rfl

theorem appendBytes_appendBytes (x : Option (List Byte)) (t : List Byte) {s : List Byte}
    (hs : s ≠ []) : appendBytes (appendBytes x t) s = appendBytes x (t ++ s) := by
  cases s with
  | nil => exact absurd rfl hs
  | cons a r =>
    cases t with
    | nil => simp [appendBytes]
    | cons b u => simp [appendBytes]

theorem unmarshalLoop_invariant {α : Type} {step : α → List Byte → Int → Except Err (α × Int)}
    (Inv : α → Int → Prop) (d : List Byte)
    (hstep : ∀ (m m' : α) (i i' : Int), step m d i = .ok (m', i') → Inv m i → Inv m' i')
    (f : Nat) : ∀ (m m1 : α) (i : Int), unmarshalLoop step f m d i = .ok m1 → Inv m i →
      Inv m1 (len d) := by
  induction f with
  | zero => intro m m1 i h; cases h
  | succ f ih =>
    intro m m1 i h hinv
    unfold unmarshalLoop at h
    split at h
    · cases hs : step m d i with
      | error e => rw [hs] at h; cases h
      | ok p =>
        obtain ⟨m', i'⟩ := p
        rw [hs] at h
        exact ih m' m1 i' h (hstep m m' i i' hs hinv)
    · split at h
      · cases h
      · rename_i h1 h2
        injection h with h
        subst h
        have : i = len d := by omega
        rw [← this]; exact hinv

theorem Config_Redecodable_nil : Config.Redecodable [] := fun m => Config_Unmarshal_nil m

theorem ConfigV1_Redecodable_nil : ConfigV1.Redecodable [] := fun m => ConfigV1_Unmarshal_nil m

theorem Config_FieldOk_redecodable {m m' : Config} {d : List Byte} {i i' : Int}
    (hl : d.length < 2 ^ 63) (h : Config.FieldOk m d i m' i')
    (hinv : Config.Redecodable (tailBytes m.XXX_unrecognized)
      ∧ ((tailBytes m.XXX_unrecognized).length : Int) ≤ i) :
    Config.Redecodable (tailBytes m'.XXX_unrecognized)
      ∧ ((tailBytes m'.XXX_unrecognized).length : Int) ≤ i' := by
  have hbd := Config_FieldOk_bound hl h
  obtain ⟨wire, i1, hv, h4, hpos, hc⟩ := h
  rcases hc with ⟨_, _, s, _, rfl⟩ | ⟨_, _, sub, v1, _, _, rfl⟩ | ⟨hf1, hf2, span, hs, rfl⟩
  · exact ⟨hinv.1, by have := hinv.2; simp only at this ⊢; omega⟩
  · exact ⟨hinv.1, by have := hinv.2; simp only at this ⊢; omega⟩
  · have hsb := skipField_bound hl hs
    obtain ⟨hv0, hs0⟩ := skipField_restrict hl hv hs
    simp only [len] at hbd
    have hne : span ≠ [] := by
      intro he; rw [he] at hsb; simp at hsb; omega
    simp only [tailBytes_appendBytes]
    refine ⟨?_, by rw [List.length_append]; push_cast; omega⟩
    intro m0
    have h1 := hinv.1 m0
    have h2 : (Config.mk m0.UserID m0.V1
          (appendBytes m0.XXX_unrecognized (tailBytes m.XXX_unrecognized))).Unmarshal span
        = .ok (Config.mk m0.UserID m0.V1
            (appendBytes m0.XXX_unrecognized (tailBytes m.XXX_unrecognized ++ span))) := by
      rw [← appendBytes_appendBytes _ _ hne]
      exact Config_Unmarshal_single ⟨wire, i1 - i, hv0, h4, hpos,
        Or.inr (Or.inr ⟨hf1, hf2, span, hs0, rfl⟩)⟩ hne
    exact Config_Unmarshal_append (by rw [List.length_append]; omega) h1 h2

theorem ConfigV1_FieldOk_redecodable {m m' : ConfigV1} {d : List Byte} {i i' : Int}
    (hl : d.length < 2 ^ 63) (h : ConfigV1.FieldOk m d i m' i')
    (hinv : ConfigV1.Redecodable (tailBytes m.XXX_unrecognized)
      ∧ ((tailBytes m.XXX_unrecognized).length : Int) ≤ i) :
    ConfigV1.Redecodable (tailBytes m'.XXX_unrecognized)
      ∧ ((tailBytes m'.XXX_unrecognized).length : Int) ≤ i' := by
  have hbd := ConfigV1_FieldOk_bound hl h
  obtain ⟨wire, i1, hv, h4, hpos, hc⟩ := h
  rcases hc with ⟨_, _, s, _, rfl⟩ | ⟨_, _, s, _, rfl⟩ | ⟨_, _, s, _, rfl⟩
    | ⟨hf1, hf2, hf3, span, hs, rfl⟩
  · exact ⟨hinv.1, by have := hinv.2; simp only at this ⊢; omega⟩
  · exact ⟨hinv.1, by have := hinv.2; simp only at this ⊢; omega⟩
  · exact ⟨hinv.1, by have := hinv.2; simp only at this ⊢; omega⟩
  · have hsb := skipField_bound hl hs
    obtain ⟨hv0, hs0⟩ := skipField_restrict hl hv hs
    simp only [len] at hbd
    have hne : span ≠ [] := by
      intro he; rw [he] at hsb; simp at hsb; omega
    simp only [tailBytes_appendBytes]
    refine ⟨?_, by rw [List.length_append]; push_cast; omega⟩
    intro m0
    have h1 := hinv.1 m0
    have h2 : (ConfigV1.mk m0.SessionToken m0.PachdAddress m0.ServerCAs
          (appendBytes m0.XXX_unrecognized (tailBytes m.XXX_unrecognized))).Unmarshal span
        = .ok (ConfigV1.mk m0.SessionToken m0.PachdAddress m0.ServerCAs
            (appendBytes m0.XXX_unrecognized (tailBytes m.XXX_unrecognized ++ span))) := by
      rw [← appendBytes_appendBytes _ _ hne]
      exact ConfigV1_Unmarshal_single ⟨wire, i1 - i, hv0, h4, hpos,
        Or.inr (Or.inr (Or.inr ⟨hf1, hf2, hf3, span, hs0, rfl⟩))⟩ hne
    exact ConfigV1_Unmarshal_append (by rw [List.length_append]; omega) h1 h2

theorem Config_Unmarshal_redecodable {m0 m1 : Config} {d : List Byte} (hl : d.length < 2 ^ 63)
    (h0 : tailBytes m0.XXX_unrecognized = []) (h : m0.Unmarshal d = .ok m1) :
    Config.Redecodable (tailBytes m1.XXX_unrecognized)
      ∧ (tailBytes m1.XXX_unrecognized).length ≤ d.length := by
  rw [Config_Unmarshal_eq] at h
  have := unmarshalLoop_invariant
    (fun (m : Config) (i : Int) => Config.Redecodable (tailBytes m.XXX_unrecognized)
      ∧ ((tailBytes m.XXX_unrecognized).length : Int) ≤ i) d
    (fun m m' i i' hs hinv =>
      Config_FieldOk_redecodable hl ((Config_UnmarshalField_ok_iff m d i m' i').mp hs) hinv)
    _ m0 m1 0 h (by dsimp only; rw [h0]; exact ⟨Config_Redecodable_nil, by simp⟩)
  simp only [len] at this
  exact ⟨this.1, by omega⟩

theorem ConfigV1_Unmarshal_redecodable {m0 m1 : ConfigV1} {d : List Byte}
    (hl : d.length < 2 ^ 63)
    (h0 : tailBytes m0.XXX_unrecognized = []) (h : m0.Unmarshal d = .ok m1) :
    ConfigV1.Redecodable (tailBytes m1.XXX_unrecognized)
      ∧ (tailBytes m1.XXX_unrecognized).length ≤ d.length := by
  rw [ConfigV1_Unmarshal_eq] at h
  have := unmarshalLoop_invariant
    (fun (m : ConfigV1) (i : Int) => ConfigV1.Redecodable (tailBytes m.XXX_unrecognized)
      ∧ ((tailBytes m.XXX_unrecognized).length : Int) ≤ i) d
    (fun m m' i i' hs hinv =>
      ConfigV1_FieldOk_redecodable hl ((ConfigV1_UnmarshalField_ok_iff m d i m' i').mp hs) hinv)
    _ m0 m1 0 h (by dsimp only; rw [h0]; exact ⟨ConfigV1_Redecodable_nil, by simp⟩)
  simp only [len] at this
  exact ⟨this.1, by omega⟩

/-! ## Round trip -/

theorem Config_TailProduced_redecodable {u : Option (List Byte)} (h : Config.TailProduced u) :
    Config.Redecodable (tailBytes u) := by
  rcases h with h | ⟨m0, m1, d, hl, h0, hu, rfl⟩
  · rw [h]; exact Config_Redecodable_nil
  · exact (Config_Unmarshal_redecodable hl h0 hu).1

theorem ConfigV1_TailProduced_redecodable {u : Option (List Byte)}
    (h : ConfigV1.TailProduced u) : ConfigV1.Redecodable (tailBytes u) := by
  rcases h with h | ⟨m0, m1, d, hl, h0, hu, rfl⟩
  · rw [h]; exact ConfigV1_Redecodable_nil
  · exact (ConfigV1_Unmarshal_redecodable hl h0 hu).1

theorem stringField_eq_nil_iff (tag : Byte) (s : List Byte) : stringField tag s = [] ↔ s = [] := by
  cases s with
  | nil => simp [stringField]
  | cons a t => simp [stringField]

theorem ConfigV1_Unmarshal_layout (v : ConfigV1) (hl : v.layout.length < 2 ^ 63)
    (ht : ConfigV1.Redecodable (tailBytes v.XXX_unrecognized)) :
    ConfigV1.empty.Unmarshal v.layout
      = .ok ⟨v.SessionToken, v.PachdAddress, v.ServerCAs,
          appendBytes none (tailBytes v.XXX_unrecognized)⟩ := by
  unfold ConfigV1.layout at hl ⊢
  simp only [List.length_append] at hl
  have h1 : ConfigV1.empty.Unmarshal (stringField 0x0a v.SessionToken)
      = .ok ⟨v.SessionToken, [], [], none⟩ := by
    by_cases hs : v.SessionToken = []
    · rw [hs]; exact ConfigV1_Unmarshal_nil _
    · exact ConfigV1_Unmarshal_SessionToken _ hs (by omega)
  have h2 : (ConfigV1.mk v.SessionToken [] [] none).Unmarshal (stringField 0x12 v.PachdAddress)
      = .ok ⟨v.SessionToken, v.PachdAddress, [], none⟩ := by
    by_cases hs : v.PachdAddress = []
    · rw [hs]; exact ConfigV1_Unmarshal_nil _
    · exact ConfigV1_Unmarshal_PachdAddress _ hs (by omega)
  have h3 : (ConfigV1.mk v.SessionToken v.PachdAddress [] none).Unmarshal
        (stringField 0x1a v.ServerCAs)
      = .ok ⟨v.SessionToken, v.PachdAddress, v.ServerCAs, none⟩ := by
    by_cases hs : v.ServerCAs = []
    · rw [hs]; exact ConfigV1_Unmarshal_nil _
    · exact ConfigV1_Unmarshal_ServerCAs _ hs (by omega)
  have h4 := ht ⟨v.SessionToken, v.PachdAddress, v.ServerCAs, none⟩
  have h12 := ConfigV1_Unmarshal_append (by rw [List.length_append]; omega) h1 h2
  have h123 := ConfigV1_Unmarshal_append (by simp only [List.length_append]; omega) h12 h3
  exact ConfigV1_Unmarshal_append (by simp only [List.length_append]; omega) h123 h4

theorem Config_Unmarshal_layout (r : Config) (hl : r.layout.length < 2 ^ 63)
    (ht : Config.Redecodable (tailBytes r.XXX_unrecognized))
    (hv : ∀ v1, r.V1 = some v1 → ConfigV1.Redecodable (tailBytes v1.XXX_unrecognized)) :
    Config.empty.Unmarshal r.layout
      = .ok ⟨r.UserID,
          r.V1.map (fun v => ⟨v.SessionToken, v.PachdAddress, v.ServerCAs,
            appendBytes none (tailBytes v.XXX_unrecognized)⟩),
          appendBytes none (tailBytes r.XXX_unrecognized)⟩ := by
  obtain ⟨uid, v1, u⟩ := r
  unfold Config.layout at hl ⊢
  simp only [List.length_append] at hl
  have h1 : Config.empty.Unmarshal (stringField 0x0a uid) = .ok ⟨uid, none, none⟩ := by
    by_cases hs : uid = []
    · rw [hs]; exact Config_Unmarshal_nil _
    · exact Config_Unmarshal_UserID _ hs (by omega)
  have h2 : (Config.mk uid none none).Unmarshal (v1Field v1)
      = .ok ⟨uid, v1.map (fun v => ⟨v.SessionToken, v.PachdAddress, v.ServerCAs,
            appendBytes none (tailBytes v.XXX_unrecognized)⟩), none⟩ := by
    cases v1 with
    | none => exact Config_Unmarshal_nil _
    | some v =>
      simp only [v1Field, List.length_cons, List.length_append] at hl ⊢
      exact Config_Unmarshal_V1 _ (ConfigV1_Unmarshal_layout v (by omega) (hv v rfl))
        (by simp only [List.length_cons, List.length_append]; omega)
  have h3 := ht ⟨uid, v1.map (fun v => ⟨v.SessionToken, v.PachdAddress, v.ServerCAs,
            appendBytes none (tailBytes v.XXX_unrecognized)⟩), none⟩
  have h12 := Config_Unmarshal_append (by rw [List.length_append]; omega) h1 h2
  exact Config_Unmarshal_append (by simp only [List.length_append]; omega) h12 h3

theorem appendBytes_none_eq {u : Option (List Byte)} (h : u ≠ some []) :
    appendBytes none (tailBytes u) = u := by
  cases u with
  | none => rfl
  | some t =>
    cases t with
    | nil => exact absurd rfl h
    | cons a r => simp [appendBytes, tailBytes]

/-! ## A recognised field number with another wire type -/

theorem unmarshalLoop_step_error {α : Type} {step : α → List Byte → Int → Except Err (α × Int)}
    {m : α} {d : List Byte} {i : Int} {e : Err} (hi : i < len d) (h : step m d i = .error e)
    (f : Nat) : unmarshalLoop step (f + 1) m d i = .error e := by
  unfold unmarshalLoop
  rw [if_pos hi, h]

theorem decodeVarint_at_append (a b : List Byte) {wire : Nat} {i1 : Int}
    (hl : (a ++ b).length < 2 ^ 63) (hv : decodeVarint b 0 = .ok (wire, i1)) :
    decodeVarint (a ++ b) (a.length : Int) = .ok (wire, (a.length : Int) + i1) := by
  have := decodeVarint_shift a b (le_refl 0) hl
  rw [hv, add_zero] at this
  exact this

theorem Config_UnmarshalField_wrongWireType (m : Config) {d : List Byte} {i i1 : Int}
    {wire : Nat} (hv : decodeVarint d i = .ok (wire, i1))
    (hf : fieldNumOf wire = 1 ∨ fieldNumOf wire = 2) (hw : wireTypeOf wire ≠ 2) :
    m.UnmarshalField d i = .error (Config.wireTypeError wire) := by
  unfold Config.wireTypeError
  unfold wireTypeOf at hw ⊢
  unfold fieldNumOf at hf ⊢
  unfold Config.UnmarshalField
  dsimp only
  rw [hv, bind_ok]
  dsimp only
  by_cases h4 : ((wire &&& 0x7 : Nat) : Int) = 4
  · rw [if_pos h4, if_pos h4]
  · rw [if_neg h4, if_neg h4]
    have hpos : ¬ int32 (wire >>> 3) ≤ 0 := by omega
    rw [if_neg hpos]
    rcases hf with hf | hf
    · rw [if_pos hf, if_pos hw, if_pos hf]
    · have hf1 : ¬ int32 (wire >>> 3) = 1 := by omega
      rw [if_neg hf1, if_pos hf, if_pos hw, if_neg hf1]

theorem ConfigV1_UnmarshalField_wrongWireType (m : ConfigV1) {d : List Byte} {i i1 : Int}
    {wire : Nat} (hv : decodeVarint d i = .ok (wire, i1))
    (hf : fieldNumOf wire = 1 ∨ fieldNumOf wire = 2 ∨ fieldNumOf wire = 3)
    (hw : wireTypeOf wire ≠ 2) :
    m.UnmarshalField d i = .error (ConfigV1.wireTypeError wire) := by
  unfold ConfigV1.wireTypeError
  unfold wireTypeOf at hw ⊢
  unfold fieldNumOf at hf ⊢
  unfold ConfigV1.UnmarshalField
  dsimp only
  rw [hv, bind_ok]
  dsimp only
  by_cases h4 : ((wire &&& 0x7 : Nat) : Int) = 4
  · rw [if_pos h4, if_pos h4]
  · rw [if_neg h4, if_neg h4]
    have hpos : ¬ int32 (wire >>> 3) ≤ 0 := by omega
    rw [if_neg hpos]
    rcases hf with hf | hf | hf
    · rw [if_pos hf, if_pos hw, if_pos hf]
    · have hf1 : ¬ int32 (wire >>> 3) = 1 := by omega
      rw [if_neg hf1, if_pos hf, if_pos hw, if_neg hf1, if_pos hf]
    · have hf1 : ¬ int32 (wire >>> 3) = 1 := by omega
      have hf2 : ¬ int32 (wire >>> 3) = 2 := by omega
      rw [if_neg hf1, if_neg hf2, if_pos hf, if_pos hw, if_neg hf1, if_neg hf2]

theorem wireTypeError_ne_outOfFuel (wire : Nat) :
    Config.wireTypeError wire ≠ .outOfFuel ∧ ConfigV1.wireTypeError wire ≠ .outOfFuel := by
  unfold Config.wireTypeError ConfigV1.wireTypeError
  constructor <;> split <;> simp

theorem Config_Unmarshal_wrongWireType {m m1 : Config} {a b : List Byte} {wire : Nat}
    {i1 : Int} (hl : (a ++ b).length < 2 ^ 63) (ha : m.Unmarshal a = .ok m1)
    (hv : decodeVarint b 0 = .ok (wire, i1))
    (hf : fieldNumOf wire = 1 ∨ fieldNumOf wire = 2) (hw : wireTypeOf wire ≠ 2) :
    m.Unmarshal (a ++ b) = .error (Config.wireTypeError wire) := by
  rw [Config_Unmarshal_eq] at ha ⊢
  have hlb : b.length < 2 ^ 63 := by simp only [List.length_append] at hl; omega
  have hb := decodeVarint_bound hlb hv
  refine unmarshalLoop_continue Config_stepFrame b ha
    (unmarshalLoop_step_error (by
      simp only [len, List.length_append] at hb ⊢; push_cast; omega)
      (Config_UnmarshalField_wrongWireType m1 (decodeVarint_at_append a b hl hv) hf hw) _) ?_
  intro h
  injection h with h
  exact (wireTypeError_ne_outOfFuel wire).1 h

theorem ConfigV1_Unmarshal_wrongWireType {m m1 : ConfigV1} {a b : List Byte} {wire : Nat}
    {i1 : Int} (hl : (a ++ b).length < 2 ^ 63) (ha : m.Unmarshal a = .ok m1)
    (hv : decodeVarint b 0 = .ok (wire, i1))
    (hf : fieldNumOf wire = 1 ∨ fieldNumOf wire = 2 ∨ fieldNumOf wire = 3)
    (hw : wireTypeOf wire ≠ 2) :
    m.Unmarshal (a ++ b) = .error (ConfigV1.wireTypeError wire) := by
  rw [ConfigV1_Unmarshal_eq] at ha ⊢
  have hlb : b.length < 2 ^ 63 := by simp only [List.length_append] at hl; omega
  have hb := decodeVarint_bound hlb hv
  refine unmarshalLoop_continue ConfigV1_stepFrame b ha
    (unmarshalLoop_step_error (by
      simp only [len, List.length_append] at hb ⊢; push_cast; omega)
      (ConfigV1_UnmarshalField_wrongWireType m1 (decodeVarint_at_append a b hl hv) hf hw) _) ?_
  intro h
  injection h with h
  exact (wireTypeError_ne_outOfFuel wire).2 h

/-! ## Truncated input -/

theorem decodeVarint_cut {d : List Byte} {i i1 : Int} {wire : Nat} (k : Nat)
    (hl : d.length < 2 ^ 63) (hv : decodeVarint d i = .ok (wire, i1)) :
    decodeVarint (d.take k) i = .error .ErrUnexpectedEOF
      ∨ (i1 ≤ k ∧ decodeVarint (d.take k) i = .ok (wire, i1)) := by
  by_cases h : i1 ≤ k
  · exact Or.inr ⟨h, decodeVarint_take hl hv h⟩
  · exact Or.inl (decodeVarint_truncated hl hv (by omega))

theorem skipFuel_truncated (f : Nat) :
    (∀ (d : List Byte) (n : Int) (k : Nat), d.length < 2 ^ 63 → skipConfigFuel f d = .ok n →
      0 < k → (k : Int) < n →
      skipConfigFuel f (d.take k) = .error .ErrUnexpectedEOF
        ∨ skipConfigFuel f (d.take k) = .ok n) ∧
    (∀ (d : List Byte) (i n : Int) (k : Nat), d.length < 2 ^ 63 →
      skipGroupFuel f d i = .ok n → (k : Int) < n →
      skipGroupFuel f (d.take k) i = .error .ErrUnexpectedEOF) := by
  induction f with
  | zero =>
    constructor
    · intro d n k _ h; simp [skipConfigFuel] at h
    · intro d i n k _ h; simp [skipGroupFuel] at h
  | succ f ih =>
    constructor
    · intro d n k hl h hk0 hkn
      rw [skipConfigFuel] at h ⊢
      dsimp only at h ⊢
      split at h
      · rename_i hlen
        have hlen' : (0 : Int) < len (d.take k) := by
          simp only [len, List.length_take] at hlen ⊢; omega
        rw [if_pos hlen']
        cases hv : decodeVarint d 0 with
        | error e => rw [hv] at h; cases h
        | ok p =>
          obtain ⟨wire, i1⟩ := p
          rw [hv, bind_ok] at h
          dsimp only at h
          rcases decodeVarint_cut k hl hv with hc | ⟨hi1, hc⟩
          · left; rw [hc]; rfl
          · rw [hc, bind_ok]
            dsimp only
            split at h
            · rename_i h0
              rw [if_pos h0]
              cases hv2 : decodeVarint d i1 with
              | error e => rw [hv2] at h; cases h
              | ok q =>
                obtain ⟨v, i2⟩ := q
                rw [hv2, bind_ok] at h
                injection h with h
                subst h
                left
                rw [decodeVarint_truncated hl hv2 hkn]; rfl
            · rename_i h0
              rw [if_neg h0]
              split at h
              · rename_i h1
                rw [if_pos h1]
                right; exact h
              · rename_i h1
                rw [if_neg h1]
                split at h
                · rename_i h2
                  rw [if_pos h2]
                  cases hv2 : decodeVarint d i1 with
                  | error e => rw [hv2] at h; cases h
                  | ok q =>
                    obtain ⟨L, i2⟩ := q
                    rw [hv2, bind_ok] at h
                    rcases decodeVarint_cut k hl hv2 with hc2 | ⟨_, hc2⟩
                    · left; rw [hc2]; rfl
                    · right; rw [hc2, bind_ok]; exact h
                · rename_i h2
                  rw [if_neg h2]
                  split at h
                  · rename_i h3
                    rw [if_pos h3]
                    left
                    exact ih.2 _ _ _ _ hl h hkn
                  · rename_i h3
                    rw [if_neg h3]
                    split at h
                    · injection h with h
                      omega
                    · rename_i h4
                      rw [if_neg h4]
                      right; exact h
      · cases h
    · intro d i n k hl h hkn
      rw [skipGroupFuel] at h ⊢
      dsimp only at h ⊢
      cases hv : decodeVarint d i with
      | error e => rw [hv] at h; cases h
      | ok p =>
        obtain ⟨wire, i1⟩ := p
        rw [hv, bind_ok] at h
        dsimp only at h
        have hb := decodeVarint_bound hl hv
        rcases decodeVarint_cut k hl hv with hc | ⟨hi1, hc⟩
        · rw [hc]; rfl
        · rw [hc, bind_ok]
          dsimp only
          split at h
          · injection h with h
            omega
          · rename_i h4
            rw [if_neg h4]
            cases hs : sliceFrom d i with
            | error e => rw [hs] at h; cases h
            | ok sub =>
              rw [hs, bind_ok] at h
              rw [sliceFrom_take hs (by omega), bind_ok]
              cases hk : skipConfigFuel f sub with
              | error e => rw [hk] at h; cases h
              | ok next =>
                rw [hk, bind_ok] at h
                split at h
                · cases h
                · rename_i hneg
                  obtain ⟨hs0, hs1, hsub⟩ := sliceFrom_eq_ok hs
                  have hsl : sub.length < 2 ^ 63 := by
                    rw [hsub, List.length_drop]; omega
                  have h1 := (skipFuel_bound f).1 sub next hsl hk
                  have h2 := (skipFuel_bound f).2 _ _ _ hl h
                  simp only [len] at hs1 h1 h2 hb
                  have hsl2 : (sub.length : Int) = d.length - i := by
                    rw [hsub, List.length_drop]; omega
                  have hadd : addInt i next = i + next := by
                    unfold addInt int64 at hneg h2 ⊢
                    omega
                  have hrest : ∀ r, skipConfigFuel f (sub.take (k - i.toNat)) = r →
                      (r = .error .ErrUnexpectedEOF ∨ r = .ok next) →
                      (r >>= fun next =>
                        if addInt i next < 0 then Except.error Err.ErrInvalidLengthConfig
                        else skipGroupFuel f (d.take k) (addInt i next))
                        = .error .ErrUnexpectedEOF := by
                    intro r _ hr
                    rcases hr with rfl | rfl
                    · rfl
                    · rw [bind_ok, if_neg hneg]
                      exact ih.2 _ _ _ _ hl h hkn
                  by_cases hcase : next ≤ ((k - i.toNat : Nat) : Int)
                  · exact hrest _ rfl (Or.inr
                      (skipFuel_take f |>.1 sub next (k - i.toNat) hsl hk (by omega) hcase))
                  · exact hrest _ rfl
                      (ih.1 sub next (k - i.toNat) hsl hk (by omega) (by omega))

theorem skipConfig_truncated {d : List Byte} {n : Int} {k : Nat} (hl : d.length < 2 ^ 63)
    (h : skipConfig d = .ok n) (hk0 : 0 < k) (hkn : (k : Int) < n) :
    skipConfig (d.take k) = .error .ErrUnexpectedEOF ∨ skipConfig (d.take k) = .ok n := by
  unfold skipConfig at h
  have h1 := (skipFuel_truncated _).1 d n k hl h hk0 hkn
  have hl' : (d.take k).length < 2 ^ 63 := by rw [List.length_take]; omega
  have h2 := skipConfig_ne_outOfFuel hl'
  have h3 := (skipFuel_mono_le (f := 2 * (d.take k).length + 1) (g := 2 * d.length + 1)
    (by rw [List.length_take]; omega)).1 _ _ rfl h2
  unfold skipConfig
  rw [← h3]; exact h1

theorem len_take_le (d : List Byte) (k : Nat) : len (d.take k) ≤ k := by
  simp only [len, List.length_take]; omega

theorem decodeLength_truncated {d : List Byte} {i1 i2 post : Int} {k : Nat}
    (hl : d.length < 2 ^ 63) (h : decodeLength d i1 = .ok (i2, post)) (hk : (k : Int) < post) :
    decodeLength (d.take k) i1 = .error .ErrUnexpectedEOF := by
  obtain ⟨L, hv, hL, hp, hn, hg⟩ := decodeLength_eq_ok h
  unfold decodeLength
  rcases decodeVarint_cut k hl hv with hc | ⟨_, hc⟩
  · rw [hc]; rfl
  · rw [hc, bind_ok]
    dsimp only
    subst hp
    have := len_take_le d k
    rw [if_neg hL, if_neg hn, if_pos (by omega)]

theorem skipField_truncated {d span : List Byte} {i i' : Int} {k : Nat}
    (hl : d.length < 2 ^ 63) (h : skipField d i = .ok (i', span)) (hik : i < k)
    (hk : (k : Int) < i') : skipField (d.take k) i = .error .ErrUnexpectedEOF := by
  have hbd := skipField_bound hl h
  obtain ⟨sub, skippy, hs, hk', h1, rfl, h2, h3, hsl⟩ := skipField_eq_ok h
  obtain ⟨hs0, hs1, hsub⟩ := sliceFrom_eq_ok hs
  simp only [len] at hs1 hbd
  have hsl' : sub.length < 2 ^ 63 := by rw [hsub, List.length_drop]; omega
  have hb := (skipFuel_bound _).1 sub skippy hsl' hk'
  have hadd : addInt i skippy = i + skippy := by
    unfold addInt int64 at h2 hbd ⊢
    omega
  unfold skipField
  dsimp only
  rw [sliceFrom_take hs (by omega), bind_ok]
  rcases skipConfig_truncated (k := k - i.toNat) hsl' hk' (by omega) (by omega) with hc | hc
  · rw [hc]; rfl
  · rw [hc, bind_ok]
    have := len_take_le d k
    rw [if_neg h1, if_neg h2, if_pos (by omega)]

theorem Config_FieldSpan_truncated {d : List Byte} {i i' : Int} {k : Nat} (m : Config)
    (hl : d.length < 2 ^ 63) (h : Config.FieldSpan d i i') (hik : i < k)
    (hk : (k : Int) < i') : m.UnmarshalField (d.take k) i = .error .ErrUnexpectedEOF := by
  obtain ⟨wire, i1, hv, h4, hpos, hc⟩ := h
  unfold wireTypeOf at h4 hc
  unfold fieldNumOf at hpos hc
  unfold Config.UnmarshalField
  dsimp only
  rcases decodeVarint_cut k hl hv with hcut | ⟨_, hcut⟩
  · rw [hcut]; rfl
  · rw [hcut, bind_ok]
    dsimp only
    rw [if_neg h4, if_neg (not_le.mpr hpos)]
    rcases hc with ⟨hf, hw, i2, hd⟩ | ⟨hf1, hf2, span, hs⟩
    · have hd' := decodeLength_truncated hl hd hk
      rcases hf with hf | hf
      · rw [if_pos hf, if_neg (not_not.mpr hw), hd']; rfl
      · have hf1 : ¬ int32 (wire >>> 3) = 1 := by omega
        rw [if_neg hf1, if_pos hf, if_neg (not_not.mpr hw), hd']; rfl
    · rw [if_neg hf1, if_neg hf2, skipField_truncated hl hs hik hk]; rfl

theorem Config_FieldSpan_shift (a : List Byte) {b : List Byte} {j j' : Int}
    (hl : (a ++ b).length < 2 ^ 63) (h0 : 0 ≤ j) (h : Config.FieldSpan b j j') :
    Config.FieldSpan (a ++ b) ((a.length : Int) + j) ((a.length : Int) + j') := by
  obtain ⟨wire, i1, hv, h4, hpos, hc⟩ := h
  have hs := decodeVarint_shift a b h0 hl
  rw [hv] at hs
  simp only [shiftResult] at hs
  refine ⟨wire, (a.length : Int) + i1, hs, h4, hpos, ?_⟩
  rcases hc with ⟨hf, hw, i2, hd⟩ | ⟨hf1, hf2, span, hs⟩
  · exact Or.inl ⟨hf, hw, _, decodeLength_shift a hl hd⟩
  · exact Or.inr ⟨hf1, hf2, span, skipField_shift a hl hs⟩

theorem Config_FieldOk_span {m m' : Config} {d : List Byte} {i i' : Int}
    (h : Config.FieldOk m d i m' i') : Config.FieldSpan d i i' := by
  obtain ⟨wire, i1, hv, h4, hpos, hc⟩ := h
  refine ⟨wire, i1, hv, h4, hpos, ?_⟩
  rcases hc with ⟨hf, hw, s, ⟨i2, hd, _⟩, _⟩ | ⟨hf, hw, sub, v1, ⟨i2, hd, _⟩, _, _⟩
    | ⟨hf1, hf2, span, hs, _⟩
  · exact Or.inl ⟨Or.inl hf, hw, i2, hd⟩
  · exact Or.inl ⟨Or.inr hf, hw, i2, hd⟩
  · exact Or.inr ⟨hf1, hf2, span, hs⟩

theorem Config_Unmarshal_truncated {m m1 : Config} {a F : List Byte} {j : Nat}
    (hl : (a ++ F).length < 2 ^ 63) (ha : m.Unmarshal a = .ok m1)
    (hF : Config.FieldSpan F 0 (F.length : Int)) (hj0 : 0 < j) (hj : j < F.length) :
    m.Unmarshal (a ++ F.take j) = .error .ErrUnexpectedEOF := by
  rw [Config_Unmarshal_eq] at ha ⊢
  have hsp := Config_FieldSpan_shift a hl (le_refl 0) hF
  have htr := Config_FieldSpan_truncated (k := a.length + j) m1 hl hsp (by omega)
    (by push_cast; omega)
  rw [List.take_append] at htr
  refine unmarshalLoop_continue Config_stepFrame (F.take j) ha
    (unmarshalLoop_step_error (by
      simp only [len, List.length_append, List.length_take]; push_cast; omega)
      (by rw [add_zero] at htr; exact htr) _) (by simp)

theorem Config_IsUnknownField_ne_nil {s : List Byte} (hl : s.length < 2 ^ 63)
    (h : Config.IsUnknownField s) : s ≠ [] := by
  obtain ⟨wire, i1, hv, _⟩ := h
  have := decodeVarint_bound hl hv
  intro he
  rw [he] at this
  simp [len] at this
  omega

theorem Config_IsUnknownField_decode {s : List Byte} (hl : s.length < 2 ^ 63)
    (h : Config.IsUnknownField s) (m : Config) :
    m.Unmarshal s = .ok { m with XXX_unrecognized := appendBytes m.XXX_unrecognized s } := by
  have hne := Config_IsUnknownField_ne_nil hl h
  obtain ⟨wire, i1, hv, h4, hpos, hf1, hf2, hs⟩ := h
  exact Config_Unmarshal_single ⟨wire, i1, hv, h4, hpos, Or.inr (Or.inr ⟨hf1, hf2, s, hs, rfl⟩)⟩
    hne

theorem Config_IsUnknownFields_redecodable {t : List Byte} (h : Config.IsUnknownFields t)
    (hl : t.length < 2 ^ 63) : Config.Redecodable t := by
  induction h with
  | nil => exact Config_Redecodable_nil
  | snoc t s _ hs ih =>
    simp only [List.length_append] at hl
    intro m
    have hne := Config_IsUnknownField_ne_nil (by omega) hs
    have h1 := ih (by omega) m
    have h2 := Config_IsUnknownField_decode (by omega) hs
      (Config.mk m.UserID m.V1 (appendBytes m.XXX_unrecognized t))
    dsimp only at h2
    rw [appendBytes_appendBytes _ _ hne] at h2
    exact Config_Unmarshal_append (by rw [List.length_append]; omega) h1 h2

theorem Config_IsUnknownField_span {s : List Byte} (h : Config.IsUnknownField s) :
    Config.FieldSpan s 0 (s.length : Int) := by
  obtain ⟨wire, i1, hv, h4, hpos, hf1, hf2, hs⟩ := h
  exact ⟨wire, i1, hv, h4, hpos, Or.inr ⟨hf1, hf2, s, hs⟩⟩

theorem Config_FieldSpan_recognised (tag : Byte) (s : List Byte)
    (ht : tag = 0x0a ∨ tag = 0x12) (hl : (tag :: (varint s.length ++ s)).length < 2 ^ 63) :
    Config.FieldSpan (tag :: (varint s.length ++ s)) 0
      ((tag :: (varint s.length ++ s)).length : Int) := by
  obtain ⟨i2, hd, _⟩ := readsBytes_after_tag tag s hl
  rcases ht with rfl | rfl
  · exact ⟨10, 1, decodeVarint_tag 0x0a _ (by decide) hl, by decide, by decide,
      Or.inl ⟨Or.inl (by decide), by decide, i2, hd⟩⟩
  · exact ⟨18, 1, decodeVarint_tag 0x12 _ (by decide) hl, by decide, by decide,
      Or.inl ⟨Or.inr (by decide), by decide, i2, hd⟩⟩

theorem Config_FieldSpan_stringField {s : List Byte} (hs : s ≠ [])
    (hl : (stringField 0x0a s).length < 2 ^ 63) :
    Config.FieldSpan (stringField 0x0a s) 0 ((stringField 0x0a s).length : Int) := by
  rw [stringField_ne_nil hs] at hl ⊢
  exact Config_FieldSpan_recognised 0x0a s (Or.inl rfl) hl

theorem Config_FieldSpan_v1Field (v : ConfigV1) (hl : (v1Field (some v)).length < 2 ^ 63) :
    Config.FieldSpan (v1Field (some v)) 0 ((v1Field (some v)).length : Int) :=
  Config_FieldSpan_recognised 0x12 v.layout (Or.inr rfl) hl

theorem lengthDelimitedTag_eq (N : Nat) : lengthDelimitedTag N = 8 * N + 2 := by
  unfold lengthDelimitedTag
  rw [Nat.shiftLeft_eq, Nat.mul_comm]
  exact (Nat.mul_add_lt_is_or (i := 3) (by decide) N).symm

theorem wireTypeOf_lengthDelimitedTag (N : Nat) : wireTypeOf (lengthDelimitedTag N) = 2 := by
  unfold wireTypeOf
  rw [lengthDelimitedTag_eq]
  have h := Nat.and_pow_two_sub_one_eq_mod (8 * N + 2) 3
  have h7 : (2 : Nat) ^ 3 - 1 = 7 := by decide
  rw [h7] at h
  rw [h]
  have : (8 * N + 2) % 2 ^ 3 = 2 := by omega
  rw [this]; rfl

theorem fieldNumOf_lengthDelimitedTag {N : Nat} (h : N < 2 ^ 31) :
    fieldNumOf (lengthDelimitedTag N) = N := by
  unfold fieldNumOf int32
  rw [lengthDelimitedTag_eq, Nat.shiftRight_eq_div_pow]
  have : (8 * N + 2) / 2 ^ 3 = N := by omega
  rw [this]
  omega

theorem lengthDelimited_decodeTag (N : Nat) (P : List Byte) (hN : N < 2 ^ 60)
    (hl : (lengthDelimited N P).length < 2 ^ 63) :
    decodeVarint (lengthDelimited N P) 0
      = .ok (lengthDelimitedTag N, ((varint (lengthDelimitedTag N)).length : Int)) := by
  have hw : lengthDelimitedTag N < 2 ^ 64 := by rw [lengthDelimitedTag_eq]; omega
  have := decodeVarint_varint (lengthDelimitedTag N) [] (varint P.length ++ P) hw
    (by simpa [lengthDelimited] using hl)
  simpa [lengthDelimited] using this

theorem lengthDelimited_decodeLength (N : Nat) (P : List Byte)
    (hl : (lengthDelimited N P).length < 2 ^ 63) :
    decodeVarint (lengthDelimited N P) ((varint (lengthDelimitedTag N)).length : Int)
      = .ok (P.length,
          (((varint (lengthDelimitedTag N)).length + (varint P.length).length : Nat) : Int)) := by
  unfold lengthDelimited at hl ⊢
  simp only [List.length_append] at hl
  have := decodeVarint_varint P.length (varint (lengthDelimitedTag N)) P (by omega)
    (by simp only [List.length_append]; omega)
  rw [List.append_assoc] at this
  exact this

theorem skipConfigFuel_lengthDelimited (f : Nat) (N : Nat) (P : List Byte) (hN : N < 2 ^ 60)
    (hl : (lengthDelimited N P).length < 2 ^ 63) :
    skipConfigFuel (f + 1) (lengthDelimited N P) = .ok ((lengthDelimited N P).length : Int) := by
  have h1 := lengthDelimited_decodeTag N P hN hl
  have h2 := lengthDelimited_decodeLength N P hl
  have hb := decodeVarint_bound hl h1
  have hw := wireTypeOf_lengthDelimitedTag N
  unfold wireTypeOf at hw
  have hlen : ((lengthDelimited N P).length : Int)
      = (((varint (lengthDelimitedTag N)).length + (varint P.length).length : Nat) : Int)
        + P.length := by
    unfold lengthDelimited
    simp only [List.length_append]; push_cast; omega
  have hP : P.length < 2 ^ 63 := by
    unfold lengthDelimited at hl
    simp only [List.length_append] at hl
    omega
  have hi : int64 (P.length : Int) = P.length := int64_natCast hP
  rw [skipConfigFuel]
  dsimp only
  rw [if_pos (by omega), h1, bind_ok]
  dsimp only
  rw [hw, if_neg (by decide), if_neg (by decide), if_pos rfl, h2, bind_ok]
  dsimp only
  rw [hi, if_neg (by omega)]
  have ha : addInt (((varint (lengthDelimitedTag N)).length + (varint P.length).length : Nat) : Int)
      (P.length : Int) = ((lengthDelimited N P).length : Int) := by
    have hlt : ((lengthDelimited N P).length : Int) < 2 ^ 63 := by exact_mod_cast hl
    rw [hlen] at hlt ⊢
    unfold addInt int64
    omega
  rw [ha, if_neg (by omega)]

theorem lengthDelimited_isUnknownField (N : Nat) (P : List Byte) (h3 : 3 ≤ N)
    (hN : N ≤ 2 ^ 29 - 1) (hl : (lengthDelimited N P).length < 2 ^ 63) :
    Config.IsUnknownField (lengthDelimited N P) := by
  have h1 := lengthDelimited_decodeTag N P (by omega) hl
  have hf := fieldNumOf_lengthDelimitedTag (N := N) (by omega)
  have hb := decodeVarint_bound hl h1
  refine ⟨_, _, h1, by rw [wireTypeOf_lengthDelimitedTag]; decide, by rw [hf]; omega,
    by rw [hf]; omega, by rw [hf]; omega, ?_⟩
  have hk : skipConfig (lengthDelimited N P) = .ok ((lengthDelimited N P).length : Int) :=
    skipConfigFuel_lengthDelimited _ N P (by omega) hl
  have hs : sliceFrom (lengthDelimited N P) 0 = .ok (lengthDelimited N P) := by
    rw [sliceFrom_of_le (le_refl 0) (by simp only [len]; omega)]; rfl
  have ha : addInt 0 ((lengthDelimited N P).length : Int) = ((lengthDelimited N P).length : Int) := by
    unfold addInt int64; omega
  have := @skipField_of _ _ (lengthDelimited N P) _ _ hs hk (by omega)
    (by rw [ha]; omega) (by rw [ha]; simp only [len]; omega)
    (by rw [ha, slice_of_le (le_refl 0) (by omega) (by simp only [len]; omega)]; simp)
  rw [ha] at this
  exact this

/-! ## Success of a decode does not depend on the message decoded into -/

theorem unmarshalLoop_success_indep {α : Type}
    {step : α → List Byte → Int → Except Err (α × Int)}
    (hstep : ∀ (m n : α) (d : List Byte) (i i' : Int) (m' : α),
      step m d i = .ok (m', i') → ∃ n', step n d i = .ok (n', i'))
    (f : Nat) : ∀ (m n m1 : α) (d : List Byte) (i : Int),
      unmarshalLoop step f m d i = .ok m1 → ∃ n1, unmarshalLoop step f n d i = .ok n1 := by
  induction f with
  | zero => intro m n m1 d i h; cases h
  | succ f ih =>
    intro m n m1 d i h
    unfold unmarshalLoop at h ⊢
    split at h
    · rename_i hlt
      rw [if_pos hlt]
      cases hs : step m d i with
      | error e => rw [hs] at h; cases h
      | ok p =>
        obtain ⟨m', i'⟩ := p
        rw [hs] at h
        obtain ⟨n', hn⟩ := hstep m n d i i' m' hs
        rw [hn]
        exact ih m' n' m1 d i' h
    · rename_i hlt
      rw [if_neg hlt]
      split at h
      · cases h
      · rename_i hgt
        rw [if_neg hgt]
        exact ⟨n, rfl⟩

theorem ConfigV1_FieldOk_indep {m m' : ConfigV1} {d : List Byte} {i i' : Int}
    (h : ConfigV1.FieldOk m d i m' i') (n : ConfigV1) : ∃ n', ConfigV1.FieldOk n d i n' i' := by
  obtain ⟨wire, i1, hv, h4, hpos, hc⟩ := h
  rcases hc with ⟨a, b, s, hr, _⟩ | ⟨a, b, s, hr, _⟩ | ⟨a, b, s, hr, _⟩
    | ⟨hf1, hf2, hf3, span, hs, _⟩
  · exact ⟨_, wire, i1, hv, h4, hpos, Or.inl ⟨a, b, s, hr, rfl⟩⟩
  · exact ⟨_, wire, i1, hv, h4, hpos, Or.inr (Or.inl ⟨a, b, s, hr, rfl⟩)⟩
  · exact ⟨_, wire, i1, hv, h4, hpos, Or.inr (Or.inr (Or.inl ⟨a, b, s, hr, rfl⟩))⟩
  · exact ⟨_, wire, i1, hv, h4, hpos, Or.inr (Or.inr (Or.inr ⟨hf1, hf2, hf3, span, hs, rfl⟩))⟩

theorem ConfigV1_Unmarshal_indep {m m1 : ConfigV1} {d : List Byte}
    (h : m.Unmarshal d = .ok m1) (n : ConfigV1) : ∃ n1, n.Unmarshal d = .ok n1 := by
  rw [ConfigV1_Unmarshal_eq] at h
  obtain ⟨n1, hn⟩ := unmarshalLoop_success_indep
    (fun m n d i i' m' hs => by
      obtain ⟨n', hn'⟩ :=
        ConfigV1_FieldOk_indep ((ConfigV1_UnmarshalField_ok_iff m d i m' i').mp hs) n
      exact ⟨n', (ConfigV1_UnmarshalField_ok_iff n d i n' i').mpr hn'⟩)
    _ m n m1 d 0 h
  exact ⟨n1, by rw [ConfigV1_Unmarshal_eq]; exact hn⟩

/-! ## A decode holds no more bytes than it read -/

theorem ReadsBytes_length {d s : List Byte} {i1 post : Int} (hl : d.length < 2 ^ 63)
    (h : ReadsBytes d i1 post s) : (s.length : Int) ≤ post - i1 := by
  obtain ⟨i2, hd, hs⟩ := h
  have := decodeLength_bound hl hd
  have := slice_length hs
  omega

theorem ConfigV1_FieldOk_contentLen {m m' : ConfigV1} {d : List Byte} {i i' : Int}
    (hl : d.length < 2 ^ 63) (h : ConfigV1.FieldOk m d i m' i') :
    (m'.contentLen : Int) ≤ m.contentLen + (i' - i) := by
  obtain ⟨wire, i1, hv, h4, hpos, hc⟩ := h
  have hb := decodeVarint_bound hl hv
  rcases hc with ⟨_, _, s, hr, rfl⟩ | ⟨_, _, s, hr, rfl⟩ | ⟨_, _, s, hr, rfl⟩
    | ⟨_, _, _, span, hs, rfl⟩
  · have := ReadsBytes_length hl hr
    simp only [ConfigV1.contentLen]; push_cast; omega
  · have := ReadsBytes_length hl hr
    simp only [ConfigV1.contentLen]; push_cast; omega
  · have := ReadsBytes_length hl hr
    simp only [ConfigV1.contentLen]; push_cast; omega
  · have := skipField_bound hl hs
    simp only [ConfigV1.contentLen, tailBytes_appendBytes, List.length_append]; push_cast; omega

theorem ConfigV1_Unmarshal_contentLen {m m1 : ConfigV1} {d : List Byte}
    (hl : d.length < 2 ^ 63) (h : m.Unmarshal d = .ok m1) :
    m1.contentLen ≤ m.contentLen + d.length := by
  rw [ConfigV1_Unmarshal_eq] at h
  have := unmarshalLoop_invariant
    (fun (x : ConfigV1) (i : Int) => (x.contentLen : Int) ≤ m.contentLen + i) d
    (fun x x' i i' hs hinv => by
      have := ConfigV1_FieldOk_contentLen hl ((ConfigV1_UnmarshalField_ok_iff x d i x' i').mp hs)
      dsimp only at hinv ⊢
      omega)
    _ m m1 0 h (by dsimp only; omega)
  simp only [len] at this
  omega

theorem Config_FieldOk_contentLen {m m' : Config} {d : List Byte} {i i' : Int}
    (hl : d.length < 2 ^ 63) (h : Config.FieldOk m d i m' i') :
    (m'.contentLen : Int) ≤ m.contentLen + (i' - i) := by
  obtain ⟨wire, i1, hv, h4, hpos, hc⟩ := h
  have hb := decodeVarint_bound hl hv
  rcases hc with ⟨_, _, s, hr, rfl⟩ | ⟨_, _, sub, v1, hr, hu, rfl⟩ | ⟨_, _, span, hs, rfl⟩
  · have := ReadsBytes_length hl hr
    simp only [Config.contentLen]; push_cast; omega
  · have hlen := ReadsBytes_length hl hr
    have hbd := ReadsBytes_bound hl hr
    have hsub : sub.length < 2 ^ 63 := by
      simp only [len] at hbd; omega
    have hc := ConfigV1_Unmarshal_contentLen hsub hu
    have hg : (m.V1.getD ConfigV1.empty).contentLen = v1ContentLen m.V1 := by
      cases m.V1 with
      | none => rfl
      | some v => rfl
    have h2 : v1ContentLen (some v1) = v1.contentLen := rfl
    simp only [Config.contentLen]
    rw [h2]
    push_cast; omega
  · have := skipField_bound hl hs
    simp only [Config.contentLen, tailBytes_appendBytes, List.length_append]; push_cast; omega

theorem Config_Unmarshal_contentLen {m m1 : Config} {d : List Byte}
    (hl : d.length < 2 ^ 63) (h : m.Unmarshal d = .ok m1) :
    m1.contentLen ≤ m.contentLen + d.length := by
  rw [Config_Unmarshal_eq] at h
  have := unmarshalLoop_invariant
    (fun (x : Config) (i : Int) => (x.contentLen : Int) ≤ m.contentLen + i) d
    (fun x x' i i' hs hinv => by
      have := Config_FieldOk_contentLen hl ((Config_UnmarshalField_ok_iff x d i x' i').mp hs)
      dsimp only at hinv ⊢
      omega)
    _ m m1 0 h (by dsimp only; omega)
  simp only [len] at this
  omega

theorem lengthDelimited_one (P : List Byte) :
    lengthDelimited 1 P = 0x0a :: (varint P.length ++ P) := by
  unfold lengthDelimited
  have h : lengthDelimitedTag 1 = 10 := by decide
  rw [h, varint_small (by decide)]
  rfl

theorem lengthDelimited_two (P : List Byte) :
    lengthDelimited 2 P = 0x12 :: (varint P.length ++ P) := by
  unfold lengthDelimited
  have h : lengthDelimitedTag 2 = 18 := by decide
  rw [h, varint_small (by decide)]
  rfl

theorem Config_Unmarshal_lengthDelimited (m : Config) (f : Nat × List Byte)
    (hw : WellFormedField f) (hl : (lengthDelimited f.1 f.2).length < 2 ^ 63) :
    ∃ m1, m.Unmarshal (lengthDelimited f.1 f.2) = .ok m1
      ∧ tailBytes m1.XXX_unrecognized
          = tailBytes m.XXX_unrecognized ++ (if 3 ≤ f.1 then lengthDelimited f.1 f.2 else [])
      ∧ (3 ≤ f.1 → m1.UserID = m.UserID ∧ m1.V1 = m.V1) := by
  obtain ⟨N, P⟩ := f
  obtain ⟨h1, hN, h2⟩ := hw
  dsimp only at h1 hN h2 hl ⊢
  rcases Nat.lt_or_ge N 3 with hlt | hge
  · rw [if_neg (by omega), List.append_nil]
    rcases Nat.lt_or_ge N 2 with hlt2 | hge2
    · obtain rfl : N = 1 := by omega
      rw [lengthDelimited_one] at hl ⊢
      refine ⟨{ m with UserID := P }, ?_, rfl, fun h => absurd h (by decide)⟩
      exact Config_Unmarshal_single ⟨10, 1, decodeVarint_tag 0x0a _ (by decide) hl,
        by decide, by decide,
        Or.inl ⟨by decide, by decide, P, readsBytes_after_tag _ P hl, rfl⟩⟩ (by simp)
    · obtain rfl : N = 2 := by omega
      rw [lengthDelimited_two] at hl ⊢
      obtain ⟨v, hv⟩ := h2 rfl
      obtain ⟨v1, hv1⟩ := ConfigV1_Unmarshal_indep hv (m.V1.getD ConfigV1.empty)
      exact ⟨{ m with V1 := some v1 }, Config_Unmarshal_V1 m hv1 hl, rfl,
        fun h => absurd h (by decide)⟩
  · rw [if_pos hge]
    have hu := lengthDelimited_isUnknownField N P hge hN hl
    exact ⟨_, Config_IsUnknownField_decode hl hu m, tailBytes_appendBytes _ _,
      fun _ => ⟨rfl, rfl⟩⟩

theorem unknownFieldsBytes_cons (f : Nat × List Byte) (fs : List (Nat × List Byte)) :
    unknownFieldsBytes (f :: fs)
      = if 3 ≤ f.1 then lengthDelimited f.1 f.2 ++ unknownFieldsBytes fs
        else unknownFieldsBytes fs := rfl

theorem fieldsBytes_cons (f : Nat × List Byte) (fs : List (Nat × List Byte)) :
    fieldsBytes (f :: fs) = lengthDelimited f.1 f.2 ++ fieldsBytes fs := rfl

theorem Config_Unmarshal_fieldsBytes (fs : List (Nat × List Byte)) :
    (∀ f ∈ fs, WellFormedField f) → (fieldsBytes fs).length < 2 ^ 63 → ∀ m : Config,
    ∃ r, m.Unmarshal (fieldsBytes fs) = .ok r
      ∧ tailBytes r.XXX_unrecognized = tailBytes m.XXX_unrecognized ++ unknownFieldsBytes fs
      ∧ ((∀ f ∈ fs, 3 ≤ f.1) → r.UserID = m.UserID ∧ r.V1 = m.V1) := by
  induction fs with
  | nil =>
    intro _ _ m
    exact ⟨m, Config_Unmarshal_nil m, by simp [unknownFieldsBytes], fun _ => ⟨rfl, rfl⟩⟩
  | cons f fs ih =>
    intro hw hl m
    rw [fieldsBytes_cons] at hl ⊢
    have hl2 := hl
    simp only [List.length_append] at hl2
    obtain ⟨m1, hm1, ht1, hk1⟩ := Config_Unmarshal_lengthDelimited m f
      (hw f (List.mem_cons_self _ _)) (by omega)
    obtain ⟨r, hr, ht, hk⟩ := ih (fun g hg => hw g (List.mem_cons_of_mem _ hg)) (by omega) m1
    refine ⟨r, Config_Unmarshal_append hl hm1 hr, ?_, ?_⟩
    · rw [ht, ht1, unknownFieldsBytes_cons]
      split <;> simp
    · intro hall
      have h1 := hk1 (hall f (List.mem_cons_self _ _))
      have h2 := hk (fun g hg => hall g (List.mem_cons_of_mem _ hg))
      exact ⟨h2.1.trans h1.1, h2.2.trans h1.2⟩

theorem unknownFieldsBytes_eq (fs : List (Nat × List Byte)) :
    (∀ f ∈ fs, 3 ≤ f.1) → unknownFieldsBytes fs = fieldsBytes fs := by
  induction fs with
  | nil => intro _; rfl
  | cons f fs ih =>
    intro h
    rw [unknownFieldsBytes_cons, fieldsBytes_cons, if_pos (h f (List.mem_cons_self _ _)), ih (fun g hg => h g (List.mem_cons_of_mem _ hg))]

theorem decodeVarintLoop_continuation (s : List Byte) :
    ∀ (fuel : Nat) (pre post : List Byte) (shift acc : Nat), ContinuationBytes s →
      shift + 7 * s.length ≤ 70 → (pre ++ s ++ post).length < 2 ^ 63 →
      decodeVarintLoop (fuel + s.length) (pre ++ s ++ post) (pre.length : Int) shift acc
        = decodeVarintLoop fuel (pre ++ s ++ post) ((pre.length + s.length : Nat) : Int)
            (shift + 7 * s.length) (varintValueFrom shift acc s) := by
  induction s with
  | nil => intro fuel pre post shift acc _ _ _; rfl
  | cons b s ih =>
    intro fuel pre post shift acc hc hs hl
    have hb : 0x80 ≤ b.val := hc b (List.mem_cons_self _ _)
    have hc' : ContinuationBytes s := fun x hx => hc x (List.mem_cons_of_mem _ hx)
    simp only [List.length_cons] at hs
    have hl2 := hl
    simp only [List.length_append, List.length_cons] at hl2
    rw [show fuel + (b :: s).length = (fuel + s.length) + 1 by simp only [List.length_cons]; omega]
    rw [decodeVarintLoop]
    rw [if_neg (by omega), if_neg (by simp only [len, List.length_append, List.length_cons]; omega)]
    have h1 : pre ++ b :: s ++ post = pre ++ b :: (s ++ post) := by simp
    have hidx : index (pre ++ b :: s ++ post) (pre.length : Int) = .ok b := by
      rw [h1]; exact index_append _ _ _
    rw [hidx, bind_ok]
    dsimp only
    rw [addInt_natCast_one (by omega), if_neg (by omega)]
    have h2 : pre ++ b :: s ++ post = (pre ++ [b]) ++ s ++ post := by simp
    have h3 : ((pre.length + 1 : Nat) : Int) = ((pre ++ [b]).length : Int) := by simp
    rw [h2, h3, ih fuel (pre ++ [b]) post (shift + 7) _ hc' (by omega) (by rw [← h2]; exact hl)]
    have e1 : (pre ++ [b]).length + s.length = pre.length + (b :: s).length := by
      simp only [List.length_append, List.length_cons, List.length_nil]; omega
    have e2 : shift + 7 + 7 * s.length = shift + 7 * (b :: s).length := by
      simp only [List.length_cons]; omega
    rw [e1, e2]
    rfl

theorem decodeVarint_overflow (pre s post : List Byte) (hc : ContinuationBytes s)
    (hs : s.length = 10) (hl : (pre ++ s ++ post).length < 2 ^ 63) :
    decodeVarint (pre ++ s ++ post) (pre.length : Int) = .error .ErrIntOverflowConfig := by
  unfold decodeVarint
  have := decodeVarintLoop_continuation s 1 pre post 0 0 hc (by omega) hl
  rw [hs] at this
  rw [this, decodeVarintLoop, if_pos (by omega)]

theorem decodeVarint_unexpectedEOF (pre s : List Byte) (hc : ContinuationBytes s)
    (hs : s.length < 10) (hl : (pre ++ s).length < 2 ^ 63) :
    decodeVarint (pre ++ s) (pre.length : Int) = .error .ErrUnexpectedEOF := by
  unfold decodeVarint
  have := decodeVarintLoop_continuation s (11 - s.length) pre [] 0 0 hc (by omega)
    (by simpa using hl)
  have e : 11 - s.length + s.length = 11 := by omega
  rw [e] at this
  simp only [List.append_nil] at this
  rw [this]
  obtain ⟨f, hf⟩ : ∃ f, 11 - s.length = f + 1 := ⟨10 - s.length, by omega⟩
  rw [hf, decodeVarintLoop, if_neg (by omega),
    if_pos (by simp only [len, List.length_append]; push_cast; omega)]

theorem decodeLength_error {d : List Byte} {i : Int} {e : Err}
    (h : decodeVarint d i = .error e) : decodeLength d i = .error e := by
  unfold decodeLength
  rw [h]; rfl

theorem Config_UnmarshalField_tagError (m : Config) {d : List Byte} {i : Int} {e : Err}
    (h : decodeVarint d i = .error e) : m.UnmarshalField d i = .error e := by
  unfold Config.UnmarshalField
  dsimp only
  rw [h]; rfl

theorem ConfigV1_UnmarshalField_tagError (m : ConfigV1) {d : List Byte} {i : Int} {e : Err}
    (h : decodeVarint d i = .error e) : m.UnmarshalField d i = .error e := by
  unfold ConfigV1.UnmarshalField
  dsimp only
  rw [h]; rfl

theorem Config_UnmarshalField_lengthError (m : Config) {d : List Byte} {i i1 : Int}
    {wire : Nat} {e : Err} (hv : decodeVarint d i = .ok (wire, i1))
    (hf : fieldNumOf wire = 1 ∨ fieldNumOf wire = 2) (hw : wireTypeOf wire = 2)
    (h : decodeLength d i1 = .error e) : m.UnmarshalField d i = .error e := by
  unfold wireTypeOf at hw
  unfold fieldNumOf at hf
  unfold Config.UnmarshalField
  dsimp only
  rw [hv, bind_ok]
  dsimp only
  rw [hw, if_neg (by decide)]
  rcases hf with hf | hf
  · rw [hf, if_neg (by decide), if_pos rfl, if_neg (by decide), h]; rfl
  · rw [hf, if_neg (by decide), if_neg (by decide), if_pos rfl, if_neg (by decide), h]; rfl

theorem ConfigV1_UnmarshalField_lengthError (m : ConfigV1) {d : List Byte} {i i1 : Int}
    {wire : Nat} {e : Err} (hv : decodeVarint d i = .ok (wire, i1))
    (hf : fieldNumOf wire = 1 ∨ fieldNumOf wire = 2 ∨ fieldNumOf wire = 3)
    (hw : wireTypeOf wire = 2)
    (h : decodeLength d i1 = .error e) : m.UnmarshalField d i = .error e := by
  unfold wireTypeOf at hw
  unfold fieldNumOf at hf
  unfold ConfigV1.UnmarshalField
  dsimp only
  rw [hv, bind_ok]
  dsimp only
  rw [hw, if_neg (by decide)]
  rcases hf with hf | hf | hf
  · rw [hf, if_neg (by decide), if_pos rfl, if_neg (by decide), h]; rfl
  · rw [hf, if_neg (by decide), if_neg (by decide), if_pos rfl, if_neg (by decide), h]; rfl
  · rw [hf, if_neg (by decide), if_neg (by decide), if_neg (by decide), if_pos rfl,
      if_neg (by decide), h]; rfl

theorem Config_Unmarshal_fieldError {m m1 : Config} {a b : List Byte} {e : Err}
    (ha : m.Unmarshal a = .ok m1) (hb : b ≠ [])
    (h : m1.UnmarshalField (a ++ b) (a.length : Int) = .error e) (he : e ≠ .outOfFuel) :
    m.Unmarshal (a ++ b) = .error e := by
  rw [Config_Unmarshal_eq] at ha ⊢
  have hpos : 0 < b.length := List.length_pos.mpr hb
  refine unmarshalLoop_continue Config_stepFrame b ha
    (unmarshalLoop_step_error (by
      simp only [len, List.length_append]; push_cast; omega) h _) ?_
  intro h'
  injection h' with h'
  exact he h'

theorem ConfigV1_Unmarshal_fieldError {m m1 : ConfigV1} {a b : List Byte} {e : Err}
    (ha : m.Unmarshal a = .ok m1) (hb : b ≠ [])
    (h : m1.UnmarshalField (a ++ b) (a.length : Int) = .error e) (he : e ≠ .outOfFuel) :
    m.Unmarshal (a ++ b) = .error e := by
  rw [ConfigV1_Unmarshal_eq] at ha ⊢
  have hpos : 0 < b.length := List.length_pos.mpr hb
  refine unmarshalLoop_continue ConfigV1_stepFrame b ha
    (unmarshalLoop_step_error (by
      simp only [len, List.length_append]; push_cast; omega) h _) ?_
  intro h'
  injection h' with h'
  exact he h'

theorem Config_Unmarshal_lengthError {m m1 : Config} {a t b : List Byte} {e : Err}
    (ha : m.Unmarshal a = .ok m1) (ht : Config.IsRecognisedTag t)
    (hl : (a ++ t ++ b).length < 2 ^ 63)
    (h : decodeVarint (a ++ t ++ b) ((a ++ t).length : Int) = .error e) (he : e ≠ .outOfFuel) :
    m.Unmarshal (a ++ t ++ b) = .error e := by
  obtain ⟨wire, hv, hf, hw⟩ := ht
  have hl2 := hl
  simp only [List.length_append] at hl2
  have hb := decodeVarint_bound (d := t) (by omega) hv
  have hne : t ++ b ≠ [] := by
    intro hc
    have := congrArg List.length hc
    simp only [List.length_append, List.length_nil] at this
    omega
  have hv' : decodeVarint (a ++ (t ++ b)) (a.length : Int)
      = .ok (wire, (a.length : Int) + (t.length : Int)) :=
    decodeVarint_at_append a (t ++ b) (by simp only [List.length_append]; omega)
      (decodeVarint_append b hv)
  rw [List.append_assoc] at h ⊢
  refine Config_Unmarshal_fieldError ha hne
    (Config_UnmarshalField_lengthError m1 hv' hf hw (decodeLength_error ?_)) he
  rw [← h]
  congr 1
  simp only [List.length_append]; push_cast; rfl

theorem ConfigV1_Unmarshal_lengthError {m m1 : ConfigV1} {a t b : List Byte} {e : Err}
    (ha : m.Unmarshal a = .ok m1) (ht : ConfigV1.IsRecognisedTag t)
    (hl : (a ++ t ++ b).length < 2 ^ 63)
    (h : decodeVarint (a ++ t ++ b) ((a ++ t).length : Int) = .error e) (he : e ≠ .outOfFuel) :
    m.Unmarshal (a ++ t ++ b) = .error e := by
  obtain ⟨wire, hv, hf, hw⟩ := ht
  have hl2 := hl
  simp only [List.length_append] at hl2
  have hb := decodeVarint_bound (d := t) (by omega) hv
  have hne : t ++ b ≠ [] := by
    intro hc
    have := congrArg List.length hc
    simp only [List.length_append, List.length_nil] at this
    omega
  have hv' : decodeVarint (a ++ (t ++ b)) (a.length : Int)
      = .ok (wire, (a.length : Int) + (t.length : Int)) :=
    decodeVarint_at_append a (t ++ b) (by simp only [List.length_append]; omega)
      (decodeVarint_append b hv)
  rw [List.append_assoc] at h ⊢
  refine ConfigV1_Unmarshal_fieldError ha hne
    (ConfigV1_UnmarshalField_lengthError m1 hv' hf hw (decodeLength_error ?_)) he
  rw [← h]
  congr 1
  simp only [List.length_append]; push_cast; rfl

theorem ContinuationBytes_ne_nil {s : List Byte} (h : 0 < s.length) (rest : List Byte) :
    s ++ rest ≠ [] := by
  intro hc
  have := congrArg List.length hc
  simp only [List.length_append, List.length_nil] at this
  omega

theorem varintFuel_shape (n : Nat) :
    ∀ (v k : Nat), v < 2 ^ (7 * n) → k < (varintFuel n v).length →
      ∃ b, (varintFuel n v)[k]? = some b ∧ b.val &&& 0x7f = (v >>> (7 * k)) &&& 0x7f
        ∧ (0x80 ≤ b.val ↔ k + 1 < (varintFuel n v).length) := by
  induction n with
  | zero => intro v k _ hk; simp [varintFuel] at hk
  | succ n ih =>
    intro v k hv hk
    unfold varintFuel at hk ⊢
    by_cases hge : v ≥ 1 <<< 7
    · rw [if_pos hge] at hk ⊢
      have h128 : 128 ≤ v := by simpa using hge
      have hn : 0 < n := by
        rcases Nat.eq_zero_or_pos n with h | h
        · subst h; simp at hv; omega
        · exact h
      have hdlt : v >>> 7 < 2 ^ (7 * n) := by
        rw [Nat.shiftRight_eq_div_pow]
        apply Nat.div_lt_of_lt_mul
        have : 2 ^ 7 * 2 ^ (7 * n) = 2 ^ (7 * (n + 1)) := by
          rw [show 7 * (n + 1) = 7 + 7 * n by ring, pow_add]
        rw [this]; exact hv
      cases k with
      | zero =>
        refine ⟨uint8 (v &&& 0x7f ||| 0x80), List.getElem?_cons_zero, ?_, ?_⟩
        · rw [contByte_val, and_127, and_127]
          simp only [Nat.mul_zero, Nat.shiftRight_zero]
          omega
        · rw [contByte_val]
          have := varintFuel_length_pos hn (v >>> 7)
          simp only [List.length_cons]
          constructor
          · intro _; omega
          · intro _; omega
      | succ k =>
        simp only [List.length_cons] at hk
        obtain ⟨b, hb, hval, hc⟩ := ih (v >>> 7) k hdlt (by omega)
        refine ⟨b, by simpa using hb, ?_, ?_⟩
        · rw [hval, Nat.shiftRight_eq_div_pow, Nat.shiftRight_eq_div_pow,
            Nat.shiftRight_eq_div_pow, Nat.div_div_eq_div_mul, ← pow_add,
            show 7 + 7 * k = 7 * (k + 1) by omega]
        · simp only [List.length_cons]
          rw [hc]
          omega
    · rw [if_neg hge] at hk ⊢
      have h128 : v < 128 := by
        have : ¬ 128 ≤ v := by simpa using hge
        omega
      simp only [List.length_cons, List.length_nil] at hk
      obtain rfl : k = 0 := by omega
      refine ⟨uint8 v, rfl, ?_, ?_⟩
      · rw [uint8_val, and_127, and_127]
        simp only [Nat.mul_zero, Nat.shiftRight_zero]
        omega
      · rw [uint8_val]
        simp only [List.length_cons, List.length_nil]
        omega

theorem varint_shape {v : Nat} (hv : v < 2 ^ 64) {k : Nat} (hk : k < (varint v).length) :
    ∃ b, (varint v)[k]? = some b ∧ b.val &&& 0x7f = (v >>> (7 * k)) &&& 0x7f
      ∧ (0x80 ≤ b.val ↔ k + 1 < (varint v).length) := by
  rw [varint_eq hv] at hk ⊢
  exact varintFuel_shape 10 v k (by omega) hk

theorem varintValueFrom_cons (shift acc : Nat) (b : Byte) (s : List Byte) :
    varintValueFrom shift acc (b :: s)
      = varintValueFrom (shift + 7) (acc ||| ((b.val &&& 0x7F) <<< shift) % 2 ^ 64) s := rfl

theorem varintValueFrom_append (a b : List Byte) :
    ∀ (shift acc : Nat), varintValueFrom shift acc (a ++ b)
      = varintValueFrom (shift + 7 * a.length) (varintValueFrom shift acc a) b := by
  induction a with
  | nil => intro shift acc; rfl
  | cons x a ih =>
    intro shift acc
    rw [List.cons_append, varintValueFrom_cons, varintValueFrom_cons, ih]
    simp only [List.length_cons]
    rw [show shift + 7 + 7 * a.length = shift + 7 * (a.length + 1) by omega]

theorem IsVarintBytes_length {s : List Byte} (h : IsVarintBytes s) :
    0 < s.length ∧ s.length ≤ 10 := by
  obtain ⟨c, l, rfl, _, hc, _⟩ := h
  simp only [List.length_append, List.length_cons, List.length_nil]
  omega

theorem decodeVarint_isVarint {s : List Byte} (h : IsVarintBytes s) (pre post : List Byte)
    (hl : (pre ++ s ++ post).length < 2 ^ 63) :
    decodeVarint (pre ++ s ++ post) (pre.length : Int)
      = .ok (varintValue s, ((pre.length + s.length : Nat) : Int)) := by
  obtain ⟨c, l, rfl, hc, hc9, hlv⟩ := h
  have hl2 := hl
  simp only [List.length_append, List.length_cons, List.length_nil] at hl2
  unfold decodeVarint varintValue
  have e1 : pre ++ (c ++ [l]) ++ post = pre ++ c ++ (l :: post) := by simp
  have hcont := decodeVarintLoop_continuation c (11 - c.length) pre (l :: post) 0 0 hc (by omega)
    (by rw [← e1]; exact hl)
  have e11 : 11 - c.length + c.length = 11 := by omega
  rw [e11] at hcont
  rw [e1, hcont]
  obtain ⟨f, hf⟩ : ∃ f, 11 - c.length = f + 1 := ⟨10 - c.length, by omega⟩
  rw [hf, decodeVarintLoop, if_neg (by omega),
    if_neg (by simp only [len, List.length_append, List.length_cons]; push_cast; omega)]
  have hidx : index (pre ++ c ++ l :: post) ((pre.length + c.length : Nat) : Int) = .ok l := by
    have := index_append (pre ++ c) post l
    simp only [List.length_append] at this
    exact this
  rw [hidx, bind_ok]
  dsimp only
  rw [if_pos hlv, addInt_natCast_one (by omega), varintValueFrom_append]
  simp only [List.length_append, List.length_cons, List.length_nil, Nat.zero_add]
  rfl

theorem decodeVarint_tagBytes {t : List Byte} (ht : IsVarintBytes t) (rest : List Byte)
    (hl : (t ++ rest).length < 2 ^ 63) :
    decodeVarint (t ++ rest) 0 = .ok (varintValue t, (t.length : Int)) := by
  have := decodeVarint_isVarint ht [] rest (by simpa using hl)
  simpa using this

theorem skipConfigFuel_varintField (f : Nat) {t v : List Byte} (rest : List Byte)
    (ht : IsVarintBytes t) (hw : tagWireType t = 0) (hv : IsVarintBytes v)
    (hl : (t ++ v ++ rest).length < 2 ^ 63) :
    skipConfigFuel (f + 1) (t ++ v ++ rest) = .ok (((t ++ v).length : Nat) : Int) := by
  have hl2 := hl
  simp only [List.length_append] at hl2
  have htl := IsVarintBytes_length ht
  have h1 := decodeVarint_tagBytes ht (v ++ rest) (by simp only [List.length_append]; omega)
  have h2 := decodeVarint_isVarint hv t rest hl
  unfold tagWireType at hw
  have hw' : ((varintValue t &&& 0x7 : Nat) : Int) = 0 := by rw [hw]; rfl
  rw [List.append_assoc] at h2 ⊢
  rw [skipConfigFuel]
  dsimp only
  rw [if_pos (by simp only [len, List.length_append]; omega), h1, bind_ok]
  dsimp only
  rw [hw', if_pos rfl, h2, bind_ok]
  simp only [List.length_append]

theorem skipConfigFuel_fixedField (f : Nat) {t b : List Byte} (rest : List Byte) (k : Nat)
    (ht : IsVarintBytes t) (hw : (tagWireType t = 1 ∧ k = 8) ∨ (tagWireType t = 5 ∧ k = 4))
    (hb : b.length = k) (hl : (t ++ b ++ rest).length < 2 ^ 63) :
    skipConfigFuel (f + 1) (t ++ b ++ rest) = .ok (((t ++ b).length : Nat) : Int) := by
  have hl2 := hl
  simp only [List.length_append] at hl2
  have htl := IsVarintBytes_length ht
  have h1 := decodeVarint_tagBytes ht (b ++ rest) (by simp only [List.length_append]; omega)
  unfold tagWireType at hw
  rw [List.append_assoc]
  rw [skipConfigFuel]
  dsimp only
  rw [if_pos (by simp only [len, List.length_append]; omega), h1, bind_ok]
  dsimp only
  rcases hw with ⟨hw, rfl⟩ | ⟨hw, rfl⟩
  · have hw' : ((varintValue t &&& 0x7 : Nat) : Int) = 1 := by rw [hw]; rfl
    rw [hw', if_neg (by decide), if_pos rfl]
    have : addInt (t.length : Int) 8 = ((t.length + 8 : Nat) : Int) :=
      addInt_natCast (a := t.length) (b := 8) (by omega)
    rw [this, List.length_append, hb]
  · have hw' : ((varintValue t &&& 0x7 : Nat) : Int) = 5 := by rw [hw]; rfl
    rw [hw', if_neg (by decide), if_neg (by decide), if_neg (by decide), if_neg (by decide),
      if_neg (by decide), if_pos rfl]
    have : addInt (t.length : Int) 4 = ((t.length + 4 : Nat) : Int) :=
      addInt_natCast (a := t.length) (b := 4) (by omega)
    rw [this, List.length_append, hb]

theorem skipConfigFuel_bytesField (f : Nat) {t lv P : List Byte} (rest : List Byte)
    (ht : IsVarintBytes t) (hw : tagWireType t = 2) (hlv : IsVarintBytes lv)
    (hP : varintValue lv = P.length) (hl : (t ++ lv ++ P ++ rest).length < 2 ^ 63) :
    skipConfigFuel (f + 1) (t ++ lv ++ P ++ rest) = .ok (((t ++ lv ++ P).length : Nat) : Int) := by
  have hl2 := hl
  simp only [List.length_append] at hl2
  have htl := IsVarintBytes_length ht
  have e : t ++ lv ++ P ++ rest = t ++ (lv ++ P ++ rest) := by simp
  have h1 := decodeVarint_tagBytes ht (lv ++ P ++ rest)
    (by simp only [List.length_append]; omega)
  have e2 : t ++ lv ++ P ++ rest = t ++ lv ++ (P ++ rest) := by simp
  have h2 := decodeVarint_isVarint hlv t (P ++ rest)
    (by simp only [List.length_append]; omega)
  unfold tagWireType at hw
  rw [skipConfigFuel]
  dsimp only
  rw [if_pos (by simp only [len, List.length_append]; omega)]
  rw [e, h1, bind_ok]
  dsimp only
  have hw' : ((varintValue t &&& 0x7 : Nat) : Int) = 2 := by rw [hw]; rfl
  rw [hw', if_neg (by decide), if_neg (by decide), if_pos rfl, ← e, e2, h2, bind_ok]
  dsimp only
  rw [hP, int64_natCast (by omega), if_neg (by omega),
    addInt_natCast (by omega), if_neg (by omega)]
  simp only [List.length_append]

theorem IsField_tag {f : List Byte} (h : IsField f) :
    ∃ t tail, f = t ++ tail ∧ IsVarintBytes t ∧ tagWireType t ≠ 4 := by
  cases h with
  | varint t v ht hw _ => exact ⟨t, v, rfl, ht, by rw [hw]; decide⟩
  | fixed64 t b ht hw _ => exact ⟨t, b, rfl, ht, by rw [hw]; decide⟩
  | bytes t lv P ht hw _ _ => exact ⟨t, lv ++ P, by simp, ht, by rw [hw]; decide⟩
  | fixed32 t b ht hw _ => exact ⟨t, b, rfl, ht, by rw [hw]; decide⟩
  | group t body e ht hw _ _ _ =>
    exact ⟨t, body.flatten ++ e, by simp, ht, by rw [hw]; decide⟩

theorem skipGroupFuel_end (f : Nat) {e : List Byte} (pre rest : List Byte)
    (he : IsVarintBytes e) (hw : tagWireType e = 4) (hl : (pre ++ e ++ rest).length < 2 ^ 63) :
    skipGroupFuel (f + 1) (pre ++ e ++ rest) (pre.length : Int)
      = .ok (((pre ++ e).length : Nat) : Int) := by
  have h1 := decodeVarint_isVarint he pre rest hl
  unfold tagWireType at hw
  have hw' : ((varintValue e &&& 0x7 : Nat) : Int) = 4 := by rw [hw]; rfl
  rw [skipGroupFuel]
  dsimp only
  rw [h1, bind_ok]
  dsimp only
  rw [hw', if_pos rfl, List.length_append]

theorem skipGroupFuel_field {F : Nat} {b : List Byte} (pre more : List Byte) {n : Int}
    (hb : IsField b) (hl : (pre ++ b ++ more).length < 2 ^ 63)
    (hs : skipConfigFuel F (b ++ more) = .ok (b.length : Int))
    (hg : skipGroupFuel F (pre ++ b ++ more) (((pre ++ b).length : Nat) : Int) = .ok n) :
    skipGroupFuel (F + 1) (pre ++ b ++ more) (pre.length : Int) = .ok n := by
  obtain ⟨t, tail, rfl, ht, hw⟩ := IsField_tag hb
  have hl2 := hl
  simp only [List.length_append] at hl2
  have e1 : pre ++ (t ++ tail) ++ more = pre ++ t ++ (tail ++ more) := by simp
  have h1 := decodeVarint_isVarint ht pre (tail ++ more) (by rw [← e1]; exact hl)
  rw [← e1] at h1
  unfold tagWireType at hw
  have hw' : ¬ ((varintValue t &&& 0x7 : Nat) : Int) = 4 := by
    intro hc; exact hw (by exact_mod_cast hc)
  have hsl : sliceFrom (pre ++ (t ++ tail) ++ more) (pre.length : Int)
      = .ok ((t ++ tail) ++ more) := by
    rw [sliceFrom_of_le (by omega) (by simp only [len, List.length_append]; push_cast; omega)]
    simp
  rw [skipGroupFuel]
  dsimp only
  rw [h1, bind_ok]
  dsimp only
  rw [if_neg hw', hsl, bind_ok, hs, bind_ok]
  have ha : addInt (pre.length : Int) ((t ++ tail).length : Int)
      = (((pre ++ (t ++ tail)).length : Nat) : Int) := by
    rw [addInt_natCast (by simp only [List.length_append]; omega)]
    simp only [List.length_append]
  rw [ha, if_neg (by omega)]
  exact hg

theorem skipGroupFuel_body (body : List (List Byte)) :
    (∀ b ∈ body, IsField b ∧ ∀ rest : List Byte, (b ++ rest).length < 2 ^ 63 →
      ∃ F, skipConfigFuel F (b ++ rest) = .ok (b.length : Int)) →
    ∀ (pre e rest : List Byte), IsVarintBytes e → tagWireType e = 4 →
      (pre ++ body.flatten ++ e ++ rest).length < 2 ^ 63 →
      ∃ F, skipGroupFuel F (pre ++ body.flatten ++ e ++ rest) (pre.length : Int)
        = .ok (((pre ++ body.flatten ++ e).length : Nat) : Int) := by
  induction body with
  | nil =>
    intro _ pre e rest he hw hl
    simp only [List.flatten_nil, List.append_nil] at hl ⊢
    exact ⟨1, skipGroupFuel_end 0 pre rest he hw hl⟩
  | cons b body ih =>
    intro hall pre e rest he hw hl
    obtain ⟨hb, hskip⟩ := hall b (List.mem_cons_self _ _)
    have hall' := fun x hx => hall x (List.mem_cons_of_mem _ hx)
    have e1 : pre ++ (b :: body).flatten ++ e ++ rest
        = pre ++ b ++ (body.flatten ++ e ++ rest) := by simp
    have e2 : pre ++ (b :: body).flatten ++ e ++ rest
        = (pre ++ b) ++ body.flatten ++ e ++ rest := by simp
    have e3 : pre ++ (b :: body).flatten ++ e = (pre ++ b) ++ body.flatten ++ e := by simp
    have hl2 := hl
    rw [e1] at hl2
    simp only [List.length_append] at hl2
    obtain ⟨F1, hF1⟩ := hskip (body.flatten ++ e ++ rest)
      (by simp only [List.length_append]; omega)
    obtain ⟨F2, hF2⟩ := ih hall' (pre ++ b) e rest he hw (by rw [← e2]; exact hl)
    have hm1 := (skipFuel_mono_le (Nat.le_max_left F1 F2)).1 _ _ hF1 (by simp)
    have hm2 := (skipFuel_mono_le (Nat.le_max_right F1 F2)).2 _ _ _ hF2 (by simp)
    have e4 : pre ++ b ++ body.flatten ++ e ++ rest
        = pre ++ b ++ (body.flatten ++ e ++ rest) := by simp
    refine ⟨max F1 F2 + 1, ?_⟩
    rw [e3, e4]
    rw [e4] at hm2
    exact skipGroupFuel_field pre (body.flatten ++ e ++ rest) hb
      (by rw [← e1]; exact hl) hm1 hm2

theorem skipConfigFuel_groupField {F : Nat} {t e : List Byte} {body : List (List Byte)}
    (rest : List Byte) (ht : IsVarintBytes t) (hw : tagWireType t = 3)
    (hl : (t ++ body.flatten ++ e ++ rest).length < 2 ^ 63)
    (hg : skipGroupFuel F (t ++ body.flatten ++ e ++ rest) (t.length : Int)
      = .ok (((t ++ body.flatten ++ e).length : Nat) : Int)) :
    skipConfigFuel (F + 1) (t ++ body.flatten ++ e ++ rest)
      = .ok (((t ++ body.flatten ++ e).length : Nat) : Int) := by
  have hl2 := hl
  simp only [List.length_append] at hl2
  have htl := IsVarintBytes_length ht
  have e1 : t ++ body.flatten ++ e ++ rest = t ++ (body.flatten ++ e ++ rest) := by simp
  have h1 := decodeVarint_tagBytes ht (body.flatten ++ e ++ rest) (by rw [← e1]; exact hl)
  rw [← e1] at h1
  unfold tagWireType at hw
  have hw' : ((varintValue t &&& 0x7 : Nat) : Int) = 3 := by rw [hw]; rfl
  rw [skipConfigFuel]
  dsimp only
  rw [if_pos (by simp only [len, List.length_append]; omega), h1, bind_ok]
  dsimp only
  rw [hw', if_neg (by decide), if_neg (by decide), if_neg (by decide), if_pos rfl]
  exact hg

theorem skipConfigFuel_isField {f : List Byte} (h : IsField f) :
    ∀ rest : List Byte, (f ++ rest).length < 2 ^ 63 →
      ∃ F, skipConfigFuel F (f ++ rest) = .ok (f.length : Int) := by
  induction h with
  | varint t v ht hw hv =>
    intro rest hl; exact ⟨1, skipConfigFuel_varintField 0 rest ht hw hv hl⟩
  | fixed64 t b ht hw hb =>
    intro rest hl
    exact ⟨1, skipConfigFuel_fixedField 0 rest 8 ht (Or.inl ⟨hw, rfl⟩) hb hl⟩
  | bytes t lv P ht hw hlv hP =>
    intro rest hl; exact ⟨1, skipConfigFuel_bytesField 0 rest ht hw hlv hP hl⟩
  | fixed32 t b ht hw hb =>
    intro rest hl
    exact ⟨1, skipConfigFuel_fixedField 0 rest 4 ht (Or.inr ⟨hw, rfl⟩) hb hl⟩
  | group t body e ht hw hbody he hwe ih =>
    intro rest hl
    obtain ⟨F, hF⟩ := skipGroupFuel_body body (fun b hb => ⟨hbody b hb, ih b hb⟩) t e rest he hwe hl
    exact ⟨F + 1, skipConfigFuel_groupField rest ht hw hl hF⟩

theorem skipConfig_of_fuel {d : List Byte} {F : Nat} {n : Int} (hl : d.length < 2 ^ 63)
    (h : skipConfigFuel F d = .ok n) : skipConfig d = .ok n := by
  have hne := skipConfig_ne_outOfFuel hl
  unfold skipConfig at hne ⊢
  rcases Nat.le_total F (2 * d.length + 1) with hle | hle
  · exact (skipFuel_mono_le hle).1 _ _ h (by simp)
  · have := (skipFuel_mono_le hle).1 _ _ rfl hne
    rw [h] at this
    exact this.symm

theorem skipConfig_isField {f : List Byte} (h : IsField f) (rest : List Byte)
    (hl : (f ++ rest).length < 2 ^ 63) : skipConfig (f ++ rest) = .ok (f.length : Int) := by
  obtain ⟨F, hF⟩ := skipConfigFuel_isField h rest hl
  exact skipConfig_of_fuel hl hF

/-! ## The decode loops do not run out of fuel -/

theorem slice_ne_outOfFuel (d : List Byte) (lo hi : Int) :
    slice d lo hi ≠ .error .outOfFuel := by
  unfold slice
  split <;> simp

theorem decodeLength_ne_outOfFuel (d : List Byte) (i : Int) :
    decodeLength d i ≠ .error .outOfFuel := by
  intro h
  unfold decodeLength at h
  cases hv : decodeVarint d i with
  | error e =>
    rw [hv] at h
    injection h with h
    subst h
    exact decodeVarint_ne_outOfFuel d i hv
  | ok p =>
    obtain ⟨L, i1⟩ := p
    rw [hv, bind_ok] at h
    dsimp only at h
    split at h
    · cases h
    · split at h
      · cases h
      · split at h
        · cases h
        · cases h

theorem skipField_ne_outOfFuel {d : List Byte} (hl : d.length < 2 ^ 63) (i : Int) :
    skipField d i ≠ .error .outOfFuel := by
  intro h
  unfold skipField at h
  dsimp only at h
  cases hs : sliceFrom d i with
  | error e =>
    rw [hs] at h
    injection h with h
    subst h
    exact sliceFrom_ne_outOfFuel d i hs
  | ok sub =>
    rw [hs, bind_ok] at h
    obtain ⟨_, _, hsub⟩ := sliceFrom_eq_ok hs
    have hsl : sub.length < 2 ^ 63 := by rw [hsub, List.length_drop]; omega
    cases hk : skipConfig sub with
    | error e =>
      rw [hk] at h
      injection h with h
      subst h
      exact skipConfig_ne_outOfFuel hsl hk
    | ok skippy =>
      rw [hk, bind_ok] at h
      split at h
      · cases h
      · split at h
        · cases h
        · split at h
          · cases h
          · cases hsp : slice d i (addInt i skippy) with
            | error e =>
              rw [hsp] at h
              injection h with h
              subst h
              exact slice_ne_outOfFuel _ _ _ hsp
            | ok span => rw [hsp, bind_ok] at h; cases h

theorem readString_ne_outOfFuel {α : Type} (d : List Byte) (i1 : Int) (k : List Byte → α) :
    (do
      let (iNdEx, postIndex) ← decodeLength d i1
      let s ← slice d iNdEx postIndex
      Except.ok (k s, postIndex)) ≠ (Except.error Err.outOfFuel : Except Err (α × Int)) := by
  intro h
  cases hd : decodeLength d i1 with
  | error e =>
    rw [hd] at h
    injection h with h
    subst h
    exact decodeLength_ne_outOfFuel d i1 hd
  | ok p =>
    obtain ⟨i2, post⟩ := p
    rw [hd, bind_ok] at h
    dsimp only at h
    cases hs : slice d i2 post with
    | error e =>
      rw [hs] at h
      injection h with h
      subst h
      exact slice_ne_outOfFuel _ _ _ hs
    | ok s => rw [hs, bind_ok] at h; cases h

theorem ConfigV1_UnmarshalField_ne_outOfFuel (m : ConfigV1) {d : List Byte}
    (hl : d.length < 2 ^ 63) (i : Int) : m.UnmarshalField d i ≠ .error .outOfFuel := by
  intro h
  unfold ConfigV1.UnmarshalField at h
  dsimp only at h
  cases hv : decodeVarint d i with
  | error e =>
    rw [hv] at h
    injection h with h
    subst h
    exact decodeVarint_ne_outOfFuel d i hv
  | ok p =>
    obtain ⟨wire, i1⟩ := p
    rw [hv, bind_ok] at h
    dsimp only at h
    split at h
    · cases h
    · split at h
      · cases h
      · split at h
        · split at h
          · cases h
          · exact readString_ne_outOfFuel _ _ _ h
        · split at h
          · split at h
            · cases h
            · exact readString_ne_outOfFuel _ _ _ h
          · split at h
            · split at h
              · cases h
              · exact readString_ne_outOfFuel _ _ _ h
            · cases hs : skipField d i with
              | error e =>
                rw [hs] at h
                injection h with h
                subst h
                exact skipField_ne_outOfFuel hl i hs
              | ok q => rw [hs, bind_ok] at h; cases h

theorem unmarshalLoop_ne_outOfFuel {α : Type}
    {step : α → List Byte → Int → Except Err (α × Int)} (d : List Byte)
    (hbound : ∀ (m m' : α) (i i' : Int), step m d i = .ok (m', i') → i < i' ∧ i' ≤ len d)
    (hne : ∀ (m : α) (i : Int), step m d i ≠ .error .outOfFuel) (f : Nat) :
    ∀ (m : α) (i : Int), 1 ≤ f → len d - i + 1 ≤ f →
      unmarshalLoop step f m d i ≠ .error .outOfFuel := by
  induction f with
  | zero => intro m i h; omega
  | succ f ih =>
    intro m i _ hf
    unfold unmarshalLoop
    split
    · rename_i hlt
      cases hs : step m d i with
      | error e =>
        dsimp only
        intro hc
        injection hc with hc
        subst hc
        exact hne m i hs
      | ok p =>
        obtain ⟨m', i'⟩ := p
        dsimp only
        have hb := hbound m m' i i' hs
        exact ih m' i' (by omega) (by omega)
    · split
      · simp
      · simp

theorem ConfigV1_Unmarshal_ne_outOfFuel (m : ConfigV1) {d : List Byte}
    (hl : d.length < 2 ^ 63) : m.Unmarshal d ≠ .error .outOfFuel := by
  rw [ConfigV1_Unmarshal_eq]
  refine unmarshalLoop_ne_outOfFuel d (fun m m' i i' hs => ?_)
    (fun m i => ConfigV1_UnmarshalField_ne_outOfFuel m hl i) _ m 0 (by omega)
    (by simp only [len]; omega)
  have := ConfigV1_stepFrame.bound m m' d i i' hl hs
  omega

theorem Config_UnmarshalField_ne_outOfFuel (m : Config) {d : List Byte}
    (hl : d.length < 2 ^ 63) (i : Int) : m.UnmarshalField d i ≠ .error .outOfFuel := by
  intro h
  unfold Config.UnmarshalField at h
  dsimp only at h
  cases hv : decodeVarint d i with
  | error e =>
    rw [hv] at h
    injection h with h
    subst h
    exact decodeVarint_ne_outOfFuel d i hv
  | ok p =>
    obtain ⟨wire, i1⟩ := p
    rw [hv, bind_ok] at h
    dsimp only at h
    split at h
    · cases h
    · split at h
      · cases h
      · split at h
        · split at h
          · cases h
          · exact readString_ne_outOfFuel _ _ _ h
        · split at h
          · split at h
            · cases h
            · cases hd : decodeLength d i1 with
              | error e =>
                rw [hd] at h
                injection h with h
                subst h
                exact decodeLength_ne_outOfFuel d i1 hd
              | ok q =>
                obtain ⟨i2, post⟩ := q
                rw [hd, bind_ok] at h
                dsimp only at h
                cases hs : slice d i2 post with
                | error e =>
                  rw [hs] at h
                  injection h with h
                  subst h
                  exact slice_ne_outOfFuel _ _ _ hs
                | ok sub =>
                  rw [hs, bind_ok] at h
                  have hsl : sub.length < 2 ^ 63 := by
                    have := slice_length hs
                    obtain ⟨h0, h1, h2, _⟩ := slice_eq_ok hs
                    simp only [len] at h2
                    omega
                  cases hu : (m.V1.getD ConfigV1.empty).Unmarshal sub with
                  | error e =>
                    rw [hu] at h
                    injection h with h
                    subst h
                    exact ConfigV1_Unmarshal_ne_outOfFuel _ hsl hu
                  | ok v1 => rw [hu, bind_ok] at h; cases h
          · cases hs : skipField d i with
            | error e =>
              rw [hs] at h
              injection h with h
              subst h
              exact skipField_ne_outOfFuel hl i hs
            | ok q => rw [hs, bind_ok] at h; cases h

theorem Config_Unmarshal_ne_outOfFuel (m : Config) {d : List Byte}
    (hl : d.length < 2 ^ 63) : m.Unmarshal d ≠ .error .outOfFuel := by
  rw [Config_Unmarshal_eq]
  refine unmarshalLoop_ne_outOfFuel d (fun m m' i i' hs => ?_)
    (fun m i => Config_UnmarshalField_ne_outOfFuel m hl i) _ m 0 (by omega)
    (by simp only [len]; omega)
  have := Config_stepFrame.bound m m' d i i' hl hs
  omega

theorem skipConfigFuel_eq_ok {f : Nat} {d : List Byte} {n : Int}
    (h : skipConfigFuel f d = .ok n) :
    ∃ wire i1, decodeVarint d 0 = .ok (wire, i1) ∧
      ((wireTypeOf wire = 0 ∧ ∃ v, decodeVarint d i1 = .ok (v, n))
      ∨ (wireTypeOf wire = 1 ∧ n = addInt i1 8)
      ∨ (wireTypeOf wire = 2 ∧ ∃ L i2, decodeVarint d i1 = .ok (L, i2) ∧ ¬ int64 L < 0
          ∧ n = addInt i2 (int64 L) ∧ ¬ n < 0)
      ∨ (wireTypeOf wire = 3 ∧ ∃ g, skipGroupFuel g d i1 = .ok n)
      ∨ (wireTypeOf wire = 4 ∧ n = i1)
      ∨ (wireTypeOf wire = 5 ∧ n = addInt i1 4)) := by
  cases f with
  | zero => simp [skipConfigFuel] at h
  | succ f =>
    rw [skipConfigFuel] at h
    dsimp only at h
    split at h
    · cases hv : decodeVarint d 0 with
      | error e => rw [hv] at h; cases h
      | ok p =>
        obtain ⟨wire, i1⟩ := p
        rw [hv, bind_ok] at h
        dsimp only at h
        refine ⟨wire, i1, rfl, ?_⟩
        unfold wireTypeOf
        split at h
        · rename_i hw
          cases hv2 : decodeVarint d i1 with
          | error e => rw [hv2] at h; cases h
          | ok q =>
            obtain ⟨v, i2⟩ := q
            rw [hv2, bind_ok] at h
            injection h with h
            subst h
            exact Or.inl ⟨hw, v, rfl⟩
        · split at h
          · rename_i hw
            injection h with h
            exact Or.inr (Or.inl ⟨hw, h.symm⟩)
          · split at h
            · rename_i hw
              cases hv2 : decodeVarint d i1 with
              | error e => rw [hv2] at h; cases h
              | ok q =>
                obtain ⟨L, i2⟩ := q
                rw [hv2, bind_ok] at h
                dsimp only at h
                split at h
                · cases h
                · rename_i hL
                  split at h
                  · cases h
                  · rename_i hn
                    injection h with h
                    subst h
                    exact Or.inr (Or.inr (Or.inl ⟨hw, L, i2, rfl, hL, rfl, hn⟩))
            · split at h
              · rename_i hw
                exact Or.inr (Or.inr (Or.inr (Or.inl ⟨hw, f, h⟩)))
              · split at h
                · rename_i hw
                  injection h with h
                  exact Or.inr (Or.inr (Or.inr (Or.inr (Or.inl ⟨hw, h.symm⟩))))
                · split at h
                  · rename_i hw
                    injection h with h
                    exact Or.inr (Or.inr (Or.inr (Or.inr (Or.inr ⟨hw, h.symm⟩))))
                  · cases h
    · cases h

theorem skipConfig_eq_ok {d : List Byte} {n : Int} (h : skipConfig d = .ok n) :
    ∃ wire i1, decodeVarint d 0 = .ok (wire, i1) ∧
      ((wireTypeOf wire = 0 ∧ ∃ v, decodeVarint d i1 = .ok (v, n))
      ∨ (wireTypeOf wire = 1 ∧ n = addInt i1 8)
      ∨ (wireTypeOf wire = 2 ∧ ∃ L i2, decodeVarint d i1 = .ok (L, i2) ∧ ¬ int64 L < 0
          ∧ n = addInt i2 (int64 L) ∧ ¬ n < 0)
      ∨ (wireTypeOf wire = 3 ∧ ∃ g, skipGroupFuel g d i1 = .ok n)
      ∨ (wireTypeOf wire = 4 ∧ n = i1)
      ∨ (wireTypeOf wire = 5 ∧ n = addInt i1 4)) :=
  skipConfigFuel_eq_ok h

theorem skipField_overrun (a : List Byte) {d : List Byte} {n : Int}
    (hl : (a ++ d).length < 2 ^ 63) (h : skipConfig d = .ok n) (hn : len d < n) :
    skipField (a ++ d) (a.length : Int)
      = .error (if (a.length : Int) + n < 2 ^ 63 then .ErrUnexpectedEOF
          else .ErrInvalidLengthConfig) := by
  have hl2 := hl
  simp only [List.length_append] at hl2
  have hb := (skipFuel_bound _).1 d n (by omega) h
  simp only [len] at hn hb
  unfold skipField
  dsimp only
  rw [sliceFrom_append, bind_ok, h, bind_ok, if_neg (by omega)]
  by_cases hc : (a.length : Int) + n < 2 ^ 63
  · have ha : addInt (a.length : Int) n = (a.length : Int) + n := by
      unfold addInt int64; omega
    rw [ha, if_neg (by omega), if_pos (by simp only [len, List.length_append]; push_cast; omega),
      if_pos hc]
  · have ha : addInt (a.length : Int) n < 0 := by
      unfold addInt int64; omega
    rw [if_pos ha, if_neg hc]

theorem Config_UnmarshalField_skipError (m : Config) {d : List Byte} {i i1 : Int}
    {wire : Nat} {e : Err} (hv : decodeVarint d i = .ok (wire, i1))
    (h4 : wireTypeOf wire ≠ 4) (hpos : 0 < fieldNumOf wire)
    (hf1 : fieldNumOf wire ≠ 1) (hf2 : fieldNumOf wire ≠ 2)
    (h : skipField d i = .error e) : m.UnmarshalField d i = .error e := by
  unfold wireTypeOf at h4
  unfold fieldNumOf at hpos hf1 hf2
  unfold Config.UnmarshalField
  dsimp only
  rw [hv, bind_ok]
  dsimp only
  rw [if_neg h4, if_neg (not_le.mpr hpos), if_neg hf1, if_neg hf2, h]
  rfl

theorem ConfigV1_UnmarshalField_skipError (m : ConfigV1) {d : List Byte} {i i1 : Int}
    {wire : Nat} {e : Err} (hv : decodeVarint d i = .ok (wire, i1))
    (h4 : wireTypeOf wire ≠ 4) (hpos : 0 < fieldNumOf wire)
    (hf1 : fieldNumOf wire ≠ 1) (hf2 : fieldNumOf wire ≠ 2) (hf3 : fieldNumOf wire ≠ 3)
    (h : skipField d i = .error e) : m.UnmarshalField d i = .error e := by
  unfold wireTypeOf at h4
  unfold fieldNumOf at hpos hf1 hf2 hf3
  unfold ConfigV1.UnmarshalField
  dsimp only
  rw [hv, bind_ok]
  dsimp only
  rw [if_neg h4, if_neg (not_le.mpr hpos), if_neg hf1, if_neg hf2, if_neg hf3, h]
  rfl

theorem readsBytes_isVarint {lv : List Byte} (hlv : IsVarintBytes lv) (pre s post : List Byte)
    (hs : varintValue lv = s.length) (hl : (pre ++ lv ++ s ++ post).length < 2 ^ 63) :
    ReadsBytes (pre ++ lv ++ s ++ post) (pre.length : Int)
      ((pre.length + lv.length + s.length : Nat) : Int) s := by
  have hl2 := hl
  simp only [List.length_append] at hl2
  have e : pre ++ lv ++ s ++ post = pre ++ lv ++ (s ++ post) := by simp
  have hv := decodeVarint_isVarint hlv pre (s ++ post) (by rw [← e]; exact hl)
  rw [← e, hs] at hv
  refine ⟨((pre.length + lv.length : Nat) : Int), ?_, ?_⟩
  · have hadd : addInt ((pre.length + lv.length : Nat) : Int) (int64 s.length)
        = ((pre.length + lv.length + s.length : Nat) : Int) := by
      rw [int64_natCast (by omega), addInt_natCast (by omega)]
    have := decodeLength_of hv (by rw [int64_natCast (by omega)]; omega)
      (by rw [hadd]; omega)
      (by rw [hadd]; simp only [len, List.length_append]; push_cast; omega)
    rw [hadd] at this
    exact this
  · have := slice_append (pre ++ lv) s post
    simp only [List.length_append] at this
    simpa using this

theorem decodeLength_pastEnd {lv : List Byte} (hlv : IsVarintBytes lv) (pre Q : List Byte)
    (hQ : Q.length < varintValue lv)
    (hl : (pre ++ lv ++ Q).length + varintValue lv < 2 ^ 63) :
    decodeLength (pre ++ lv ++ Q) (pre.length : Int) = .error .ErrUnexpectedEOF := by
  have hl2 := hl
  simp only [List.length_append] at hl2
  have hv := decodeVarint_isVarint hlv pre Q (by simp only [List.length_append]; omega)
  unfold decodeLength
  rw [hv, bind_ok]
  dsimp only
  rw [int64_natCast (by omega), if_neg (by omega), addInt_natCast (by omega),
    if_neg (by omega),
    if_pos (by simp only [len, List.length_append]; push_cast; omega)]

theorem skipConfig_declared {t lv : List Byte} (Q : List Byte)
    (ht : IsVarintBytes t) (hw : tagWireType t = 2) (hlv : IsVarintBytes lv)
    (hl : (t ++ lv ++ Q).length + varintValue lv < 2 ^ 63) :
    skipConfig (t ++ lv ++ Q) = .ok ((t.length + lv.length + varintValue lv : Nat) : Int) := by
  have hl2 := hl
  simp only [List.length_append] at hl2
  have htl := IsVarintBytes_length ht
  have e : t ++ lv ++ Q = t ++ (lv ++ Q) := by simp
  have h1 := decodeVarint_tagBytes ht (lv ++ Q) (by simp only [List.length_append]; omega)
  have h2 := decodeVarint_isVarint hlv t Q (by simp only [List.length_append]; omega)
  unfold tagWireType at hw
  have hw' : ((varintValue t &&& 0x7 : Nat) : Int) = 2 := by rw [hw]; rfl
  refine skipConfig_of_fuel (F := 1) (by simp only [List.length_append]; omega) ?_
  rw [skipConfigFuel]
  dsimp only
  rw [if_pos (by simp only [len, List.length_append]; omega)]
  rw [e, h1, bind_ok]
  dsimp only
  rw [hw', if_neg (by decide), if_neg (by decide), if_pos rfl, ← e, h2, bind_ok]
  dsimp only
  rw [int64_natCast (by omega), if_neg (by omega), addInt_natCast (by omega),
    if_neg (by omega)]

theorem ConfigV1_Unmarshal_declaredPastEnd {m m1 : ConfigV1} {P1 t lv Q : List Byte}
    (hP1 : m.Unmarshal P1 = .ok m1) (ht : IsVarintBytes t) (hw : tagWireType t = 2)
    (hpos : 0 < fieldNumOf (varintValue t)) (hlv : IsVarintBytes lv)
    (hQ : Q.length < varintValue lv)
    (hl : (P1 ++ t ++ lv ++ Q).length + varintValue lv < 2 ^ 63) :
    m.Unmarshal (P1 ++ t ++ lv ++ Q) = .error .ErrUnexpectedEOF := by
  have hl2 := hl
  simp only [List.length_append] at hl2
  have htl := IsVarintBytes_length ht
  have e : P1 ++ t ++ lv ++ Q = P1 ++ (t ++ lv ++ Q) := by simp
  have e' : P1 ++ t ++ lv ++ Q = P1 ++ t ++ (lv ++ Q) := by simp
  have hv := decodeVarint_isVarint ht P1 (lv ++ Q) (by simp only [List.length_append]; omega)
  rw [← e', e] at hv
  have hwt : wireTypeOf (varintValue t) = 2 := by
    unfold wireTypeOf; unfold tagWireType at hw; rw [hw]; rfl
  have hne : t ++ lv ++ Q ≠ [] := by
    intro hc
    have := congrArg List.length hc
    simp only [List.length_append, List.length_nil] at this
    omega
  rw [e]
  by_cases hf : fieldNumOf (varintValue t) = 1 ∨ fieldNumOf (varintValue t) = 2
      ∨ fieldNumOf (varintValue t) = 3
  · have hd := decodeLength_pastEnd hlv (P1 ++ t) Q hQ hl
    rw [e] at hd
    have hcast : (((P1 ++ t).length : Nat) : Int) = ((P1.length + t.length : Nat) : Int) := by
      simp only [List.length_append]
    rw [hcast] at hd
    exact ConfigV1_Unmarshal_fieldError hP1 hne
      (ConfigV1_UnmarshalField_lengthError m1 hv hf hwt hd) (by decide)
  · have hk := skipConfig_declared Q ht hw hlv (by simp only [List.length_append]; omega)
    have hover := skipField_overrun P1 (d := t ++ lv ++ Q) (by
      simp only [List.length_append]; omega) hk (by
      simp only [len, List.length_append]; push_cast; omega)
    rw [if_pos (by push_cast; omega)] at hover
    refine ConfigV1_Unmarshal_fieldError hP1 hne
      (ConfigV1_UnmarshalField_skipError m1 hv (by rw [hwt]; decide) hpos
        (fun h => hf (Or.inl h)) (fun h => hf (Or.inr (Or.inl h)))
        (fun h => hf (Or.inr (Or.inr h))) hover) (by decide)

theorem Config_UnmarshalField_V1 (m : Config) {d sub : List Byte} {i i1 post : Int}
    {wire : Nat} (hv : decodeVarint d i = .ok (wire, i1)) (hf : fieldNumOf wire = 2)
    (hw : wireTypeOf wire = 2) (hr : ReadsBytes d i1 post sub) :
    m.UnmarshalField d i
      = match (m.V1.getD ConfigV1.empty).Unmarshal sub with
        | .ok v1 => .ok ({ m with V1 := some v1 }, post)
        | .error e => .error e := by
  obtain ⟨i2, hd, hs⟩ := hr
  unfold wireTypeOf at hw
  unfold fieldNumOf at hf
  unfold Config.UnmarshalField
  dsimp only
  rw [hv, bind_ok]
  dsimp only
  rw [hw, if_neg (by decide), hf, if_neg (by decide), if_neg (by decide), if_pos rfl,
    if_neg (by decide), hd, bind_ok]
  dsimp only
  rw [hs, bind_ok]
  cases (m.V1.getD ConfigV1.empty).Unmarshal sub with
  | error e => rfl
  | ok v1 => rfl

theorem IsDecodeError_ne_panic {e : Err} (h : e.IsDecodeError) : e ≠ .panic := by
  intro hc; rw [hc] at h; exact h

theorem IsDecodeError_ne_outOfFuel {e : Err} (h : e.IsDecodeError) : e ≠ .outOfFuel := by
  intro hc; rw [hc] at h; exact h

theorem decodeVarintLoop_error (fuel : Nat) :
    ∀ (d : List Byte) (i : Int) (shift acc : Nat) (e : Err), d.length < 2 ^ 63 → 0 ≤ i →
      decodeVarintLoop fuel d i shift acc = .error e →
      e = .ErrUnexpectedEOF ∨ e = .ErrIntOverflowConfig ∨ e = .outOfFuel := by
  induction fuel with
  | zero =>
    intro d i shift acc e _ _ h
    rw [decodeVarintLoop] at h
    injection h with h
    exact Or.inr (Or.inr h.symm)
  | succ f ih =>
    intro d i shift acc e hl h0 h
    rw [decodeVarintLoop] at h
    split at h
    · injection h with h; exact Or.inr (Or.inl h.symm)
    · split at h
      · injection h with h; exact Or.inl h.symm
      · rename_i hi
        obtain ⟨b, hb⟩ := index_of_lt h0 (not_le.mp hi)
        rw [hb, bind_ok] at h
        dsimp only at h
        split at h
        · cases h
        · have hadd : addInt i 1 = i + 1 := by
            simp only [len] at hi
            unfold addInt int64; omega
          rw [hadd] at h
          exact ih d (i + 1) _ _ e hl (by omega) h

theorem decodeVarint_error {d : List Byte} {i : Int} {e : Err} (hl : d.length < 2 ^ 63)
    (h0 : 0 ≤ i) (h : decodeVarint d i = .error e) :
    e = .ErrUnexpectedEOF ∨ e = .ErrIntOverflowConfig := by
  rcases decodeVarintLoop_error _ d i 0 0 e hl h0 h with h1 | h1 | h1
  · exact Or.inl h1
  · exact Or.inr h1
  · rw [h1] at h; exact absurd h (decodeVarint_ne_outOfFuel d i)

theorem decodeVarint_isDecodeError {d : List Byte} {i : Int} {e : Err}
    (hl : d.length < 2 ^ 63) (h0 : 0 ≤ i) (h : decodeVarint d i = .error e) :
    e.IsDecodeError := by
  rcases decodeVarint_error hl h0 h with h1 | h1 <;> rw [h1] <;> exact True.intro

theorem decodeLength_isDecodeError {d : List Byte} {i : Int} {e : Err}
    (hl : d.length < 2 ^ 63) (h0 : 0 ≤ i) (h : decodeLength d i = .error e) :
    e.IsDecodeError := by
  unfold decodeLength at h
  cases hv : decodeVarint d i with
  | error e' =>
    rw [hv] at h
    injection h with h
    subst h
    exact decodeVarint_isDecodeError hl h0 hv
  | ok p =>
    obtain ⟨L, i1⟩ := p
    rw [hv, bind_ok] at h
    dsimp only at h
    split at h
    · injection h with h; rw [← h]; exact True.intro
    · split at h
      · injection h with h; rw [← h]; exact True.intro
      · split at h
        · injection h with h; rw [← h]; exact True.intro
        · cases h

theorem slice_after_decodeLength {d : List Byte} {i i2 post : Int} (hl : d.length < 2 ^ 63)
    (h : decodeLength d i = .ok (i2, post)) :
    slice d i2 post = .ok ((d.take post.toNat).drop i2.toNat) := by
  have hb := decodeLength_bound hl h
  exact slice_of_le (by omega) hb.2.2.1 hb.2.2.2

theorem readString_isDecodeError {α : Type} {d : List Byte} {i1 : Int} {e : Err}
    (k : List Byte → α) (hl : d.length < 2 ^ 63) (h0 : 0 ≤ i1)
    (h : (do
      let (iNdEx, postIndex) ← decodeLength d i1
      let s ← slice d iNdEx postIndex
      Except.ok (k s, postIndex)) = (Except.error e : Except Err (α × Int))) :
    e.IsDecodeError := by
  cases hd : decodeLength d i1 with
  | error e' =>
    rw [hd] at h
    injection h with h
    subst h
    exact decodeLength_isDecodeError hl h0 hd
  | ok p =>
    obtain ⟨i2, post⟩ := p
    rw [hd, bind_ok] at h
    dsimp only at h
    rw [slice_after_decodeLength hl hd, bind_ok] at h
    cases h

theorem wireType_cases (wire : Nat) (h0 : ¬ ((wire &&& 0x7 : Nat) : Int) = 0)
    (h1 : ¬ ((wire &&& 0x7 : Nat) : Int) = 1) (h2 : ¬ ((wire &&& 0x7 : Nat) : Int) = 2)
    (h3 : ¬ ((wire &&& 0x7 : Nat) : Int) = 3) (h4 : ¬ ((wire &&& 0x7 : Nat) : Int) = 4)
    (h5 : ¬ ((wire &&& 0x7 : Nat) : Int) = 5) :
    ((wire &&& 0x7 : Nat) : Int) = 6 ∨ ((wire &&& 0x7 : Nat) : Int) = 7 := by
  have := Nat.and_le_right (n := wire) (m := 7)
  omega

theorem sliceFrom_ne_nil {d sub : List Byte} {i : Int} (hi : i < len d)
    (h : sliceFrom d i = .ok sub) : sub ≠ [] ∧ sub.length ≤ d.length := by
  obtain ⟨h0, h1, hsub⟩ := sliceFrom_eq_ok h
  simp only [len] at hi
  constructor
  · intro hc
    have := congrArg List.length hc
    rw [hsub, List.length_drop, List.length_nil] at this
    omega
  · rw [hsub, List.length_drop]; omega

theorem skipFuel_error (f : Nat) :
    (∀ (d : List Byte) (e : Err), d.length < 2 ^ 63 → d ≠ [] →
      skipConfigFuel f d = .error e → e.IsDecodeError ∨ e = .outOfFuel) ∧
    (∀ (d : List Byte) (i : Int) (e : Err), d.length < 2 ^ 63 → 0 ≤ i →
      skipGroupFuel f d i = .error e → e.IsDecodeError ∨ e = .outOfFuel) := by
  induction f with
  | zero =>
    constructor
    · intro d e _ _ h
      rw [skipConfigFuel] at h
      injection h with h
      exact Or.inr h.symm
    · intro d i e _ _ h
      rw [skipGroupFuel] at h
      injection h with h
      exact Or.inr h.symm
  | succ f ih =>
    constructor
    · intro d e hl hne h
      rw [skipConfigFuel] at h
      dsimp only at h
      have hpos : (0 : Int) < len d := by
        simp only [len]
        have := List.length_pos.mpr hne
        omega
      rw [if_pos hpos] at h
      cases hv : decodeVarint d 0 with
      | error e' =>
        rw [hv] at h
        injection h with h
        subst h
        exact Or.inl (decodeVarint_isDecodeError hl (le_refl 0) hv)
      | ok p =>
        obtain ⟨wire, i1⟩ := p
        have hb := decodeVarint_bound hl hv
        rw [hv, bind_ok] at h
        dsimp only at h
        split at h
        · cases hv2 : decodeVarint d i1 with
          | error e' =>
            rw [hv2] at h
            injection h with h
            subst h
            exact Or.inl (decodeVarint_isDecodeError hl (by omega) hv2)
          | ok q => rw [hv2, bind_ok] at h; cases h
        · rename_i h0
          split at h
          · cases h
          · rename_i h1
            split at h
            · cases hv2 : decodeVarint d i1 with
              | error e' =>
                rw [hv2] at h
                injection h with h
                subst h
                exact Or.inl (decodeVarint_isDecodeError hl (by omega) hv2)
              | ok q =>
                rw [hv2, bind_ok] at h
                split at h
                · injection h with h; rw [← h]; exact Or.inl True.intro
                · split at h
                  · injection h with h; rw [← h]; exact Or.inl True.intro
                  · cases h
            · rename_i h2
              split at h
              · exact ih.2 d i1 e hl (by omega) h
              · rename_i h3
                split at h
                · cases h
                · rename_i h4
                  split at h
                  · cases h
                  · rename_i h5
                    injection h with h
                    rw [← h]
                    exact Or.inl (wireType_cases wire h0 h1 h2 h3 h4 h5)
    · intro d i e hl hi h
      rw [skipGroupFuel] at h
      dsimp only at h
      cases hv : decodeVarint d i with
      | error e' =>
        rw [hv] at h
        injection h with h
        subst h
        exact Or.inl (decodeVarint_isDecodeError hl hi hv)
      | ok p =>
        obtain ⟨wire, i1⟩ := p
        have hb := decodeVarint_bound hl hv
        rw [hv, bind_ok] at h
        dsimp only at h
        split at h
        · cases h
        · have hs := sliceFrom_of_le hi (le_of_lt (lt_of_lt_of_le hb.2.1 hb.2.2))
          obtain ⟨hsne, hsl⟩ := sliceFrom_ne_nil (lt_of_lt_of_le hb.2.1 hb.2.2) hs
          rw [hs, bind_ok] at h
          cases hk : skipConfigFuel f (d.drop i.toNat) with
          | error e' =>
            rw [hk] at h
            injection h with h
            subst h
            exact ih.1 _ _ (by omega) hsne hk
          | ok next =>
            rw [hk, bind_ok] at h
            split at h
            · injection h with h; rw [← h]; exact Or.inl True.intro
            · rename_i hneg
              exact ih.2 d _ e hl (not_lt.mp hneg) h

theorem skipConfig_isDecodeError {d : List Byte} {e : Err} (hl : d.length < 2 ^ 63)
    (hne : d ≠ []) (h : skipConfig d = .error e) : e.IsDecodeError := by
  have hnf := skipConfig_ne_outOfFuel hl
  unfold skipConfig at h hnf
  rcases (skipFuel_error _).1 d e hl hne h with h1 | h1
  · exact h1
  · rw [h1] at h; exact absurd h hnf

theorem skipField_isDecodeError {d : List Byte} {i : Int} {e : Err} (hl : d.length < 2 ^ 63)
    (h0 : 0 ≤ i) (hi : i < len d) (h : skipField d i = .error e) : e.IsDecodeError := by
  unfold skipField at h
  dsimp only at h
  have hs := sliceFrom_of_le h0 (le_of_lt hi)
  obtain ⟨hsne, hsl⟩ := sliceFrom_ne_nil hi hs
  rw [hs, bind_ok] at h
  cases hk : skipConfig (d.drop i.toNat) with
  | error e' =>
    rw [hk] at h
    injection h with h
    subst h
    exact skipConfig_isDecodeError (by omega) hsne hk
  | ok skippy =>
    rw [hk, bind_ok] at h
    split at h
    · injection h with h; rw [← h]; exact True.intro
    · rename_i hk0
      split at h
      · injection h with h; rw [← h]; exact True.intro
      · rename_i hneg
        split at h
        · injection h with h; rw [← h]; exact True.intro
        · rename_i hgt
          have hle : i ≤ addInt i skippy := by
            have := (skipFuel_bound _).1 _ skippy (by omega) hk
            simp only [len] at hi hgt
            unfold addInt int64 at hneg hgt ⊢
            omega
          rw [slice_of_le h0 hle (not_lt.mp hgt), bind_ok] at h
          cases h

theorem ConfigV1_UnmarshalField_isDecodeError (m : ConfigV1) {d : List Byte} {i : Int}
    {e : Err} (hl : d.length < 2 ^ 63) (h0 : 0 ≤ i) (hi : i < len d)
    (h : m.UnmarshalField d i = .error e) : e.IsDecodeError := by
  unfold ConfigV1.UnmarshalField at h
  dsimp only at h
  cases hv : decodeVarint d i with
  | error e' =>
    rw [hv] at h
    injection h with h
    subst h
    exact decodeVarint_isDecodeError hl h0 hv
  | ok p =>
    obtain ⟨wire, i1⟩ := p
    have hb := decodeVarint_bound hl hv
    rw [hv, bind_ok] at h
    dsimp only at h
    split at h
    · injection h with h; rw [← h]; exact True.intro
    · split at h
      · rename_i hle
        injection h with h
        rw [← h]
        exact ⟨hle, rfl⟩
      · split at h
        · split at h
          · rename_i hw
            injection h with h; rw [← h]; exact hw
          · exact readString_isDecodeError _ hl (by omega) h
        · split at h
          · split at h
            · rename_i hw
              injection h with h; rw [← h]; exact hw
            · exact readString_isDecodeError _ hl (by omega) h
          · split at h
            · split at h
              · rename_i hw
                injection h with h; rw [← h]; exact hw
              · exact readString_isDecodeError _ hl (by omega) h
            · cases hs : skipField d i with
              | error e' =>
                rw [hs] at h
                injection h with h
                subst h
                exact skipField_isDecodeError hl h0 hi hs
              | ok q => rw [hs, bind_ok] at h; cases h

theorem unmarshalLoop_error {α : Type} {step : α → List Byte → Int → Except Err (α × Int)}
    {P : Err → Prop} (d : List Byte)
    (hbound : ∀ (m m' : α) (i i' : Int), step m d i = .ok (m', i') → i < i' ∧ i' ≤ len d)
    (hstep : ∀ (m : α) (i : Int) (e : Err), 0 ≤ i → i < len d → step m d i = .error e → P e)
    (hEOF : P .ErrUnexpectedEOF) (f : Nat) :
    ∀ (m : α) (i : Int) (e : Err), 0 ≤ i → unmarshalLoop step f m d i = .error e →
      P e ∨ e = .outOfFuel := by
  induction f with
  | zero =>
    intro m i e _ h
    rw [unmarshalLoop] at h
    injection h with h
    exact Or.inr h.symm
  | succ f ih =>
    intro m i e h0 h
    rw [unmarshalLoop] at h
    split at h
    · rename_i hlt
      cases hs : step m d i with
      | error e' =>
        rw [hs] at h
        dsimp only at h
        injection h with h
        subst h
        exact Or.inl (hstep m i _ h0 hlt hs)
      | ok p =>
        obtain ⟨m', i'⟩ := p
        rw [hs] at h
        dsimp only at h
        have hb := hbound m m' i i' hs
        exact ih m' i' e (by omega) h
    · split at h
      · injection h with h; rw [← h]; exact Or.inl hEOF
      · cases h

theorem ConfigV1_Unmarshal_isDecodeError (m : ConfigV1) {d : List Byte} {e : Err}
    (hl : d.length < 2 ^ 63) (h : m.Unmarshal d = .error e) : e.IsDecodeError := by
  have hnf := ConfigV1_Unmarshal_ne_outOfFuel m hl
  rw [ConfigV1_Unmarshal_eq] at h hnf
  rcases unmarshalLoop_error (P := Err.IsDecodeError) d
    (fun m m' i i' hs => by
      have := ConfigV1_stepFrame.bound m m' d i i' hl hs
      omega)
    (fun m i e h0 hi hs => ConfigV1_UnmarshalField_isDecodeError m hl h0 hi hs)
    True.intro _ m 0 e (le_refl 0) h with h1 | h1
  · exact h1
  · rw [h1] at h; exact absurd h hnf

theorem Config_UnmarshalField_isDecodeError (m : Config) {d : List Byte} {i : Int}
    {e : Err} (hl : d.length < 2 ^ 63) (h0 : 0 ≤ i) (hi : i < len d)
    (h : m.UnmarshalField d i = .error e) : e.IsDecodeError := by
  unfold Config.UnmarshalField at h
  dsimp only at h
  cases hv : decodeVarint d i with
  | error e' =>
    rw [hv] at h
    injection h with h
    subst h
    exact decodeVarint_isDecodeError hl h0 hv
  | ok p =>
    obtain ⟨wire, i1⟩ := p
    have hb := decodeVarint_bound hl hv
    rw [hv, bind_ok] at h
    dsimp only at h
    split at h
    · injection h with h; rw [← h]; exact True.intro
    · split at h
      · rename_i hle
        injection h with h
        rw [← h]
        exact ⟨hle, rfl⟩
      · split at h
        · split at h
          · rename_i hw
            injection h with h; rw [← h]; exact hw
          · exact readString_isDecodeError _ hl (by omega) h
        · split at h
          · split at h
            · rename_i hw
              injection h with h; rw [← h]; exact hw
            · cases hd : decodeLength d i1 with
              | error e' =>
                rw [hd] at h
                injection h with h
                subst h
                exact decodeLength_isDecodeError hl (by omega) hd
              | ok q =>
                obtain ⟨i2, post⟩ := q
                rw [hd, bind_ok] at h
                dsimp only at h
                have hs := slice_after_decodeLength hl hd
                rw [hs, bind_ok] at h
                have hsl : ((d.take post.toNat).drop i2.toNat).length < 2 ^ 63 := by
                  rw [List.length_drop, List.length_take]; omega
                cases hu : (m.V1.getD ConfigV1.empty).Unmarshal
                    ((d.take post.toNat).drop i2.toNat) with
                | error e' =>
                  rw [hu] at h
                  injection h with h
                  subst h
                  exact ConfigV1_Unmarshal_isDecodeError _ hsl hu
                | ok v1 => rw [hu, bind_ok] at h; cases h
          · cases hs : skipField d i with
            | error e' =>
              rw [hs] at h
              injection h with h
              subst h
              exact skipField_isDecodeError hl h0 hi hs
            | ok q => rw [hs, bind_ok] at h; cases h

theorem Config_Unmarshal_isDecodeError (m : Config) {d : List Byte} {e : Err}
    (hl : d.length < 2 ^ 63) (h : m.Unmarshal d = .error e) : e.IsDecodeError := by
  have hnf := Config_Unmarshal_ne_outOfFuel m hl
  rw [Config_Unmarshal_eq] at h hnf
  rcases unmarshalLoop_error (P := Err.IsDecodeError) d
    (fun m m' i i' hs => by
      have := Config_stepFrame.bound m m' d i i' hl hs
      omega)
    (fun m i e h0 hi hs => Config_UnmarshalField_isDecodeError m hl h0 hi hs)
    True.intro _ m 0 e (le_refl 0) h with h1 | h1
  · exact h1
  · rw [h1] at h; exact absurd h hnf

theorem fieldNumOf_eq (wire : Nat) :
    fieldNumOf wire
      = if (wire >>> 3) % 2 ^ 32 < 2 ^ 31 then (((wire >>> 3) % 2 ^ 32 : Nat) : Int)
        else (((wire >>> 3) % 2 ^ 32 : Nat) : Int) - 2 ^ 32 := by
  unfold fieldNumOf int32
  split <;> omega

theorem Config_UnmarshalField_illegalTag (m : Config) {d : List Byte} {i i1 : Int}
    {wire : Nat} (hv : decodeVarint d i = .ok (wire, i1)) (hw : wireTypeOf wire ≠ 4)
    (hf : fieldNumOf wire ≤ 0) :
    m.UnmarshalField d i = .error (.illegalTag .Config (fieldNumOf wire) wire) := by
  unfold wireTypeOf at hw
  unfold fieldNumOf at hf ⊢
  unfold Config.UnmarshalField
  dsimp only
  rw [hv, bind_ok]
  dsimp only
  rw [if_neg hw, if_pos hf]

theorem ConfigV1_UnmarshalField_illegalTag (m : ConfigV1) {d : List Byte} {i i1 : Int}
    {wire : Nat} (hv : decodeVarint d i = .ok (wire, i1)) (hw : wireTypeOf wire ≠ 4)
    (hf : fieldNumOf wire ≤ 0) :
    m.UnmarshalField d i = .error (.illegalTag .ConfigV1 (fieldNumOf wire) wire) := by
  unfold wireTypeOf at hw
  unfold fieldNumOf at hf ⊢
  unfold ConfigV1.UnmarshalField
  dsimp only
  rw [hv, bind_ok]
  dsimp only
  rw [if_neg hw, if_pos hf]

theorem Config_Unmarshal_illegalTag_iff (m : Config) {d : List Byte} {i1 : Int} {wire : Nat}
    (hl : d.length < 2 ^ 63) (hv : decodeVarint d 0 = .ok (wire, i1))
    (hw : wireTypeOf wire ≠ 4) :
    m.Unmarshal d = .error (.illegalTag .Config (fieldNumOf wire) wire)
      ↔ fieldNumOf wire ≤ 0 := by
  constructor
  · intro h
    exact (Config_Unmarshal_isDecodeError m hl h).1
  · intro hf
    have hb := decodeVarint_bound hl hv
    rw [Config_Unmarshal_eq]
    exact unmarshalLoop_step_error (by omega) (Config_UnmarshalField_illegalTag m hv hw hf) _

theorem ConfigV1_Unmarshal_illegalTag_iff (m : ConfigV1) {d : List Byte} {i1 : Int}
    {wire : Nat} (hl : d.length < 2 ^ 63) (hv : decodeVarint d 0 = .ok (wire, i1))
    (hw : wireTypeOf wire ≠ 4) :
    m.Unmarshal d = .error (.illegalTag .ConfigV1 (fieldNumOf wire) wire)
      ↔ fieldNumOf wire ≤ 0 := by
  constructor
  · intro h
    exact (ConfigV1_Unmarshal_isDecodeError m hl h).1
  · intro hf
    have hb := decodeVarint_bound hl hv
    rw [ConfigV1_Unmarshal_eq]
    exact unmarshalLoop_step_error (by omega) (ConfigV1_UnmarshalField_illegalTag m hv hw hf) _

theorem fieldNumOf_wrapped : fieldNumOf (lengthDelimitedTag (2 ^ 32 + 1)) = 1 := by
  unfold fieldNumOf int32
  rw [lengthDelimitedTag_eq, Nat.shiftRight_eq_div_pow]
  have : (8 * (2 ^ 32 + 1) + 2) / 2 ^ 3 = 2 ^ 32 + 1 := by omega
  rw [this]
  omega

theorem readsBytes_lengthDelimited (N : Nat) (s : List Byte)
    (hl : (lengthDelimited N s).length < 2 ^ 63) :
    ReadsBytes (lengthDelimited N s) ((varint (lengthDelimitedTag N)).length : Int)
      ((lengthDelimited N s).length : Int) s := by
  unfold lengthDelimited at hl ⊢
  have := readsBytes_encoded (varint (lengthDelimitedTag N)) s [] (by simpa using hl)
  simp only [List.append_nil] at this
  have e : ((varint (lengthDelimitedTag N)).length + (varint s.length).length + s.length)
      = (varint (lengthDelimitedTag N) ++ (varint s.length ++ s)).length := by
    simp only [List.length_append]; omega
  rw [e] at this
  exact this

theorem Config_Unmarshal_wrappedFieldNumber (m : Config) (s : List Byte)
    (hl : (lengthDelimited (2 ^ 32 + 1) s).length < 2 ^ 63) :
    m.Unmarshal (lengthDelimited (2 ^ 32 + 1) s) = .ok { m with UserID := s } := by
  have hv := lengthDelimited_decodeTag (2 ^ 32 + 1) s (by decide) hl
  have hb := decodeVarint_bound hl hv
  have hne : lengthDelimited (2 ^ 32 + 1) s ≠ [] := by
    apply List.length_pos.mp
    simp only [len] at hb
    omega
  refine Config_Unmarshal_single ⟨_, _, hv, ?_, ?_, Or.inl ⟨fieldNumOf_wrapped,
    wireTypeOf_lengthDelimitedTag _, s, readsBytes_lengthDelimited _ s hl, rfl⟩⟩ hne
  · rw [wireTypeOf_lengthDelimitedTag]; decide
  · rw [fieldNumOf_wrapped]; decide

theorem ConfigV1_Unmarshal_wrappedFieldNumber (m : ConfigV1) (s : List Byte)
    (hl : (lengthDelimited (2 ^ 32 + 1) s).length < 2 ^ 63) :
    m.Unmarshal (lengthDelimited (2 ^ 32 + 1) s) = .ok { m with SessionToken := s } := by
  have hv := lengthDelimited_decodeTag (2 ^ 32 + 1) s (by decide) hl
  have hb := decodeVarint_bound hl hv
  have hne : lengthDelimited (2 ^ 32 + 1) s ≠ [] := by
    apply List.length_pos.mp
    simp only [len] at hb
    omega
  refine ConfigV1_Unmarshal_single ⟨_, _, hv, ?_, ?_, Or.inl ⟨fieldNumOf_wrapped,
    wireTypeOf_lengthDelimitedTag _, s, readsBytes_lengthDelimited _ s hl, rfl⟩⟩ hne
  · rw [wireTypeOf_lengthDelimitedTag]; decide
  · rw [fieldNumOf_wrapped]; decide

theorem unmarshalLoop_decodes {α : Type} {step : α → List Byte → Int → Except Err (α × Int)}
    (d : List Byte)
    (htag : ∀ (m m' : α) (i i' : Int), step m d i = .ok (m', i') →
      ∃ wire i1, decodeVarint d i = .ok (wire, i1))
    (f : Nat) : ∀ (m m1 : α) (i : Int), unmarshalLoop step f m d i = .ok m1 →
      ∃ ns, LoopDecodes step d m i ns m1 := by
  induction f with
  | zero => intro m m1 i h; cases h
  | succ f ih =>
    intro m m1 i h
    rw [unmarshalLoop] at h
    split at h
    · rename_i hlt
      cases hs : step m d i with
      | error e => rw [hs] at h; cases h
      | ok p =>
        obtain ⟨m', i'⟩ := p
        rw [hs] at h
        dsimp only at h
        obtain ⟨wire, i1, hv⟩ := htag m m' i i' hs
        obtain ⟨ns, hns⟩ := ih m' m1 i' h
        exact ⟨_, LoopDecodes.field m m' m1 i i' i1 wire ns hlt hv hs hns⟩
    · rename_i hlt
      split at h
      · cases h
      · rename_i hgt
        injection h with h
        subst h
        exact ⟨[], LoopDecodes.done m i (by omega)⟩

theorem Config_Unmarshal_decodes {m m1 : Config} {d : List Byte}
    (h : m.Unmarshal d = .ok m1) : ∃ ns, LoopDecodes Config.UnmarshalField d m 0 ns m1 := by
  rw [Config_Unmarshal_eq] at h
  refine unmarshalLoop_decodes d (fun m m' i i' hs => ?_) _ m m1 0 h
  obtain ⟨wire, i1, hv, _⟩ := (Config_UnmarshalField_ok_iff _ _ _ _ _).mp hs
  exact ⟨wire, i1, hv⟩

theorem ConfigV1_Unmarshal_decodes {m m1 : ConfigV1} {d : List Byte}
    (h : m.Unmarshal d = .ok m1) :
    ∃ ns, LoopDecodes ConfigV1.UnmarshalField d m 0 ns m1 := by
  rw [ConfigV1_Unmarshal_eq] at h
  refine unmarshalLoop_decodes d (fun m m' i i' hs => ?_) _ m m1 0 h
  obtain ⟨wire, i1, hv, _⟩ := (ConfigV1_UnmarshalField_ok_iff _ _ _ _ _).mp hs
  exact ⟨wire, i1, hv⟩

theorem Config_LoopDecodes_keeps {d : List Byte} {m m1 : Config} {i : Int} {ns : List Int}
    (h : LoopDecodes Config.UnmarshalField d m i ns m1) :
    (1 ∉ ns → m1.UserID = m.UserID) ∧ (2 ∉ ns → m1.V1 = m.V1)
      ∧ ((∀ n ∈ ns, n = 1 ∨ n = 2) → m1.XXX_unrecognized = m.XXX_unrecognized)
      ∧ (m.V1 ≠ none → m1.V1 ≠ none) := by
  induction h with
  | done m i _ => exact ⟨fun _ => rfl, fun _ => rfl, fun _ => rfl, fun h => h⟩
  | field m m' m1 i i' i1 wire ns hlt hv hs _ ih =>
    obtain ⟨wire', i1', hv', h4, hpos, hc⟩ := (Config_UnmarshalField_ok_iff _ _ _ _ _).mp hs
    have hw : wire' = wire := by
      rw [hv] at hv'
      injection hv' with hv'
      injection hv' with h1 _
      exact h1.symm
    subst hw
    obtain ⟨ih1, ih2, ih3, ih4⟩ := ih
    simp only [List.mem_cons, not_or] at *
    rcases hc with ⟨hf, _, s, _, rfl⟩ | ⟨hf, _, sub, v1, _, _, rfl⟩ | ⟨hf1, hf2, span, _, rfl⟩
    · refine ⟨fun h => absurd hf.symm h.1, fun h => ih2 h.2, fun h => ?_, fun h => ih4 h⟩
      exact ih3 (fun n hn => h n (Or.inr hn))
    · refine ⟨fun h => ih1 h.2, fun h => absurd hf.symm h.1, fun h => ?_,
        fun _ => ih4 (by simp)⟩
      exact ih3 (fun n hn => h n (Or.inr hn))
    · refine ⟨fun h => ih1 h.2, fun h => ih2 h.2, fun h => ?_, fun h => ih4 h⟩
      rcases h (fieldNumOf wire') (Or.inl rfl) with h1 | h1
      · exact absurd h1 hf1
      · exact absurd h1 hf2

theorem ConfigV1_LoopDecodes_keeps {d : List Byte} {m m1 : ConfigV1} {i : Int}
    {ns : List Int} (h : LoopDecodes ConfigV1.UnmarshalField d m i ns m1) :
    (1 ∉ ns → m1.SessionToken = m.SessionToken) ∧ (2 ∉ ns → m1.PachdAddress = m.PachdAddress)
      ∧ (3 ∉ ns → m1.ServerCAs = m.ServerCAs)
      ∧ ((∀ n ∈ ns, n = 1 ∨ n = 2 ∨ n = 3) → m1.XXX_unrecognized = m.XXX_unrecognized) := by
  induction h with
  | done m i _ => exact ⟨fun _ => rfl, fun _ => rfl, fun _ => rfl, fun _ => rfl⟩
  | field m m' m1 i i' i1 wire ns hlt hv hs _ ih =>
    obtain ⟨wire', i1', hv', h4, hpos, hc⟩ := (ConfigV1_UnmarshalField_ok_iff _ _ _ _ _).mp hs
    have hw : wire' = wire := by
      rw [hv] at hv'
      injection hv' with hv'
      injection hv' with h1 _
      exact h1.symm
    subst hw
    obtain ⟨ih1, ih2, ih3, ih4⟩ := ih
    simp only [List.mem_cons, not_or] at *
    rcases hc with ⟨hf, _, s, _, rfl⟩ | ⟨hf, _, s, _, rfl⟩ | ⟨hf, _, s, _, rfl⟩
      | ⟨hf1, hf2, hf3, span, _, rfl⟩
    · exact ⟨fun h => absurd hf.symm h.1, fun h => ih2 h.2, fun h => ih3 h.2,
        fun h => ih4 (fun n hn => h n (Or.inr hn))⟩
    · exact ⟨fun h => ih1 h.2, fun h => absurd hf.symm h.1, fun h => ih3 h.2,
        fun h => ih4 (fun n hn => h n (Or.inr hn))⟩
    · exact ⟨fun h => ih1 h.2, fun h => ih2 h.2, fun h => absurd hf.symm h.1,
        fun h => ih4 (fun n hn => h n (Or.inr hn))⟩
    · refine ⟨fun h => ih1 h.2, fun h => ih2 h.2, fun h => ih3 h.2, fun h => ?_⟩
      rcases h (fieldNumOf wire') (Or.inl rfl) with h1 | h1 | h1
      · exact absurd h1 hf1
      · exact absurd h1 hf2
      · exact absurd h1 hf3

theorem Config_Unmarshal_tail {m m1 : Config} {d : List Byte} (hl : d.length < 2 ^ 63)
    (h : m.Unmarshal d = .ok m1) :
    ∃ s, m1.XXX_unrecognized = appendBytes m.XXX_unrecognized s := by
  rw [Config_Unmarshal_eq] at h
  refine unmarshalLoop_invariant
    (fun (x : Config) (_ : Int) => ∃ s, x.XXX_unrecognized = appendBytes m.XXX_unrecognized s) d
    (fun x x' i i' hs hinv => ?_) _ m m1 0 h ⟨[], (appendBytes_nil _).symm⟩
  obtain ⟨s, hx⟩ := hinv
  obtain ⟨wire, i1, hv, h4, hpos, hc⟩ := (Config_UnmarshalField_ok_iff _ _ _ _ _).mp hs
  rcases hc with ⟨_, _, t, _, rfl⟩ | ⟨_, _, sub, v1, _, _, rfl⟩ | ⟨_, _, span, hsk, rfl⟩
  · exact ⟨s, hx⟩
  · exact ⟨s, hx⟩
  · have hb := skipField_bound hl hsk
    have hne : span ≠ [] := by
      apply List.length_pos.mp
      omega
    refine ⟨s ++ span, ?_⟩
    dsimp only
    rw [hx, appendBytes_appendBytes _ _ hne]

theorem ConfigV1_Unmarshal_tail {m m1 : ConfigV1} {d : List Byte} (hl : d.length < 2 ^ 63)
    (h : m.Unmarshal d = .ok m1) :
    ∃ s, m1.XXX_unrecognized = appendBytes m.XXX_unrecognized s := by
  rw [ConfigV1_Unmarshal_eq] at h
  refine unmarshalLoop_invariant
    (fun (x : ConfigV1) (_ : Int) =>
      ∃ s, x.XXX_unrecognized = appendBytes m.XXX_unrecognized s) d
    (fun x x' i i' hs hinv => ?_) _ m m1 0 h ⟨[], (appendBytes_nil _).symm⟩
  obtain ⟨s, hx⟩ := hinv
  obtain ⟨wire, i1, hv, h4, hpos, hc⟩ := (ConfigV1_UnmarshalField_ok_iff _ _ _ _ _).mp hs
  rcases hc with ⟨_, _, t, _, rfl⟩ | ⟨_, _, t, _, rfl⟩ | ⟨_, _, t, _, rfl⟩
    | ⟨_, _, _, span, hsk, rfl⟩
  · exact ⟨s, hx⟩
  · exact ⟨s, hx⟩
  · exact ⟨s, hx⟩
  · have hb := skipField_bound hl hsk
    have hne : span ≠ [] := by
      apply List.length_pos.mp
      omega
    refine ⟨s ++ span, ?_⟩
    dsimp only
    rw [hx, appendBytes_appendBytes _ _ hne]

/-! # The claims -/

/-! ## C2: size and encoding agree -/

/-- C2. For every `Config` `r` and every `ConfigV1` `v` whose strings and
tails hold fewer than `2^62` bytes (every record a Go program can hold),
`make` of `Size` succeeds, `MarshalTo` on that buffer returns the count
`Size` without a panic, that is without a write outside the buffer, and
`Marshal` returns without error a slice of exactly `Size` bytes. -/
theorem marshal_size_agreement (r : Config) (v : ConfigV1)
    (hr : r.contentLen < 2 ^ 62) (hv : v.contentLen < 2 ^ 62) :
    (∃ buf out, make r.Size = .ok buf ∧ r.MarshalTo buf = .ok (out, r.Size)
        ∧ r.Marshal = .ok out ∧ len out = r.Size) ∧
    (∃ buf out, make v.Size = .ok buf ∧ v.MarshalTo buf = .ok (out, v.Size)
        ∧ v.Marshal = .ok out ∧ len out = v.Size) := by
  have h1 := Config_layout_length_lt r hr
  have h2 := ConfigV1_layout_length_lt v hv
  constructor
  · refine ⟨List.replicate r.layout.length 0, r.layout, ?_, ?_, Config_Marshal_eq r h1, ?_⟩
    · rw [Config_Size_eq r h1, make_eq]
    · have := Config_MarshalTo_append r (List.replicate r.layout.length 0) [] (by simp)
        (by simpa using h1)
      rw [Config_Size_eq r h1]
      simpa using this
    · rw [Config_Size_eq r h1, len_eq]
  · refine ⟨List.replicate v.layout.length 0, v.layout, ?_, ?_, ConfigV1_Marshal_eq v h2, ?_⟩
    · rw [ConfigV1_Size_eq v h2, make_eq]
    · have := ConfigV1_MarshalTo_append v (List.replicate v.layout.length 0) [] (by simp)
        (by simpa using h2)
      rw [ConfigV1_Size_eq v h2]
      simpa using this
    · rw [ConfigV1_Size_eq v h2, len_eq]

/-- C2, at the record of the scenario and its nested record. -/
theorem marshal_size_agreement_witness :
    (∃ buf out, make scenario.Size = .ok buf ∧ scenario.MarshalTo buf = .ok (out, scenario.Size)
        ∧ scenario.Marshal = .ok out ∧ len out = scenario.Size) ∧
    (∃ buf out, make ConfigV1.empty.Size = .ok buf
        ∧ ConfigV1.empty.MarshalTo buf = .ok (out, ConfigV1.empty.Size)
        ∧ ConfigV1.empty.Marshal = .ok out ∧ len out = ConfigV1.empty.Size) :=
  marshal_size_agreement scenario ConfigV1.empty (by decide) (by decide)

/-! ## C3: varint round trip -/

/-- C3. For every unsigned 64-bit `v` and every buffer with room for the
varint of `v` at `offset`, `encodeVarintConfig` writes `sovConfig v` bytes
there, and the varint read loop of `Unmarshal`, started at `offset` on the
written buffer, returns `v` without error and stops exactly after those
bytes. -/
theorem varint_round_trip (v : Nat) (dAtA : List Byte) (offset : Nat) (hv : v < 2 ^ 64)
    (hroom : (offset : Int) + sovConfig v ≤ len dAtA) (hl : dAtA.length < 2 ^ 63) :
    ∃ out, encodeVarintConfig dAtA offset v = .ok (out, offset + sovConfig v)
      ∧ out.length = dAtA.length
      ∧ decodeVarint out offset = .ok (v, offset + sovConfig v) := by
  rw [sovConfig_varint hv, len_eq] at hroom
  rw [sovConfig_varint hv]
  have hsplit : dAtA.length = offset + ((varint v).length + (dAtA.length - offset - (varint v).length)) := by
    omega
  obtain ⟨pre, rest, rfl, hpre, hrest⟩ := split_length hsplit
  obtain ⟨hole, post, rfl, hhole, _⟩ := split_length hrest
  subst hpre
  refine ⟨pre ++ varint v ++ post, ?_, ?_, ?_⟩
  · have := encodeVarintConfig_append v pre hole post hv hhole (by simpa using hl)
    rw [← List.append_assoc, this, hhole]
    push_cast; rfl
  · simp [hhole]
  · unfold decodeVarint
    have hle := varint_length_le v hv
    rw [varint_eq hv] at hhole hle ⊢
    have := decodeVarintLoop_varint 10 11 v 0 0 pre post (by decide) (by omega) (by decide)
      (by decide) (by simpa using hv) (by decide)
      (by simp only [List.length_append] at hl ⊢; omega)
    rw [this]
    simp

/-- C3, at `v = 300` written at offset 1 of a buffer of four bytes. -/
theorem varint_round_trip_witness :
    ∃ out, encodeVarintConfig [0, 0, 0, 0] (1 : Nat) 300 = .ok (out, (1 : Nat) + sovConfig 300)
      ∧ out.length = [(0 : Byte), 0, 0, 0].length
      ∧ decodeVarint out (1 : Nat) = .ok (300, (1 : Nat) + sovConfig 300) :=
  varint_round_trip 300 [0, 0, 0, 0] 1 (by decide) (by decide) (by decide)

/-! ## C6: the scenario -/

set_option maxRecDepth 100000 in
/-- C6. `Marshal` of the record of the scenario returns exactly the 31 bytes
`0A 05 "alice" 12 16 0A 06 "tok123" 12 0C "10.0.0.1:650"`, with no `0x1A`
field for the empty certificate, and `Unmarshal` of those bytes into an empty
`Config` gives back exactly that record. -/
theorem scenario_alice :
    scenario.Marshal = .ok scenarioBytes ∧ scenarioBytes.length = 31
      ∧ (0x1a : Byte) ∉ scenarioBytes
      ∧ Config.empty.Unmarshal scenarioBytes = .ok scenario := by
  decide

/-! ## C7: default omission -/

/-- C7. Under the bound of C2 on the bytes a record holds: `Marshal` of a
`Config` with an empty `UserID` and a `nil` `V1` returns exactly the bytes of
its opaque tail (no byte when the tail is `nil`), `Marshal` of a `ConfigV1`
with three empty strings returns exactly the bytes of its opaque tail, and in
every `Config` and `ConfigV1` a field at its zero value contributes no byte.
`Marshal` of any `Config` is the block `stringField 0x0a UserID`, the block
`v1Field V1` and the tail, in this order; the block of a string is empty
exactly when the string is empty and the block of `V1` exactly when `V1` is
`nil`; so with an empty `UserID` the encoding is the block of `V1` followed by
the tail, and with a `nil` `V1` it is the block of `UserID` followed by the
tail. `Marshal` of any `ConfigV1` is the blocks `stringField 0x0a
SessionToken`, `stringField 0x12 PachdAddress`, `stringField 0x1a ServerCAs`
and the tail, and an empty string drops its block from this encoding. -/
theorem default_omission (r : Config) (v : ConfigV1) (u : Option (List Byte))
    (hr : r.contentLen < 2 ^ 62) (hv : v.contentLen < 2 ^ 62)
    (hu : (tailBytes u).length < 2 ^ 62) :
    Config.Marshal ⟨[], none, u⟩ = .ok (tailBytes u)
    ∧ Config.Marshal ⟨[], none, none⟩ = .ok []
    ∧ ConfigV1.Marshal ⟨[], [], [], u⟩ = .ok (tailBytes u)
    ∧ (r.Marshal = .ok (stringField 0x0a r.UserID ++ v1Field r.V1
          ++ tailBytes r.XXX_unrecognized)
        ∧ (stringField 0x0a r.UserID = [] ↔ r.UserID = [])
        ∧ (v1Field r.V1 = [] ↔ r.V1 = none)
        ∧ (r.UserID = [] →
            r.Marshal = .ok (v1Field r.V1 ++ tailBytes r.XXX_unrecognized))
        ∧ (r.V1 = none →
            r.Marshal = .ok (stringField 0x0a r.UserID ++ tailBytes r.XXX_unrecognized)))
    ∧ (v.Marshal = .ok (stringField 0x0a v.SessionToken ++ stringField 0x12 v.PachdAddress
          ++ stringField 0x1a v.ServerCAs ++ tailBytes v.XXX_unrecognized)
        ∧ (stringField 0x0a v.SessionToken = [] ↔ v.SessionToken = [])
        ∧ (stringField 0x12 v.PachdAddress = [] ↔ v.PachdAddress = [])
        ∧ (stringField 0x1a v.ServerCAs = [] ↔ v.ServerCAs = [])
        ∧ (v.SessionToken = [] →
            v.Marshal = .ok (stringField 0x12 v.PachdAddress
              ++ stringField 0x1a v.ServerCAs ++ tailBytes v.XXX_unrecognized))
        ∧ (v.PachdAddress = [] →
            v.Marshal = .ok (stringField 0x0a v.SessionToken
              ++ stringField 0x1a v.ServerCAs ++ tailBytes v.XXX_unrecognized))
        ∧ (v.ServerCAs = [] →
            v.Marshal = .ok (stringField 0x0a v.SessionToken
              ++ stringField 0x12 v.PachdAddress ++ tailBytes v.XXX_unrecognized))) := by
  have hR : r.Marshal = .ok (stringField 0x0a r.UserID ++ v1Field r.V1
      ++ tailBytes r.XXX_unrecognized) :=
    Config_Marshal_eq r (Config_layout_length_lt r hr)
  have hV : v.Marshal = .ok (stringField 0x0a v.SessionToken ++ stringField 0x12 v.PachdAddress
      ++ stringField 0x1a v.ServerCAs ++ tailBytes v.XXX_unrecognized) :=
    ConfigV1_Marshal_eq v (ConfigV1_layout_length_lt v hv)
  refine ⟨?_, ?_, ?_, ⟨hR, stringField_eq_nil_iff _ _, ?_, ?_, ?_⟩,
    ⟨hV, stringField_eq_nil_iff _ _, stringField_eq_nil_iff _ _,
      stringField_eq_nil_iff _ _, ?_, ?_, ?_⟩⟩
  · have h : (Config.mk [] none u).layout.length < 2 ^ 63 := by
      simp only [Config.layout, stringField, v1Field, List.nil_append]; omega
    rw [Config_Marshal_eq _ h]
    simp [Config.layout, stringField, v1Field]
  · rw [Config_Marshal_eq _ (by decide)]
    rfl
  · have h : (ConfigV1.mk [] [] [] u).layout.length < 2 ^ 63 := by
      simp only [ConfigV1.layout, stringField, List.nil_append]; omega
    rw [ConfigV1_Marshal_eq _ h]
    simp [ConfigV1.layout, stringField]
  · cases r.V1 with
    | none => exact ⟨fun _ => rfl, fun _ => rfl⟩
    | some v1 =>
      constructor
      · intro h; exact absurd h (by simp [v1Field])
      · intro h; exact absurd h (by simp)
  · intro h; rw [hR, h]; rfl
  · intro h; rw [hR, h]; simp [v1Field]
  · intro h; rw [hV, h]; rfl
  · intro h; rw [hV, h]; simp [stringField]
  · intro h; rw [hV, h]; simp [stringField]

/-- C7, at a `Config` that holds only `V1`, a `ConfigV1` that holds only
`PachdAddress`, and the tail `08 01`: the encoding of the `Config` starts with
the tag `12` of `V1`, no `0A 00` stands for the empty `UserID`. -/
theorem default_omission_witness :
    (Config.mk [] (some ⟨[], [0x42], [], none⟩) none).contentLen < 2 ^ 62
    ∧ (ConfigV1.mk [] [0x42] [] none).contentLen < 2 ^ 62
    ∧ (tailBytes (some [0x08, 0x01])).length < 2 ^ 62
    ∧ Config.Marshal ⟨[], some ⟨[], [0x42], [], none⟩, none⟩
        = .ok [0x12, 0x03, 0x12, 0x01, 0x42]
    ∧ ConfigV1.Marshal ⟨[], [0x42], [], none⟩ = .ok [0x12, 0x01, 0x42]
    ∧ Config.Marshal ⟨[], none, some [0x08, 0x01]⟩ = .ok [0x08, 0x01] :=
  have h := default_omission ⟨[], some ⟨[], [0x42], [], none⟩, none⟩ ⟨[], [0x42], [], none⟩
    (some [0x08, 0x01]) (by decide) (by decide) (by decide)
  ⟨by decide, by decide, by decide, h.2.2.2.1.2.2.2.1 rfl, h.2.2.2.2.2.2.2.2.1 rfl, h.1⟩

/-! ## C8: the layout of the encoding -/

/-- C8. Under the bound of C2: `ConfigV1.Marshal` returns the non-empty
strings in the order of their field numbers, `SessionToken` with tag `0x0A`,
`PachdAddress` with tag `0x12`, `ServerCAs` with tag `0x1A`, each as tag,
varint of the length and bytes, followed by the opaque tail; and
`Config.Marshal` returns, when `UserID` is not empty, `0x0A`, the varint of its
length and its bytes, then, when `V1` is present, `0x12`, the varint of
`Size` of `V1` and `ConfigV1.Marshal` of `V1`, then the opaque tail. -/
theorem encoder_layout (r : Config) (v : ConfigV1)
    (hr : r.contentLen < 2 ^ 62) (hv : v.contentLen < 2 ^ 62) :
    v.Marshal = .ok (stringField 0x0a v.SessionToken ++ stringField 0x12 v.PachdAddress
        ++ stringField 0x1a v.ServerCAs ++ tailBytes v.XXX_unrecognized)
    ∧ ∃ nested, r.Marshal = .ok (stringField 0x0a r.UserID ++ nested
          ++ tailBytes r.XXX_unrecognized)
        ∧ ((r.V1 = none ∧ nested = []) ∨
           (∃ v1 b1, r.V1 = some v1 ∧ v1.Marshal = .ok b1
              ∧ nested = 0x12 :: (varint (uint64 v1.Size) ++ b1))) := by
  refine ⟨ConfigV1_Marshal_eq v (ConfigV1_layout_length_lt v hv), v1Field r.V1,
    Config_Marshal_eq r (Config_layout_length_lt r hr), ?_⟩
  cases h1 : r.V1 with
  | none => exact Or.inl ⟨rfl, rfl⟩
  | some v1 =>
    right
    have hc : v1.contentLen < 2 ^ 62 := by
      have : r.contentLen < 2 ^ 62 := hr
      simp only [Config.contentLen, h1, v1ContentLen] at this
      omega
    have hlt := ConfigV1_layout_length_lt v1 hc
    refine ⟨v1, v1.layout, rfl, ConfigV1_Marshal_eq v1 hlt, ?_⟩
    rw [ConfigV1_Size_eq v1 hlt, uint64_natCast (by omega)]
    rfl

/-- C8, at the record of the scenario and its nested record. -/
theorem encoder_layout_witness :
    ConfigV1.Marshal ⟨[0x41], [0x42], [0x43], some [0x20, 0x01]⟩
      = .ok (stringField 0x0a (ConfigV1.mk [0x41] [0x42] [0x43] (some [0x20, 0x01])).SessionToken
        ++ stringField 0x12 (ConfigV1.mk [0x41] [0x42] [0x43] (some [0x20, 0x01])).PachdAddress
        ++ stringField 0x1a (ConfigV1.mk [0x41] [0x42] [0x43] (some [0x20, 0x01])).ServerCAs
        ++ tailBytes (ConfigV1.mk [0x41] [0x42] [0x43] (some [0x20, 0x01])).XXX_unrecognized)
    ∧ ∃ nested, scenario.Marshal = .ok (stringField 0x0a scenario.UserID ++ nested
          ++ tailBytes scenario.XXX_unrecognized)
        ∧ ((scenario.V1 = none ∧ nested = []) ∨
           (∃ v1 b1, scenario.V1 = some v1 ∧ v1.Marshal = .ok b1
              ∧ nested = 0x12 :: (varint (uint64 v1.Size) ++ b1))) :=
  encoder_layout scenario ⟨[0x41], [0x42], [0x43], some [0x20, 0x01]⟩ (by decide) (by decide)

/-! ## C1: round trip -/

/-- C1. For every `Config` `r` that holds fewer than `2^62` bytes and whose
opaque tails, outer and nested, are empty or were produced by an earlier
successful `Unmarshal`: `Marshal` of `r` succeeds, `Unmarshal` of its bytes
into an empty `Config` succeeds, and the result equals `r` field for field,
`V1` present exactly when it is in `r`, both opaque tails byte for byte; the
result is `r` itself unless a tail of `r` is an empty slice that is not
`nil`. -/
theorem round_trip (r : Config) (hr : r.contentLen < 2 ^ 62)
    (ht : Config.TailProduced r.XXX_unrecognized)
    (hv : ∀ v1, r.V1 = some v1 → ConfigV1.TailProduced v1.XXX_unrecognized) :
    ∃ b r', r.Marshal = .ok b ∧ Config.empty.Unmarshal b = .ok r' ∧ r'.SameFields r
      ∧ ((r.XXX_unrecognized ≠ some [] ∧ ∀ v1, r.V1 = some v1 → v1.XXX_unrecognized ≠ some [])
          → r' = r) := by
  have hl := Config_layout_length_lt r hr
  refine ⟨r.layout, _, Config_Marshal_eq r hl,
    Config_Unmarshal_layout r hl (Config_TailProduced_redecodable ht) (fun v1 h => ConfigV1_TailProduced_redecodable (hv v1 h)), ?_, ?_⟩
  · obtain ⟨uid, v1, u⟩ := r
    refine ⟨rfl, ?_, by simp only [tailBytes_appendBytes]; rfl⟩
    cases v1 with
    | none => exact True.intro
    | some v => exact ⟨rfl, rfl, rfl, by simp only [tailBytes_appendBytes]; rfl⟩
  · obtain ⟨uid, v1, u⟩ := r
    rintro ⟨h1, h2⟩
    simp only at h1 h2
    rw [appendBytes_none_eq h1]
    cases v1 with
    | none => rfl
    | some v =>
      have := h2 v rfl
      obtain ⟨a, b, c, t⟩ := v
      simp only [Option.map_some', appendBytes_none_eq this]

/-- C1, at a record whose two tails were captured by decoding unknown fields. -/
theorem round_trip_witness :
    ∃ b r', roundTripExample.Marshal = .ok b ∧ Config.empty.Unmarshal b = .ok r'
      ∧ r'.SameFields roundTripExample
      ∧ ((roundTripExample.XXX_unrecognized ≠ some []
          ∧ ∀ v1, roundTripExample.V1 = some v1 → v1.XXX_unrecognized ≠ some [])
          → r' = roundTripExample) :=
  round_trip roundTripExample (by decide)
    (Or.inr ⟨Config.empty, ⟨[], none, some [0x1a, 0x01, 0x42]⟩, [0x1a, 0x01, 0x42],
      by decide, rfl, by decide, rfl⟩)
    (fun v1 h => by
      have hv1 : v1 = ⟨[0x74], [], [], some [0x20, 0x01]⟩ := by
        have h' : some (ConfigV1.mk [0x74] [] [] (some [0x20, 0x01])) = some v1 := h
        injection h' with h'
        exact h'.symm
      subst hv1
      exact Or.inr ⟨ConfigV1.empty, ⟨[], [], [], some [0x20, 0x01]⟩, [0x20, 0x01],
        by decide, rfl, by decide, rfl⟩)

/-! ## C10: a recognised field number with a wire type other than 2 -/

/-- C10, counterexample. On the two bytes `08 01` (field 1 as a varint)
`(*Config).Unmarshal` fails with the error "wrong wireType = 0 for field
UserID", and on `18 01` `(*ConfigV1).Unmarshal` fails the same way for
`ServerCAs`: the field is not skipped and nothing reaches the opaque tail. -/
theorem mismatched_wire_type_fails :
    Config.empty.Unmarshal [0x08, 0x01] = .error (.wrongWireType 0 .UserID)
      ∧ (¬ ∃ r, Config.empty.Unmarshal [0x08, 0x01] = .ok r)
      ∧ ConfigV1.empty.Unmarshal [0x18, 0x01] = .error (.wrongWireType 0 .ServerCAs) := by
  have h : Config.empty.Unmarshal [0x08, 0x01] = .error (.wrongWireType 0 .UserID) := by
    decide
  refine ⟨h, ?_, by decide⟩
  rintro ⟨r, hr⟩
  rw [h] at hr
  cases hr

/-- C10, amended. When the fields before it decode successfully, a field whose
number is recognised (1 or 2 in `Config`; 1, 2 or 3 in `ConfigV1`) and whose
wire type is not 2 makes `Unmarshal` fail: with the error "wiretype end group
for non-group" for wire type 4, and with the error "wrong wireType" carrying
the wire type and the name of the field for every other wire type. -/
theorem mismatched_wire_type_is_error (m m1 : Config) (v v1 : ConfigV1) (a b : List Byte)
    (wire : Nat) (i1 : Int) (hl : (a ++ b).length < 2 ^ 63)
    (hv : decodeVarint b 0 = .ok (wire, i1)) (hw : wireTypeOf wire ≠ 2) :
    (m.Unmarshal a = .ok m1 → fieldNumOf wire = 1 ∨ fieldNumOf wire = 2 →
        m.Unmarshal (a ++ b) = .error (Config.wireTypeError wire))
    ∧ (v.Unmarshal a = .ok v1 →
        fieldNumOf wire = 1 ∨ fieldNumOf wire = 2 ∨ fieldNumOf wire = 3 →
        v.Unmarshal (a ++ b) = .error (ConfigV1.wireTypeError wire)) :=
  ⟨fun ha hf => Config_Unmarshal_wrongWireType hl ha hv hf hw,
   fun ha hf => ConfigV1_Unmarshal_wrongWireType hl ha hv hf hw⟩

/-- C10, amended, at the input `0A 01 41` followed by `10 01` (field 2 as a
varint): both decoders fail with "wrong wireType = 0", for `V1` and for
`PachdAddress`. -/
theorem mismatched_wire_type_is_error_witness :
    Config.empty.Unmarshal ([0x0a, 0x01, 0x41] ++ [0x10, 0x01])
        = .error (.wrongWireType 0 .V1)
      ∧ ConfigV1.empty.Unmarshal ([0x0a, 0x01, 0x41] ++ [0x10, 0x01])
        = .error (.wrongWireType 0 .PachdAddress) :=
  have h := mismatched_wire_type_is_error Config.empty ⟨[0x41], none, none⟩ ConfigV1.empty
    ⟨[0x41], [], [], none⟩ [0x0a, 0x01, 0x41] [0x10, 0x01] 16 1 (by decide) (by decide)
    (by decide)
  ⟨h.1 (by decide) (Or.inr (by decide)), h.2 (by decide) (Or.inr (Or.inl (by decide)))⟩

/-! ## C9: repeated fields -/

theorem IsOccurrence_ne_nil {k : Int} {F s : List Byte} (hl : F.length < 2 ^ 63)
    (h : IsOccurrence k F s) : F ≠ [] := by
  obtain ⟨wire, i1, hv, _, _, _⟩ := h
  have := decodeVarint_bound hl hv
  intro he
  rw [he] at this
  simp [len] at this
  omega

/-- C9, counterexample. The input `12 03 0A 01 'A' 12 03 12 01 'B'` holds
field 2 twice; the decoded `V1` is `{SessionToken: "A", PachdAddress: "B"}`:
the second occurrence is decoded into the `V1` of the first, the
`SessionToken` of the first occurrence is kept. -/
theorem nested_occurrences_merge :
    Config.empty.Unmarshal [0x12, 0x03, 0x0a, 0x01, 0x41, 0x12, 0x03, 0x12, 0x01, 0x42]
        = .ok ⟨[], some ⟨[0x41], [0x42], [], none⟩, none⟩
      ∧ Config.empty.Unmarshal [0x12, 0x03, 0x0a, 0x01, 0x41, 0x12, 0x03, 0x12, 0x01, 0x42]
        ≠ .ok ⟨[], some ⟨[], [0x42], [], none⟩, none⟩ := by
  decide

/-- C9, amended. When the fields before it decode successfully, an occurrence
of a string field (`UserID`; `SessionToken`, `PachdAddress`, `ServerCAs`) sets
the field to the payload of this occurrence alone, whatever the earlier
occurrences carried; an occurrence of field 2 of `Config` is decoded into the
`V1` that the earlier occurrences built (a new one when there is none), so
the nested record is merged, not replaced; and an iteration that reads a tag
with another field number leaves the field as it was. -/
theorem last_value_wins (a F s : List Byte) (hl : (a ++ F).length < 2 ^ 63) :
    (∀ m m1 : Config, m.Unmarshal a = .ok m1 → IsOccurrence 1 F s →
        m.Unmarshal (a ++ F) = .ok { m1 with UserID := s })
    ∧ (∀ v v1 : ConfigV1, v.Unmarshal a = .ok v1 → IsOccurrence 1 F s →
        v.Unmarshal (a ++ F) = .ok { v1 with SessionToken := s })
    ∧ (∀ v v1 : ConfigV1, v.Unmarshal a = .ok v1 → IsOccurrence 2 F s →
        v.Unmarshal (a ++ F) = .ok { v1 with PachdAddress := s })
    ∧ (∀ v v1 : ConfigV1, v.Unmarshal a = .ok v1 → IsOccurrence 3 F s →
        v.Unmarshal (a ++ F) = .ok { v1 with ServerCAs := s })
    ∧ (∀ (m m1 : Config) (v1 : ConfigV1), m.Unmarshal a = .ok m1 → IsOccurrence 2 F s →
        (m1.V1.getD ConfigV1.empty).Unmarshal s = .ok v1 →
        m.Unmarshal (a ++ F) = .ok { m1 with V1 := some v1 })
    ∧ (∀ (m m' : Config) (d : List Byte) (i i' i1 : Int) (wire : Nat),
        m.UnmarshalField d i = .ok (m', i') → decodeVarint d i = .ok (wire, i1) →
        (fieldNumOf wire ≠ 1 → m'.UserID = m.UserID) ∧ (fieldNumOf wire ≠ 2 → m'.V1 = m.V1))
    ∧ (∀ (v v' : ConfigV1) (d : List Byte) (i i' i1 : Int) (wire : Nat),
        v.UnmarshalField d i = .ok (v', i') → decodeVarint d i = .ok (wire, i1) →
        (fieldNumOf wire ≠ 1 → v'.SessionToken = v.SessionToken)
        ∧ (fieldNumOf wire ≠ 2 → v'.PachdAddress = v.PachdAddress)
        ∧ (fieldNumOf wire ≠ 3 → v'.ServerCAs = v.ServerCAs)) := by
  have hlF : F.length < 2 ^ 63 := by simp only [List.length_append] at hl; omega
  refine ⟨?_, ?_, ?_, ?_, ?_, ?_, ?_⟩
  · intro m m1 ha ho
    have hne := IsOccurrence_ne_nil hlF ho
    obtain ⟨wire, i1, hv, hf, hw, hr⟩ := ho
    exact Config_Unmarshal_append hl ha (Config_Unmarshal_single
      ⟨wire, i1, hv, by omega, by omega, Or.inl ⟨hf, hw, s, hr, rfl⟩⟩ hne)
  · intro v v1 ha ho
    have hne := IsOccurrence_ne_nil hlF ho
    obtain ⟨wire, i1, hv, hf, hw, hr⟩ := ho
    exact ConfigV1_Unmarshal_append hl ha (ConfigV1_Unmarshal_single
      ⟨wire, i1, hv, by omega, by omega, Or.inl ⟨hf, hw, s, hr, rfl⟩⟩ hne)
  · intro v v1 ha ho
    have hne := IsOccurrence_ne_nil hlF ho
    obtain ⟨wire, i1, hv, hf, hw, hr⟩ := ho
    exact ConfigV1_Unmarshal_append hl ha (ConfigV1_Unmarshal_single
      ⟨wire, i1, hv, by omega, by omega, Or.inr (Or.inl ⟨hf, hw, s, hr, rfl⟩)⟩ hne)
  · intro v v1 ha ho
    have hne := IsOccurrence_ne_nil hlF ho
    obtain ⟨wire, i1, hv, hf, hw, hr⟩ := ho
    exact ConfigV1_Unmarshal_append hl ha (ConfigV1_Unmarshal_single
      ⟨wire, i1, hv, by omega, by omega, Or.inr (Or.inr (Or.inl ⟨hf, hw, s, hr, rfl⟩))⟩ hne)
  · intro m m1 v1 ha ho hu
    have hne := IsOccurrence_ne_nil hlF ho
    obtain ⟨wire, i1, hv, hf, hw, hr⟩ := ho
    exact Config_Unmarshal_append hl ha (Config_Unmarshal_single
      ⟨wire, i1, hv, by omega, by omega, Or.inr (Or.inl ⟨hf, hw, s, v1, hr, hu, rfl⟩)⟩ hne)
  · intro m m' d i i' i1 wire hs hv
    obtain ⟨w, j, hv', _, _, hc⟩ := (Config_UnmarshalField_ok_iff m d i m' i').mp hs
    rw [hv] at hv'
    injection hv' with hv'
    injection hv' with hw _
    subst hw
    rcases hc with ⟨hf, _, _, _, rfl⟩ | ⟨hf, _, _, _, _, _, rfl⟩ | ⟨_, _, _, _, rfl⟩
    · exact ⟨fun h => absurd hf h, fun _ => rfl⟩
    · exact ⟨fun _ => rfl, fun h => absurd hf h⟩
    · exact ⟨fun _ => rfl, fun _ => rfl⟩
  · intro v v' d i i' i1 wire hs hv
    obtain ⟨w, j, hv', _, _, hc⟩ := (ConfigV1_UnmarshalField_ok_iff v d i v' i').mp hs
    rw [hv] at hv'
    injection hv' with hv'
    injection hv' with hw _
    subst hw
    rcases hc with ⟨hf, _, _, _, rfl⟩ | ⟨hf, _, _, _, rfl⟩ | ⟨hf, _, _, _, rfl⟩
      | ⟨_, _, _, _, _, rfl⟩
    · exact ⟨fun h => absurd hf h, fun _ => rfl, fun _ => rfl⟩
    · exact ⟨fun _ => rfl, fun h => absurd hf h, fun _ => rfl⟩
    · exact ⟨fun _ => rfl, fun _ => rfl, fun h => absurd hf h⟩
    · exact ⟨fun _ => rfl, fun _ => rfl, fun _ => rfl⟩

/-- C9, amended, at the input of the claim: after `12 03 0A 01 'A'`, the
occurrence `12 03 12 01 'B'` of field 2 is decoded into the `V1` that holds
`SessionToken = "A"`, and gives `{SessionToken: "A", PachdAddress: "B"}`. -/
theorem last_value_wins_witness :
    Config.empty.Unmarshal ([0x12, 0x03, 0x0a, 0x01, 0x41] ++ [0x12, 0x03, 0x12, 0x01, 0x42])
      = .ok ⟨[], some ⟨[0x41], [0x42], [], none⟩, none⟩ :=
  (last_value_wins [0x12, 0x03, 0x0a, 0x01, 0x41] [0x12, 0x03, 0x12, 0x01, 0x42]
      [0x12, 0x01, 0x42] (by decide)).2.2.2.2.1
    Config.empty ⟨[], some ⟨[0x41], [], [], none⟩, none⟩ ⟨[0x41], [0x42], [], none⟩
    (by decide)
    ⟨18, 1, by decide, by decide, by decide, 2, by decide, by decide⟩
    (by decide)

theorem Config_Unmarshal_stringField (m : Config) (s : List Byte)
    (hl : (stringField 0x0a s).length < 2 ^ 63) :
    ∃ m1, m.Unmarshal (stringField 0x0a s) = .ok m1 := by
  by_cases hs : s = []
  · rw [hs, stringField_nil]; exact ⟨m, Config_Unmarshal_nil m⟩
  · exact ⟨_, Config_Unmarshal_UserID m hs hl⟩

theorem Config_layout_truncated (r : Config) (k : Nat) (hl : r.layout.length < 2 ^ 63)
    (hcut : r.CutsField k) :
    k < r.layout.length ∧ Config.empty.Unmarshal (r.layout.take k) = .error .ErrUnexpectedEOF := by
  obtain ⟨uid, v1, u⟩ := r
  unfold Config.layout at hl ⊢
  simp only [List.length_append] at hl ⊢
  rcases hcut with ⟨h0, hk⟩ | ⟨h0, hk⟩ | ⟨T1, s, T2, hT, hT1, hs, hv, h0, hk⟩
  · simp only at h0 hk
    have hne : uid ≠ [] := by
      intro h; rw [h, stringField_nil] at hk; simp at hk
    refine ⟨by omega, ?_⟩
    rw [List.append_assoc, List.take_append_of_le_length (by omega)]
    have := Config_Unmarshal_truncated (a := []) (F := stringField 0x0a uid) (j := k)
      (by simp only [List.nil_append]; omega) (Config_Unmarshal_nil Config.empty)
      (Config_FieldSpan_stringField hne (by omega)) h0 hk
    simpa using this
  · simp only at h0 hk
    obtain ⟨v, rfl⟩ : ∃ v, v1 = some v := by
      cases v1 with
      | none => simp [v1Field] at hk; omega
      | some v => exact ⟨v, rfl⟩
    refine ⟨by omega, ?_⟩
    obtain ⟨m1, hm1⟩ := Config_Unmarshal_stringField Config.empty uid (by omega)
    have := Config_Unmarshal_truncated (a := stringField 0x0a uid) (F := v1Field (some v))
      (j := k - (stringField 0x0a uid).length)
      (by simp only [List.length_append]; omega) hm1
      (Config_FieldSpan_v1Field v (by omega)) (by omega) (by omega)
    rw [List.append_assoc, List.take_append_eq_append_take, List.take_of_length_le (by omega),
      List.take_append_of_le_length (by omega)]
    exact this
  · simp only at hT hv h0 hk
    rw [hT] at hl ⊢
    simp only [List.length_append] at hl ⊢
    refine ⟨by omega, ?_⟩
    have hdec := Config_Unmarshal_layout ⟨uid, v1, some T1⟩
      (by unfold Config.layout; simp only [List.length_append, tailBytes, Option.getD_some]; omega)
      (by simp only [tailBytes, Option.getD_some]
          exact Config_IsUnknownFields_redecodable hT1 (by omega))
      (fun w hw => ConfigV1_TailProduced_redecodable (hv w hw))
    have hlay : (Config.mk uid v1 (some T1)).layout
        = stringField 0x0a uid ++ v1Field v1 ++ T1 := rfl
    rw [hlay] at hdec
    have := Config_Unmarshal_truncated (a := stringField 0x0a uid ++ v1Field v1 ++ T1) (F := s)
      (j := k - (stringField 0x0a uid ++ v1Field v1 ++ T1).length)
      (by simp only [List.length_append]; omega) hdec
      (Config_IsUnknownField_span hs)
      (by simp only [List.length_append]; omega) (by simp only [List.length_append]; omega)
    have hre : stringField 0x0a uid ++ v1Field v1 ++ (T1 ++ s ++ T2)
        = (stringField 0x0a uid ++ v1Field v1 ++ T1) ++ (s ++ T2) := by
      simp only [List.append_assoc]
    rw [hre, List.take_append_eq_append_take,
      List.take_of_length_le (by simp only [List.length_append]; omega),
      List.take_append_of_le_length (by simp only [List.length_append]; omega)]
    exact this

/-- Claim C5 (truncation rejection): for every `Config` `r` and every proper
prefix of `Marshal(r)` that ends strictly inside a field (in a multi-byte tag
or length varint or in the payload of the `UserID` string, of the nested `V1`
message, or of an unrecognised field held in the tail), `Unmarshal` of the
prefix into an empty `Config` fails with `io.ErrUnexpectedEOF`. -/
theorem truncation_rejected (r : Config) (k : Nat) (hr : r.contentLen < 2 ^ 62)
    (hcut : r.CutsField k) :
    ∃ b, r.Marshal = .ok b ∧ k < b.length
      ∧ Config.empty.Unmarshal (b.take k) = .error .ErrUnexpectedEOF
      ∧ ¬ ∃ m, Config.empty.Unmarshal (b.take k) = .ok m := by
  have hl := Config_layout_length_lt r hr
  have h := Config_layout_truncated r k hl hcut
  refine ⟨r.layout, Config_Marshal_eq r hl, h.1, h.2, ?_⟩
  rintro ⟨m, hm⟩
  rw [h.2] at hm
  cases hm

theorem truncation_rejected_witness :
    ∃ b, truncationExample.Marshal = .ok b ∧ 11 < b.length
      ∧ Config.empty.Unmarshal (b.take 11) = .error .ErrUnexpectedEOF
      ∧ ¬ ∃ m, Config.empty.Unmarshal (b.take 11) = .ok m :=
  truncation_rejected truncationExample 11 (by decide)
    (Or.inr (Or.inr ⟨[], [0x1a, 0x02, 0x61, 0x62], [], rfl, Config.IsUnknownFields.nil,
      ⟨26, 1, by decide, by decide, by decide, by decide, by decide, by decide⟩,
      fun v1 h => by
        have hv1 : v1 = ⟨[0x74], [], [], none⟩ := by
          have h' : some (ConfigV1.mk [0x74] [] [] none) = some v1 := h
          injection h' with h'
          exact h'.symm
        subst hv1
        exact Or.inl rfl,
      by decide, by decide⟩))

/-- Claim C4 (forward compatibility): for every input that is a sequence of
well-formed length-delimited fields, some with field numbers `3 ≤ N ≤ 2^29-1`
that `Config` does not define and arbitrary payloads, `Unmarshal` into an empty
`Config` succeeds, the opaque tail is the concatenation in input order of the
tag, length and payload bytes of the unrecognised fields, `Marshal` of the
result emits that tail after the recognised fields, and when every field is
unrecognised `Marshal` gives the input back. -/
theorem forward_compatibility (fs : List (Nat × List Byte))
    (hw : ∀ f ∈ fs, WellFormedField f) (hl : (fieldsBytes fs).length < 2 ^ 62) :
    ∃ r, Config.empty.Unmarshal (fieldsBytes fs) = .ok r
      ∧ tailBytes r.XXX_unrecognized = unknownFieldsBytes fs
      ∧ r.Marshal
          = .ok (stringField 0x0a r.UserID ++ v1Field r.V1 ++ unknownFieldsBytes fs)
      ∧ ((∀ f ∈ fs, 3 ≤ f.1) → r.Marshal = .ok (fieldsBytes fs)) := by
  obtain ⟨r, hr, ht, hk⟩ := Config_Unmarshal_fieldsBytes fs hw (by omega) Config.empty
  have ht' : tailBytes r.XXX_unrecognized = unknownFieldsBytes fs := by
    rw [ht]; rfl
  have hc := Config_Unmarshal_contentLen (by omega) hr
  have hc0 : Config.empty.contentLen = 0 := rfl
  have hm := Config_Marshal_eq r (Config_layout_length_lt r (by omega))
  have hlay : r.layout = stringField 0x0a r.UserID ++ v1Field r.V1 ++ unknownFieldsBytes fs := by
    unfold Config.layout; rw [ht']
  rw [hlay] at hm
  refine ⟨r, hr, ht', hm, ?_⟩
  intro hall
  obtain ⟨hu, hv⟩ := hk hall
  rw [hm, hu, hv, unknownFieldsBytes_eq fs hall]
  rfl

set_option maxRecDepth 100000 in
theorem forward_compatibility_witness :
    ∃ r, Config.empty.Unmarshal (fieldsBytes forwardExample) = .ok r
      ∧ tailBytes r.XXX_unrecognized = unknownFieldsBytes forwardExample
      ∧ r.Marshal = .ok (stringField 0x0a r.UserID ++ v1Field r.V1
          ++ unknownFieldsBytes forwardExample)
      ∧ ((∀ f ∈ forwardExample, 3 ≤ f.1) → r.Marshal = .ok (fieldsBytes forwardExample)) :=
  forward_compatibility forwardExample
    (by
      intro f hf
      simp only [forwardExample, List.mem_cons, List.mem_singleton, List.mem_nil_iff,
        or_false] at hf
      rcases hf with rfl | rfl | rfl | rfl
      · exact ⟨by decide, by decide, fun h => absurd h (by decide)⟩
      · exact ⟨by decide, by decide, fun h => absurd h (by decide)⟩
      · exact ⟨by decide, by decide, fun _ => ⟨⟨[0x74], [], [], none⟩, by decide⟩⟩
      · exact ⟨by decide, by decide, fun h => absurd h (by decide)⟩)
    (by decide)

/-- Claim C11 (varint decode errors): after fields that decode, a tag varint
whose first ten bytes all have the continuation bit set makes `Unmarshal` fail
with `ErrIntOverflowConfig`, and an input that ends after fewer than ten such
bytes makes it fail with `io.ErrUnexpectedEOF`; the same holds for the length
varint read after a recognised tag, in `Config` and in `ConfigV1`. -/
theorem varint_decode_errors (s : List Byte) (hc : ContinuationBytes s) :
    (∀ (m m1 : Config) (a : List Byte), m.Unmarshal a = .ok m1 →
      (∀ rest, s.length = 10 → (a ++ s ++ rest).length < 2 ^ 63 →
        m.Unmarshal (a ++ s ++ rest) = .error .ErrIntOverflowConfig)
      ∧ (0 < s.length → s.length < 10 → (a ++ s).length < 2 ^ 63 →
        m.Unmarshal (a ++ s) = .error .ErrUnexpectedEOF)
      ∧ (∀ t, Config.IsRecognisedTag t →
        (∀ rest, s.length = 10 → (a ++ t ++ s ++ rest).length < 2 ^ 63 →
          m.Unmarshal (a ++ t ++ s ++ rest) = .error .ErrIntOverflowConfig)
        ∧ (s.length < 10 → (a ++ t ++ s).length < 2 ^ 63 →
          m.Unmarshal (a ++ t ++ s) = .error .ErrUnexpectedEOF)))
    ∧ (∀ (m m1 : ConfigV1) (a : List Byte), m.Unmarshal a = .ok m1 →
      (∀ rest, s.length = 10 → (a ++ s ++ rest).length < 2 ^ 63 →
        m.Unmarshal (a ++ s ++ rest) = .error .ErrIntOverflowConfig)
      ∧ (0 < s.length → s.length < 10 → (a ++ s).length < 2 ^ 63 →
        m.Unmarshal (a ++ s) = .error .ErrUnexpectedEOF)
      ∧ (∀ t, ConfigV1.IsRecognisedTag t →
        (∀ rest, s.length = 10 → (a ++ t ++ s ++ rest).length < 2 ^ 63 →
          m.Unmarshal (a ++ t ++ s ++ rest) = .error .ErrIntOverflowConfig)
        ∧ (s.length < 10 → (a ++ t ++ s).length < 2 ^ 63 →
          m.Unmarshal (a ++ t ++ s) = .error .ErrUnexpectedEOF))) := by
  constructor
  · intro m m1 a ha
    refine ⟨fun rest hs hl => ?_, fun h0 hs hl => ?_, fun t ht => ⟨fun rest hs hl => ?_,
      fun hs hl => ?_⟩⟩
    · rw [List.append_assoc]
      refine Config_Unmarshal_fieldError ha (ContinuationBytes_ne_nil (by omega) rest)
        (Config_UnmarshalField_tagError m1 ?_) (by decide)
      rw [← List.append_assoc]
      exact decodeVarint_overflow a s rest hc hs hl
    · refine Config_Unmarshal_fieldError ha (List.length_pos.mp h0)
        (Config_UnmarshalField_tagError m1 (decodeVarint_unexpectedEOF a s hc hs hl)) (by decide)
    · rw [List.append_assoc (a ++ t)] at hl ⊢
      refine Config_Unmarshal_lengthError ha ht hl ?_ (by decide)
      rw [← List.append_assoc] at hl ⊢
      exact decodeVarint_overflow (a ++ t) s rest hc hs hl
    · exact Config_Unmarshal_lengthError ha ht hl
        (decodeVarint_unexpectedEOF (a ++ t) s hc hs hl) (by decide)
  · intro m m1 a ha
    refine ⟨fun rest hs hl => ?_, fun h0 hs hl => ?_, fun t ht => ⟨fun rest hs hl => ?_,
      fun hs hl => ?_⟩⟩
    · rw [List.append_assoc]
      refine ConfigV1_Unmarshal_fieldError ha (ContinuationBytes_ne_nil (by omega) rest)
        (ConfigV1_UnmarshalField_tagError m1 ?_) (by decide)
      rw [← List.append_assoc]
      exact decodeVarint_overflow a s rest hc hs hl
    · refine ConfigV1_Unmarshal_fieldError ha (List.length_pos.mp h0)
        (ConfigV1_UnmarshalField_tagError m1 (decodeVarint_unexpectedEOF a s hc hs hl))
        (by decide)
    · rw [List.append_assoc (a ++ t)] at hl ⊢
      refine ConfigV1_Unmarshal_lengthError ha ht hl ?_ (by decide)
      rw [← List.append_assoc] at hl ⊢
      exact decodeVarint_overflow (a ++ t) s rest hc hs hl
    · exact ConfigV1_Unmarshal_lengthError ha ht hl
        (decodeVarint_unexpectedEOF (a ++ t) s hc hs hl) (by decide)

set_option maxRecDepth 100000 in
theorem varint_decode_errors_witness :
    Config.empty.Unmarshal
        ([] ++ [0xff, 0xff, 0xff, 0xff, 0xff, 0xff, 0xff, 0xff, 0xff, 0xff] ++ [0x01])
      = .error .ErrIntOverflowConfig
    ∧ Config.empty.Unmarshal ([] ++ [0x0a] ++ [0x80, 0x80]) = .error .ErrUnexpectedEOF :=
  ⟨((varint_decode_errors [0xff, 0xff, 0xff, 0xff, 0xff, 0xff, 0xff, 0xff, 0xff, 0xff]
      (by unfold ContinuationBytes; decide)).1 Config.empty Config.empty [] (Config_Unmarshal_nil _)).1 [0x01] rfl
      (by decide),
    (((varint_decode_errors [0x80, 0x80] (by unfold ContinuationBytes; decide)).1 Config.empty Config.empty []
      (Config_Unmarshal_nil _)).2.2 [0x0a] ⟨10, by decide, Or.inl (by decide), by decide⟩).2
      (by decide) (by decide)⟩

/-- Claim C12 (varint encoding shape and length): for every `v` below `2^64`,
`sovConfig v` is between 1 and 10, and `encodeVarintConfig` on a buffer with
room at `offset` returns `offset + sovConfig v`, changes no byte outside the
`sovConfig v` bytes from `offset`, and the `k`-th written byte holds the bits
`7k .. 7k+6` of `v` with the continuation bit `0x80` set exactly when it is
not the last. -/
theorem varint_encoding_shape (v : Nat) (dAtA : List Byte) (offset : Nat) (hv : v < 2 ^ 64)
    (hroom : (offset : Int) + sovConfig v ≤ len dAtA) (hl : dAtA.length < 2 ^ 63) :
    1 ≤ sovConfig v ∧ sovConfig v ≤ 10 ∧
    ∃ out, encodeVarintConfig dAtA offset v = .ok (out, offset + sovConfig v)
      ∧ out.length = dAtA.length
      ∧ (∀ j : Nat, (j < offset ∨ (offset : Int) + sovConfig v ≤ j) → out[j]? = dAtA[j]?)
      ∧ (∀ k : Nat, (k : Int) < sovConfig v →
          ∃ b, out[offset + k]? = some b ∧ b.val &&& 0x7f = (v >>> (7 * k)) &&& 0x7f
            ∧ (0x80 ≤ b.val ↔ (k : Int) + 1 < sovConfig v)) := by
  rw [sovConfig_varint hv, len_eq] at hroom
  rw [sovConfig_varint hv]
  have hle := varint_length_le v hv
  have hpos := varint_length_pos v hv
  refine ⟨by omega, by omega, ?_⟩
  have hsplit : dAtA.length
      = offset + ((varint v).length + (dAtA.length - offset - (varint v).length)) := by
    omega
  obtain ⟨pre, rest, rfl, hpre, hrest⟩ := split_length hsplit
  obtain ⟨hole, post, rfl, hhole, _⟩ := split_length hrest
  subst hpre
  refine ⟨pre ++ varint v ++ post, ?_, ?_, ?_, ?_⟩
  · have := encodeVarintConfig_append v pre hole post hv hhole (by simpa using hl)
    rw [← List.append_assoc, this, hhole]
    push_cast; rfl
  · simp [hhole]
  · intro j hj
    rcases hj with hj | hj
    · rw [List.append_assoc, List.getElem?_append_left hj, List.getElem?_append_left hj]
    · have hj' : pre.length + (varint v).length ≤ j := by omega
      rw [← List.append_assoc, List.getElem?_append_right (by simp; omega),
        List.getElem?_append_right (by simp; omega)]
      simp [hhole]
  · intro k hk
    have hk' : k < (varint v).length := by omega
    obtain ⟨b, hb, hval, hc⟩ := varint_shape hv hk'
    refine ⟨b, ?_, hval, ?_⟩
    · rw [List.append_assoc, List.getElem?_append_right (by omega),
        show pre.length + k - pre.length = k by omega, List.getElem?_append_left hk', hb]
    · rw [hc]; omega

/-- C12, at `v = 300` written at offset 1 of a buffer of four bytes. -/
theorem varint_encoding_shape_witness :
    1 ≤ sovConfig 300 ∧ sovConfig 300 ≤ 10 ∧
    ∃ out, encodeVarintConfig [0, 0, 0, 0] ((1 : Nat) : Int) 300
        = .ok (out, ((1 : Nat) : Int) + sovConfig 300)
      ∧ out.length = [(0 : Byte), 0, 0, 0].length
      ∧ (∀ j : Nat, (j < 1 ∨ ((1 : Nat) : Int) + sovConfig 300 ≤ j) →
          out[j]? = [(0 : Byte), 0, 0, 0][j]?)
      ∧ (∀ k : Nat, (k : Int) < sovConfig 300 →
          ∃ b, out[1 + k]? = some b ∧ b.val &&& 0x7f = (300 >>> (7 * k)) &&& 0x7f
            ∧ (0x80 ≤ b.val ↔ (k : Int) + 1 < sovConfig 300)) :=
  varint_encoding_shape 300 [0, 0, 0, 0] 1 (by decide) (by decide) (by decide)

/-- Claim C17 (skip consumes exactly one field): on a buffer that begins with
a complete non-group field, whose tag has the bytes `t`, followed by any bytes
`rest`, `skipConfig` returns without error the length of the field: tag plus
one varint for wire type 0, tag plus 8 for wire type 1, tag plus the length
varint plus the declared length for wire type 2, tag plus 4 for wire type 5. -/
theorem skip_consumes_one_field (t rest : List Byte) (ht : IsVarintBytes t) :
    (∀ v : List Byte, tagWireType t = 0 → IsVarintBytes v →
        (t ++ v ++ rest).length < 2 ^ 63 →
        skipConfig (t ++ v ++ rest) = .ok ((t.length + v.length : Nat) : Int))
    ∧ (∀ b : List Byte, tagWireType t = 1 → b.length = 8 →
        (t ++ b ++ rest).length < 2 ^ 63 →
        skipConfig (t ++ b ++ rest) = .ok ((t.length + 8 : Nat) : Int))
    ∧ (∀ lv P : List Byte, tagWireType t = 2 → IsVarintBytes lv → varintValue lv = P.length →
        (t ++ lv ++ P ++ rest).length < 2 ^ 63 →
        skipConfig (t ++ lv ++ P ++ rest) = .ok ((t.length + lv.length + P.length : Nat) : Int))
    ∧ (∀ b : List Byte, tagWireType t = 5 → b.length = 4 →
        (t ++ b ++ rest).length < 2 ^ 63 →
        skipConfig (t ++ b ++ rest) = .ok ((t.length + 4 : Nat) : Int)) := by
  refine ⟨fun v hw hv hl => ?_, fun b hw hb hl => ?_, fun lv P hw hlv hP hl => ?_,
    fun b hw hb hl => ?_⟩
  · have := skipConfig_of_fuel hl (skipConfigFuel_varintField 0 rest ht hw hv hl)
    rw [this, List.length_append]
  · have := skipConfig_of_fuel hl
      (skipConfigFuel_fixedField 0 rest 8 ht (Or.inl ⟨hw, rfl⟩) hb hl)
    rw [this, List.length_append, hb]
  · have := skipConfig_of_fuel hl (skipConfigFuel_bytesField 0 rest ht hw hlv hP hl)
    rw [this, List.length_append, List.length_append]
  · have := skipConfig_of_fuel hl
      (skipConfigFuel_fixedField 0 rest 4 ht (Or.inr ⟨hw, rfl⟩) hb hl)
    rw [this, List.length_append, hb]

set_option maxRecDepth 100000 in
/-- C17 on the fields `08 96 01` (varint), `09` and eight bytes, `12 02 61 62`
(length-delimited) and `0d` and four bytes, each followed by `ff`. -/
theorem skip_consumes_one_field_witness :
    skipConfig ([0x08] ++ [0x96, 0x01] ++ [0xff]) = .ok ((1 + 2 : Nat) : Int)
    ∧ skipConfig ([0x09] ++ [1, 2, 3, 4, 5, 6, 7, 8] ++ [0xff]) = .ok ((1 + 8 : Nat) : Int)
    ∧ skipConfig ([0x12] ++ [0x02] ++ [0x61, 0x62] ++ [0xff]) = .ok ((1 + 1 + 2 : Nat) : Int)
    ∧ skipConfig ([0x0d] ++ [1, 2, 3, 4] ++ [0xff]) = .ok ((1 + 4 : Nat) : Int) :=
  ⟨(skip_consumes_one_field [0x08] [0xff]
      ⟨[], 0x08, rfl, by unfold ContinuationBytes; decide, by decide, by decide⟩).1
      [0x96, 0x01] (by decide)
      ⟨[0x96], 0x01, rfl, by unfold ContinuationBytes; decide, by decide, by decide⟩
      (by decide),
    (skip_consumes_one_field [0x09] [0xff]
      ⟨[], 0x09, rfl, by unfold ContinuationBytes; decide, by decide, by decide⟩).2.1
      [1, 2, 3, 4, 5, 6, 7, 8] (by decide) rfl (by decide),
    (skip_consumes_one_field [0x12] [0xff]
      ⟨[], 0x12, rfl, by unfold ContinuationBytes; decide, by decide, by decide⟩).2.2.1
      [0x02] [0x61, 0x62] (by decide)
      ⟨[], 0x02, rfl, by unfold ContinuationBytes; decide, by decide, by decide⟩
      (by decide) (by decide),
    (skip_consumes_one_field [0x0d] [0xff]
      ⟨[], 0x0d, rfl, by unfold ContinuationBytes; decide, by decide, by decide⟩).2.2.2
      [1, 2, 3, 4] (by decide) rfl (by decide)⟩

/-- Claim C19 (group skipping): on a buffer that begins with a group-start tag
`t` (wire type 3), followed by complete well-formed fields `body` (nested
groups included), a group-end tag `e` (wire type 4) and any bytes `rest`,
`skipConfig` returns without error the offset just past `e`, the end tag of
the outermost group. -/
theorem group_skipping (t e rest : List Byte) (body : List (List Byte))
    (ht : IsVarintBytes t) (hw : tagWireType t = 3) (hbody : ∀ f ∈ body, IsField f)
    (he : IsVarintBytes e) (hwe : tagWireType e = 4)
    (hl : (t ++ body.flatten ++ e ++ rest).length < 2 ^ 63) :
    skipConfig (t ++ body.flatten ++ e ++ rest)
      = .ok ((t.length + body.flatten.length + e.length : Nat) : Int) := by
  have := skipConfig_isField (IsField.group t body e ht hw hbody he hwe) rest hl
  rw [this, List.length_append, List.length_append]

set_option maxRecDepth 100000 in
/-- C19 on the group `0b`, holding the varint field `08 01` and the nested
group `13 1d 00 00 00 00 14`, closed by `0c` and followed by `0c ff`. -/
theorem group_skipping_witness :
    skipConfig ([0x0b] ++ [[0x08, 0x01], [0x13, 0x1d, 0, 0, 0, 0, 0x14]].flatten ++ [0x0c]
        ++ [0x0c, 0xff])
      = .ok (([(0x0b : Byte)].length
          + [[(0x08 : Byte), 0x01], [0x13, 0x1d, 0, 0, 0, 0, 0x14]].flatten.length
          + [(0x0c : Byte)].length : Nat) : Int) :=
  group_skipping [0x0b] [0x0c] [0x0c, 0xff] [[0x08, 0x01], [0x13, 0x1d, 0, 0, 0, 0, 0x14]]
    ⟨[], 0x0b, rfl, by unfold ContinuationBytes; decide, by decide, by decide⟩ (by decide)
    (by
      intro f hf
      simp only [List.mem_cons, List.mem_singleton, List.mem_nil_iff, or_false] at hf
      rcases hf with rfl | rfl
      · exact IsField.varint [0x08] [0x01]
          ⟨[], 0x08, rfl, by unfold ContinuationBytes; decide, by decide, by decide⟩ (by decide)
          ⟨[], 0x01, rfl, by unfold ContinuationBytes; decide, by decide, by decide⟩
      · exact IsField.group [0x13] [[0x1d, 0, 0, 0, 0]] [0x14]
          ⟨[], 0x13, rfl, by unfold ContinuationBytes; decide, by decide, by decide⟩ (by decide)
          (by
            intro g hg
            simp only [List.mem_singleton] at hg
            subst hg
            exact IsField.fixed32 [0x1d] [0, 0, 0, 0]
              ⟨[], 0x1d, rfl, by unfold ContinuationBytes; decide, by decide, by decide⟩
              (by decide) rfl)
          ⟨[], 0x14, rfl, by unfold ContinuationBytes; decide, by decide, by decide⟩ (by decide))
    ⟨[], 0x0c, rfl, by unfold ContinuationBytes; decide, by decide, by decide⟩ (by decide)
    (by decide)

set_option maxRecDepth 100000 in
/-- Claim C18 fails as stated: on the one-byte buffer `09` (field 1, wire type
1) `skipConfig` returns the count 9 with no error, on `0d` (wire type 5) the
count 5, and on `0a 05` (wire type 2, declared length 5) the count 7, each
past the end of the buffer. -/
theorem skip_count_past_end :
    ([(0x09 : Byte)] ≠ [] ∧ skipConfig [0x09] = .ok 9
      ∧ ¬ (1 ≤ (9 : Int) ∧ (9 : Int) ≤ len [0x09]))
    ∧ (skipConfig [0x0d] = .ok 5 ∧ ¬ ((5 : Int) ≤ len [0x0d]))
    ∧ (skipConfig [0x0a, 0x05] = .ok 7 ∧ ¬ ((7 : Int) ≤ len [0x0a, 0x05])) := by
  refine ⟨⟨by decide, by decide, by decide⟩, ⟨by decide, by decide⟩, ⟨by decide, by decide⟩⟩

/-- Claim C18, amended: a count `n` that `skipConfig(d)` returns without error
is at least 1; it is at most `len(d)` for a varint, a group and an end-group
tag, and it is the full length of the field (tag plus 8, tag plus 4, tag plus
length varint plus declared length) for wire types 1, 5 and 2, also past the
end of `d`.  The end of input is then caught by the caller: on a count past
the end, the `default:` case of `Unmarshal` (`skipField`) and with it
`Unmarshal` of `Config` and of `ConfigV1` return `io.ErrUnexpectedEOF`
(`ErrInvalidLengthConfig` when the index overflows). -/
theorem skip_count_bounds (d : List Byte) (n : Int) (hl : d.length < 2 ^ 62)
    (h : skipConfig d = .ok n) :
    1 ≤ n ∧ ∃ wire i1, decodeVarint d 0 = .ok (wire, i1)
      ∧ ((wireTypeOf wire = 0 ∨ wireTypeOf wire = 3 ∨ wireTypeOf wire = 4) → n ≤ len d)
      ∧ (wireTypeOf wire = 1 → n = i1 + 8)
      ∧ (wireTypeOf wire = 5 → n = i1 + 4)
      ∧ (wireTypeOf wire = 2 → ∃ L i2, decodeVarint d i1 = .ok (L, i2) ∧ n = i2 + L)
      ∧ (len d < n → ∀ a : List Byte, (a ++ d).length < 2 ^ 63 →
          skipField (a ++ d) (a.length : Int)
            = .error (if (a.length : Int) + n < 2 ^ 63 then .ErrUnexpectedEOF
                else .ErrInvalidLengthConfig)
          ∧ (∀ m m1 : Config, m.Unmarshal a = .ok m1 → 0 < fieldNumOf wire →
              fieldNumOf wire ≠ 1 → fieldNumOf wire ≠ 2 →
              m.Unmarshal (a ++ d)
                = .error (if (a.length : Int) + n < 2 ^ 63 then .ErrUnexpectedEOF
                    else .ErrInvalidLengthConfig))
          ∧ (∀ m m1 : ConfigV1, m.Unmarshal a = .ok m1 → 0 < fieldNumOf wire →
              fieldNumOf wire ≠ 1 → fieldNumOf wire ≠ 2 → fieldNumOf wire ≠ 3 →
              m.Unmarshal (a ++ d)
                = .error (if (a.length : Int) + n < 2 ^ 63 then .ErrUnexpectedEOF
                    else .ErrInvalidLengthConfig))) := by
  have hl63 : d.length < 2 ^ 63 := by omega
  have hb := (skipFuel_bound _).1 d n hl63 h
  have hlen : len d < 2 ^ 62 := by simp only [len]; exact_mod_cast hl
  have h1 : 1 ≤ n := by omega
  obtain ⟨wire, i1, hv, hc⟩ := skipConfig_eq_ok h
  have hbv := decodeVarint_bound hl63 hv
  have hcases : (wireTypeOf wire = 0 ∨ wireTypeOf wire = 3 ∨ wireTypeOf wire = 4 → n ≤ len d)
      ∧ (wireTypeOf wire = 1 → n = i1 + 8) ∧ (wireTypeOf wire = 5 → n = i1 + 4)
      ∧ (wireTypeOf wire = 2 → ∃ L i2, decodeVarint d i1 = .ok (L, i2) ∧ n = i2 + L) := by
    rcases hc with ⟨hw, v, hv2⟩ | ⟨hw, hn⟩ | ⟨hw, L, i2, hv2, hL, hn, hn0⟩ | ⟨hw, g, hg⟩
      | ⟨hw, hn⟩ | ⟨hw, hn⟩
    · have := decodeVarint_bound hl63 hv2
      exact ⟨fun _ => by omega, fun h => by omega, fun h => by omega, fun h => by omega⟩
    · refine ⟨fun h => by omega, fun _ => ?_, fun h => by omega, fun h => by omega⟩
      rw [hn]; unfold addInt int64; omega
    · have hb2 := decodeVarint_bound hl63 hv2
      have hLlt := decodeVarint_lt hv2
      refine ⟨fun h => by omega, fun h => by omega, fun h => by omega,
        fun _ => ⟨L, i2, hv2, ?_⟩⟩
      rw [hn] at hn0 ⊢
      unfold addInt int64 at hn0 ⊢
      unfold int64 at hL
      omega
    · have := (skipFuel_bound g).2 d i1 n hl63 hg
      exact ⟨fun _ => by omega, fun h => by omega, fun h => by omega, fun h => by omega⟩
    · exact ⟨fun _ => by omega, fun h => by omega, fun h => by omega, fun h => by omega⟩
    · refine ⟨fun h => by omega, fun h => by omega, fun _ => ?_, fun h => by omega⟩
      rw [hn]; unfold addInt int64; omega
  refine ⟨h1, wire, i1, hv, hcases.1, hcases.2.1, hcases.2.2.1, hcases.2.2.2, ?_⟩
  intro hover a hla
  have hsk := skipField_overrun a hla h hover
  have hw4 : wireTypeOf wire ≠ 4 := fun hw => by
    have := hcases.1 (Or.inr (Or.inr hw)); omega
  have hva := decodeVarint_at_append a d hla hv
  have hne : d ≠ [] := by
    intro hd; rw [hd] at hbv; simp [len] at hbv; omega
  have hnf : (if (a.length : Int) + n < 2 ^ 63 then Err.ErrUnexpectedEOF
      else Err.ErrInvalidLengthConfig) ≠ Err.outOfFuel := by
    split <;> decide
  refine ⟨hsk, fun m m1 ha hpos hf1 hf2 => ?_, fun m m1 ha hpos hf1 hf2 hf3 => ?_⟩
  · exact Config_Unmarshal_fieldError ha hne
      (Config_UnmarshalField_skipError m1 hva hw4 hpos hf1 hf2 hsk) hnf
  · exact ConfigV1_Unmarshal_fieldError ha hne
      (ConfigV1_UnmarshalField_skipError m1 hva hw4 hpos hf1 hf2 hf3 hsk) hnf

set_option maxRecDepth 100000 in
/-- C18 amended, on the buffer `19` (field 3, wire type 1), where `skipConfig` returns 9. -/
theorem skip_count_bounds_witness :
    1 ≤ (9 : Int) ∧ ∃ wire i1, decodeVarint [0x19] 0 = .ok (wire, i1)
      ∧ ((wireTypeOf wire = 0 ∨ wireTypeOf wire = 3 ∨ wireTypeOf wire = 4) →
          (9 : Int) ≤ len [0x19])
      ∧ (wireTypeOf wire = 1 → (9 : Int) = i1 + 8)
      ∧ (wireTypeOf wire = 5 → (9 : Int) = i1 + 4)
      ∧ (wireTypeOf wire = 2 → ∃ L i2, decodeVarint [0x19] i1 = .ok (L, i2) ∧ (9 : Int) = i2 + L)
      ∧ (len [0x19] < (9 : Int) → ∀ a : List Byte, (a ++ [0x19]).length < 2 ^ 63 →
          skipField (a ++ [0x19]) (a.length : Int)
            = .error (if (a.length : Int) + 9 < 2 ^ 63 then .ErrUnexpectedEOF
                else .ErrInvalidLengthConfig)
          ∧ (∀ m m1 : Config, m.Unmarshal a = .ok m1 → 0 < fieldNumOf wire →
              fieldNumOf wire ≠ 1 → fieldNumOf wire ≠ 2 →
              m.Unmarshal (a ++ [0x19])
                = .error (if (a.length : Int) + 9 < 2 ^ 63 then .ErrUnexpectedEOF
                    else .ErrInvalidLengthConfig))
          ∧ (∀ m m1 : ConfigV1, m.Unmarshal a = .ok m1 → 0 < fieldNumOf wire →
              fieldNumOf wire ≠ 1 → fieldNumOf wire ≠ 2 → fieldNumOf wire ≠ 3 →
              m.Unmarshal (a ++ [0x19])
                = .error (if (a.length : Int) + 9 < 2 ^ 63 then .ErrUnexpectedEOF
                    else .ErrInvalidLengthConfig))) :=
  skip_count_bounds [0x19] 9 (by decide) (by decide)

theorem Config_UnmarshalField_V1_bytes (m : Config) {t lv : List Byte} (pre P rest : List Byte)
    (ht : Config.IsV1Tag t) (hlv : IsVarintBytes lv) (hP : varintValue lv = P.length)
    (hl : (pre ++ t ++ lv ++ P ++ rest).length < 2 ^ 63) :
    m.UnmarshalField (pre ++ t ++ lv ++ P ++ rest) (pre.length : Int)
      = match (m.V1.getD ConfigV1.empty).Unmarshal P with
        | .ok v1 => .ok ({ m with V1 := some v1 }, ((pre ++ t ++ lv ++ P).length : Int))
        | .error e => .error e := by
  obtain ⟨htv, hw, hf⟩ := ht
  have hl2 := hl
  simp only [List.length_append] at hl2
  have e : pre ++ t ++ lv ++ P ++ rest = pre ++ t ++ (lv ++ P ++ rest) := by simp
  have hv := decodeVarint_isVarint htv pre (lv ++ P ++ rest) (by rw [← e]; exact hl)
  rw [← e] at hv
  have hr := readsBytes_isVarint hlv (pre ++ t) P rest hP hl
  have c1 : (((pre ++ t).length : Nat) : Int) = ((pre.length + t.length : Nat) : Int) := by
    simp only [List.length_append]
  have c2 : (((pre ++ t).length + lv.length + P.length : Nat) : Int)
      = (((pre ++ t ++ lv ++ P).length : Nat) : Int) := by
    simp only [List.length_append]
  rw [c1, c2] at hr
  exact Config_UnmarshalField_V1 m hv hf hw hr

/-- Claim C20 (nested decode is bounded by the declared length): when field 2
declares the length of `P` and `P` is in the buffer, the iteration of
`(*Config).Unmarshal` on that field is a function of `P` and of the `V1`
decoded so far alone: it fails with the error of `(*ConfigV1).Unmarshal` on `P`
whatever bytes follow, and otherwise sets `V1` to its result and continues
after `P`; in particular a field inside `P` that declares a length running
past the end of `P` makes `Unmarshal` fail with `io.ErrUnexpectedEOF`. -/
theorem nested_decode_bounded (m m1 : Config) (a t lv P rest : List Byte)
    (ha : m.Unmarshal a = .ok m1) (ht : Config.IsV1Tag t) (hlv : IsVarintBytes lv)
    (hP : varintValue lv = P.length) (hl : (a ++ t ++ lv ++ P ++ rest).length < 2 ^ 62) :
    m1.UnmarshalField (a ++ t ++ lv ++ P ++ rest) (a.length : Int)
      = (match (m1.V1.getD ConfigV1.empty).Unmarshal P with
        | .ok v1 => .ok ({ m1 with V1 := some v1 }, ((a ++ t ++ lv ++ P).length : Int))
        | .error e => .error e)
    ∧ (∀ e, (m1.V1.getD ConfigV1.empty).Unmarshal P = .error e →
        m.Unmarshal (a ++ t ++ lv ++ P ++ rest) = .error e)
    ∧ (∀ v1, (m1.V1.getD ConfigV1.empty).Unmarshal P = .ok v1 →
        m.Unmarshal (a ++ t ++ lv ++ P) = .ok { m1 with V1 := some v1 }
        ∧ ∀ m2, ({ m1 with V1 := some v1 } : Config).Unmarshal rest = .ok m2 →
            m.Unmarshal (a ++ t ++ lv ++ P ++ rest) = .ok m2)
    ∧ (∀ (P1 t1 lv1 Q : List Byte) (v : ConfigV1), P = P1 ++ t1 ++ lv1 ++ Q →
        (m1.V1.getD ConfigV1.empty).Unmarshal P1 = .ok v → IsVarintBytes t1 →
        tagWireType t1 = 2 → 0 < fieldNumOf (varintValue t1) → IsVarintBytes lv1 →
        Q.length < varintValue lv1 → varintValue lv1 < 2 ^ 62 →
        m.Unmarshal (a ++ t ++ lv ++ P ++ rest) = .error .ErrUnexpectedEOF) := by
  have hl2 := hl
  simp only [List.length_append] at hl2
  have htl := IsVarintBytes_length ht.1
  have hfield := Config_UnmarshalField_V1_bytes m1 a P rest ht hlv hP (by omega)
  have e : a ++ t ++ lv ++ P ++ rest = a ++ (t ++ lv ++ P ++ rest) := by simp
  have hne : t ++ lv ++ P ++ rest ≠ [] := by
    intro hc
    have := congrArg List.length hc
    simp only [List.length_append, List.length_nil] at this
    omega
  have herr : ∀ e', (m1.V1.getD ConfigV1.empty).Unmarshal P = .error e' →
      m.Unmarshal (a ++ t ++ lv ++ P ++ rest) = .error e' := by
    intro e' hu
    have hnf : e' ≠ .outOfFuel := by
      intro hc
      rw [hc] at hu
      exact ConfigV1_Unmarshal_ne_outOfFuel _ (by omega) hu
    rw [hu] at hfield
    rw [e] at hfield ⊢
    exact Config_Unmarshal_fieldError ha hne hfield hnf
  refine ⟨hfield, herr, ?_, ?_⟩
  · intro v1 hu
    have h0 := Config_UnmarshalField_V1_bytes m1 [] P [] ht hlv hP
      (by simp only [List.length_append, List.length_nil]; omega)
    rw [hu] at h0
    simp only [List.nil_append, List.append_nil, List.length_nil, Nat.cast_zero] at h0
    have hne0 : t ++ lv ++ P ≠ [] := by
      intro hc
      have := congrArg List.length hc
      simp only [List.length_append, List.length_nil] at this
      omega
    have hsingle := Config_Unmarshal_single
      ((Config_UnmarshalField_ok_iff _ _ _ _ _).mp h0) hne0
    have e3 : a ++ t ++ lv ++ P = a ++ (t ++ lv ++ P) := by simp
    have hfirst : m.Unmarshal (a ++ t ++ lv ++ P) = .ok { m1 with V1 := some v1 } := by
      rw [e3]
      exact Config_Unmarshal_append (by simp only [List.length_append]; omega) ha hsingle
    refine ⟨hfirst, fun m2 hm2 => ?_⟩
    exact Config_Unmarshal_append (by simp only [List.length_append]; omega) hfirst hm2
  · intro P1 t1 lv1 Q v hPeq hP1 ht1 hw1 hpos1 hlv1 hQ hK
    apply herr
    rw [hPeq]
    have hlen : P.length = (P1 ++ t1 ++ lv1 ++ Q).length := by rw [hPeq]
    exact ConfigV1_Unmarshal_declaredPastEnd hP1 ht1 hw1 hpos1 hlv1 hQ (by omega)

set_option maxRecDepth 100000 in
/-- C20 on the input `12 02 0a 05 'abcde'`: field 2 declares two bytes, `0a 05`,
in which field 1 declares five bytes. -/
theorem nested_decode_bounded_witness :
    Config.empty.Unmarshal ([] ++ [0x12] ++ [0x02] ++ [0x0a, 0x05]
        ++ [0x61, 0x62, 0x63, 0x64, 0x65]) = .error .ErrUnexpectedEOF :=
  (nested_decode_bounded Config.empty Config.empty [] [0x12] [0x02] [0x0a, 0x05]
    [0x61, 0x62, 0x63, 0x64, 0x65] (Config_Unmarshal_nil _)
    ⟨⟨[], 0x12, rfl, by unfold ContinuationBytes; decide, by decide, by decide⟩,
      by decide, by decide⟩
    ⟨[], 0x02, rfl, by unfold ContinuationBytes; decide, by decide, by decide⟩
    (by decide) (by decide)).2.2.2 [] [0x0a] [0x05] [] ConfigV1.empty rfl (by decide)
    ⟨[], 0x0a, rfl, by unfold ContinuationBytes; decide, by decide, by decide⟩ (by decide)
    (by decide)
    ⟨[], 0x05, rfl, by unfold ContinuationBytes; decide, by decide, by decide⟩ (by decide)
    (by decide)

/-- Claim C21 (decoder safety): on every byte string (a Go slice, so shorter
than `2^63`) and every target, `(*Config).Unmarshal` and
`(*ConfigV1).Unmarshal` return `nil` or one of the errors of the codec, never a
run-time panic (index or slice out of range, `panic("unreachable")`); the
slices `dAtA[iNdEx:]` they and the group loop pass to `skipConfig` are not
empty, `skipConfig` on a non-empty slice does not panic, and it reaches its
`panic("unreachable")` on the empty slice only. -/
theorem decoder_safety (d : List Byte) (hl : d.length < 2 ^ 63) :
    (∀ m : Config, (∃ m1, m.Unmarshal d = .ok m1)
        ∨ ∃ e, m.Unmarshal d = .error e ∧ e.IsDecodeError)
    ∧ (∀ m : ConfigV1, (∃ m1, m.Unmarshal d = .ok m1)
        ∨ ∃ e, m.Unmarshal d = .error e ∧ e.IsDecodeError)
    ∧ (∀ m : Config, m.Unmarshal d ≠ .error .panic)
    ∧ (∀ m : ConfigV1, m.Unmarshal d ≠ .error .panic)
    ∧ (d ≠ [] → (∃ n, skipConfig d = .ok n) ∨ ∃ e, skipConfig d = .error e ∧ e.IsDecodeError)
    ∧ (d ≠ [] → skipConfig d ≠ .error .panic)
    ∧ skipConfig [] = .error .panic
    ∧ (∀ (i : Int) (sub : List Byte), i < len d → sliceFrom d i = .ok sub → sub ≠ [])
    ∧ (∀ (i i1 : Int) (wire : Nat), decodeVarint d i = .ok (wire, i1) →
        ∃ sub, sliceFrom d i = .ok sub ∧ sub ≠ []) := by
  have hC : ∀ m : Config, (∃ m1, m.Unmarshal d = .ok m1)
      ∨ ∃ e, m.Unmarshal d = .error e ∧ e.IsDecodeError := by
    intro m
    cases h : m.Unmarshal d with
    | ok m1 => exact Or.inl ⟨m1, rfl⟩
    | error e => exact Or.inr ⟨e, rfl, Config_Unmarshal_isDecodeError m hl h⟩
  have hV : ∀ m : ConfigV1, (∃ m1, m.Unmarshal d = .ok m1)
      ∨ ∃ e, m.Unmarshal d = .error e ∧ e.IsDecodeError := by
    intro m
    cases h : m.Unmarshal d with
    | ok m1 => exact Or.inl ⟨m1, rfl⟩
    | error e => exact Or.inr ⟨e, rfl, ConfigV1_Unmarshal_isDecodeError m hl h⟩
  have hS : d ≠ [] → (∃ n, skipConfig d = .ok n)
      ∨ ∃ e, skipConfig d = .error e ∧ e.IsDecodeError := by
    intro hne
    cases h : skipConfig d with
    | ok n => exact Or.inl ⟨n, rfl⟩
    | error e => exact Or.inr ⟨e, rfl, skipConfig_isDecodeError hl hne h⟩
  refine ⟨hC, hV, ?_, ?_, hS, ?_, rfl, ?_, ?_⟩
  · intro m h
    exact IsDecodeError_ne_panic (Config_Unmarshal_isDecodeError m hl h) rfl
  · intro m h
    exact IsDecodeError_ne_panic (ConfigV1_Unmarshal_isDecodeError m hl h) rfl
  · intro hne h
    exact IsDecodeError_ne_panic (skipConfig_isDecodeError hl hne h) rfl
  · intro i sub hi hs
    exact (sliceFrom_ne_nil hi hs).1
  · intro i i1 wire hv
    have hb := decodeVarint_bound hl hv
    have hi : i < len d := by omega
    have hs := sliceFrom_of_le hb.1 (le_of_lt hi)
    exact ⟨_, hs, (sliceFrom_ne_nil hi hs).1⟩

set_option maxRecDepth 100000 in
/-- C21 on the input `1b 0b 08`: field 3 opens a group that holds a nested
group start and a tag with no value. -/
theorem decoder_safety_witness :
    (∀ m : Config, (∃ m1, m.Unmarshal [0x1b, 0x0b, 0x08] = .ok m1)
        ∨ ∃ e, m.Unmarshal [0x1b, 0x0b, 0x08] = .error e ∧ e.IsDecodeError)
    ∧ (∀ m : ConfigV1, (∃ m1, m.Unmarshal [0x1b, 0x0b, 0x08] = .ok m1)
        ∨ ∃ e, m.Unmarshal [0x1b, 0x0b, 0x08] = .error e ∧ e.IsDecodeError)
    ∧ (∀ m : Config, m.Unmarshal [0x1b, 0x0b, 0x08] ≠ .error .panic)
    ∧ (∀ m : ConfigV1, m.Unmarshal [0x1b, 0x0b, 0x08] ≠ .error .panic)
    ∧ ([(0x1b : Byte), 0x0b, 0x08] ≠ [] → (∃ n, skipConfig [0x1b, 0x0b, 0x08] = .ok n)
        ∨ ∃ e, skipConfig [0x1b, 0x0b, 0x08] = .error e ∧ e.IsDecodeError)
    ∧ ([(0x1b : Byte), 0x0b, 0x08] ≠ [] → skipConfig [0x1b, 0x0b, 0x08] ≠ .error .panic)
    ∧ skipConfig [] = .error .panic
    ∧ (∀ (i : Int) (sub : List Byte), i < len [0x1b, 0x0b, 0x08] →
        sliceFrom [0x1b, 0x0b, 0x08] i = .ok sub → sub ≠ [])
    ∧ (∀ (i i1 : Int) (wire : Nat), decodeVarint [0x1b, 0x0b, 0x08] i = .ok (wire, i1) →
        ∃ sub, sliceFrom [0x1b, 0x0b, 0x08] i = .ok sub ∧ sub ≠ []) :=
  decoder_safety [0x1b, 0x0b, 0x08] (by decide)

theorem skipGroup_advances {d sub : List Byte} {f : Nat} {start next : Int}
    (hl : d.length < 2 ^ 63) (hs : sliceFrom d start = .ok sub)
    (hk : skipConfigFuel f sub = .ok next) (hn : ¬ addInt start next < 0) :
    start < addInt start next := by
  obtain ⟨h0, h1, hsub⟩ := sliceFrom_eq_ok hs
  have hsl : sub.length = d.length - start.toNat := by rw [hsub, List.length_drop]
  have hb := (skipFuel_bound f).1 sub next (by omega) hk
  simp only [len] at h1 hb
  unfold addInt int64 at hn ⊢
  omega

/-- Claim C22 (termination): on every finite input `(*Config).Unmarshal`,
`(*ConfigV1).Unmarshal` and `skipConfig` return (the loops of the embedding
never exhaust the fuel they are given, and more fuel gives the same result);
every iteration of a decode loop that does not return advances the index by
at least one byte, so does every iteration of the group loop of `skipConfig`,
and the slice of every recursive call of `skipConfig` is strictly shorter than
the slice of its caller. -/
theorem decoder_termination (d : List Byte) (hl : d.length < 2 ^ 63) :
    (∀ m : Config, m.Unmarshal d ≠ .error .outOfFuel)
    ∧ (∀ m : ConfigV1, m.Unmarshal d ≠ .error .outOfFuel)
    ∧ skipConfig d ≠ .error .outOfFuel
    ∧ (∀ (m : Config) (k : Nat), Config.UnmarshalLoop (d.length + 1 + k) m d 0 = m.Unmarshal d)
    ∧ (∀ (m : ConfigV1) (k : Nat),
        ConfigV1.UnmarshalLoop (d.length + 1 + k) m d 0 = m.Unmarshal d)
    ∧ (∀ k : Nat, skipConfigFuel (2 * d.length + 1 + k) d = skipConfig d)
    ∧ (∀ (m m' : Config) (i i' : Int), m.UnmarshalField d i = .ok (m', i') →
        i < i' ∧ i' ≤ len d)
    ∧ (∀ (m m' : ConfigV1) (i i' : Int), m.UnmarshalField d i = .ok (m', i') →
        i < i' ∧ i' ≤ len d)
    ∧ (∀ (f : Nat) (start next : Int) (sub : List Byte), sliceFrom d start = .ok sub →
        skipConfigFuel f sub = .ok next → ¬ addInt start next < 0 →
        start < addInt start next)
    ∧ (∀ (wire : Nat) (i1 : Int), decodeVarint d 0 = .ok (wire, i1) → 0 < i1)
    ∧ (∀ (start : Int) (sub : List Byte), 0 < start → sliceFrom d start = .ok sub →
        d ≠ [] → sub.length < d.length) := by
  refine ⟨fun m => Config_Unmarshal_ne_outOfFuel m hl,
    fun m => ConfigV1_Unmarshal_ne_outOfFuel m hl, skipConfig_ne_outOfFuel hl, ?_, ?_, ?_,
    ?_, ?_, ?_, ?_, ?_⟩
  · intro m k
    have hnf := Config_Unmarshal_ne_outOfFuel m hl
    rw [Config_UnmarshalLoop_eq]
    rw [Config_Unmarshal_eq] at hnf ⊢
    exact unmarshalLoop_mono _ _ _ _ _ _ k rfl hnf
  · intro m k
    have hnf := ConfigV1_Unmarshal_ne_outOfFuel m hl
    rw [ConfigV1_UnmarshalLoop_eq]
    rw [ConfigV1_Unmarshal_eq] at hnf ⊢
    exact unmarshalLoop_mono _ _ _ _ _ _ k rfl hnf
  · intro k
    have hnf := skipConfig_ne_outOfFuel hl
    unfold skipConfig at hnf ⊢
    exact (skipFuel_mono_le (Nat.le_add_right _ k)).1 _ _ rfl hnf
  · intro m m' i i' h
    have := Config_stepFrame.bound m m' d i i' hl h
    omega
  · intro m m' i i' h
    have := ConfigV1_stepFrame.bound m m' d i i' hl h
    omega
  · intro f start next sub hs hk hn
    exact skipGroup_advances hl hs hk hn
  · intro wire i1 hv
    have := decodeVarint_bound hl hv
    omega
  · intro start sub hpos hs hne
    obtain ⟨h0, h1, hsub⟩ := sliceFrom_eq_ok hs
    have := List.length_pos.mpr hne
    rw [hsub, List.length_drop]
    omega

set_option maxRecDepth 100000 in
/-- C22 on five nested group starts `0b 0b 0b 0b 0b`. -/
theorem decoder_termination_witness :
    skipConfig [0x0b, 0x0b, 0x0b, 0x0b, 0x0b] ≠ .error .outOfFuel
    ∧ skipConfig [0x0b, 0x0b, 0x0b, 0x0b, 0x0b] = .error .ErrUnexpectedEOF
    ∧ ∀ m : Config, m.Unmarshal [0x0b, 0x0b, 0x0b, 0x0b, 0x0b] ≠ .error .outOfFuel :=
  ⟨(decoder_termination [0x0b, 0x0b, 0x0b, 0x0b, 0x0b] (by decide)).2.2.1, by decide,
    (decoder_termination [0x0b, 0x0b, 0x0b, 0x0b, 0x0b] (by decide)).1⟩

/-- Claim C23 (field numbers are matched after truncation to `int32`): when
the first tag `wire` of the input has a wire type other than 4, `Unmarshal`
fails with the illegal-tag error of that tag exactly when `int32(wire >> 3)`,
the low 32 bits of `wire >> 3` read as a signed integer, is `≤ 0` (field
number 0 is rejected), and otherwise the iteration dispatches on that value;
so a tag with field number `2^32 + 1` and wire type 2 is decoded as field 1
and overwrites the string field, the opaque tail staying as it was. -/
theorem field_number_truncation (d : List Byte) (wire : Nat) (i1 : Int)
    (hl : d.length < 2 ^ 63) (hv : decodeVarint d 0 = .ok (wire, i1))
    (hw : wireTypeOf wire ≠ 4) :
    (fieldNumOf wire
      = if (wire >>> 3) % 2 ^ 32 < 2 ^ 31 then (((wire >>> 3) % 2 ^ 32 : Nat) : Int)
        else (((wire >>> 3) % 2 ^ 32 : Nat) : Int) - 2 ^ 32)
    ∧ (∀ m : Config, m.Unmarshal d = .error (.illegalTag .Config (fieldNumOf wire) wire)
        ↔ fieldNumOf wire ≤ 0)
    ∧ (∀ m : ConfigV1, m.Unmarshal d = .error (.illegalTag .ConfigV1 (fieldNumOf wire) wire)
        ↔ fieldNumOf wire ≤ 0)
    ∧ (wire >>> 3 = 0 → ∀ m : Config, m.Unmarshal d = .error (.illegalTag .Config 0 wire))
    ∧ (∀ m : Config, 0 < fieldNumOf wire →
        (fieldNumOf wire = 1 → wireTypeOf wire = 2 → ∀ (s : List Byte) (post : Int),
          ReadsBytes d i1 post s → m.UnmarshalField d 0 = .ok ({ m with UserID := s }, post))
        ∧ (fieldNumOf wire = 2 → wireTypeOf wire = 2 →
          ∀ (sub : List Byte) (post : Int) (v1 : ConfigV1), ReadsBytes d i1 post sub →
          (m.V1.getD ConfigV1.empty).Unmarshal sub = .ok v1 →
          m.UnmarshalField d 0 = .ok ({ m with V1 := some v1 }, post))
        ∧ (fieldNumOf wire ≠ 1 → fieldNumOf wire ≠ 2 → ∀ (span : List Byte) (i' : Int),
          skipField d 0 = .ok (i', span) →
          m.UnmarshalField d 0
            = .ok ({ m with XXX_unrecognized := appendBytes m.XXX_unrecognized span }, i')))
    ∧ (∀ m : ConfigV1, 0 < fieldNumOf wire →
        (fieldNumOf wire = 1 → wireTypeOf wire = 2 → ∀ (s : List Byte) (post : Int),
          ReadsBytes d i1 post s →
          m.UnmarshalField d 0 = .ok ({ m with SessionToken := s }, post))
        ∧ (fieldNumOf wire = 2 → wireTypeOf wire = 2 → ∀ (s : List Byte) (post : Int),
          ReadsBytes d i1 post s →
          m.UnmarshalField d 0 = .ok ({ m with PachdAddress := s }, post))
        ∧ (fieldNumOf wire = 3 → wireTypeOf wire = 2 → ∀ (s : List Byte) (post : Int),
          ReadsBytes d i1 post s →
          m.UnmarshalField d 0 = .ok ({ m with ServerCAs := s }, post))
        ∧ (fieldNumOf wire ≠ 1 → fieldNumOf wire ≠ 2 → fieldNumOf wire ≠ 3 →
          ∀ (span : List Byte) (i' : Int), skipField d 0 = .ok (i', span) →
          m.UnmarshalField d 0
            = .ok ({ m with XXX_unrecognized := appendBytes m.XXX_unrecognized span }, i')))
    ∧ fieldNumOf (lengthDelimitedTag (2 ^ 32 + 1)) = 1
    ∧ (∀ (m : Config) (s : List Byte), (lengthDelimited (2 ^ 32 + 1) s).length < 2 ^ 63 →
        m.Unmarshal (lengthDelimited (2 ^ 32 + 1) s) = .ok { m with UserID := s })
    ∧ (∀ (m : ConfigV1) (s : List Byte), (lengthDelimited (2 ^ 32 + 1) s).length < 2 ^ 63 →
        m.Unmarshal (lengthDelimited (2 ^ 32 + 1) s) = .ok { m with SessionToken := s }) := by
  refine ⟨fieldNumOf_eq wire, fun m => Config_Unmarshal_illegalTag_iff m hl hv hw,
    fun m => ConfigV1_Unmarshal_illegalTag_iff m hl hv hw, ?_, ?_, ?_, fieldNumOf_wrapped,
    fun m s h => Config_Unmarshal_wrappedFieldNumber m s h,
    fun m s h => ConfigV1_Unmarshal_wrappedFieldNumber m s h⟩
  · intro h0 m
    have hf : fieldNumOf wire = 0 := by
      unfold fieldNumOf int32; rw [h0]; rfl
    have := (Config_Unmarshal_illegalTag_iff m hl hv hw).mpr (by omega)
    rw [hf] at this
    exact this
  · intro m hpos
    refine ⟨fun hf hw2 s post hr => ?_, fun hf hw2 sub post v1 hr hu => ?_,
      fun hf1 hf2 span i' hs => ?_⟩
    · exact (Config_UnmarshalField_ok_iff _ _ _ _ _).mpr
        ⟨wire, i1, hv, hw, hpos, Or.inl ⟨hf, hw2, s, hr, rfl⟩⟩
    · exact (Config_UnmarshalField_ok_iff _ _ _ _ _).mpr
        ⟨wire, i1, hv, hw, hpos, Or.inr (Or.inl ⟨hf, hw2, sub, v1, hr, hu, rfl⟩)⟩
    · exact (Config_UnmarshalField_ok_iff _ _ _ _ _).mpr
        ⟨wire, i1, hv, hw, hpos, Or.inr (Or.inr ⟨hf1, hf2, span, hs, rfl⟩)⟩
  · intro m hpos
    refine ⟨fun hf hw2 s post hr => ?_, fun hf hw2 s post hr => ?_,
      fun hf hw2 s post hr => ?_, fun hf1 hf2 hf3 span i' hs => ?_⟩
    · exact (ConfigV1_UnmarshalField_ok_iff _ _ _ _ _).mpr
        ⟨wire, i1, hv, hw, hpos, Or.inl ⟨hf, hw2, s, hr, rfl⟩⟩
    · exact (ConfigV1_UnmarshalField_ok_iff _ _ _ _ _).mpr
        ⟨wire, i1, hv, hw, hpos, Or.inr (Or.inl ⟨hf, hw2, s, hr, rfl⟩)⟩
    · exact (ConfigV1_UnmarshalField_ok_iff _ _ _ _ _).mpr
        ⟨wire, i1, hv, hw, hpos, Or.inr (Or.inr (Or.inl ⟨hf, hw2, s, hr, rfl⟩))⟩
    · exact (ConfigV1_UnmarshalField_ok_iff _ _ _ _ _).mpr
        ⟨wire, i1, hv, hw, hpos, Or.inr (Or.inr (Or.inr ⟨hf1, hf2, hf3, span, hs, rfl⟩))⟩

set_option maxRecDepth 100000 in
/-- C23 on the input `02 00` (field number 0, wire type 2), and on the tag
`8a 80 80 80 80 01` (field number `2^32 + 1`, wire type 2) with the payload
"X" decoded into a `Config` whose `UserID` is "old". -/
theorem field_number_truncation_witness :
    (∀ m : Config, m.Unmarshal [0x02, 0x00] = .error (.illegalTag .Config (fieldNumOf 2) 2)
        ↔ fieldNumOf 2 ≤ 0)
    ∧ Config.empty.Unmarshal [0x02, 0x00] = .error (.illegalTag .Config 0 2)
    ∧ (Config.mk [0x6f, 0x6c, 0x64] none none).Unmarshal
        [0x8a, 0x80, 0x80, 0x80, 0x80, 0x01, 0x01, 0x58] = .ok ⟨[0x58], none, none⟩ :=
  ⟨(field_number_truncation [0x02, 0x00] 2 1 (by decide) (by decide) (by decide)).2.1,
    (field_number_truncation [0x02, 0x00] 2 1 (by decide) (by decide) (by decide)).2.2.2.1
      (by decide) Config.empty,
    by decide⟩

/-- Claim C24 (decoding a concatenation is sequential merging): when
`Unmarshal(a)` on `m` gives `m1` and `Unmarshal(b)` on `m1` gives `m2`,
`Unmarshal(a ++ b)` on `m` gives `m2`; `Unmarshal` of the empty input changes
nothing, a field whose number is not among those decoded keeps its prior
value, a present `V1` stays present, and the opaque tail grows by appending
only, the prior tail remaining a prefix.  The same law holds for `ConfigV1`. -/
theorem concatenation_is_sequential_merge (m m1 m2 : Config) (a b : List Byte)
    (hl : (a ++ b).length < 2 ^ 63) (ha : m.Unmarshal a = .ok m1)
    (hb : m1.Unmarshal b = .ok m2) :
    m.Unmarshal (a ++ b) = .ok m2
    ∧ m.Unmarshal [] = .ok m
    ∧ (∃ s, m1.XXX_unrecognized = appendBytes m.XXX_unrecognized s
        ∧ tailBytes m1.XXX_unrecognized = tailBytes m.XXX_unrecognized ++ s)
    ∧ (m.V1 ≠ none → m1.V1 ≠ none)
    ∧ (∃ ns, LoopDecodes Config.UnmarshalField a m 0 ns m1
        ∧ (1 ∉ ns → m1.UserID = m.UserID) ∧ (2 ∉ ns → m1.V1 = m.V1)
        ∧ ((∀ n ∈ ns, n = 1 ∨ n = 2) → m1.XXX_unrecognized = m.XXX_unrecognized))
    ∧ (∀ (v v1 v2 : ConfigV1) (x y : List Byte), (x ++ y).length < 2 ^ 63 →
        v.Unmarshal x = .ok v1 → v1.Unmarshal y = .ok v2 →
        v.Unmarshal (x ++ y) = .ok v2
        ∧ v.Unmarshal [] = .ok v
        ∧ (∃ s, v1.XXX_unrecognized = appendBytes v.XXX_unrecognized s)
        ∧ (∃ ns, LoopDecodes ConfigV1.UnmarshalField x v 0 ns v1
          ∧ (1 ∉ ns → v1.SessionToken = v.SessionToken)
          ∧ (2 ∉ ns → v1.PachdAddress = v.PachdAddress)
          ∧ (3 ∉ ns → v1.ServerCAs = v.ServerCAs)
          ∧ ((∀ n ∈ ns, n = 1 ∨ n = 2 ∨ n = 3) →
            v1.XXX_unrecognized = v.XXX_unrecognized))) := by
  have hla : a.length < 2 ^ 63 := by simp only [List.length_append] at hl; omega
  obtain ⟨s, hs⟩ := Config_Unmarshal_tail hla ha
  obtain ⟨ns, hns⟩ := Config_Unmarshal_decodes ha
  obtain ⟨k1, k2, k3, k4⟩ := Config_LoopDecodes_keeps hns
  refine ⟨Config_Unmarshal_append hl ha hb, Config_Unmarshal_nil m,
    ⟨s, hs, by rw [hs, tailBytes_appendBytes]⟩, k4, ⟨ns, hns, k1, k2, k3⟩, ?_⟩
  intro v v1 v2 x y hxy hx hy
  have hlx : x.length < 2 ^ 63 := by simp only [List.length_append] at hxy; omega
  obtain ⟨ms, hms⟩ := ConfigV1_Unmarshal_decodes hx
  exact ⟨ConfigV1_Unmarshal_append hxy hx hy, ConfigV1_Unmarshal_nil v,
    ConfigV1_Unmarshal_tail hlx hx, ⟨ms, hms, ConfigV1_LoopDecodes_keeps hms⟩⟩

set_option maxRecDepth 100000 in
/-- C24 on `a = 1a 01 41` (an unrecognised field 3) and `b = 0a 01 58`
(`UserID` "X"), decoded into a `Config` that has a `V1` and the tail `20 01`. -/
theorem concatenation_is_sequential_merge_witness :
    (Config.mk [0x6f] (some ConfigV1.empty) (some [0x20, 0x01])).Unmarshal
        ([0x1a, 0x01, 0x41] ++ [0x0a, 0x01, 0x58])
      = .ok ⟨[0x58], some ConfigV1.empty, some [0x20, 0x01, 0x1a, 0x01, 0x41]⟩ :=
  (concatenation_is_sequential_merge
    (Config.mk [0x6f] (some ConfigV1.empty) (some [0x20, 0x01]))
    ⟨[0x6f], some ConfigV1.empty, some [0x20, 0x01, 0x1a, 0x01, 0x41]⟩
    ⟨[0x58], some ConfigV1.empty, some [0x20, 0x01, 0x1a, 0x01, 0x41]⟩
    [0x1a, 0x01, 0x41] [0x0a, 0x01, 0x58] (by decide) (by decide) (by decide)).1

end config

namespace cmdutil

open config (Byte)



theorem beforeFirst_of_not_mem {c : Byte} {s : List Byte} (h : c ∉ s) : beforeFirst c s = s := by
  unfold beforeFirst
  rw [List.takeWhile_eq_self_iff]
  intro x hx
  simp only [ne_eq, decide_not, Bool.not_eq_eq_eq_not, Bool.not_true, decide_eq_false_iff_not]
  rintro rfl
  exact h hx

theorem afterFirst_of_not_mem {c : Byte} {s : List Byte} (h : c ∉ s) : afterFirst c s = [] := by
  unfold afterFirst
  have : s.dropWhile (fun b => decide (b ≠ c)) = [] := by
    rw [List.dropWhile_eq_nil_iff]
    intro x hx
    simp only [ne_eq, decide_not, Bool.not_eq_eq_eq_not, Bool.not_true, decide_eq_false_iff_not]
    rintro rfl
    exact h hx
  rw [this]; rfl

theorem beforeFirst_cons_self (c : Byte) (s : List Byte) : beforeFirst c (c :: s) = [] := by
  simp [beforeFirst]

theorem afterFirst_cons_self (c : Byte) (s : List Byte) : afterFirst c (c :: s) = s := by
  simp [afterFirst]

theorem beforeFirst_cons_ne {b c : Byte} (h : b ≠ c) (s : List Byte) :
    beforeFirst c (b :: s) = b :: beforeFirst c s := by
  simp [beforeFirst, h]

theorem afterFirst_cons_ne {b c : Byte} (h : b ≠ c) (s : List Byte) :
    afterFirst c (b :: s) = afterFirst c s := by
  simp [afterFirst, h]

theorem beforeFirst_not_mem (c : Byte) (s : List Byte) : c ∉ beforeFirst c s := by
  induction s with
  | nil => simp [beforeFirst]
  | cons b s ih =>
    by_cases h : b = c
    · subst h; rw [beforeFirst_cons_self]; simp
    · rw [beforeFirst_cons_ne h]
      simp only [List.mem_cons, not_or]
      exact ⟨fun hc => h hc.symm, ih⟩

theorem beforeFirst_append_afterFirst {c : Byte} {s : List Byte} (h : c ∈ s) :
    beforeFirst c s ++ c :: afterFirst c s = s := by
  induction s with
  | nil => simp at h
  | cons b s ih =>
    by_cases hb : b = c
    · subst hb
      rw [beforeFirst_cons_self, afterFirst_cons_self]; rfl
    · rw [beforeFirst_cons_ne hb, afterFirst_cons_ne hb]
      have hs : c ∈ s := by
        rcases List.mem_cons.mp h with h | h
        · exact absurd h.symm hb
        · exact h
      rw [List.cons_append, ih hs]

theorem beforeFirst_append_cons {c : Byte} {a : List Byte} (h : c ∉ a) (s : List Byte) :
    beforeFirst c (a ++ c :: s) = a := by
  induction a with
  | nil => exact beforeFirst_cons_self c s
  | cons b a ih =>
    simp only [List.mem_cons, not_or] at h
    rw [List.cons_append, beforeFirst_cons_ne (fun hc => h.1 hc.symm), ih h.2]

theorem afterFirst_append_cons {c : Byte} {a : List Byte} (h : c ∉ a) (s : List Byte) :
    afterFirst c (a ++ c :: s) = s := by
  induction a with
  | nil => exact afterFirst_cons_self c s
  | cons b a ih =>
    simp only [List.mem_cons, not_or] at h
    rw [List.cons_append, afterFirst_cons_ne (fun hc => h.1 hc.symm), ih h.2]

theorem beforeFirst_eq_nil_iff (c : Byte) (s : List Byte) :
    beforeFirst c s = [] ↔ s = [] ∨ ∃ t, s = c :: t := by
  cases s with
  | nil => simp [beforeFirst]
  | cons b s =>
    by_cases h : b = c
    · subst h
      rw [beforeFirst_cons_self]
      simp
    · rw [beforeFirst_cons_ne h]
      simp only [reduceCtorEq, List.cons.injEq, false_or, false_iff, not_exists, not_and]
      intro t hb
      exact absurd hb h

theorem IndexFrom_eq (sep : Byte) (s : List Byte) :
    ∀ i : Nat, IndexFrom sep s i
      = if sep ∈ s then ((i + (beforeFirst sep s).length : Nat) : Int) else -1 := by
  induction s with
  | nil => intro i; simp [IndexFrom]
  | cons b s ih =>
    intro i
    unfold IndexFrom
    by_cases h : b = sep
    · subst h
      rw [if_pos rfl, if_pos (List.mem_cons_self _ _), beforeFirst_cons_self]
      simp
    · rw [if_neg h, ih, beforeFirst_cons_ne h]
      have hm : sep ∈ b :: s ↔ sep ∈ s := by
        simp only [List.mem_cons]
        constructor
        · rintro (hc | hc)
          · exact absurd hc.symm h
          · exact hc
        · exact Or.inr
      by_cases hs : sep ∈ s
      · rw [if_pos hs, if_pos (hm.mpr hs)]
        simp only [List.length_cons]; push_cast; omega
      · rw [if_neg hs, if_neg (fun hc => hs (hm.mp hc))]

theorem take_drop_of_split {s a t : List Byte} {c : Byte} (hs : a ++ c :: t = s) :
    s.take a.length = a ∧ s.drop (a.length + 1) = t := by
  subst hs
  constructor
  · rw [List.take_left' rfl]
  · rw [← List.drop_drop, List.drop_left' rfl]
    rfl

theorem SplitN_two (sep : Byte) (s : List Byte) :
    SplitN sep 2 s = if sep ∈ s then [beforeFirst sep s, afterFirst sep s] else [s] := by
  unfold SplitN Index
  rw [IndexFrom_eq]
  by_cases h : sep ∈ s
  · rw [if_pos h, if_pos h]
    dsimp only
    rw [if_neg (by omega)]
    have hs := beforeFirst_append_afterFirst h
    have e : (((0 + (beforeFirst sep s).length : Nat) : Int)).toNat = (beforeFirst sep s).length := by
      simp
    rw [e]
    obtain ⟨h1, h2⟩ := take_drop_of_split hs
    rw [h1, h2]
    rfl
  · rw [if_neg h, if_neg h]
    dsimp only
    rw [if_pos (by omega)]

theorem beforeFirst_ne_nil_of_not_mem {c : Byte} {s : List Byte} (h : c ∉ s)
    (hne : beforeFirst c s ≠ []) : s ≠ [] := by
  rw [beforeFirst_of_not_mem h] at hne; exact hne

theorem beforeFirst_nil (c : Byte) : beforeFirst c [] = [] := rfl

theorem afterFirst_nil (c : Byte) : afterFirst c [] = [] := rfl

theorem ParseCommit_eq (arg : List Byte) :
    ParseCommit arg
      = if beforeFirst atSign arg = [] then .error (.repoEmpty arg)
        else .ok ⟨some ⟨beforeFirst atSign arg⟩, afterFirst atSign arg⟩ := by
  unfold ParseCommit
  rw [SplitN_two]
  by_cases h : atSign ∈ arg
  · rw [if_pos h]
    by_cases he : beforeFirst atSign arg = []
    · simp [he]
    · simp [he]
  · rw [if_neg h, beforeFirst_of_not_mem h, afterFirst_of_not_mem h]
    by_cases he : arg = []
    · simp [he]
    · simp [he]

theorem ParseFile_eq (arg : List Byte) :
    ParseFile arg
      = if beforeFirst atSign arg = [] then .error (.repoEmpty arg)
        else if atSign ∈ arg ∧ beforeFirst colon (afterFirst atSign arg) = [] then
          .error (.commitEmpty arg)
        else .ok ⟨some ⟨some ⟨beforeFirst atSign arg⟩, beforeFirst colon (afterFirst atSign arg)⟩,
          afterFirst colon (afterFirst atSign arg)⟩ := by
  unfold ParseFile
  by_cases h : atSign ∈ arg
  · by_cases he : beforeFirst atSign arg = []
    · simp [SplitN_two, h, he]
    · by_cases hc : colon ∈ afterFirst atSign arg
      · by_cases hi : beforeFirst colon (afterFirst atSign arg) = []
        · simp [SplitN_two, h, he, hc, hi]
        · simp [SplitN_two, h, he, hc, hi]
      · have hb := beforeFirst_of_not_mem hc
        have ha := afterFirst_of_not_mem hc
        by_cases hi : afterFirst atSign arg = []
        · simp [SplitN_two, h, he, hc, hi, hb, ha, beforeFirst_nil, afterFirst_nil]
        · simp [SplitN_two, h, he, hc, hi, hb, ha]
  · have hb := beforeFirst_of_not_mem h
    have ha := afterFirst_of_not_mem h
    by_cases he : arg = []
    · simp [SplitN_two, he, beforeFirst_nil, afterFirst_nil]
    · simp [SplitN_two, he, h, hb, ha, beforeFirst_nil, afterFirst_nil]

theorem parseRange_ok {α : Type} (parse : List Byte → Except ParseErr α)
    (args : List (List Byte)) :
    ∀ (xs : List α), List.Forall₂ (fun a x => parse a = .ok x) args xs →
    ∀ results : Option (List α), parseRange parse args results
      = .ok (if args = [] then results else some (results.getD [] ++ xs)) := by
  induction args with
  | nil => intro xs _ results; rfl
  | cons a args ih =>
    intro xs h results
    cases h with
    | cons hax htl =>
      rename_i x xs
      unfold parseRange
      rw [hax]
      dsimp only
      rw [ih xs htl, if_neg (List.cons_ne_nil _ _)]
      by_cases he : args = []
      · subst he
        cases htl
        simp [appendResult]
      · rw [if_neg he]
        simp [appendResult]

theorem parseRange_error {α : Type} (parse : List Byte → Except ParseErr α)
    (pre : List (List Byte)) (a : List Byte) (post : List (List Byte)) (e : ParseErr)
    (ha : parse a = .error e) :
    (∀ x ∈ pre, ∃ c, parse x = .ok c) →
    ∀ results : Option (List α), parseRange parse (pre ++ a :: post) results = .error e := by
  induction pre with
  | nil =>
    intro _ results
    rw [List.nil_append]
    unfold parseRange
    rw [ha]
  | cons b pre ih =>
    intro hpre results
    obtain ⟨c, hc⟩ := hpre b (List.mem_cons_self _ _)
    rw [List.cons_append]
    unfold parseRange
    rw [hc]
    exact ih (fun x hx => hpre x (List.mem_cons_of_mem _ hx)) _

theorem parseRange_allOrNothing {α : Type} (parse : List Byte → Except ParseErr α) :
    IsAllOrNothingMap parse (fun args => parseRange parse args none) := by
  intro args
  constructor
  · intro results h
    dsimp only
    rw [parseRange_ok parse args results h]
    simp
  · intro pre a post e hargs hpre ha
    subst hargs
    dsimp only
    exact parseRange_error parse pre a post e ha hpre none

/-- Claim C13 (`ParseCommit`): the call fails, with the "repo cannot be empty"
error, exactly when the text before the first `'@'` is empty, that is when
`arg` is empty or starts with `'@'`; otherwise the commit has that text as
repo name and the text after the first `'@'` as ID (empty without `'@'`), and
with an `'@'` in `arg`, name + `'@'` + ID is `arg`. -/
theorem parse_commit_spec (arg : List Byte) :
    ((∃ e, ParseCommit arg = .error e) ↔ beforeFirst atSign arg = [])
    ∧ (beforeFirst atSign arg = [] ↔ (arg = [] ∨ ∃ t, arg = atSign :: t))
    ∧ (beforeFirst atSign arg = [] → ParseCommit arg = .error (.repoEmpty arg))
    ∧ (beforeFirst atSign arg ≠ [] →
        ParseCommit arg = .ok ⟨some ⟨beforeFirst atSign arg⟩, afterFirst atSign arg⟩)
    ∧ (atSign ∉ arg → beforeFirst atSign arg = arg ∧ afterFirst atSign arg = [])
    ∧ (atSign ∈ arg → atSign ∉ beforeFirst atSign arg
        ∧ beforeFirst atSign arg ++ atSign :: afterFirst atSign arg = arg) := by
  refine ⟨?_, beforeFirst_eq_nil_iff _ _, ?_, ?_, ?_, ?_⟩
  · rw [ParseCommit_eq]
    by_cases h : beforeFirst atSign arg = []
    · rw [if_pos h]; exact ⟨fun _ => h, fun _ => ⟨_, rfl⟩⟩
    · rw [if_neg h]
      constructor
      · rintro ⟨e, he⟩; cases he
      · intro hc; exact absurd hc h
  · intro h; rw [ParseCommit_eq, if_pos h]
  · intro h; rw [ParseCommit_eq, if_neg h]
  · intro h; exact ⟨beforeFirst_of_not_mem h, afterFirst_of_not_mem h⟩
  · intro h; exact ⟨beforeFirst_not_mem _ _, beforeFirst_append_afterFirst h⟩

/-- Claim C14 (`ParseFile`): the call fails exactly when the text before the
first `'@'` is empty, or `arg` has an `'@'` and the text between it and the
first following `':'` is empty; otherwise the file has these two texts as repo
name and commit ID and the text after that `':'` as path, so that
`repo@commit:path` is split back into its three parts. -/
theorem parse_file_spec (arg : List Byte) :
    ((∃ e, ParseFile arg = .error e) ↔
      (beforeFirst atSign arg = []
        ∨ (atSign ∈ arg ∧ beforeFirst colon (afterFirst atSign arg) = [])))
    ∧ (beforeFirst atSign arg = [] → ParseFile arg = .error (.repoEmpty arg))
    ∧ (beforeFirst atSign arg ≠ [] → atSign ∈ arg →
        beforeFirst colon (afterFirst atSign arg) = [] →
        ParseFile arg = .error (.commitEmpty arg))
    ∧ (¬ (beforeFirst atSign arg = []
          ∨ (atSign ∈ arg ∧ beforeFirst colon (afterFirst atSign arg) = [])) →
        ParseFile arg = .ok ⟨some ⟨some ⟨beforeFirst atSign arg⟩,
            beforeFirst colon (afterFirst atSign arg)⟩,
          afterFirst colon (afterFirst atSign arg)⟩)
    ∧ (atSign ∉ arg → beforeFirst colon (afterFirst atSign arg) = []
        ∧ afterFirst colon (afterFirst atSign arg) = [])
    ∧ (colon ∉ afterFirst atSign arg → afterFirst colon (afterFirst atSign arg) = [])
    ∧ (∀ repo commit path : List Byte, repo ≠ [] → atSign ∉ repo → commit ≠ [] →
        colon ∉ commit →
        ParseFile (repo ++ atSign :: (commit ++ colon :: path))
          = .ok ⟨some ⟨some ⟨repo⟩, commit⟩, path⟩) := by
  refine ⟨?_, ?_, ?_, ?_, ?_, ?_, ?_⟩
  · rw [ParseFile_eq]
    by_cases h : beforeFirst atSign arg = []
    · rw [if_pos h]; exact ⟨fun _ => Or.inl h, fun _ => ⟨_, rfl⟩⟩
    · rw [if_neg h]
      by_cases h2 : atSign ∈ arg ∧ beforeFirst colon (afterFirst atSign arg) = []
      · rw [if_pos h2]; exact ⟨fun _ => Or.inr h2, fun _ => ⟨_, rfl⟩⟩
      · rw [if_neg h2]
        constructor
        · rintro ⟨e, he⟩; cases he
        · rintro (hc | hc)
          · exact absurd hc h
          · exact absurd hc h2
  · intro h; rw [ParseFile_eq, if_pos h]
  · intro h h1 h2; rw [ParseFile_eq, if_neg h, if_pos ⟨h1, h2⟩]
  · intro h
    rw [ParseFile_eq, if_neg (fun hc => h (Or.inl hc)), if_neg (fun hc => h (Or.inr hc))]
  · intro h
    rw [afterFirst_of_not_mem h]
    exact ⟨rfl, rfl⟩
  · intro h; exact afterFirst_of_not_mem h
  · intro repo commit path hr har hc hcc
    rw [ParseFile_eq, beforeFirst_append_cons har, afterFirst_append_cons har,
      beforeFirst_append_cons hcc, afterFirst_append_cons hcc, if_neg hr,
      if_neg (fun h => hc h.2)]

/-- Claim C15 (`ParseBranch` agrees with `ParseCommit`): `ParseBranch(arg)`
fails exactly when `ParseCommit(arg)` fails, with the same error, and otherwise
returns the branch whose repo is the repo of the commit and whose name is its
ID. -/
theorem parse_branch_agrees (arg : List Byte) :
    (∀ e, ParseBranch arg = .error e ↔ ParseCommit arg = .error e)
    ∧ (∀ c, ParseCommit arg = .ok c → ParseBranch arg = .ok ⟨c.Repo, c.ID⟩)
    ∧ (∀ b, ParseBranch arg = .ok b →
        ∃ c, ParseCommit arg = .ok c ∧ b.Repo = c.Repo ∧ b.Name = c.ID) := by
  unfold ParseBranch
  cases h : ParseCommit arg with
  | error err =>
    refine ⟨?_, ?_, ?_⟩
    · intro e
      constructor
      · intro he; injection he with he; rw [he]
      · intro he; injection he with he; rw [he]
    · intro c hc; cases hc
    · intro b hb; cases hb
  | ok c =>
    refine ⟨?_, ?_, ?_⟩
    · intro e
      constructor
      · intro he; cases he
      · intro he; cases he
    · intro c' hc; injection hc with hc; subst hc; rfl
    · intro b hb; injection hb with hb; subst hb; exact ⟨c, rfl, rfl, rfl⟩

/-- Claim C16 (plural parsers): `ParseCommits`, `ParseBranches` and
`ParseFiles` return, when every argument parses, the results of the singular
parser in the order of the arguments, and otherwise no list and the error of
the first argument that fails. -/
theorem plural_parsers_all_or_nothing :
    IsAllOrNothingMap ParseCommit ParseCommits
    ∧ IsAllOrNothingMap ParseBranch ParseBranches
    ∧ IsAllOrNothingMap ParseFile ParseFiles :=
  ⟨parseRange_allOrNothing ParseCommit, parseRange_allOrNothing ParseBranch,
    parseRange_allOrNothing ParseFile⟩

end cmdutil
